import Mathlib

/-!
Merkle signature scheme: the signer and verifier of `src/mss.c`.

A shallow embedding of the Merkle-tree layer of `mss.c` (key generation walk,
authentication path traversal `_nextAuth`, treehash instances, retain stack,
`mss_sign_core`, `mss_verify_core`) and of the flow of `bench_mss_signature`
in `bench.c`.

Conventions of the embedding.

* Byte buffers are lists of naturals (`Bytes`).  C arrays that live inside
  `struct mss_state` are total functions `Nat → α`; a write `a[i] = x` is
  `Function.update a i x`.
* The cryptographic primitives (`fsgen`, `winternitz_keygen`,
  `winternitz_sign`, `winternitz_verify`, `hash32`, `etcr_hash`, SHA-256 as
  driven by `_get_parent`) are external to `mss.c`; they are the fields of
  `Prims`, and every statement is made for all of them.
* `mss.h` is not among the sources, so the constants it defines are the fields
  of `Params`.
* Machine integers are naturals.  `1 << h` is `1 <<< h`, `x >> h` is `x >>> h`,
  `&` and `|` are `&&&` and `|||`.  The one-byte node height wraps modulo 256
  in `_get_parent`.
* Loops are folds over `List.range` or structural recursions whose fuel is the
  exact trip count of the C loop.
-/

namespace MSS

/-- A byte buffer. -/
abbrev Bytes := List Nat

/-- The struct `mss_node`: a one-byte height, a 64-bit index and
`NODE_VALUE_SIZE` value bytes. -/
structure mss_node where
  height : Nat
  index : Nat
  value : Bytes
deriving DecidableEq, Repr, Inhabited

/-- The constants of `mss.h` used by `mss.c`. -/
structure Params where
  MSS_HEIGHT : Nat
  MSS_K : Nat
  MSS_STACK_SIZE : Nat
  NODE_VALUE_SIZE : Nat
  /-- `LEN_BYTES(WINTERNITZ_N)`, the length of the seeds `si` and `ri`. -/
  LEN_BYTES_WINTERNITZ_N : Nat
  /-- `LEN_BYTES(MSS_SEC_LVL)`, the length of the seed kept in the secret key. -/
  LEN_BYTES_MSS_SEC_LVL : Nat
  MSS_OTS_SIZE : Nat
deriving DecidableEq, Repr

/-- The primitives `mss.c` calls but does not define.  `head_bytes n` is the
block of `NODE_VALUE_SIZE` bytes found at the address of the node `n`, which is
what `_get_parent` feeds to SHA-256 (`sph_sha256(&ctx, left_child,
NODE_VALUE_SIZE)`); which members of the struct it covers is fixed by the
declaration of `struct mss_node` in `mss.h`. -/
structure Prims where
  fsgen : Bytes → Bytes × Bytes
  winternitz_keygen : Bytes → Bytes → Bytes
  winternitz_sign : Bytes → Bytes → Bytes → Bytes
  winternitz_verify : Bytes → Bytes → Bytes → Bytes → Bytes
  hash32 : Bytes → Bytes
  etcr_hash : Bytes → Bytes → Bytes
  sph_sha256 : Bytes → Bytes → Bytes
  head_bytes : mss_node → Bytes

/-- The fixed input `X` of the Winternitz key generation. -/
def X : Bytes :=
  [0x2A, 0x94, 0x55, 0xE4, 0x6B, 0xFD, 0xE8, 0xAA, 0x40, 0xB1, 0x53, 0xC5, 0x37, 0x8A, 0x9D, 0x02,
   0x0C, 0xB4, 0x4B, 0x3F, 0xAF, 0xFE, 0x4A, 0x69, 0x78, 0xEE, 0x0D, 0x46, 0xC1, 0xB4, 0xE8, 0xDD]

def TREEHASH_NEW : Nat := 0x20
def TREEHASH_RUNNING : Nat := 0x40
def TREEHASH_FINISHED : Nat := 0x80
def TREEHASH_MASK : Nat := 0x1F
def TREEHASH_HEIGHT_INFINITY : Nat := 0x7F

/-- Modelled from the spec: the macro `MSS_TREEHASH_SIZE` of `mss.h`,
`TREEHASH_SIZE = H - K`. -/
def MSS_TREEHASH_SIZE (P : Params) : Nat := P.MSS_HEIGHT - P.MSS_K

/-- Modelled from the spec: the macro `MSS_RETAIN_SIZE` of `mss.h`,
`RETAIN_SIZE = 2^K - K - 1`. -/
def MSS_RETAIN_SIZE (P : Params) : Nat := 2 ^ P.MSS_K - P.MSS_K - 1

/-- Modelled from the spec: the macro `MSS_KEEP_SIZE` of `mss.h`,
`KEEP_SIZE = H`. -/
def MSS_KEEP_SIZE (P : Params) : Nat := P.MSS_HEIGHT

/-- The struct `mss_state`. -/
structure mss_state where
  treehash_state : Nat → Nat
  stack_index : Nat
  retain_index : Nat → Nat
  treehash_seed : Nat → Nat
  treehash : Nat → mss_node
  stack : Nat → mss_node
  retain : Nat → mss_node
  keep : Nat → mss_node
  auth : Nat → mss_node
  store : Nat → mss_node

/-- The result codes of `mss_verify_core`. -/
inductive mss_result where
  | MSS_OK
  | MSS_ERROR
deriving DecidableEq, Repr

/-- `_create_leaf`: the leaf is the hash of the Winternitz public value. -/
def _create_leaf (E : Prims) (leaf_index : Nat) (ri : Bytes) : mss_node :=
  let v := E.winternitz_keygen ri X
  { height := 0, index := leaf_index, value := E.hash32 v }

/-- `_stack_push`: returns the stack and the index after the push. -/
def _stack_push (stack : Nat → mss_node) (index : Nat) (node : mss_node) :
    (Nat → mss_node) × Nat :=
  (Function.update stack index node, index + 1)

/-- `_stack_pop`: returns the index after the pop and the node popped. -/
def _stack_pop (stack : Nat → mss_node) (index : Nat) : Nat × mss_node :=
  (index - 1, stack (index - 1))

/-- `_get_parent`.  SHA-256 absorbs the block at `left_child`, then the block
at `right_child`; the digest is written to `parent->value` before the height
and the index of the parent are set from the left child, so the result is the
same when `parent` aliases a child. -/
def _get_parent (E : Prims) (left_child right_child : mss_node) : mss_node :=
  { value := E.sph_sha256 (E.head_bytes left_child) (E.head_bytes right_child)
    height := (left_child.height + 1) % 256
    index := left_child.index >>> 1 }

/-- `_get_parent` on a memory of nodes: `left_child`, `right_child` and `parent`
are addresses, any two of which may be the same.  The statements run in the
order of the source: SHA-256 absorbs the block at `left_child` and the block at
`right_child`, `sph_sha256_close` stores the digest in `parent->value`, then
`parent->height` and `parent->index` are set from what `left_child` holds at that
moment. -/
def _get_parent_at (E : Prims) (mem : Nat → mss_node) (left_child right_child parent : Nat) :
    Nat → mss_node :=
  let digest := E.sph_sha256 (E.head_bytes (mem left_child)) (E.head_bytes (mem right_child))
  let mem1 := Function.update mem parent { mem parent with value := digest }
  let mem2 := Function.update mem1 parent
    { mem1 parent with height := ((mem1 left_child).height + 1) % 256 }
  Function.update mem2 parent { mem2 parent with index := (mem2 left_child).index >>> 1 }

/-- `init_state`. -/
def init_state (P : Params) (state : mss_state) : mss_state :=
  { state with
    stack_index := 0
    treehash_state := fun i =>
      if i < MSS_TREEHASH_SIZE P then TREEHASH_FINISHED else state.treehash_state i
    retain_index := fun i => if i < P.MSS_K - 1 then 0 else state.retain_index i }

def _treehash_set_tailheight (state : mss_state) (h height : Nat) : mss_state :=
  let cleared := state.treehash_state h &&& 0xE0
  { state with
    treehash_state :=
      Function.update state.treehash_state h (cleared ||| (TREEHASH_MASK &&& height)) }

def _treehash_get_tailheight (state : mss_state) (h : Nat) : Nat :=
  TREEHASH_MASK &&& state.treehash_state h

def _treehash_state (state : mss_state) (h th_state : Nat) : mss_state :=
  { state with treehash_state := Function.update state.treehash_state h th_state }

def _treehash_initialize (state : mss_state) (h s : Nat) : mss_state :=
  _treehash_state { state with treehash_seed := Function.update state.treehash_seed h s }
    h TREEHASH_NEW

/-- `_treehash_height`; `~TREEHASH_MASK` applied to a byte keeps its top three
bits. -/
def _treehash_height (state : mss_state) (h : Nat) : Nat :=
  let flag := state.treehash_state h &&& 0xE0
  if flag = TREEHASH_NEW then h
  else if flag = TREEHASH_RUNNING then
    if state.treehash_state h &&& TREEHASH_MASK = h then TREEHASH_HEIGHT_INFINITY
    else state.treehash_state h &&& TREEHASH_MASK
  else if flag = TREEHASH_FINISHED then TREEHASH_HEIGHT_INFINITY
  else 0

/-- The loop `for (i = current_leaf; i < treehash_seed[h]; i++) fsgen(si, si, ri)`
of `_treehash_update`, on the pair `(si, ri)`. -/
def fsgen_loop (E : Prims) : Nat → Bytes × Bytes → Bytes × Bytes
  | 0, acc => acc
  | n + 1, acc => fsgen_loop E n (E.fsgen acc.1)

/-- The stack loop of `_treehash_update` (compiled when `MSS_STACK_SIZE != 0`);
the fuel is the stack index on entry, one pop per round. -/
def treehash_stack_loop (E : Prims) (h : Nat) :
    Nat → mss_state × mss_node → mss_state × mss_node
  | 0, acc => acc
  | fuel + 1, (state, node1) =>
    if 0 < state.stack_index
        ∧ _treehash_get_tailheight state h = (state.stack (state.stack_index - 1)).height
        ∧ _treehash_get_tailheight state h + 1 < h then
      let popped := _stack_pop state.stack state.stack_index
      let node2 := popped.2
      let state1 := { state with stack_index := popped.1 }
      let node1a := _get_parent E node2 node1
      let state2 := _treehash_set_tailheight state1 h (_treehash_get_tailheight state1 h + 1)
      treehash_stack_loop E h fuel (state2, node1a)
    else (state, node1)

/-- The first step of `_treehash_update`: `node1` is the leaf `treehash_seed[h]`,
copied from `store[h]` or recomputed after fast-forwarding a copy of the seed.
`ri0` is the content of the local buffer `ri` on entry, which is what
`_create_leaf` receives when the fast-forward loop does not run. -/
def treehash_leaf (P : Params) (E : Prims) (state : mss_state) (h : Nat)
    (current_leaf : Nat) (seed : Bytes) (ri0 : Bytes) : mss_node :=
  let ts := state.treehash_seed h
  if h < MSS_TREEHASH_SIZE P - 1 ∧ ts ≥ 11 * (1 <<< h)
      ∧ (ts - 11 * (1 <<< h)) % (1 <<< (2 + h)) = 0 then
    { height := 0, index := ts, value := (state.store h).value }
  else
    _create_leaf E ts (fsgen_loop E (ts - current_leaf) (seed, ri0)).2

/-- The second step of `_treehash_update`: the leaf is saved in `store[h - 1]`
when its index calls for it. -/
def treehash_save (state : mss_state) (h : Nat) (node1 : mss_node) : mss_state :=
  let ts := state.treehash_seed h
  if 0 < h ∧ ts ≥ 11 * (1 <<< (h - 1))
      ∧ (ts - 11 * (1 <<< (h - 1))) % (1 <<< (h + 1)) = 0 then
    { state with
      store := Function.update state.store (h - 1)
        { height := 0, index := ts, value := node1.value } }
  else state

/-- The last step of `_treehash_update`: `node1` is pushed on the stack, or it
goes to `treehash[h]`, folded with the node kept there when the instance is
running and `node1` is a right node. -/
def treehash_finish (P : Params) (E : Prims) (state4 : mss_state) (h : Nat)
    (node1a : mss_node) : mss_state :=
  if _treehash_get_tailheight state4 h + 1 < h then
    let state5 : mss_state :=
      if P.MSS_STACK_SIZE ≠ 0 then
        let pushed := _stack_push state4.stack state4.stack_index node1a
        { state4 with stack := pushed.1, stack_index := pushed.2 }
      else state4
    _treehash_state state5 h TREEHASH_RUNNING
  else
    let folded : mss_state × mss_node :=
      if state4.treehash_state h &&& TREEHASH_RUNNING ≠ 0 ∧ node1a.index &&& 1 ≠ 0 then
        let node2 := state4.treehash h
        (_treehash_set_tailheight state4 h (_treehash_get_tailheight state4 h + 1),
          _get_parent E node2 node1a)
      else (state4, node1a)
    let state6 : mss_state :=
      { folded.1 with treehash := Function.update folded.1.treehash h folded.2 }
    if folded.2.height = h then _treehash_state state6 h TREEHASH_FINISHED
    else _treehash_state state6 h TREEHASH_RUNNING

/-- `_treehash_update`: the leaf, the save into `store`, the increment of
`treehash_seed[h]`, the reset of the tail height, the stack loop, and the
last step. -/
def _treehash_update (P : Params) (E : Prims) (state : mss_state) (h : Nat)
    (current_leaf : Nat) (seed : Bytes) (ri0 : Bytes) : mss_state :=
  let node1 := treehash_leaf P E state h current_leaf seed ri0
  let state1 := treehash_save state h node1
  let state2 : mss_state :=
    { state1 with
      treehash_seed := Function.update state1.treehash_seed h (state.treehash_seed h + 1) }
  let state3 := _treehash_set_tailheight state2 h 0
  let looped : mss_state × mss_node :=
    if P.MSS_STACK_SIZE ≠ 0 then treehash_stack_loop E h state3.stack_index (state3, node1)
    else (state3, node1)
  treehash_finish P E looped.1 h looped.2

/-- The slot computed by `_retain_push`. -/
def retain_push_index (P : Params) (node : mss_node) : Nat :=
  (1 <<< (P.MSS_HEIGHT - node.height - 1)) - (P.MSS_HEIGHT - node.height - 1) - 1
    + (node.index >>> 1) - 1

def _retain_push (P : Params) (state : mss_state) (node : mss_node) : mss_state :=
  { state with retain := Function.update state.retain (retain_push_index P node) node }

/-- `_retain_pop`: returns the state with the cursor advanced and the node read. -/
def _retain_pop (P : Params) (state : mss_state) (h : Nat) : mss_state × mss_node :=
  let hbar := P.MSS_HEIGHT - h - 1
  let index := (1 <<< hbar) - hbar - 1 + state.retain_index (h - (P.MSS_HEIGHT - P.MSS_K))
  (  { state with
       retain_index := Function.update state.retain_index (h - (P.MSS_HEIGHT - P.MSS_K))
         (state.retain_index (h - (P.MSS_HEIGHT - P.MSS_K)) + 1) },
     state.retain index)

/-- `_init_state`: the three tests are made one after the other on the same
node. -/
def _init_state (P : Params) (state : mss_state) (node : mss_node) : mss_state :=
  let state1 : mss_state :=
    if node.index = 1 ∧ node.height < P.MSS_HEIGHT then
      { state with auth := Function.update state.auth node.height node }
    else state
  let state2 : mss_state :=
    if node.index = 3 ∧ node.height < P.MSS_HEIGHT - P.MSS_K then
      _treehash_state
         ( _treehash_initialize
          { state1 with treehash := Function.update state1.treehash node.height node }
          node.height node.index)
        node.height TREEHASH_FINISHED
    else state1
  if node.index ≥ 3 ∧ node.index &&& 1 = 1 ∧ node.height ≥ P.MSS_HEIGHT - P.MSS_K then
    _retain_push P state2 node
  else state2

/-- The loop of `_count_trailing_zeros` on `(c, tz)`; a 64-bit word that is not
zero leaves the loop within 64 rounds. -/
def ctz_loop : Nat → Nat × Nat → Nat × Nat
  | 0, acc => acc
  | fuel + 1, (c, tz) => if c &&& 1 = 0 then ctz_loop fuel (c >>> 1, tz + 1) else (c, tz)

def _count_trailing_zeros (v : Nat) : Nat := (ctz_loop 64 (v, 0)).2

/-- The reduction loop of `mss_keygen_core`, `while (node1->height < bound)`,
on the state, the local stack index and `node1`.  The loop is entered with a
fresh leaf (height 0) and each round raises the height by one, so `bound`
rounds of fuel are its trip count. -/
def keygen_reduce (P : Params) (E : Prims) (bound : Nat) :
    Nat → mss_state × Nat × mss_node → mss_state × Nat × mss_node
  | 0, acc => acc
  | fuel + 1, (state, index, node1) =>
    if node1.height < bound then
      let popped := _stack_pop state.keep index
      let node1a := _get_parent E popped.2 node1
      keygen_reduce P E bound fuel (_init_state P state node1a, popped.1, node1a)
    else (state, index, node1)

/-- The largest 64-bit word, `maxleaf_index` in `mss_keygen_core`. -/
def maxleaf_index : Nat := 2 ^ 64 - 1

/-- One round of the `for (pos = 0; pos <= loop_bound; pos++)` loop of
`mss_keygen_core`, on the state, the local stack index, the rolling seed `si`
and `node1`. -/
def keygen_step (P : Params) (E : Prims) (acc : mss_state × Nat × Bytes × mss_node)
    (pos : Nat) : mss_state × Nat × Bytes × mss_node :=
  let fs := E.fsgen acc.2.2.1
  let leaf := _create_leaf E pos fs.2
  let state1 := _init_state P acc.1 leaf
  let bound := if pos = maxleaf_index then 64 else _count_trailing_zeros (pos + 1)
  let reduced := keygen_reduce P E bound bound (state1, acc.2.1, leaf)
  let state2 := reduced.1
  let index := reduced.2.1
  let node1 := reduced.2.2
  if index < P.MSS_HEIGHT then
    let pushed := _stack_push state2.keep index node1
    ({ state2 with keep := pushed.1 }, pushed.2, fs.1, node1)
  else (state2, index, fs.1, node1)

/-- The number of rounds of the position loop, `loop_bound + 1`. -/
def keygen_rounds (P : Params) : Nat :=
  (if P.MSS_HEIGHT = 64 then maxleaf_index else (1 <<< P.MSS_HEIGHT) - 1) + 1

/-- `mss_keygen_core`: `state` and `node1` are the caller's objects as they are
on entry; the result is the state, `node1` and the public key written to
`pkey`. -/
def mss_keygen_core (P : Params) (E : Prims) (seed : Bytes) (node1 : mss_node)
    (state : mss_state) : mss_state × mss_node × Bytes :=
  let final := (List.range (keygen_rounds P)).foldl (keygen_step P E)
    (init_state P state, 0, seed, node1)
  (final.1, final.2.2.2, final.2.2.2.value)

/-- The loop `while ((s + 1) % (1 << tau) != 0) tau--` of `_nextAuth`, as a
function of the current `tau`. -/
def tau_loop (s : Nat) : Nat → Nat
  | 0 => 0
  | t + 1 => if (s + 1) % (1 <<< (t + 1)) ≠ 0 then tau_loop s t else t + 1

/-- One round of the loop over `h` of `_nextAuth` that moves the treehash nodes
into the authentication path. -/
def nextAuth_treehash_step (P : Params) (s : Nat) (state : mss_state) (h : Nat) : mss_state :=
  let state1 : mss_state := { state with auth := Function.update state.auth h (state.treehash h) }
  if s + 1 + 3 * (1 <<< h) < 1 <<< P.MSS_HEIGHT then
    _treehash_initialize state1 h (s + 1 + 3 * (1 <<< h))
  else _treehash_state state1 h TREEHASH_FINISHED

/-- One round of the loop `while (h < tau)` of `_nextAuth`: `_retain_pop` writes
the node into `auth[h]`. -/
def nextAuth_retain_step (P : Params) (state : mss_state) (h : Nat) : mss_state :=
  let popped := _retain_pop P state h
  { popped.1 with auth := Function.update popped.1.auth h popped.2 }

/-- The scan `for (j = MSS_HEIGHT - MSS_K - 1; j >= 0; j--)` of `_nextAuth` on
`(min, k)`; the argument is `j + 1`. -/
def nextAuth_select (state : mss_state) : Nat → Nat × Nat → Nat × Nat
  | 0, acc => acc
  | j + 1, (min, k) =>
    if _treehash_height state j ≤ min then
      nextAuth_select state j ((state.treehash j).height, j)
    else nextAuth_select state j (min, k)

/-- One round of the update loop of `_nextAuth`. -/
def nextAuth_update_step (P : Params) (E : Prims) (seed : Bytes) (s : Nat) (ri0 : Bytes)
    (state : mss_state) : mss_state :=
  let sel := nextAuth_select state (MSS_TREEHASH_SIZE P)
    (TREEHASH_HEIGHT_INFINITY, P.MSS_HEIGHT - P.MSS_K - 1)
  let k := sel.2
  if state.treehash_state k &&& TREEHASH_FINISHED = 0 then
    _treehash_update P E state k s seed ri0
  else state

/-- The part of `_nextAuth` that precedes the update loop: `tau`, the node kept,
and the refresh of `auth[0..tau]`. -/
def nextAuth_refresh (P : Params) (E : Prims) (state : mss_state) (current_leaf : mss_node)
    (s : Nat) : mss_state :=
  let tau := tau_loop s (P.MSS_HEIGHT - 1)
  let state1 : mss_state :=
    if tau < P.MSS_HEIGHT - 1 ∧ (s >>> (tau + 1)) &&& 1 = 0 then
      { state with keep := Function.update state.keep tau (state.auth tau) }
    else state
  if tau = 0 then
    { state1 with auth := Function.update state1.auth 0 current_leaf }
  else
    let parent := _get_parent E (state1.auth (tau - 1)) (state1.keep (tau - 1))
    let stateA : mss_state := { state1 with auth := Function.update state1.auth tau parent }
    let min : Int :=
      if (tau : Int) - 1 < (P.MSS_HEIGHT : Int) - P.MSS_K - 1 then (tau : Int) - 1
      else (P.MSS_HEIGHT : Int) - P.MSS_K - 1
    let stateB := (List.range (min + 1).toNat).foldl (nextAuth_treehash_step P s) stateA
    (List.range (tau - (P.MSS_HEIGHT - P.MSS_K))).foldl
      (fun st i => nextAuth_retain_step P st (P.MSS_HEIGHT - P.MSS_K + i)) stateB

/-- The update loop of `_nextAuth` run for `n` rounds. -/
def nextAuth_updates (P : Params) (E : Prims) (seed : Bytes) (s : Nat) (ri0 : Bytes) :
    Nat → mss_state → mss_state
  | 0, state => state
  | n + 1, state =>
    nextAuth_updates P E seed s ri0 n (nextAuth_update_step P E seed s ri0 state)

/-- `_nextAuth`: the refresh, then `(MSS_HEIGHT - MSS_K) / 2` update rounds. -/
def _nextAuth (P : Params) (E : Prims) (state : mss_state) (current_leaf : mss_node)
    (seed : Bytes) (s : Nat) (ri0 : Bytes) : mss_state :=
  nextAuth_updates P E seed s ri0 ((P.MSS_HEIGHT - P.MSS_K) / 2)
    (nextAuth_refresh P E state current_leaf s)

/-- One round of the climb of `_get_pkey`. -/
def get_pkey_step (E : Prims) (auth : Nat → mss_node) (node : mss_node) (h : Nat) : mss_node :=
  if (auth h).index ≥ node.index then _get_parent E node (auth h)
  else _get_parent E (auth h) node

/-- `_get_pkey`: returns the node after the climb; its value is what is copied
to `pkey`. -/
def _get_pkey (P : Params) (E : Prims) (auth : Nat → mss_node) (node : mss_node) : mss_node :=
  (List.range P.MSS_HEIGHT).foldl (get_pkey_step E auth) node

/-- What `mss_sign_core` leaves in its output arguments. -/
structure sign_out where
  state : mss_state
  leaf : mss_node
  h : Bytes
  sig : Bytes
  authpath : Nat → mss_node

/-- `mss_sign_core`.  `authpath` is the caller's buffer as it is on entry (it is
read for an odd leaf before it is overwritten); `ri0` is the content of the
uninitialised local `ri` of `_treehash_update`. -/
def mss_sign_core (P : Params) (E : Prims) (state : mss_state) (si ri : Bytes)
    (data : Bytes) (leaf_index : Nat) (authpath : Nat → mss_node) (ri0 : Bytes) : sign_out :=
  let leaf_v : Bytes × Bytes :=
    if leaf_index % 2 = 0 then
      let v := E.winternitz_keygen ri X
      (E.hash32 v, v)
    else ((authpath 0).value, (authpath 0).value)
  let leaf : mss_node := { height := 0, index := leaf_index, value := leaf_v.1 }
  let h := E.etcr_hash leaf_v.2 data
  let sig := E.winternitz_sign ri X h
  let authpath1 : Nat → mss_node := fun i => if i < P.MSS_HEIGHT then state.auth i else authpath i
  let state1 :=
    if leaf_index ≤ (1 <<< P.MSS_HEIGHT) - 2 then _nextAuth P E state leaf si leaf_index ri0
    else state
  { state := state1, leaf := leaf, h := h, sig := sig, authpath := authpath1 }

/-- What `mss_verify_core` returns and leaves in `currentLeaf`, `x` and `h`. -/
structure verify_out where
  result : mss_result
  currentLeaf : mss_node
  x : Bytes
  h : Bytes

/-- `mss_verify_core`.  `h` and `x` are the caller's buffers on entry; the
final `memcmp` compares the first `NODE_VALUE_SIZE` bytes. -/
def mss_verify_core (P : Params) (E : Prims) (authpath : Nat → mss_node) (data : Bytes)
    (h : Bytes) (_leaf_index : Nat) (sig : Bytes) (x : Bytes) (currentLeaf : mss_node)
    (Y : Bytes) : verify_out :=
  let x1 := E.winternitz_verify x X h sig
  let h1 := E.etcr_hash x1 data
  let _x2 := E.hash32 x1
  let node := _get_pkey P E authpath currentLeaf
  { result :=
      if node.value.take P.NODE_VALUE_SIZE = Y.take P.NODE_VALUE_SIZE then mss_result.MSS_OK
      else mss_result.MSS_ERROR
    currentLeaf := node
    x := node.value
    h := h1 }

/-! ## The signing loop of `bench_mss_signature` -/

/-- The objects `state_bench`, `si` and `authpath_bench` of `bench.c` between two
rounds of the signing loop. -/
structure signer where
  state : mss_state
  si : Bytes
  authpath : Nat → mss_node

/-- One round `fsgen(si, si, ri); mss_sign_core(&state_bench, si, ri, ..., M[i],
..., i, ..., sig_bench, authpath_bench)` of the signing loop. -/
def bench_sign_round (P : Params) (E : Prims) (M : Nat → Bytes) (ri0 : Bytes)
    (sg : signer) (i : Nat) : signer × sign_out :=
  let fs := E.fsgen sg.si
  let out := mss_sign_core P E sg.state fs.1 fs.2 (M i) i sg.authpath ri0
  ({ state := out.state, si := fs.1, authpath := out.authpath }, out)

/-- The signer after key generation and `k` rounds of the signing loop.
`node1`, `state0` and `authpath0` are the global buffers as they are before
`mss_keygen_core` is called. -/
def bench_signer (P : Params) (E : Prims) (seed : Bytes) (M : Nat → Bytes) (ri0 : Bytes)
    (node1 : mss_node) (state0 : mss_state) (authpath0 : Nat → mss_node) : Nat → signer
  | 0 => { state := (mss_keygen_core P E seed node1 state0).1, si := seed, authpath := authpath0 }
  | k + 1 =>
    (bench_sign_round P E M ri0 (bench_signer P E seed M ri0 node1 state0 authpath0 k) k).1

/-- What round `i` of the signing loop emits: leaf node, digest, W-OTS signature
and authentication path. -/
def bench_signature (P : Params) (E : Prims) (seed : Bytes) (M : Nat → Bytes) (ri0 : Bytes)
    (node1 : mss_node) (state0 : mss_state) (authpath0 : Nat → mss_node) (i : Nat) : sign_out :=
  (bench_sign_round P E M ri0 (bench_signer P E seed M ri0 node1 state0 authpath0 i) i).2

/-- The loop of `get_auth_index` on `(s, auth_index)`; the entries are
`unsigned short`. -/
def get_auth_index_step (acc : Nat × (Nat → Nat)) (h : Nat) : Nat × (Nat → Nat) :=
  let entry := if acc.1 % 2 = 0 then acc.1 + 1 else acc.1 - 1
  (acc.1 >>> 1, Function.update acc.2 h (entry % 65536))

/-- `get_auth_index`: the index of the authentication path of the `s`-th leaf. -/
def get_auth_index (P : Params) (s : Nat) (auth_index : Nat → Nat) : Nat → Nat :=
  ((List.range P.MSS_HEIGHT).foldl get_auth_index_step (s, auth_index)).2

/-! ## Serialization and the byte-level interface -/

/-- Modelled from the spec: the macro `MSS_NODE_SIZE` of `mss.h`; a node on the
wire is `height:1 ‖ index_lo:1 ‖ index_hi:1 ‖ value:N`. -/
def MSS_NODE_SIZE (P : Params) : Nat := 3 + P.NODE_VALUE_SIZE

/-- Modelled from the spec: the macro `MSS_STATE_SIZE` of `mss.h`, the length of
the persisted state layout up to the seed. -/
def MSS_STATE_SIZE (P : Params) : Nat :=
  2 + MSS_TREEHASH_SIZE P + 2 + (P.MSS_K - 1) * 2 + MSS_TREEHASH_SIZE P * 2
    + (MSS_TREEHASH_SIZE P + P.MSS_STACK_SIZE + MSS_RETAIN_SIZE P + MSS_KEEP_SIZE P
        + P.MSS_HEIGHT + (MSS_TREEHASH_SIZE P - 1)) * MSS_NODE_SIZE P

/-- Modelled from the spec: the macro `MSS_SKEY_SIZE` of `mss.h`, the persisted
state followed by the seed. -/
def MSS_SKEY_SIZE (P : Params) : Nat := MSS_STATE_SIZE P + P.LEN_BYTES_MSS_SEC_LVL

/-- Modelled from the spec: the macro `MSS_PKEY_SIZE` of `mss.h`, the root value. -/
def MSS_PKEY_SIZE (P : Params) : Nat := P.NODE_VALUE_SIZE

/-- Modelled from the spec: the macro `MSS_SIGNATURE_SIZE` of `mss.h`,
`v_node ‖ authpath[0..H) ‖ wots_sig`. -/
def MSS_SIGNATURE_SIZE (P : Params) : Nat :=
  MSS_NODE_SIZE P * (1 + P.MSS_HEIGHT) + P.MSS_OTS_SIZE

/-- The bytes `buf[0], ..., buf[n-1]` of a C array. -/
def read_bytes (buf : Bytes) (off n : Nat) : Bytes :=
  (List.range n).map (fun i => buf.getD (off + i) 0)

/-- A run of consecutive byte stores `buf[off + i] = data[i]`. -/
def buf_write (buf : Bytes) (off : Nat) (data : Bytes) : Bytes :=
  buf.take off ++ data ++ buf.drop (off + data.length)

/-- `serialize_mss_node`: the bytes stored from `buffer[0]` on. -/
def serialize_mss_node (P : Params) (node : mss_node) : Bytes :=
  [node.height, node.index &&& 0xFF, (node.index >>> 8) &&& 0xFF]
    ++ read_bytes node.value 0 P.NODE_VALUE_SIZE

/-- `deserialize_mss_node`, reading at `buffer + off`. -/
def deserialize_mss_node (P : Params) (buffer : Bytes) (off : Nat) : mss_node :=
  { height := buffer.getD off 0
    index := (buffer.getD (off + 1) 0 &&& 0xFF) ||| (buffer.getD (off + 2) 0 <<< 8)
    value := read_bytes buffer (off + 3) P.NODE_VALUE_SIZE }

/-- The two bytes stored for a 16-bit field. -/
def le16 (x : Nat) : Bytes := [x &&& 0xFF, (x >>> 8) &&& 0xFF]

/-- A loop `for (i = 0; i < n; i++) { serialize_mss_node(a[i], buffer + offset);
offset += MSS_NODE_SIZE; }`. -/
def serialize_nodes (P : Params) (a : Nat → mss_node) (n : Nat) : Bytes :=
  ((List.range n).map (fun i => serialize_mss_node P (a i))).flatten

/-- `serialize_mss_state`: the bytes stored from `buffer[0]` on. -/
def serialize_mss_state (P : Params) (state : mss_state) (index : Nat) : Bytes :=
  le16 index
    ++ (List.range (MSS_TREEHASH_SIZE P)).map state.treehash_state
    ++ le16 state.stack_index
    ++ ((List.range (P.MSS_K - 1)).map (fun i => le16 (state.retain_index i))).flatten
    ++ ((List.range (MSS_TREEHASH_SIZE P)).map (fun i => le16 (state.treehash_seed i))).flatten
    ++ serialize_nodes P state.treehash (MSS_TREEHASH_SIZE P)
    ++ (if P.MSS_STACK_SIZE ≠ 0 then serialize_nodes P state.stack P.MSS_STACK_SIZE else [])
    ++ serialize_nodes P state.retain (MSS_RETAIN_SIZE P)
    ++ serialize_nodes P state.keep (MSS_KEEP_SIZE P)
    ++ serialize_nodes P state.auth P.MSS_HEIGHT
    ++ serialize_nodes P state.store (MSS_TREEHASH_SIZE P - 1)

/-- A loop `for (i = 0; i < n; i++) { deserialize_mss_node(&a[i], buffer + offset);
offset += MSS_NODE_SIZE; }` started at `off`. -/
def deserialize_nodes (P : Params) (buffer : Bytes) (off n : Nat) (a : Nat → mss_node) :
    Nat → mss_node :=
  fun i => if i < n then deserialize_mss_node P buffer (off + i * MSS_NODE_SIZE P) else a i

/-- `deserialize_mss_state`.  `state` is the caller's object on entry.  The two
loops over `retain_index` and `treehash_seed` have a one-statement body: each
round reads one byte, and the statement that follows the loop merges one more
byte into the entry after the last. -/
def deserialize_mss_state (P : Params) (state : mss_state) (buffer : Bytes) :
    mss_state × Nat :=
  let T := MSS_TREEHASH_SIZE P
  let index := (buffer.getD 0 0 &&& 0xFF) ||| (buffer.getD 1 0 <<< 8)
  let off1 := 2
  let treehash_state : Nat → Nat :=
    fun i => if i < T then buffer.getD (off1 + i) 0 else state.treehash_state i
  let off2 := off1 + T
  let stack_index := (buffer.getD off2 0 &&& 0xFF) ||| (buffer.getD (off2 + 1) 0 <<< 8)
  let off3 := off2 + 2
  let retain_index1 : Nat → Nat :=
    fun i => if i < P.MSS_K - 1 then buffer.getD (off3 + i) 0 &&& 0xFF else state.retain_index i
  let off4 := off3 + (P.MSS_K - 1)
  let retain_index2 := Function.update retain_index1 (P.MSS_K - 1)
    (retain_index1 (P.MSS_K - 1) ||| (buffer.getD off4 0 <<< 8))
  let off5 := off4 + 1
  let treehash_seed1 : Nat → Nat :=
    fun i => if i < T then buffer.getD (off5 + i) 0 &&& 0xFF else state.treehash_seed i
  let off6 := off5 + T
  let treehash_seed2 := Function.update treehash_seed1 T
    (treehash_seed1 T ||| (buffer.getD off6 0 <<< 8))
  let off7 := off6 + 1
  let treehash := deserialize_nodes P buffer off7 T state.treehash
  let off8 := off7 + T * MSS_NODE_SIZE P
  let stack :=
    if P.MSS_STACK_SIZE ≠ 0 then deserialize_nodes P buffer off8 P.MSS_STACK_SIZE state.stack
    else state.stack
  let off9 := if P.MSS_STACK_SIZE ≠ 0 then off8 + P.MSS_STACK_SIZE * MSS_NODE_SIZE P else off8
  let retain := deserialize_nodes P buffer off9 (MSS_RETAIN_SIZE P) state.retain
  let off10 := off9 + MSS_RETAIN_SIZE P * MSS_NODE_SIZE P
  let keep := deserialize_nodes P buffer off10 (MSS_KEEP_SIZE P) state.keep
  let off11 := off10 + MSS_KEEP_SIZE P * MSS_NODE_SIZE P
  let auth := deserialize_nodes P buffer off11 P.MSS_HEIGHT state.auth
  let off12 := off11 + P.MSS_HEIGHT * MSS_NODE_SIZE P
  let store := deserialize_nodes P buffer off12 (T - 1) state.store
  ({ treehash_state := treehash_state, stack_index := stack_index,
     retain_index := retain_index2, treehash_seed := treehash_seed2, treehash := treehash,
     stack := stack, retain := retain, keep := keep, auth := auth, store := store }, index)

/-- `serialize_mss_skey`: the buffer after the call. -/
def serialize_mss_skey (P : Params) (state : mss_state) (index : Nat) (skey : Bytes)
    (buffer : Bytes) : Bytes :=
  buf_write (buf_write buffer 0 (serialize_mss_state P state index)) (MSS_STATE_SIZE P)
    (read_bytes skey 0 P.LEN_BYTES_MSS_SEC_LVL)

/-- `deserialize_mss_skey`: the state, the leaf index and the seed read. -/
def deserialize_mss_skey (P : Params) (state : mss_state) (buffer : Bytes) :
    mss_state × Nat × Bytes :=
  let r := deserialize_mss_state P state buffer
  (r.1, r.2, read_bytes buffer (MSS_STATE_SIZE P) P.LEN_BYTES_MSS_SEC_LVL)

/-- `serialize_mss_signature`: the bytes stored from `buffer[0]` on,
`v || authpath || ots`. -/
def serialize_mss_signature (P : Params) (ots : Bytes) (v : mss_node)
    (authpath : Nat → mss_node) : Bytes :=
  serialize_mss_node P v ++ serialize_nodes P authpath P.MSS_HEIGHT
    ++ read_bytes ots 0 P.MSS_OTS_SIZE

/-- `deserialize_mss_signature`: `ots`, `v` and `authpath` after the call. -/
def deserialize_mss_signature (P : Params) (authpath : Nat → mss_node) (signature : Bytes) :
    Bytes × mss_node × (Nat → mss_node) :=
  (read_bytes signature (MSS_NODE_SIZE P * (1 + P.MSS_HEIGHT)) P.MSS_OTS_SIZE,
   deserialize_mss_node P signature 0,
   deserialize_nodes P signature (MSS_NODE_SIZE P) P.MSS_HEIGHT authpath)

/-- `mss_keygen`: the buffer returned, secret key followed by public key.
`keys0`, `state0` and `node0` are the fresh buffer and the locals as they are
on entry. -/
def mss_keygen (P : Params) (E : Prims) (seed : Bytes) (keys0 : Bytes) (state0 : mss_state)
    (node0 : mss_node) : Bytes :=
  let kg := mss_keygen_core P E (read_bytes seed 0 P.LEN_BYTES_WINTERNITZ_N) node0 state0
  let keys1 := serialize_mss_skey P kg.1 0 seed keys0
  buf_write keys1 (MSS_SKEY_SIZE P) (read_bytes kg.2.2 0 (MSS_PKEY_SIZE P))

/-- What `mss_sign` leaves behind: the secret key buffer after the call and
the signature buffer it returns. -/
structure mss_sign_out where
  skey : Bytes
  signature : Bytes

/-- `mss_sign`.  `state0`, `authpath0`, `signature0` and `ri0` are the locals
`state` and `authpath`, the fresh signature buffer and the local `ri` of
`_treehash_update` as they are on entry.  The seed read from the key is handed
to `mss_sign_core` as `ri`; the pointer handed over as `si` is `skey` itself. -/
def mss_sign (P : Params) (E : Prims) (skey : Bytes) (digest : Bytes) (state0 : mss_state)
    (authpath0 : Nat → mss_node) (signature0 : Bytes) (ri0 : Bytes) : mss_sign_out :=
  let d := deserialize_mss_skey P state0 skey
  let state := d.1
  let index := d.2.1
  let ri := d.2.2
  let out := mss_sign_core P E state (read_bytes skey 0 P.LEN_BYTES_WINTERNITZ_N) ri
    (read_bytes digest 0 (2 * P.LEN_BYTES_MSS_SEC_LVL)) index authpath0 ri0
  let index1 := index + 1
  { skey := serialize_mss_skey P out.state index1 ri skey
    signature :=
      buf_write signature0 0 (serialize_mss_signature P out.sig out.leaf out.authpath) }

/-- `mss_verify`.  `authpath0`, `hash0` and `aux0` are the locals as they are on
entry. -/
def mss_verify (P : Params) (E : Prims) (signature pkey digest : Bytes)
    (authpath0 : Nat → mss_node) (hash0 aux0 : Bytes) : mss_result :=
  let d := deserialize_mss_signature P authpath0 signature
  (mss_verify_core P E d.2.2 (read_bytes digest 0 (2 * P.LEN_BYTES_MSS_SEC_LVL)) hash0
    d.2.1.index d.1 aux0 d.2.1 pkey).result

/-- The secret key buffer after `n` calls of `mss_sign` on it.  Call `j` signs
`digest j`; `state0 j`, `authpath0 j`, `signature0 j` and `ri0 j` are what the
call finds in its locals and in the fresh signature buffer. -/
def mss_sign_run (P : Params) (E : Prims) (digest : Nat → Bytes) (state0 : Nat → mss_state)
    (authpath0 : Nat → Nat → mss_node) (signature0 ri0 : Nat → Bytes) (skey : Bytes) :
    Nat → Bytes
  | 0 => skey
  | n + 1 =>
    (mss_sign P E (mss_sign_run P E digest state0 authpath0 signature0 ri0 skey n) (digest n)
      (state0 n) (authpath0 n) (signature0 n) (ri0 n)).skey

/-! ## The reference tree -/

/-- The rolling seed after `j` applications of `fsgen`: `seed_0 = seed`,
`(seed_{j+1}, r_j) = fsgen(seed_j)`. -/
def seed_at (E : Prims) (seed : Bytes) : Nat → Bytes
  | 0 => seed
  | j + 1 => (E.fsgen (seed_at E seed j)).1

/-- The randomness `r_j` of leaf `j`. -/
def r_at (E : Prims) (seed : Bytes) (j : Nat) : Bytes := (E.fsgen (seed_at E seed j)).2

/-- The node at height `h` and index `j` of the complete binary hash tree whose
leaf `j` is `hash32(winternitz_keygen(r_j, X))` and whose inner nodes are built
by `_get_parent(left, right)`. -/
def tree_node (E : Prims) (seed : Bytes) : Nat → Nat → mss_node
  | 0, j => _create_leaf E j (r_at E seed j)
  | h + 1, j => _get_parent E (tree_node E seed h (2 * j)) (tree_node E seed h (2 * j + 1))

/-- A table `t h j` of nodes is a Merkle tree of height `MSS_HEIGHT`: the leaves
`t 0 j` have height `0` and index `j`, and each node above the leaves is
`_get_parent` of its two children, the left one first. -/
def merkle_tree (P : Params) (E : Prims) (t : Nat → Nat → mss_node) : Prop :=
  (∀ j, j < 2 ^ P.MSS_HEIGHT → (t 0 j).height = 0 ∧ (t 0 j).index = j)
  ∧ (∀ h, h < P.MSS_HEIGHT → ∀ j, j < 2 ^ (P.MSS_HEIGHT - (h + 1)) →
      t (h + 1) j = _get_parent E (t h (2 * j)) (t h (2 * j + 1)))

instance merkle_tree_decidable (P : Params) (E : Prims) (t : Nat → Nat → mss_node) :
    Decidable (merkle_tree P E t) := by
  unfold merkle_tree
  infer_instance

/-! ## A small instance

Parameters `H = 4`, `K = 2`, two-byte values, and primitives that are affine maps
on 16-bit words; used to evaluate the functions above on concrete inputs. -/

/-- The instance `H = 4`, `K = 2` with two-byte values. -/
def example_params : Params :=
  { MSS_HEIGHT := 4, MSS_K := 2, MSS_STACK_SIZE := 0, NODE_VALUE_SIZE := 2,
    LEN_BYTES_WINTERNITZ_N := 2, LEN_BYTES_MSS_SEC_LVL := 2, MSS_OTS_SIZE := 2 }

/-- The 16-bit word held in the first two bytes of a buffer. -/
def w16 (x : Bytes) : Nat := x.getD 0 0 + 256 * x.getD 1 0

/-- The two bytes of a 16-bit word. -/
def ofW16 (n : Nat) : Bytes := [n % 256, n / 256 % 256]

/-- Primitives for the small instance. -/
def example_prims : Prims where
  fsgen := fun s => (ofW16 (w16 s * 25173 + 13849), ofW16 (w16 s * 9301 + 49297))
  winternitz_keygen := fun r x => ofW16 (w16 r * 4005 + w16 x + 1)
  winternitz_sign := fun r x h => ofW16 (w16 r * 3 + w16 h * 5 + w16 x)
  winternitz_verify := fun s x h sig => ofW16 (w16 sig * 7 + w16 h * 11 + w16 x + w16 s)
  hash32 := fun v => ofW16 (w16 v * 1277 + 24749)
  etcr_hash := fun v d => ofW16 (w16 v * 421 + w16 d * 1663 + 7)
  sph_sha256 := fun a b => ofW16 (w16 a * 2053 + w16 b * 13849 + 5)
  head_bytes := fun n => n.value

/-- A node of zero bytes. -/
def zero_node : mss_node := { height := 0, index := 0, value := [] }

/-- A zeroed `mss_state`, as a global object is before its first use. -/
def zero_state : mss_state where
  treehash_state := fun _ => 0
  stack_index := 0
  retain_index := fun _ => 0
  treehash_seed := fun _ => 0
  treehash := fun _ => zero_node
  stack := fun _ => zero_node
  retain := fun _ => zero_node
  keep := fun _ => zero_node
  auth := fun _ => zero_node
  store := fun _ => zero_node

/-- A zeroed authentication path buffer. -/
def zero_auth : Nat → mss_node := fun _ => zero_node

/-- The seed of the instance. -/
def example_seed : Bytes := [0xA0, 0xA1]

/-- The messages of the instance. -/
def example_msg : Nat → Bytes := fun i => [i, 2 * i + 1]

/-- The root the instance's key generation returns. -/
def example_root : Bytes :=
  (mss_keygen_core example_params example_prims example_seed zero_node zero_state).2.2

/-- What round `i` of the signing loop emits in the instance. -/
def example_sig (i : Nat) : sign_out :=
  bench_signature example_params example_prims example_seed example_msg [] zero_node zero_state
    zero_auth i

/-- The key pair `mss_keygen` returns in the instance. -/
def example_key : Bytes :=
  mss_keygen example_params example_prims example_seed [] zero_state zero_node

/-- The secret key buffer of the instance after `n` calls of `mss_sign`. -/
def example_key_after : Nat → Bytes
  | 0 => example_key
  | n + 1 =>
    (mss_sign example_params example_prims (example_key_after n) (example_msg n ++ example_msg n)
      zero_state zero_auth [] []).skey

/-- The leaf index `deserialize_mss_skey` reads from a secret key buffer. -/
def skey_index (P : Params) (skey : Bytes) : Nat :=
  (deserialize_mss_skey P zero_state skey).2.1

/-! ## Definitions for the proofs

The reference positions in the tree, the content of the stacks, the schedule of
the treehash instances and the invariants of key generation and of the
traversal. -/

/-- The index of the sibling of the node with index `x`. -/
def sib (x : Nat) : Nat := if x % 2 = 0 then x + 1 else x - 1

/-- Nodes of the tree for the set bits `b, b+1, ..., b+n-1` of `p`, lowest bit first. -/
def spine_from (E : Prims) (seed : Bytes) (p : Nat) : Nat → Nat → List mss_node
  | _, 0 => []
  | b, n + 1 =>
    (if (p / 2 ^ b) % 2 = 1 then [tree_node E seed b (p / 2 ^ b - 1)] else [])
      ++ spine_from E seed p (b + 1) n

/-- An array used as a stack holds the list `L`, top first. -/
def StackRep (a : Nat → mss_node) (index : Nat) (L : List mss_node) : Prop :=
  index = L.length ∧ ∀ i, i < L.length → a (index - 1 - i) = L.getD i default

/-- The slot of `retain` used for the node at height `h` with index `j`. -/
def retain_slot (P : Params) (h j : Nat) : Nat :=
  (1 <<< (P.MSS_HEIGHT - h - 1)) - (P.MSS_HEIGHT - h - 1) - 1 + (j >>> 1) - 1

/-- The nodes whose last leaf has been passed when `p` leaves are done and, in
the round of leaf `p`, the nodes of height below `a` that end with leaf `p`. -/
def covered (p a h j : Nat) : Prop :=
  (j + 1) * 2 ^ h ≤ p ∨ ((j + 1) * 2 ^ h = p + 1 ∧ h < a)

/-- What `_init_state` has stored for the nodes covered so far. -/
structure KInv (P : Params) (E : Prims) (seed : Bytes) (p a : Nat) (st : mss_state) : Prop where
  auth : ∀ h, h < P.MSS_HEIGHT → covered p a h 1 → st.auth h = tree_node E seed h 1
  th : ∀ h, h < P.MSS_HEIGHT - P.MSS_K → covered p a h 3 →
    st.treehash h = tree_node E seed h 3 ∧ st.treehash_seed h = 3
  ret : ∀ h j, P.MSS_HEIGHT - P.MSS_K ≤ h → 3 ≤ j → j % 2 = 1 → covered p a h j →
    st.retain (retain_slot P h j) = tree_node E seed h j
  fl : ∀ h, h < P.MSS_HEIGHT - P.MSS_K → st.treehash_state h = TREEHASH_FINISHED
  ri : ∀ i, i < P.MSS_K - 1 → st.retain_index i = 0
  si : st.stack_index = 0

/-- What holds of the accumulator of the position loop when `p` leaves are done. -/
structure KAcc (P : Params) (E : Prims) (seed : Bytes) (p : Nat)
    (acc : mss_state × Nat × Bytes × mss_node) : Prop where
  inv : KInv P E seed p 0 acc.1
  stack : StackRep acc.1.keep acc.2.1 (spine_from E seed p 0 (P.MSS_HEIGHT + 1))
  sd : acc.2.2.1 = seed_at E seed p
  nd : ∀ t, 0 < p → 2 ^ t ∣ p → ¬ 2 ^ (t + 1) ∣ p →
    acc.2.2.2 = tree_node E seed t (p / 2 ^ t - 1)

/-- The next leaf index after `m` at which the treehash node of level `h` is
moved into the authentication path: the least multiple of `2^(h+1)` above `m`. -/
def next_pop (m h : Nat) : Nat := (m / 2 ^ (h + 1) + 1) * 2 ^ (h + 1)

/-- The index of the node of height `h` that is due at `next_pop m h`. -/
def job_index (m h : Nat) : Nat := 2 * (m / 2 ^ (h + 1)) + 3

/-- The number of leaves the treehash instance `h` has consumed for the node it
is working on (all `2^h` of them when it is finished). -/
def th_cnt (st : mss_state) (m h : Nat) : Nat :=
  if st.treehash_state h = TREEHASH_FINISHED then 2 ^ h
  else st.treehash_seed h - job_index m h * 2 ^ h

/-- The nodes the treehash instance `h` has on the shared stack, top first. -/
def portion (E : Prims) (seed : Bytes) (st : mss_state) (h : Nat) : List mss_node :=
  if st.treehash_state h = TREEHASH_FINISHED then []
  else spine_from E seed (st.treehash_seed h) 0 (h - 1)

/-- The nodes the treehash instances `b, ..., b+n-1` have on the shared stack,
top first. -/
def portions (E : Prims) (seed : Bytes) (st : mss_state) : Nat → Nat → List mss_node
  | _, 0 => []
  | b, n + 1 => portion E seed st b ++ portions E seed st (b + 1) n

/-- The leaf in the middle of the node of height `h + 1` with index `J`. -/
def mid_leaf (J h : Nat) : Nat := J * 2 ^ (h + 1) + 2 ^ h

/-- The state of `_treehash_update` when the stack loop is entered. -/
def update_entry (st : mss_state) (k q : Nat) (leaf : mss_node) : mss_state :=
  { treehash_save st k leaf with
    treehash_seed := Function.update (treehash_save st k leaf).treehash_seed k (q + 1) }

/-- The leaves consumed by the treehash instances below `h2` for the nodes due
up to their next deadline, counted from leaf 0 at the rate of `2^h` leaves per
`2^(h+1)` signatures. -/
def work_sum (st : mss_state) (m : Nat) : Nat → Nat
  | 0 => 0
  | h + 1 => work_sum st m h + next_pop m h / 2 + th_cnt st m h

/-- The state of the traversal when `m` is the next leaf to be signed and `i`
update rounds of the current call of `_nextAuth` are done. -/
structure TInv (P : Params) (E : Prims) (seed : Bytes) (m i : Nat) (st : mss_state) : Prop where
  flag : ∀ h, h < MSS_TREEHASH_SIZE P →
    st.treehash_state h = TREEHASH_NEW ∨ st.treehash_state h = TREEHASH_RUNNING
      ∨ st.treehash_state h = TREEHASH_FINISHED
  seed_lo : ∀ h, h < MSS_TREEHASH_SIZE P → ¬ st.treehash_state h = TREEHASH_FINISHED →
    job_index m h * 2 ^ h ≤ st.treehash_seed h
  seed_hi : ∀ h, h < MSS_TREEHASH_SIZE P → ¬ st.treehash_state h = TREEHASH_FINISHED →
    st.treehash_seed h < job_index m h * 2 ^ h + 2 ^ h
  seed_new : ∀ h, h < MSS_TREEHASH_SIZE P → ¬ st.treehash_state h = TREEHASH_FINISHED →
    (st.treehash_state h = TREEHASH_NEW ↔ st.treehash_seed h = job_index m h * 2 ^ h)
  seed_end : ∀ h, h < MSS_TREEHASH_SIZE P → ¬ st.treehash_state h = TREEHASH_FINISHED →
    next_pop m h + 2 ^ (h + 1) ≤ 2 ^ P.MSS_HEIGHT
  seed_rel : ∀ h, h < MSS_TREEHASH_SIZE P → ¬ st.treehash_state h = TREEHASH_FINISHED →
    2 ^ (h + 1) ≤ m
  node_fin : ∀ h, h < MSS_TREEHASH_SIZE P → st.treehash_state h = TREEHASH_FINISHED →
    (st.treehash h).height = h
      ∧ (next_pop m h < 2 ^ P.MSS_HEIGHT → st.treehash h = tree_node E seed h (job_index m h))
  node_lo : ∀ h, h < MSS_TREEHASH_SIZE P → ¬ st.treehash_state h = TREEHASH_FINISHED →
    th_cnt st m h < 2 ^ (h - 1) → (st.treehash h).height = h
  node_hi : ∀ h, h < MSS_TREEHASH_SIZE P → ¬ st.treehash_state h = TREEHASH_FINISHED →
    2 ^ (h - 1) ≤ th_cnt st m h → st.treehash h = tree_node E seed (h - 1) (2 * job_index m h)
  stack : StackRep st.stack st.stack_index (portions E seed st 0 (MSS_TREEHASH_SIZE P))
  acc : ∀ h2, h2 < MSS_TREEHASH_SIZE P → ¬ st.treehash_state h2 = TREEHASH_FINISHED →
    th_cnt st m h2 + work_sum st m h2 + 1
      = (m % 2 ^ (h2 + 1)) * (MSS_TREEHASH_SIZE P / 2) + i
        + h2 * (m / 2 ^ (h2 + 1) * 2 ^ h2) + 2 ^ h2
  align : ∀ h2, h2 < MSS_TREEHASH_SIZE P → ∀ k, k < h2 →
    ¬ st.treehash_state k = TREEHASH_FINISHED → ¬ st.treehash_state h2 = TREEHASH_FINISHED →
    2 ^ (k - 1) ∣ th_cnt st m h2
  same : ∀ h, h + 1 < MSS_TREEHASH_SIZE P → ¬ st.treehash_state h = TREEHASH_FINISHED →
    next_pop m h % 2 ^ (h + 2) = 2 ^ (h + 1) →
    (¬ st.treehash_state (h + 1) = TREEHASH_FINISHED →
        st.treehash_seed (h + 1) = job_index m (h + 1) * 2 ^ (h + 1))
      ∧ (st.treehash_state (h + 1) = TREEHASH_FINISHED →
        next_pop m (h + 1) = 2 ^ P.MSS_HEIGHT)
  store_hi : ∀ h, h + 1 < MSS_TREEHASH_SIZE P →
    ¬ st.treehash_state (h + 1) = TREEHASH_FINISHED → 2 ^ h < th_cnt st m (h + 1) →
    (st.store h).value = (tree_node E seed 0 (mid_leaf (job_index m (h + 1)) h)).value
  store_lo : ∀ h, h + 1 < MSS_TREEHASH_SIZE P →
    ¬ st.treehash_state (h + 1) = TREEHASH_FINISHED → th_cnt st m (h + 1) ≤ 2 ^ h →
    7 ≤ job_index m (h + 1) →
    (st.store h).value = (tree_node E seed 0 (mid_leaf (job_index m (h + 1) - 2) h)).value
  store_fin : ∀ h, h + 1 < MSS_TREEHASH_SIZE P →
    st.treehash_state (h + 1) = TREEHASH_FINISHED → next_pop m (h + 1) < 2 ^ P.MSS_HEIGHT →
    5 ≤ job_index m (h + 1) →
    (st.store h).value = (tree_node E seed 0 (mid_leaf (job_index m (h + 1)) h)).value
  store_end : ∀ h, h + 1 < MSS_TREEHASH_SIZE P →
    st.treehash_state (h + 1) = TREEHASH_FINISHED → 2 ^ P.MSS_HEIGHT ≤ next_pop m (h + 1) →
    7 ≤ job_index m (h + 1) →
    (st.store h).value = (tree_node E seed 0 (mid_leaf (job_index m (h + 1) - 2) h)).value
  auth : ∀ h, h < P.MSS_HEIGHT → st.auth h = tree_node E seed h (sib (m / 2 ^ h))
  keep : ∀ h, h + 1 < P.MSS_HEIGHT → 2 ^ h ≤ m % 2 ^ (h + 2) → m % 2 ^ (h + 2) < 2 ^ (h + 1) →
    st.keep h = tree_node E seed h (m / 2 ^ h)
  ret_idx : ∀ h, MSS_TREEHASH_SIZE P ≤ h → h + 1 < P.MSS_HEIGHT →
    st.retain_index (h - MSS_TREEHASH_SIZE P) = m / 2 ^ (h + 1)
  ret : ∀ h j, MSS_TREEHASH_SIZE P ≤ h → 3 ≤ j → j % 2 = 1 →
    (j + 1) * 2 ^ h ≤ 2 ^ P.MSS_HEIGHT →
    st.retain (retain_slot P h j) = tree_node E seed h j

/-- The state after the node `auth[tau]` is saved in `keep[tau]`. -/
def refresh_keep (P : Params) (st : mss_state) (s tau : Nat) : mss_state :=
  if tau < P.MSS_HEIGHT - 1 ∧ (s >>> (tau + 1)) &&& 1 = 0 then
    { st with keep := Function.update st.keep tau (st.auth tau) }
  else st

/-- The conditions on the compile-time parameters under which the traversal is
shown correct: `1 ≤ K ≤ H ≤ 30`, `H - K` even, and the shared stack compiled in
unless at most two treehash instances exist. -/
def params_ok (P : Params) : Prop :=
  1 ≤ P.MSS_K ∧ P.MSS_K ≤ P.MSS_HEIGHT ∧ P.MSS_HEIGHT ≤ 30
    ∧ (P.MSS_HEIGHT - P.MSS_K) % 2 = 0
    ∧ (P.MSS_STACK_SIZE ≠ 0 ∨ P.MSS_HEIGHT - P.MSS_K ≤ 2)

/-! ## The rounds of `_nextAuth` in the signing loop -/

/-- The instance `k` left by the scan of one update round of `_nextAuth`. -/
def nextAuth_selected (P : Params) (state : mss_state) : Nat :=
  (nextAuth_select state (MSS_TREEHASH_SIZE P)
    (TREEHASH_HEIGHT_INFINITY, P.MSS_HEIGHT - P.MSS_K - 1)).2

/-- The state of `_nextAuth` when `i` rounds of its update loop are done. -/
def nextAuth_round (P : Params) (E : Prims) (state : mss_state) (current_leaf : mss_node)
    (seed : Bytes) (s : Nat) (ri0 : Bytes) (i : Nat) : mss_state :=
  nextAuth_updates P E seed s ri0 i (nextAuth_refresh P E state current_leaf s)

/-- The state in round `s` of the signing loop of `bench_mss_signature` when
`i` update rounds of its call of `_nextAuth` are done. -/
def bench_round_state (P : Params) (E : Prims) (seed : Bytes) (M : Nat → Bytes) (ri0 : Bytes)
    (node1 : mss_node) (state0 : mss_state) (authpath0 : Nat → mss_node) (s i : Nat) :
    mss_state :=
  nextAuth_round P E (bench_signer P E seed M ri0 node1 state0 authpath0 s).state
    (bench_signature P E seed M ri0 node1 state0 authpath0 s).leaf
    (E.fsgen (bench_signer P E seed M ri0 node1 state0 authpath0 s).si).1 s ri0 i

/-- The pairs `(h, j)` of the nodes kept in `retain`: the right nodes, from index
`3` on, of the `K - 1` levels `H - K, ..., H - 2`. -/
def retain_dom (P : Params) (h j : Nat) : Prop :=
  P.MSS_HEIGHT - P.MSS_K ≤ h ∧ h + 2 ≤ P.MSS_HEIGHT ∧ j % 2 = 1 ∧ 3 ≤ j
    ∧ j < 2 ^ (P.MSS_HEIGHT - h)

instance retain_dom_decidable (P : Params) (h j : Nat) : Decidable (retain_dom P h j) := by
  unfold retain_dom
  infer_instance

/-- The state after `c` calls of `_retain_pop` at height `h`. -/
def retain_pops (P : Params) (state : mss_state) (h : Nat) : Nat → mss_state
  | 0 => state
  | c + 1 => (_retain_pop P (retain_pops P state h c) h).1

/-- An instance with six treehash levels: `H = 7`, `K = 1`, two-byte values. -/
def example_params_tall : Params :=
  { MSS_HEIGHT := 7, MSS_K := 1, MSS_STACK_SIZE := 6, NODE_VALUE_SIZE := 2,
    LEN_BYTES_WINTERNITZ_N := 2, LEN_BYTES_MSS_SEC_LVL := 2, MSS_OTS_SIZE := 2 }

/-- The locals of `mss_keygen_core` when `pos` rounds of its position loop are
done: the state, the stack index, the rolling seed and `node1`. -/
def keygen_acc (P : Params) (E : Prims) (seed : Bytes) (node1 : mss_node) (state : mss_state)
    (pos : Nat) : mss_state × Nat × Bytes × mss_node :=
  (List.range pos).foldl (keygen_step P E) (init_state P state, 0, seed, node1)

/-- Round `pos` of the position loop of `mss_keygen_core` up to the test that
guards the push: the state, the stack index and `node1` after the reductions. -/
def keygen_reduced (P : Params) (E : Prims) (acc : mss_state × Nat × Bytes × mss_node)
    (pos : Nat) : mss_state × Nat × mss_node :=
  let fs := E.fsgen acc.2.2.1
  let leaf := _create_leaf E pos fs.2
  let state1 := _init_state P acc.1 leaf
  let bound := if pos = maxleaf_index then 64 else _count_trailing_zeros (pos + 1)
  keygen_reduce P E bound bound (state1, acc.2.1, leaf)

/-! ## The calls of `_get_parent`

For each function that calls `_get_parent`, the list of the pairs
`(left_child, right_child)` it hands over, in the order of the calls; the
control flow is that of the function itself. -/

/-- What the assertions of `_get_parent` ask of its two children: they have the
same height, below `MSS_HEIGHT`, the left index is even and the right index is
the left index plus one; the last condition is that the indices exist at that
height of a tree of height `MSS_HEIGHT`. -/
def sibling_pair (P : Params) (left_child right_child : mss_node) : Prop :=
  left_child.height = right_child.height ∧ left_child.height < P.MSS_HEIGHT
    ∧ left_child.index % 2 = 0 ∧ right_child.index = left_child.index + 1
    ∧ right_child.index < 2 ^ (P.MSS_HEIGHT - right_child.height)

instance sibling_pair_decidable (P : Params) (l r : mss_node) :
    Decidable (sibling_pair P l r) := by
  unfold sibling_pair
  infer_instance

/-- The calls made by the reduction loop of `mss_keygen_core`. -/
def keygen_reduce_calls (P : Params) (E : Prims) (bound : Nat) :
    Nat → mss_state × Nat × mss_node → List (mss_node × mss_node)
  | 0, _ => []
  | fuel + 1, (state, index, node1) =>
    if node1.height < bound then
      let popped := _stack_pop state.keep index
      let node1a := _get_parent E popped.2 node1
      (popped.2, node1)
        :: keygen_reduce_calls P E bound fuel (_init_state P state node1a, popped.1, node1a)
    else []

/-- The calls made in round `pos` of the position loop of `mss_keygen_core`. -/
def keygen_step_calls (P : Params) (E : Prims) (acc : mss_state × Nat × Bytes × mss_node)
    (pos : Nat) : List (mss_node × mss_node) :=
  let fs := E.fsgen acc.2.2.1
  let leaf := _create_leaf E pos fs.2
  let state1 := _init_state P acc.1 leaf
  let bound := if pos = maxleaf_index then 64 else _count_trailing_zeros (pos + 1)
  keygen_reduce_calls P E bound bound (state1, acc.2.1, leaf)

/-- The calls made by `mss_keygen_core`. -/
def mss_keygen_core_calls (P : Params) (E : Prims) (seed : Bytes) (node1 : mss_node)
    (state : mss_state) : List (mss_node × mss_node) :=
  (List.range (keygen_rounds P)).flatMap
    (fun pos => keygen_step_calls P E (keygen_acc P E seed node1 state pos) pos)

/-- The calls made by the stack loop of `_treehash_update`. -/
def treehash_stack_loop_calls (E : Prims) (h : Nat) :
    Nat → mss_state × mss_node → List (mss_node × mss_node)
  | 0, _ => []
  | fuel + 1, (state, node1) =>
    if 0 < state.stack_index
        ∧ _treehash_get_tailheight state h = (state.stack (state.stack_index - 1)).height
        ∧ _treehash_get_tailheight state h + 1 < h then
      let popped := _stack_pop state.stack state.stack_index
      let node2 := popped.2
      let state1 := { state with stack_index := popped.1 }
      let node1a := _get_parent E node2 node1
      let state2 := _treehash_set_tailheight state1 h (_treehash_get_tailheight state1 h + 1)
      (node2, node1) :: treehash_stack_loop_calls E h fuel (state2, node1a)
    else []

/-- The call made by the last step of `_treehash_update`, if any. -/
def treehash_finish_calls (state4 : mss_state) (h : Nat) (node1a : mss_node) :
    List (mss_node × mss_node) :=
  if _treehash_get_tailheight state4 h + 1 < h then []
  else if state4.treehash_state h &&& TREEHASH_RUNNING ≠ 0 ∧ node1a.index &&& 1 ≠ 0 then
    [(state4.treehash h, node1a)]
  else []

/-- The calls made by `_treehash_update`. -/
def _treehash_update_calls (P : Params) (E : Prims) (state : mss_state) (h : Nat)
    (current_leaf : Nat) (seed : Bytes) (ri0 : Bytes) : List (mss_node × mss_node) :=
  let node1 := treehash_leaf P E state h current_leaf seed ri0
  let state1 := treehash_save state h node1
  let state2 : mss_state :=
    { state1 with
      treehash_seed := Function.update state1.treehash_seed h (state.treehash_seed h + 1) }
  let state3 := _treehash_set_tailheight state2 h 0
  let looped : mss_state × mss_node :=
    if P.MSS_STACK_SIZE ≠ 0 then treehash_stack_loop E h state3.stack_index (state3, node1)
    else (state3, node1)
  (if P.MSS_STACK_SIZE ≠ 0 then treehash_stack_loop_calls E h state3.stack_index (state3, node1)
    else [])
    ++ treehash_finish_calls looped.1 h looped.2

/-- The call made by `_nextAuth` before its update loop, if any. -/
def nextAuth_refresh_calls (P : Params) (state : mss_state) (s : Nat) :
    List (mss_node × mss_node) :=
  let tau := tau_loop s (P.MSS_HEIGHT - 1)
  let state1 : mss_state :=
    if tau < P.MSS_HEIGHT - 1 ∧ (s >>> (tau + 1)) &&& 1 = 0 then
      { state with keep := Function.update state.keep tau (state.auth tau) }
    else state
  if tau = 0 then [] else [(state1.auth (tau - 1), state1.keep (tau - 1))]

/-- The calls made in one round of the update loop of `_nextAuth`. -/
def nextAuth_update_step_calls (P : Params) (E : Prims) (seed : Bytes) (s : Nat) (ri0 : Bytes)
    (state : mss_state) : List (mss_node × mss_node) :=
  let sel := nextAuth_select state (MSS_TREEHASH_SIZE P)
    (TREEHASH_HEIGHT_INFINITY, P.MSS_HEIGHT - P.MSS_K - 1)
  let k := sel.2
  if state.treehash_state k &&& TREEHASH_FINISHED = 0 then
    _treehash_update_calls P E state k s seed ri0
  else []

/-- The calls made in `n` rounds of the update loop of `_nextAuth`. -/
def nextAuth_updates_calls (P : Params) (E : Prims) (seed : Bytes) (s : Nat) (ri0 : Bytes) :
    Nat → mss_state → List (mss_node × mss_node)
  | 0, _ => []
  | n + 1, state =>
    nextAuth_update_step_calls P E seed s ri0 state
      ++ nextAuth_updates_calls P E seed s ri0 n (nextAuth_update_step P E seed s ri0 state)

/-- The calls made by `_nextAuth`. -/
def _nextAuth_calls (P : Params) (E : Prims) (state : mss_state) (current_leaf : mss_node)
    (seed : Bytes) (s : Nat) (ri0 : Bytes) : List (mss_node × mss_node) :=
  nextAuth_refresh_calls P state s
    ++ nextAuth_updates_calls P E seed s ri0 ((P.MSS_HEIGHT - P.MSS_K) / 2)
        (nextAuth_refresh P E state current_leaf s)

/-- The calls made by `mss_sign_core`, all of them in `_nextAuth`. -/
def mss_sign_core_calls (P : Params) (E : Prims) (state : mss_state) (si ri : Bytes)
    (data : Bytes) (leaf_index : Nat) (authpath : Nat → mss_node) (ri0 : Bytes) :
    List (mss_node × mss_node) :=
  if leaf_index ≤ (1 <<< P.MSS_HEIGHT) - 2 then
    _nextAuth_calls P E state (mss_sign_core P E state si ri data leaf_index authpath ri0).leaf
      si leaf_index ri0
  else []

/-- The calls made by the key generation and the first `k` rounds of the
signing loop of `bench_mss_signature`. -/
def bench_calls (P : Params) (E : Prims) (seed : Bytes) (M : Nat → Bytes) (ri0 : Bytes)
    (node1 : mss_node) (state0 : mss_state) (authpath0 : Nat → mss_node) (k : Nat) :
    List (mss_node × mss_node) :=
  mss_keygen_core_calls P E seed node1 state0
    ++ (List.range k).flatMap (fun s =>
        mss_sign_core_calls P E (bench_signer P E seed M ri0 node1 state0 authpath0 s).state
          (E.fsgen (bench_signer P E seed M ri0 node1 state0 authpath0 s).si).1
          (E.fsgen (bench_signer P E seed M ri0 node1 state0 authpath0 s).si).2 (M s) s
          (bench_signer P E seed M ri0 node1 state0 authpath0 s).authpath ri0)

/-- A pair of sibling nodes of the reference tree, below the root. -/
def tree_pair (P : Params) (E : Prims) (seed : Bytes) (c : mss_node × mss_node) : Prop :=
  ∃ t x, t < P.MSS_HEIGHT ∧ x % 2 = 1 ∧ x < 2 ^ (P.MSS_HEIGHT - t)
    ∧ c = (tree_node E seed t (x - 1), tree_node E seed t x)

/-- What `store` holds, as whole nodes, when `m` is the next leaf to be signed:
`store[h]` is the middle leaf of the node of height `h + 1` that instance `h + 1`
works on or has finished, or of the node before it while instance `h + 1` has not
passed the middle. -/
structure SInv (P : Params) (E : Prims) (seed : Bytes) (m : Nat) (st : mss_state) : Prop where
  hi : ∀ h, h + 1 < MSS_TREEHASH_SIZE P →
    ¬ st.treehash_state (h + 1) = TREEHASH_FINISHED → 2 ^ h < th_cnt st m (h + 1) →
    st.store h = tree_node E seed 0 (mid_leaf (job_index m (h + 1)) h)
  lo : ∀ h, h + 1 < MSS_TREEHASH_SIZE P →
    ¬ st.treehash_state (h + 1) = TREEHASH_FINISHED → th_cnt st m (h + 1) ≤ 2 ^ h →
    7 ≤ job_index m (h + 1) →
    st.store h = tree_node E seed 0 (mid_leaf (job_index m (h + 1) - 2) h)
  fin : ∀ h, h + 1 < MSS_TREEHASH_SIZE P →
    st.treehash_state (h + 1) = TREEHASH_FINISHED → next_pop m (h + 1) < 2 ^ P.MSS_HEIGHT →
    5 ≤ job_index m (h + 1) →
    st.store h = tree_node E seed 0 (mid_leaf (job_index m (h + 1)) h)
  fend : ∀ h, h + 1 < MSS_TREEHASH_SIZE P →
    st.treehash_state (h + 1) = TREEHASH_FINISHED → 2 ^ P.MSS_HEIGHT ≤ next_pop m (h + 1) →
    7 ≤ job_index m (h + 1) →
    st.store h = tree_node E seed 0 (mid_leaf (job_index m (h + 1) - 2) h)

/-! ## Theorems -/

theorem xor_one_eq_sib (x : Nat) : x ^^^ 1 = sib x := by
  unfold sib
  induction x using Nat.binaryRec with
  | z => rfl
  | f b n _ =>
    have h1 : (1 : Nat) = Nat.bit true 0 := rfl
    rw [h1, Nat.xor_bit]
    cases b
    · simp only [Bool.false_bne, Nat.xor_zero, Nat.bit_val, Bool.toNat_true, Bool.toNat_false]
      rw [if_pos (by omega)]
    · simp only [bne_self_eq_false, Nat.xor_zero, Nat.bit_val, Bool.toNat_true, Bool.toNat_false]
      rw [if_neg (by omega)]
      omega

theorem tree_node_index (E : Prims) (seed : Bytes) :
    ∀ h j, (tree_node E seed h j).index = j := by
  intro h
  induction h with
  | zero => intro j; rfl
  | succ h ih =>
    intro j
    show (tree_node E seed h (2 * j)).index >>> 1 = j
    rw [ih, Nat.shiftRight_eq_div_pow]
    omega

theorem tree_node_height (E : Prims) (seed : Bytes) :
    ∀ h j, h < 256 → (tree_node E seed h j).height = h := by
  intro h
  induction h with
  | zero => intro j _; rfl
  | succ h ih =>
    intro j hh
    show ((tree_node E seed h (2 * j)).height + 1) % 256 = h + 1
    rw [ih (2 * j) (by omega)]
    omega

theorem tree_node_succ (E : Prims) (seed : Bytes) (h j : Nat) :
    tree_node E seed (h + 1) j
      = _get_parent E (tree_node E seed h (2 * j)) (tree_node E seed h (2 * j + 1)) := rfl

theorem seed_at_add_one (E : Prims) (seed : Bytes) (j : Nat) :
    (E.fsgen (seed_at E seed j)) = (seed_at E seed (j + 1), r_at E seed j) := rfl

/-- The fast-forward loop run `k + 1` times from `seed_a` ends with `seed_{a+k+1}` and `r_{a+k}`. -/
theorem fsgen_loop_seed_at (E : Prims) (seed : Bytes) :
    ∀ k a r, fsgen_loop E (k + 1) (seed_at E seed a, r)
      = (seed_at E seed (a + k + 1), r_at E seed (a + k)) := by
  intro k
  induction k with
  | zero => intro a r; rfl
  | succ k ih =>
    intro a r
    show fsgen_loop E (k + 1) (E.fsgen (seed_at E seed a)) = _
    rw [seed_at_add_one, ih]
    have : a + 1 + k = a + (k + 1) := by omega
    rw [this]

/-! ### Trailing zeros -/

theorem ctz_loop_spec : ∀ fuel c tz, 0 < c → c < 2 ^ fuel →
    ∃ t, (ctz_loop fuel (c, tz)).2 = tz + t ∧ 2 ^ t ∣ c ∧ ¬ 2 ^ (t + 1) ∣ c := by
  intro fuel
  induction fuel with
  | zero => intro c tz h0 h1; simp at h1; omega
  | succ fuel ih =>
    intro c tz h0 h1
    unfold ctz_loop
    rw [Nat.and_one_is_mod]
    by_cases hc : c % 2 = 0
    · simp only [hc, if_true]
      rw [Nat.shiftRight_eq_div_pow]
      have h2 : 0 < c / 2 ^ 1 := by
        simp; omega
      have h3 : c / 2 ^ 1 < 2 ^ fuel := by
        rw [pow_succ] at h1; simp; omega
      obtain ⟨t, ht1, ht2, ht3⟩ := ih (c / 2 ^ 1) (tz + 1) h2 h3
      refine ⟨t + 1, by rw [ht1]; omega, ?_, ?_⟩
      · have : c = 2 * (c / 2 ^ 1) := by simp; omega
        rw [this, pow_succ, mul_comm]
        exact Nat.mul_dvd_mul_left 2 ht2
      · intro hd
        apply ht3
        have : c = 2 * (c / 2 ^ 1) := by simp; omega
        rw [this, pow_succ (n := t + 1), mul_comm] at hd
        exact Nat.dvd_of_mul_dvd_mul_left (by norm_num) hd
    · simp only [hc, if_false]
      refine ⟨0, rfl, by simp, ?_⟩
      simp
      omega

theorem count_trailing_zeros_spec (v : Nat) (h0 : 0 < v) (h1 : v < 2 ^ 64) :
    2 ^ (_count_trailing_zeros v) ∣ v ∧ ¬ 2 ^ (_count_trailing_zeros v + 1) ∣ v := by
  obtain ⟨t, ht1, ht2, ht3⟩ := ctz_loop_spec 64 v 0 h0 h1
  unfold _count_trailing_zeros
  rw [ht1]
  simpa using ⟨ht2, ht3⟩

theorem tau_loop_spec1 (s : Nat) : ∀ n,
    tau_loop s n ≤ n ∧ 2 ^ (tau_loop s n) ∣ s + 1
      ∧ (tau_loop s n < n → ¬ 2 ^ (tau_loop s n + 1) ∣ s + 1) := by
  intro n
  induction n with
  | zero => simp [tau_loop]
  | succ n ih =>
    unfold tau_loop
    rw [Nat.one_shiftLeft]
    by_cases hm : (s + 1) % 2 ^ (n + 1) = 0
    · simp only [hm, ne_eq, not_true_eq_false, if_false]
      exact ⟨le_refl _, Nat.dvd_of_mod_eq_zero hm, fun h => absurd h (lt_irrefl _)⟩
    · simp only [hm, ne_eq, not_false_eq_true, if_true]
      obtain ⟨h1, h2, h3⟩ := ih
      refine ⟨by omega, h2, ?_⟩
      intro _
      by_cases hlt : tau_loop s n < n
      · exact h3 hlt
      · have : tau_loop s n = n := by omega
        rw [this]
        intro hd
        exact hm (Nat.mod_eq_zero_of_dvd hd)

theorem tau_loop_spec (s n : Nat) (h : s + 1 < 2 ^ (n + 1)) :
    tau_loop s n ≤ n ∧ 2 ^ (tau_loop s n) ∣ s + 1 ∧ ¬ 2 ^ (tau_loop s n + 1) ∣ s + 1 := by
  obtain ⟨h1, h2, h3⟩ := tau_loop_spec1 s n
  refine ⟨h1, h2, ?_⟩
  by_cases hlt : tau_loop s n < n
  · exact h3 hlt
  · have : tau_loop s n = n := by omega
    rw [this]
    intro hd
    have := Nat.le_of_dvd (by omega) hd
    omega

theorem retain_push_index_eq (P : Params) (node : mss_node) :
    retain_push_index P node = retain_slot P node.height node.index := rfl

/-! ### Stacks -/

theorem StackRep_nil (a : Nat → mss_node) : StackRep a 0 [] := by
  constructor
  · rfl
  · intro i hi; simp at hi

theorem StackRep_push {a : Nat → mss_node} {idx : Nat} {L : List mss_node} (x : mss_node)
    (h : StackRep a idx L) : StackRep (Function.update a idx x) (idx + 1) (x :: L) := by
  obtain ⟨h1, h2⟩ := h
  constructor
  · simp [h1]
  · intro i hi
    cases i with
    | zero => simp
    | succ i =>
      simp only [List.length_cons, Nat.add_lt_add_iff_right] at hi
      have h3 := h2 i hi
      have : idx + 1 - 1 - (i + 1) = idx - 1 - i := by omega
      rw [this, Function.update_noteq (by omega)]
      simpa using h3

theorem StackRep_pop {a : Nat → mss_node} {idx : Nat} {x : mss_node} {L : List mss_node}
    (h : StackRep a idx (x :: L)) : a (idx - 1) = x ∧ StackRep a (idx - 1) L ∧ 0 < idx := by
  obtain ⟨h1, h2⟩ := h
  simp only [List.length_cons] at h1
  refine ⟨?_, ⟨by omega, ?_⟩, by omega⟩
  · have := h2 0 (by simp)
    simpa using this
  · intro i hi
    have := h2 (i + 1) (by simp; omega)
    have e : idx - 1 - (i + 1) = idx - 1 - 1 - i := by omega
    rw [e] at this
    simpa using this

theorem StackRep_congr {a b : Nat → mss_node} {idx : Nat} {L : List mss_node}
    (h : StackRep a idx L) (hab : ∀ i, i < idx → b i = a i) : StackRep b idx L := by
  obtain ⟨h1, h2⟩ := h
  refine ⟨h1, ?_⟩
  intro i hi
  rw [hab _ (by omega)]
  exact h2 i hi

/-! ### The spine of a position -/

theorem spine_from_append (E : Prims) (seed : Bytes) (p : Nat) :
    ∀ n1 b n2, spine_from E seed p b (n1 + n2)
      = spine_from E seed p b n1 ++ spine_from E seed p (b + n1) n2 := by
  intro n1
  induction n1 with
  | zero => intro b n2; simp [spine_from]
  | succ n1 ih =>
    intro b n2
    have e : n1 + 1 + n2 = (n1 + n2) + 1 := by omega
    rw [e]
    simp only [spine_from]
    rw [ih (b + 1) n2]
    have e2 : b + 1 + n1 = b + (n1 + 1) := by omega
    rw [e2, List.append_assoc]

theorem spine_from_zero_bits (E : Prims) (seed : Bytes) (p : Nat) :
    ∀ n b, (∀ c, b ≤ c → c < b + n → (p / 2 ^ c) % 2 = 0) → spine_from E seed p b n = [] := by
  intro n
  induction n with
  | zero => intro b _; rfl
  | succ n ih =>
    intro b hz
    simp only [spine_from]
    have h0 := hz b (le_refl _) (by omega)
    rw [if_neg (by omega), ih (b + 1) (fun c hc1 hc2 => hz c (by omega) (by omega))]
    rfl

theorem spine_from_congr (E : Prims) (seed : Bytes) (p q : Nat) :
    ∀ n b, (∀ c, b ≤ c → c < b + n → p / 2 ^ c = q / 2 ^ c) →
      spine_from E seed p b n = spine_from E seed q b n := by
  intro n
  induction n with
  | zero => intro b _; rfl
  | succ n ih =>
    intro b hz
    simp only [spine_from]
    rw [hz b (le_refl _) (by omega), ih (b + 1) (fun c hc1 hc2 => hz c (by omega) (by omega))]

theorem spine_from_length_le (E : Prims) (seed : Bytes) (p : Nat) :
    ∀ n b, (spine_from E seed p b n).length ≤ n := by
  intro n
  induction n with
  | zero => intro b; simp [spine_from]
  | succ n ih =>
    intro b
    simp only [spine_from, List.length_append]
    have := ih (b + 1)
    split <;> simp <;> omega

/-! ### Bits of a position -/

theorem div_pow_mod_two_of_dvd_succ {p t : Nat} (hd : 2 ^ t ∣ p + 1) :
    ∀ b, b < t → (p / 2 ^ b) % 2 = 1 := by
  intro b hb
  obtain ⟨k, hk⟩ := hd
  have e : 2 ^ t = 2 ^ b * 2 ^ (t - b - 1) * 2 := by
    rw [mul_assoc, ← pow_succ, ← pow_add]; congr 1; omega
  have hpos : 0 < 2 ^ b := pow_pos (by norm_num) _
  have hp : p = 2 ^ b * (2 * (2 ^ (t - b - 1) * k) - 1) + (2 ^ b - 1) := by
    have h1 : p + 1 = 2 ^ b * (2 * (2 ^ (t - b - 1) * k)) := by rw [hk, e]; ring
    have hk0 : 0 < 2 * (2 ^ (t - b - 1) * k) := by
      rcases Nat.eq_zero_or_pos (2 * (2 ^ (t - b - 1) * k)) with h | h
      · rw [h] at h1; omega
      · exact h
    obtain ⟨m, hm⟩ : ∃ m, 2 * (2 ^ (t - b - 1) * k) = m + 1 := ⟨_, (Nat.succ_pred_eq_of_pos hk0).symm⟩
    rw [hm] at h1 ⊢
    simp only [Nat.add_sub_cancel]
    have : 2 ^ b * (m + 1) = 2 ^ b * m + 2 ^ b := by ring
    omega
  have hdiv : p / 2 ^ b = 2 * (2 ^ (t - b - 1) * k) - 1 := by
    rw [hp, Nat.mul_add_div hpos, Nat.div_eq_of_lt (by omega)]
    simp
  rw [hdiv]
  have hk0 : 0 < 2 ^ (t - b - 1) * k := by
    rcases Nat.eq_zero_or_pos (2 ^ (t - b - 1) * k) with h | h
    · rw [hp, h] at hk
      simp at hk
      have : 2 ^ b - 1 + 1 = 2 ^ b := by omega
      rw [e] at hk
      have h2 : 2 ^ b * 2 ^ (t - b - 1) * 2 * k = 2 ^ b * (2 * (2 ^ (t - b - 1) * k)) := by ring
      rw [h2, h] at hk
      omega
    · exact h
  omega

/-! ### Slots of `retain` -/

theorem two_pow_ge_succ (x : Nat) : x + 1 ≤ 2 ^ x := by
  induction x with
  | zero => simp
  | succ x ih => rw [pow_succ]; omega

theorem retain_base_mono (x y : Nat) (h : x ≤ y) : 2 ^ x - x - 1 ≤ 2 ^ y - y - 1 := by
  induction y with
  | zero =>
    have : x = 0 := by omega
    rw [this]
  | succ y ih =>
    rcases Nat.eq_or_lt_of_le h with h1 | h1
    · rw [h1]
    · have h2 := ih (by omega)
      have h3 := two_pow_ge_succ y
      rw [pow_succ]
      omega

theorem retain_slot_eq (P : Params) (h j : Nat) :
    retain_slot P h j
      = 2 ^ (P.MSS_HEIGHT - h - 1) - (P.MSS_HEIGHT - h - 1) - 1 + j / 2 - 1 := by
  unfold retain_slot
  rw [Nat.one_shiftLeft, Nat.shiftRight_eq_div_pow, pow_one]

theorem le_pow_of_mul_pow_le {j h H : Nat} (hj : 0 < j) (hle : j * 2 ^ h ≤ 2 ^ H) :
    h ≤ H ∧ j ≤ 2 ^ (H - h) := by
  have hh : h ≤ H := by
    by_contra hc
    push_neg at hc
    have h1 : 2 ^ H < 2 ^ h := Nat.pow_lt_pow_right (by norm_num) hc
    have h2 : 2 ^ h ≤ j * 2 ^ h := Nat.le_mul_of_pos_left _ hj
    omega
  refine ⟨hh, ?_⟩
  have e : 2 ^ H = 2 ^ (H - h) * 2 ^ h := by rw [← pow_add]; congr 1; omega
  rw [e] at hle
  exact Nat.le_of_mul_le_mul_right hle (pow_pos (by norm_num) _)

theorem retain_slot_inj (P : Params) {h1 j1 h2 j2 : Nat}
    (a1 : 3 ≤ j1) (o1 : j1 % 2 = 1) (b1 : (j1 + 1) * 2 ^ h1 ≤ 2 ^ P.MSS_HEIGHT)
    (a2 : 3 ≤ j2) (o2 : j2 % 2 = 1) (b2 : (j2 + 1) * 2 ^ h2 ≤ 2 ^ P.MSS_HEIGHT)
    (e : retain_slot P h1 j1 = retain_slot P h2 j2) : h1 = h2 ∧ j1 = j2 := by
  rw [retain_slot_eq, retain_slot_eq] at e
  obtain ⟨c1, d1⟩ := le_pow_of_mul_pow_le (by omega) b1
  obtain ⟨c2, d2⟩ := le_pow_of_mul_pow_le (by omega) b2
  have g1 : 2 ≤ P.MSS_HEIGHT - h1 := by
    by_contra hc
    have : P.MSS_HEIGHT - h1 = 0 ∨ P.MSS_HEIGHT - h1 = 1 := by omega
    rcases this with t | t <;> rw [t] at d1 <;> simp at d1 <;> omega
  have g2 : 2 ≤ P.MSS_HEIGHT - h2 := by
    by_contra hc
    have : P.MSS_HEIGHT - h2 = 0 ∨ P.MSS_HEIGHT - h2 = 1 := by omega
    rcases this with t | t <;> rw [t] at d2 <;> simp at d2 <;> omega
  have p1 : 2 ^ (P.MSS_HEIGHT - h1) = 2 * 2 ^ (P.MSS_HEIGHT - h1 - 1) := by
    rw [← pow_succ']; congr 1; omega
  have p2 : 2 ^ (P.MSS_HEIGHT - h2) = 2 * 2 ^ (P.MSS_HEIGHT - h2 - 1) := by
    rw [← pow_succ']; congr 1; omega
  have q1 := two_pow_ge_succ (P.MSS_HEIGHT - h1 - 1)
  have q2 := two_pow_ge_succ (P.MSS_HEIGHT - h2 - 1)
  have key : P.MSS_HEIGHT - h1 - 1 = P.MSS_HEIGHT - h2 - 1 := by
    rcases Nat.lt_trichotomy (P.MSS_HEIGHT - h1 - 1) (P.MSS_HEIGHT - h2 - 1) with t | t | t
    · exfalso
      have m := retain_base_mono (P.MSS_HEIGHT - h1 - 1 + 1) (P.MSS_HEIGHT - h2 - 1) (by omega)
      rw [pow_succ] at m
      omega
    · exact t
    · exfalso
      have m := retain_base_mono (P.MSS_HEIGHT - h2 - 1 + 1) (P.MSS_HEIGHT - h1 - 1) (by omega)
      rw [pow_succ] at m
      omega
  have hh : h1 = h2 := by omega
  refine ⟨hh, ?_⟩
  rw [key] at e
  omega

/-! ### `_init_state` -/

theorem init_state_auth (P : Params) (st : mss_state) (node : mss_node) :
    (_init_state P st node).auth
      = if node.index = 1 ∧ node.height < P.MSS_HEIGHT then
          Function.update st.auth node.height node
        else st.auth := by
  unfold _init_state _retain_push _treehash_state _treehash_initialize _treehash_state
  split_ifs <;> rfl

theorem init_state_treehash (P : Params) (st : mss_state) (node : mss_node) :
    (_init_state P st node).treehash
      = if node.index = 3 ∧ node.height < P.MSS_HEIGHT - P.MSS_K then
          Function.update st.treehash node.height node
        else st.treehash := by
  unfold _init_state _retain_push _treehash_state _treehash_initialize _treehash_state
  split_ifs <;> rfl

theorem init_state_treehash_seed (P : Params) (st : mss_state) (node : mss_node) :
    (_init_state P st node).treehash_seed
      = if node.index = 3 ∧ node.height < P.MSS_HEIGHT - P.MSS_K then
          Function.update st.treehash_seed node.height node.index
        else st.treehash_seed := by
  unfold _init_state _retain_push _treehash_state _treehash_initialize _treehash_state
  split_ifs <;> rfl

theorem init_state_treehash_state (P : Params) (st : mss_state) (node : mss_node) :
    (_init_state P st node).treehash_state
      = if node.index = 3 ∧ node.height < P.MSS_HEIGHT - P.MSS_K then
          Function.update (Function.update st.treehash_state node.height TREEHASH_NEW)
            node.height TREEHASH_FINISHED
        else st.treehash_state := by
  unfold _init_state _retain_push _treehash_state _treehash_initialize _treehash_state
  split_ifs <;> rfl

theorem init_state_retain (P : Params) (st : mss_state) (node : mss_node) :
    (_init_state P st node).retain
      = if node.index ≥ 3 ∧ node.index &&& 1 = 1 ∧ node.height ≥ P.MSS_HEIGHT - P.MSS_K then
          Function.update st.retain (retain_slot P node.height node.index) node
        else st.retain := by
  unfold _init_state _retain_push _treehash_state _treehash_initialize _treehash_state
  split_ifs <;> rfl

theorem init_state_frame (P : Params) (st : mss_state) (node : mss_node) :
    (_init_state P st node).retain_index = st.retain_index
    ∧ (_init_state P st node).stack_index = st.stack_index
    ∧ (_init_state P st node).keep = st.keep
    ∧ (_init_state P st node).stack = st.stack
    ∧ (_init_state P st node).store = st.store := by
  unfold _init_state _retain_push _treehash_state _treehash_initialize _treehash_state
  split_ifs <;> exact ⟨rfl, rfl, rfl, rfl, rfl⟩

theorem covered_succ {p a h j : Nat} (hc : covered p (a + 1) h j) :
    covered p a h j ∨ ((j + 1) * 2 ^ h = p + 1 ∧ h = a) := by
  rcases hc with h1 | ⟨h1, h2⟩
  · exact Or.inl (Or.inl h1)
  · by_cases ha : h < a
    · exact Or.inl (Or.inr ⟨h1, ha⟩)
    · exact Or.inr ⟨h1, by omega⟩

theorem covered_le {p a h j : Nat} (hc : covered p a h j) : (j + 1) * 2 ^ h ≤ p + 1 := by
  rcases hc with h1 | ⟨h1, _⟩ <;> omega

theorem mul_pow_cancel {x y a : Nat} (h : (x + 1) * 2 ^ a = (y + 1) * 2 ^ a) : x = y := by
  have := Nat.eq_of_mul_eq_mul_right (pow_pos (by norm_num) a) h
  omega

theorem init_state_KInv (P : Params) (E : Prims) (seed : Bytes) {p a j : Nat} {st : mss_state}
    (hH : P.MSS_HEIGHT < 256) (hp : p < 2 ^ P.MSS_HEIGHT) (hj : (j + 1) * 2 ^ a = p + 1)
    (hinv : KInv P E seed p a st) :
    KInv P E seed p (a + 1) (_init_state P st (tree_node E seed a j)) := by
  have haH : a ≤ P.MSS_HEIGHT := (le_pow_of_mul_pow_le (j := j + 1) (by omega) (by omega)).1
  have hht : (tree_node E seed a j).height = a := tree_node_height E seed a j (by omega)
  have hix : (tree_node E seed a j).index = j := tree_node_index E seed a j
  obtain ⟨f1, f2, f3, f4, f5⟩ := init_state_frame P st (tree_node E seed a j)
  constructor
  · intro h hh hc
    rw [init_state_auth, hht, hix]
    rcases covered_succ hc with hc1 | ⟨hc1, hc2⟩
    · split_ifs with hcond
      · by_cases hha : h = a
        · rw [hha, Function.update_same, hcond.1]
        · rw [Function.update_noteq hha]
          exact hinv.auth h hh hc1
      · exact hinv.auth h hh hc1
    · have hj1 : j = 1 := by
        rw [← hj] at hc1
        exact (mul_pow_cancel (by rw [hc2] at hc1; exact hc1)).symm
      rw [if_pos ⟨hj1, by omega⟩, hc2, Function.update_same, hj1]
  · intro h hh hc
    rw [init_state_treehash, init_state_treehash_seed, hht, hix]
    rcases covered_succ hc with hc1 | ⟨hc1, hc2⟩
    · split_ifs with hcond
      · by_cases hha : h = a
        · rw [hha, Function.update_same, Function.update_same, hcond.1]
          exact ⟨rfl, rfl⟩
        · rw [Function.update_noteq hha, Function.update_noteq hha]
          exact hinv.th h hh hc1
      · exact hinv.th h hh hc1
    · have hj1 : j = 3 := by
        rw [← hj] at hc1
        exact (mul_pow_cancel (by rw [hc2] at hc1; exact hc1)).symm
      have hcond : j = 3 ∧ a < P.MSS_HEIGHT - P.MSS_K := ⟨hj1, by omega⟩
      rw [if_pos hcond, if_pos hcond, hc2, Function.update_same, Function.update_same, hj1]
      exact ⟨rfl, rfl⟩
  · intro h j2 hh a2 o2 hc
    rw [init_state_retain, hht, hix, Nat.and_one_is_mod]
    have b2 : (j2 + 1) * 2 ^ h ≤ 2 ^ P.MSS_HEIGHT := by
      have := covered_le hc
      omega
    rcases covered_succ hc with hc1 | ⟨hc1, hc2⟩
    · split_ifs with hcond
      · by_cases hsl : retain_slot P h j2 = retain_slot P a j
        · obtain ⟨e1, e2⟩ := retain_slot_inj P a2 o2 b2 hcond.1 hcond.2.1 (by omega) hsl
          rw [hsl, Function.update_same, e1, e2]
        · rw [Function.update_noteq hsl]
          exact hinv.ret h j2 hh a2 o2 hc1
      · exact hinv.ret h j2 hh a2 o2 hc1
    · have hj1 : j = j2 := by
        rw [← hj] at hc1
        exact (mul_pow_cancel (by rw [hc2] at hc1; exact hc1)).symm
      rw [if_pos ⟨by omega, by omega, by omega⟩, hc2, hj1, Function.update_same]
  · intro h hh
    rw [init_state_treehash_state, hht, hix]
    split_ifs with hcond
    · by_cases hha : h = a
      · rw [hha, Function.update_same]
      · rw [Function.update_noteq hha, Function.update_noteq hha]
        exact hinv.fl h hh
    · exact hinv.fl h hh
  · intro i hi
    rw [f1]
    exact hinv.ri i hi
  · rw [f2]
    exact hinv.si

/-! ### The reduction loop of the key generation -/

theorem mod_of_dvd_succ {p m : Nat} (hm : 0 < m) (hd : m ∣ p + 1) : p % m = m - 1 := by
  have h1 : (p + 1) % m = 0 := Nat.mod_eq_zero_of_dvd hd
  have h2 : p % m < m := Nat.mod_lt _ hm
  rw [Nat.add_mod] at h1
  by_contra hne
  have h3 : p % m + 1 < m := by omega
  by_cases h1m : m = 1
  · omega
  · have h4 : 1 % m = 1 := Nat.mod_eq_of_lt (by omega)
    rw [h4, Nat.mod_eq_of_lt h3] at h1
    omega

theorem div_succ_mul_of_dvd_succ {p b : Nat} (hd : 2 ^ b ∣ p + 1) :
    (p / 2 ^ b + 1) * 2 ^ b = p + 1 := by
  have hpos : 0 < 2 ^ b := pow_pos (by norm_num) _
  have h1 := mod_of_dvd_succ hpos hd
  have h2 := Nat.div_add_mod p (2 ^ b)
  rw [h1] at h2
  have : (p / 2 ^ b + 1) * 2 ^ b = 2 ^ b * (p / 2 ^ b) + 2 ^ b := by ring
  omega

theorem le_of_pow_dvd_succ {p t H : Nat} (hp : p < 2 ^ H) (hd : 2 ^ t ∣ p + 1) : t ≤ H := by
  by_contra hc
  push_neg at hc
  have h1 := Nat.le_of_dvd (by omega) hd
  have h2 : 2 ^ (H + 1) ≤ 2 ^ t := Nat.pow_le_pow_right (by norm_num) hc
  rw [pow_succ] at h2
  omega

theorem pow_dvd_of_le {p t b : Nat} (hd : 2 ^ t ∣ p + 1) (hb : b ≤ t) : 2 ^ b ∣ p + 1 :=
  Nat.dvd_trans (Nat.pow_dvd_pow 2 hb) hd

theorem get_parent_tree (E : Prims) (seed : Bytes) (a x : Nat) (hx : x % 2 = 1) :
    _get_parent E (tree_node E seed a (x - 1)) (tree_node E seed a x)
      = tree_node E seed (a + 1) (x / 2) := by
  rw [tree_node_succ]
  have e1 : 2 * (x / 2) = x - 1 := by omega
  have e2 : x - 1 + 1 = x := by omega
  rw [e1, e2]

theorem keygen_reduce_spec (P : Params) (E : Prims) (seed : Bytes)
    (hH : P.MSS_HEIGHT < 256) {p t : Nat} (hp : p < 2 ^ P.MSS_HEIGHT) (hd : 2 ^ t ∣ p + 1)
    (N : Nat) (hN : t ≤ N) :
    ∀ fuel a st idx, a + fuel = t →
      KInv P E seed p (a + 1) st →
      StackRep st.keep idx (spine_from E seed p a (N - a)) →
      KInv P E seed p (t + 1)
          (keygen_reduce P E t fuel (st, idx, tree_node E seed a (p / 2 ^ a))).1
        ∧ StackRep (keygen_reduce P E t fuel (st, idx, tree_node E seed a (p / 2 ^ a))).1.keep
            (keygen_reduce P E t fuel (st, idx, tree_node E seed a (p / 2 ^ a))).2.1
            (spine_from E seed p t (N - t))
        ∧ (keygen_reduce P E t fuel (st, idx, tree_node E seed a (p / 2 ^ a))).2.2
            = tree_node E seed t (p / 2 ^ t) := by
  have htH : t ≤ P.MSS_HEIGHT := le_of_pow_dvd_succ hp hd
  intro fuel
  induction fuel with
  | zero =>
    intro a st idx hat hk hs
    have : a = t := by omega
    subst this
    exact ⟨hk, hs, rfl⟩
  | succ fuel ih =>
    intro a st idx hat hk hs
    have hat2 : a < t := by omega
    have hbit : (p / 2 ^ a) % 2 = 1 := div_pow_mod_two_of_dvd_succ hd a hat2
    have hht : (tree_node E seed a (p / 2 ^ a)).height = a :=
      tree_node_height E seed a _ (by omega)
    have hsp : spine_from E seed p a (N - a)
        = tree_node E seed a (p / 2 ^ a - 1) :: spine_from E seed p (a + 1) (N - (a + 1)) := by
      have e : N - a = (N - (a + 1)) + 1 := by omega
      rw [e]
      simp only [spine_from, if_pos hbit, List.singleton_append]
    rw [hsp] at hs
    obtain ⟨hp1, hp2, _⟩ := StackRep_pop hs
    have hpar : _get_parent E (st.keep (idx - 1)) (tree_node E seed a (p / 2 ^ a))
        = tree_node E seed (a + 1) (p / 2 ^ (a + 1)) := by
      rw [hp1, get_parent_tree E seed a _ hbit, Nat.div_div_eq_div_mul, ← pow_succ]
    have hstep : keygen_reduce P E t (fuel + 1) (st, idx, tree_node E seed a (p / 2 ^ a))
        = keygen_reduce P E t fuel
            (_init_state P st (tree_node E seed (a + 1) (p / 2 ^ (a + 1))), idx - 1,
              tree_node E seed (a + 1) (p / 2 ^ (a + 1))) := by
      simp only [keygen_reduce, hht, if_pos hat2, _stack_pop, hpar]
    rw [hstep]
    have hj := div_succ_mul_of_dvd_succ (pow_dvd_of_le hd (show a + 1 ≤ t by omega))
    have hk2 := init_state_KInv P E seed hH hp hj hk
    have hf := (init_state_frame P st (tree_node E seed (a + 1) (p / 2 ^ (a + 1)))).2.2.1
    have hs2 : StackRep (_init_state P st (tree_node E seed (a + 1) (p / 2 ^ (a + 1)))).keep
        (idx - 1) (spine_from E seed p (a + 1) (N - (a + 1))) := by
      rw [hf]; exact hp2
    exact ih (a + 1) _ (idx - 1) (by omega) hk2 hs2

/-! ### One round of the position loop -/

theorem succ_div_pow_of_dvd {p t : Nat} (hd : 2 ^ t ∣ p + 1) :
    (p + 1) / 2 ^ t = p / 2 ^ t + 1 := by
  rw [Nat.succ_div, if_pos hd]

theorem succ_div_pow_of_not_dvd {p t c : Nat} (hnd : ¬ 2 ^ (t + 1) ∣ p + 1) (hc : t < c) :
    (p + 1) / 2 ^ c = p / 2 ^ c := by
  rw [Nat.succ_div, if_neg]
  · rfl
  · intro hd
    exact hnd (Nat.dvd_trans (Nat.pow_dvd_pow 2 (by omega)) hd)

theorem bit_zero_of_not_dvd {p t : Nat} (hd : 2 ^ t ∣ p + 1) (hnd : ¬ 2 ^ (t + 1) ∣ p + 1) :
    (p / 2 ^ t) % 2 = 0 := by
  by_contra hc
  apply hnd
  have h1 := div_succ_mul_of_dvd_succ hd
  have h2 : (p / 2 ^ t + 1) % 2 = 0 := by omega
  obtain ⟨k, hk⟩ := Nat.dvd_of_mod_eq_zero h2
  rw [hk] at h1
  refine ⟨k, ?_⟩
  rw [← h1, pow_succ]
  ring

theorem succ_bits_low {p t : Nat} (hd : 2 ^ t ∣ p + 1) :
    ∀ c, c < t → ((p + 1) / 2 ^ c) % 2 = 0 := by
  intro c hc
  obtain ⟨k, hk⟩ := hd
  have e : 2 ^ t = 2 ^ c * (2 * 2 ^ (t - c - 1)) := by
    rw [← pow_succ', ← pow_add]; congr 1; omega
  rw [hk, e, mul_assoc, Nat.mul_div_cancel_left _ (pow_pos (by norm_num) c), mul_assoc]
  omega

theorem pow_dvd_unique {q t u : Nat} (h1 : 2 ^ t ∣ q) (h2 : ¬ 2 ^ (t + 1) ∣ q)
    (h3 : 2 ^ u ∣ q) (h4 : ¬ 2 ^ (u + 1) ∣ q) : t = u := by
  rcases Nat.lt_trichotomy t u with h | h | h
  · exact absurd (Nat.dvd_trans (Nat.pow_dvd_pow 2 (by omega)) h3) h2
  · exact h
  · exact absurd (Nat.dvd_trans (Nat.pow_dvd_pow 2 (by omega)) h1) h4

theorem spine_from_succ (E : Prims) (seed : Bytes) {p t N : Nat} (hd : 2 ^ t ∣ p + 1)
    (hnd : ¬ 2 ^ (t + 1) ∣ p + 1) (hN : t < N) :
    spine_from E seed (p + 1) 0 N
      = tree_node E seed t (p / 2 ^ t) :: spine_from E seed p t (N - t) := by
  have e1 : N = t + (N - t) := by omega
  have e2 : N - t = (N - t - 1) + 1 := by omega
  conv_lhs => rw [e1]
  rw [spine_from_append, spine_from_zero_bits E seed (p + 1) t 0
    (fun c _ hc => succ_bits_low hd c (by omega))]
  rw [e2]
  simp only [spine_from, List.nil_append, Nat.zero_add]
  have hb1 : (p + 1) / 2 ^ t % 2 = 1 := by
    rw [succ_div_pow_of_dvd hd]
    have := bit_zero_of_not_dvd hd hnd
    omega
  have hb0 : ¬ (p / 2 ^ t % 2 = 1) := by
    have := bit_zero_of_not_dvd hd hnd
    omega
  rw [if_pos hb1, if_neg hb0, succ_div_pow_of_dvd hd, Nat.add_sub_cancel]
  simp only [List.singleton_append, List.nil_append]
  rw [spine_from_congr E seed (p + 1) p (N - t - 1) (t + 1)
    (fun c hc _ => succ_div_pow_of_not_dvd hnd (by omega))]

theorem spine_from_top_length (E : Prims) (seed : Bytes) {p t H : Nat} (hp : p < 2 ^ H)
    (hd : 2 ^ t ∣ p + 1) (hnd : ¬ 2 ^ (t + 1) ∣ p + 1) (hH : 1 ≤ H) :
    (spine_from E seed p t (H + 1 - t)).length < H := by
  have htH : t ≤ H := le_of_pow_dvd_succ hp hd
  have hb0 : ¬ (p / 2 ^ t % 2 = 1) := by
    have := bit_zero_of_not_dvd hd hnd
    omega
  have htop : p / 2 ^ H = 0 := Nat.div_eq_of_lt hp
  rcases Nat.eq_or_lt_of_le htH with h | h
  · subst h
    have e : t + 1 - t = 0 + 1 := by omega
    rw [e]
    simp only [spine_from, if_neg hb0]
    simp
    omega
  · have e : H + 1 - t = (1 + (H - t - 1)) + 1 := by omega
    rw [e, spine_from_append]
    have l1 := spine_from_length_le E seed p (1 + (H - t - 1)) t
    have hz : spine_from E seed p (t + (1 + (H - t - 1))) 1 = [] := by
      apply spine_from_zero_bits
      intro c hc1 hc2
      have : c = H := by omega
      rw [this, htop]
    rw [hz]
    have e3 : 1 + (H - t - 1) = (H - t - 1) + 1 := by omega
    rw [e3] at l1 ⊢
    simp only [spine_from, if_neg hb0, List.nil_append, List.append_nil] at l1 ⊢
    have l2 := spine_from_length_le E seed p (H - t - 1) (t + 1)
    omega

theorem KInv_keep (P : Params) (E : Prims) (seed : Bytes) {p a : Nat} {st : mss_state}
    (k : Nat → mss_node) (h : KInv P E seed p a st) : KInv P E seed p a { st with keep := k } :=
  ⟨h.auth, h.th, h.ret, h.fl, h.ri, h.si⟩

theorem KInv_next (P : Params) (E : Prims) (seed : Bytes) {p t : Nat} {st : mss_state}
    (hnd : ¬ 2 ^ (t + 1) ∣ p + 1) (h : KInv P E seed p (t + 1) st) :
    KInv P E seed (p + 1) 0 st := by
  have key : ∀ hh j, covered (p + 1) 0 hh j → covered p (t + 1) hh j := by
    intro hh j hc
    rcases hc with h1 | ⟨_, h2⟩
    · rcases Nat.eq_or_lt_of_le h1 with e | l
      · right
        refine ⟨e, ?_⟩
        by_contra hge
        apply hnd
        have : 2 ^ (t + 1) ∣ 2 ^ hh := Nat.pow_dvd_pow 2 (by omega)
        rw [← e]
        exact Nat.dvd_trans this (Nat.dvd_mul_left _ _)
      · left; omega
    · omega
  exact ⟨fun hh hlt hc => h.auth hh hlt (key _ _ hc), fun hh hlt hc => h.th hh hlt (key _ _ hc),
    fun hh j a1 a2 a3 hc => h.ret hh j a1 a2 a3 (key _ _ hc), h.fl, h.ri, h.si⟩

theorem keygen_step_spec (P : Params) (E : Prims) (seed : Bytes)
    (hH1 : 1 ≤ P.MSS_HEIGHT) (hH : P.MSS_HEIGHT ≤ 30) {p : Nat} (hp : p < 2 ^ P.MSS_HEIGHT)
    {acc : mss_state × Nat × Bytes × mss_node} (hacc : KAcc P E seed p acc) :
    KAcc P E seed (p + 1) (keygen_step P E acc p) := by
  have h30 : 2 ^ P.MSS_HEIGHT ≤ 2 ^ 30 := Nat.pow_le_pow_right (by norm_num) hH
  have hmax : p ≠ maxleaf_index := by
    unfold maxleaf_index
    norm_num at h30 ⊢
    omega
  obtain ⟨hd, hnd⟩ := count_trailing_zeros_spec (p + 1) (by omega)
    (by norm_num at h30 ⊢; omega)
  have htH : _count_trailing_zeros (p + 1) ≤ P.MSS_HEIGHT := le_of_pow_dvd_succ hp hd
  have hfs : E.fsgen acc.2.2.1 = (seed_at E seed (p + 1), r_at E seed p) := by
    rw [hacc.sd]; rfl
  have hleaf : _create_leaf E p (r_at E seed p) = tree_node E seed 0 (p / 2 ^ 0) := by
    simp [tree_node]
  have hk1 : KInv P E seed p (0 + 1) (_init_state P acc.1 (tree_node E seed 0 (p / 2 ^ 0))) := by
    have := init_state_KInv P E seed (a := 0) (j := p) (by omega) hp (by simp) hacc.inv
    simpa using this
  have hs1 : StackRep (_init_state P acc.1 (tree_node E seed 0 (p / 2 ^ 0))).keep acc.2.1
      (spine_from E seed p 0 (P.MSS_HEIGHT + 1 - 0)) := by
    rw [(init_state_frame P acc.1 _).2.2.1]
    exact hacc.stack
  obtain ⟨r1, r2, r3⟩ := keygen_reduce_spec P E seed (by omega) hp hd (P.MSS_HEIGHT + 1)
    (by omega) (_count_trailing_zeros (p + 1)) 0 _ acc.2.1 (by omega) hk1 hs1
  have hlen := spine_from_top_length E seed hp hd hnd hH1
  have hidx := r2.1
  unfold keygen_step
  simp only [hfs, hleaf, if_neg hmax]
  rw [if_pos (by rw [hidx]; exact hlen)]
  constructor
  · exact KInv_keep P E seed _ (KInv_next P E seed hnd r1)
  · simp only [_stack_push]
    rw [spine_from_succ E seed hd hnd (by omega), ← r3]
    exact StackRep_push _ r2
  · rfl
  · intro t _ h1 h2
    have := pow_dvd_unique hd hnd h1 h2
    subst this
    simp only
    rw [r3, succ_div_pow_of_dvd hd, Nat.add_sub_cancel]

/-! ### The whole key generation -/

theorem KAcc_init (P : Params) (E : Prims) (seed : Bytes) (node1 : mss_node) (state : mss_state) :
    KAcc P E seed 0 (init_state P state, 0, seed, node1) := by
  have hc : ∀ h j, ¬ covered 0 0 h j := by
    intro h j hc
    rcases hc with h1 | ⟨_, h2⟩
    · have : 0 < (j + 1) * 2 ^ h := Nat.mul_pos (by omega) (pow_pos (by norm_num) _)
      omega
    · omega
  constructor
  · constructor
    · intro h _ c; exact absurd c (hc _ _)
    · intro h _ c; exact absurd c (hc _ _)
    · intro h j _ _ _ c; exact absurd c (hc _ _)
    · intro h hh
      simp only [init_state, MSS_TREEHASH_SIZE, if_pos hh]
    · intro i hi
      simp only [init_state, if_pos hi]
    · rfl
  · have : spine_from E seed 0 0 (P.MSS_HEIGHT + 1) = [] := by
      apply spine_from_zero_bits
      intro c _ _
      simp
    rw [this]
    exact StackRep_nil _
  · rfl
  · intro t h; omega

theorem keygen_fold_spec (P : Params) (E : Prims) (seed : Bytes) (node1 : mss_node)
    (state : mss_state) (hH1 : 1 ≤ P.MSS_HEIGHT) (hH : P.MSS_HEIGHT ≤ 30) :
    ∀ n, n ≤ 2 ^ P.MSS_HEIGHT →
      KAcc P E seed n
        ((List.range n).foldl (keygen_step P E) (init_state P state, 0, seed, node1)) := by
  intro n
  induction n with
  | zero => intro _; exact KAcc_init P E seed node1 state
  | succ n ih =>
    intro hn
    rw [List.range_succ, List.foldl_append]
    exact keygen_step_spec P E seed hH1 hH (by omega) (ih (by omega))

theorem keygen_rounds_eq (P : Params) (hH : P.MSS_HEIGHT ≤ 30) :
    keygen_rounds P = 2 ^ P.MSS_HEIGHT := by
  unfold keygen_rounds
  rw [if_neg (by omega), Nat.one_shiftLeft]
  have : 0 < 2 ^ P.MSS_HEIGHT := pow_pos (by norm_num) _
  omega

theorem keygen_final (P : Params) (E : Prims) (seed : Bytes) (node1 : mss_node)
    (state : mss_state) (hH1 : 1 ≤ P.MSS_HEIGHT) (hH : P.MSS_HEIGHT ≤ 30) :
    KInv P E seed (2 ^ P.MSS_HEIGHT) 0 (mss_keygen_core P E seed node1 state).1
      ∧ (mss_keygen_core P E seed node1 state).2.1 = tree_node E seed P.MSS_HEIGHT 0
      ∧ (mss_keygen_core P E seed node1 state).2.2
          = (tree_node E seed P.MSS_HEIGHT 0).value := by
  have h := keygen_fold_spec P E seed node1 state hH1 hH (2 ^ P.MSS_HEIGHT) (le_refl _)
  have hn := h.nd P.MSS_HEIGHT (pow_pos (by norm_num) _) (dvd_refl _) (by
    intro hd
    have := Nat.le_of_dvd (pow_pos (by norm_num) _) hd
    rw [pow_succ] at this
    have : 0 < 2 ^ P.MSS_HEIGHT := pow_pos (by norm_num) _
    omega)
  rw [Nat.div_self (pow_pos (by norm_num) _)] at hn
  simp only [Nat.sub_self] at hn
  unfold mss_keygen_core
  rw [keygen_rounds_eq P hH]
  dsimp only
  exact ⟨h.inv, hn, by rw [hn]⟩

theorem two_pow_pos (n : Nat) : 0 < 2 ^ n := pow_pos (by norm_num) n

theorem next_pop_gt (m h : Nat) : m < next_pop m h := by
  unfold next_pop
  have h1 := Nat.div_add_mod m (2 ^ (h + 1))
  have h2 := Nat.mod_lt m (two_pow_pos (h + 1))
  have : (m / 2 ^ (h + 1) + 1) * 2 ^ (h + 1) = 2 ^ (h + 1) * (m / 2 ^ (h + 1)) + 2 ^ (h + 1) := by
    ring
  omega

theorem next_pop_le (m h : Nat) : next_pop m h ≤ m + 2 ^ (h + 1) := by
  unfold next_pop
  have h1 := Nat.div_add_mod m (2 ^ (h + 1))
  have : (m / 2 ^ (h + 1) + 1) * 2 ^ (h + 1) = 2 ^ (h + 1) * (m / 2 ^ (h + 1)) + 2 ^ (h + 1) := by
    ring
  omega

theorem next_pop_dvd (m h : Nat) : 2 ^ (h + 1) ∣ next_pop m h := Dvd.intro_left _ rfl

theorem next_pop_ge (m h : Nat) : 2 ^ (h + 1) ≤ next_pop m h := by
  unfold next_pop
  have : (m / 2 ^ (h + 1) + 1) * 2 ^ (h + 1)
      = (m / 2 ^ (h + 1)) * 2 ^ (h + 1) + 2 ^ (h + 1) := by ring
  omega

theorem job_index_mul (m h : Nat) : job_index m h * 2 ^ h = next_pop m h + 2 ^ h := by
  unfold job_index next_pop
  rw [pow_succ]
  ring

theorem job_index_odd (m h : Nat) : job_index m h % 2 = 1 := by
  unfold job_index; omega

theorem job_index_ge (m h : Nat) : 3 ≤ job_index m h := by
  unfold job_index; omega

theorem next_pop_of_dvd {m h : Nat} (hd : 2 ^ (h + 1) ∣ m + 1) : next_pop m h = m + 1 := by
  unfold next_pop
  exact div_succ_mul_of_dvd_succ hd

theorem div_succ_of_dvd {m h : Nat} (hd : 2 ^ (h + 1) ∣ m + 1) :
    (m + 1) / 2 ^ (h + 1) = m / 2 ^ (h + 1) + 1 := succ_div_pow_of_dvd hd

theorem div_succ_of_not_dvd {m h : Nat} (hd : ¬ 2 ^ (h + 1) ∣ m + 1) :
    (m + 1) / 2 ^ (h + 1) = m / 2 ^ (h + 1) := by
  rw [Nat.succ_div, if_neg hd]; rfl

theorem next_pop_succ_of_dvd {m h : Nat} (hd : 2 ^ (h + 1) ∣ m + 1) :
    next_pop (m + 1) h = m + 1 + 2 ^ (h + 1) := by
  have h1 := next_pop_of_dvd hd
  unfold next_pop at h1 ⊢
  rw [div_succ_of_dvd hd]
  have : (m / 2 ^ (h + 1) + 1 + 1) * 2 ^ (h + 1)
      = (m / 2 ^ (h + 1) + 1) * 2 ^ (h + 1) + 2 ^ (h + 1) := by ring
  omega

theorem next_pop_succ_of_not_dvd {m h : Nat} (hd : ¬ 2 ^ (h + 1) ∣ m + 1) :
    next_pop (m + 1) h = next_pop m h := by
  unfold next_pop
  rw [div_succ_of_not_dvd hd]

theorem job_index_succ_of_dvd {m h : Nat} (hd : 2 ^ (h + 1) ∣ m + 1) :
    job_index (m + 1) h = job_index m h + 2 := by
  unfold job_index
  rw [div_succ_of_dvd hd]
  ring

theorem job_index_succ_of_not_dvd {m h : Nat} (hd : ¬ 2 ^ (h + 1) ∣ m + 1) :
    job_index (m + 1) h = job_index m h := by
  unfold job_index
  rw [div_succ_of_not_dvd hd]

theorem th_cnt_fin {st : mss_state} {m h : Nat} (hf : st.treehash_state h = TREEHASH_FINISHED) :
    th_cnt st m h = 2 ^ h := by
  unfold th_cnt; rw [if_pos hf]

theorem th_cnt_run {st : mss_state} {m h : Nat} (hf : ¬ st.treehash_state h = TREEHASH_FINISHED) :
    th_cnt st m h = st.treehash_seed h - job_index m h * 2 ^ h := by
  unfold th_cnt; rw [if_neg hf]

/-! ### Portions of the shared stack -/

theorem portions_append (E : Prims) (seed : Bytes) (st : mss_state) :
    ∀ n1 b n2, portions E seed st b (n1 + n2)
      = portions E seed st b n1 ++ portions E seed st (b + n1) n2 := by
  intro n1
  induction n1 with
  | zero => intro b n2; simp [portions]
  | succ n1 ih =>
    intro b n2
    have e : n1 + 1 + n2 = (n1 + n2) + 1 := by omega
    rw [e]
    simp only [portions]
    rw [ih (b + 1) n2]
    have e2 : b + 1 + n1 = b + (n1 + 1) := by omega
    rw [e2, List.append_assoc]

theorem portions_congr (E : Prims) (seed : Bytes) (st st2 : mss_state) :
    ∀ n b, (∀ c, b ≤ c → c < b + n → st2.treehash_state c = st.treehash_state c
        ∧ st2.treehash_seed c = st.treehash_seed c) →
      portions E seed st2 b n = portions E seed st b n := by
  intro n
  induction n with
  | zero => intro b _; rfl
  | succ n ih =>
    intro b hz
    simp only [portions]
    rw [ih (b + 1) (fun c hc1 hc2 => hz c (by omega) (by omega))]
    obtain ⟨h1, h2⟩ := hz b (le_refl _) (by omega)
    unfold portion
    rw [h1, h2]

theorem portions_nil (E : Prims) (seed : Bytes) (st : mss_state) :
    ∀ n b, (∀ c, b ≤ c → c < b + n → st.treehash_state c = TREEHASH_FINISHED) →
      portions E seed st b n = [] := by
  intro n
  induction n with
  | zero => intro b _; rfl
  | succ n ih =>
    intro b hz
    simp only [portions]
    rw [ih (b + 1) (fun c hc1 hc2 => hz c (by omega) (by omega))]
    unfold portion
    rw [if_pos (hz b (le_refl _) (by omega))]
    rfl

theorem portions_split (E : Prims) (seed : Bytes) (st : mss_state) {k T : Nat} (hk : k < T) :
    portions E seed st 0 T
      = portions E seed st 0 k ++ (portion E seed st k ++ portions E seed st (k + 1) (T - k - 1)) := by
  have e : T = k + ((T - k - 1) + 1) := by omega
  conv_lhs => rw [e]
  rw [portions_append]
  simp only [portions, Nat.zero_add]

theorem spine_from_height (E : Prims) (seed : Bytes) (p : Nat) :
    ∀ n b x, b + n ≤ 256 → x ∈ spine_from E seed p b n → b ≤ x.height := by
  intro n
  induction n with
  | zero => intro b x _ hx; simp [spine_from] at hx
  | succ n ih =>
    intro b x hb hx
    simp only [spine_from, List.mem_append] at hx
    rcases hx with h | h
    · split at h
      · simp only [List.mem_singleton] at h
        rw [h, tree_node_height E seed b _ (by omega)]
      · simp at h
    · have := ih (b + 1) x (by omega) h
      omega

theorem spine_from_skip (E : Prims) (seed : Bytes) {p a : Nat} (hd : 2 ^ a ∣ p) :
    ∀ n, a ≤ n → spine_from E seed p 0 n = spine_from E seed p a (n - a) := by
  intro n han
  have e : n = a + (n - a) := by omega
  conv_lhs => rw [e]
  rw [spine_from_append, Nat.zero_add]
  have : spine_from E seed p 0 a = [] := by
    apply spine_from_zero_bits
    intro c _ hc
    obtain ⟨k, hk⟩ := hd
    have e2 : 2 ^ a = 2 ^ c * (2 * 2 ^ (a - c - 1)) := by
      rw [← pow_succ', ← pow_add]; congr 1; omega
    rw [hk, e2, mul_assoc, Nat.mul_div_cancel_left _ (two_pow_pos c), mul_assoc]
    omega
  rw [this, List.nil_append]

/-! ### The state byte of a treehash instance -/

theorem byte_get : ∀ t, t < 32 → (TREEHASH_MASK &&& (32 + t) = t ∧ TREEHASH_MASK &&& (64 + t) = t) := by
  decide

theorem byte_set : ∀ t, t < 32 → ∀ u, u < 32 →
    (((32 + t) &&& 0xE0) ||| (TREEHASH_MASK &&& u) = 32 + u
      ∧ ((64 + t) &&& 0xE0) ||| (TREEHASH_MASK &&& u) = 64 + u) := by
  decide

theorem byte_running : ∀ t, t < 32 →
    ((32 + t) &&& TREEHASH_RUNNING = 0 ∧ (64 + t) &&& TREEHASH_RUNNING ≠ 0) := by
  decide

theorem get_tailheight_eq {st : mss_state} {k b t : Nat} (hb : b = 32 ∨ b = 64) (ht : t < 32)
    (hs : st.treehash_state k = b + t) : _treehash_get_tailheight st k = t := by
  unfold _treehash_get_tailheight
  rw [hs]
  rcases hb with h | h <;> rw [h]
  · exact (byte_get t ht).1
  · exact (byte_get t ht).2

theorem set_tailheight_eq {st : mss_state} {k b t u : Nat} (hb : b = 32 ∨ b = 64) (ht : t < 32)
    (hu : u < 32) (hs : st.treehash_state k = b + t) :
    _treehash_set_tailheight st k u
      = { st with treehash_state := Function.update st.treehash_state k (b + u) } := by
  unfold _treehash_set_tailheight
  dsimp only
  rw [hs]
  rcases hb with h | h <;> rw [h]
  · rw [(byte_set t ht u hu).1]
  · rw [(byte_set t ht u hu).2]

/-! ### The stack loop of `_treehash_update` -/

theorem dvd_succ_of_bit {q t : Nat} (hd : 2 ^ t ∣ q + 1) (hb : (q / 2 ^ t) % 2 = 1) :
    2 ^ (t + 1) ∣ q + 1 := by
  have h1 := div_succ_mul_of_dvd_succ hd
  have h2 : (q / 2 ^ t + 1) % 2 = 0 := by omega
  obtain ⟨k, hk⟩ := Nat.dvd_of_mod_eq_zero h2
  rw [hk] at h1
  refine ⟨k, ?_⟩
  rw [← h1, pow_succ]
  ring

theorem treehash_stack_loop_spec (E : Prims) (seed : Bytes) (k q b : Nat) (hk : k < 32)
    (hb : b = 32 ∨ b = 64) (Rest : List mss_node) (hRest : ∀ x, x ∈ Rest → k ≤ x.height + 1) :
    ∀ fuel t st, fuel = st.stack_index → (t + 1 ≤ k ∨ t = 0) → 2 ^ t ∣ q + 1 →
      st.treehash_state k = b + t →
      StackRep st.stack st.stack_index (spine_from E seed q t (k - 1 - t) ++ Rest) →
      ∃ t', t ≤ t' ∧ (t' + 1 ≤ k ∨ t' = 0) ∧ 2 ^ t' ∣ q + 1
        ∧ (t' + 1 < k → ¬ 2 ^ (t' + 1) ∣ q + 1)
        ∧ treehash_stack_loop E k fuel (st, tree_node E seed t (q / 2 ^ t))
            = ({ st with
                  stack_index := st.stack_index - (t' - t)
                  treehash_state := Function.update st.treehash_state k (b + t') },
                tree_node E seed t' (q / 2 ^ t'))
        ∧ StackRep st.stack (st.stack_index - (t' - t))
            (spine_from E seed q t' (k - 1 - t') ++ Rest) := by
  intro fuel
  induction fuel with
  | zero =>
    intro t st hf ht hd hs hrep
    refine ⟨t, le_refl _, ht, hd, ?_, ?_, ?_⟩
    · intro hlt hd2
      have hbit := div_pow_mod_two_of_dvd_succ hd2 t (by omega)
      have e : k - 1 - t = (k - 1 - t - 1) + 1 := by omega
      rw [e] at hrep
      simp only [spine_from, if_pos hbit] at hrep
      have := hrep.1
      simp at this
      omega
    · simp only [treehash_stack_loop, Nat.sub_self, Nat.sub_zero]
      rw [← hs, Function.update_eq_self]
    · simpa using hrep
  | succ fuel ih =>
    intro t st hf ht hd hs hrep
    have ht32 : t < 32 := by omega
    have hget : _treehash_get_tailheight st k = t := get_tailheight_eq hb ht32 hs
    by_cases hc : t + 1 < k ∧ 2 ^ (t + 1) ∣ q + 1
    · obtain ⟨hc1, hc2⟩ := hc
      have hbit := div_pow_mod_two_of_dvd_succ hc2 t (by omega)
      have e : k - 1 - t = (k - 1 - (t + 1)) + 1 := by omega
      have hsp : spine_from E seed q t (k - 1 - t)
          = tree_node E seed t (q / 2 ^ t - 1) :: spine_from E seed q (t + 1) (k - 1 - (t + 1)) := by
        rw [e]
        simp only [spine_from, if_pos hbit, List.singleton_append]
      rw [hsp, List.cons_append] at hrep
      obtain ⟨hp1, hp2, hp3⟩ := StackRep_pop hrep
      have htop : (st.stack (st.stack_index - 1)).height = t := by
        rw [hp1, tree_node_height E seed t _ (by omega)]
      have hpar : _get_parent E (st.stack (st.stack_index - 1)) (tree_node E seed t (q / 2 ^ t))
          = tree_node E seed (t + 1) (q / 2 ^ (t + 1)) := by
        rw [hp1, get_parent_tree E seed t _ hbit, Nat.div_div_eq_div_mul, ← pow_succ]
      have hs1 : ({ st with stack_index := st.stack_index - 1 } : mss_state).treehash_state k
          = b + t := hs
      have hstep : treehash_stack_loop E k (fuel + 1) (st, tree_node E seed t (q / 2 ^ t))
          = treehash_stack_loop E k fuel
              ({ st with
                  stack_index := st.stack_index - 1
                  treehash_state := Function.update st.treehash_state k (b + (t + 1)) },
                tree_node E seed (t + 1) (q / 2 ^ (t + 1))) := by
        simp only [treehash_stack_loop]
        rw [if_pos ⟨hp3, by rw [hget, htop], by rw [hget]; exact hc1⟩]
        simp only [_stack_pop, hpar]
        rw [get_tailheight_eq hb ht32 hs1, set_tailheight_eq hb ht32 (by omega) hs1]
      obtain ⟨t', a1, a2, a3, a4, a5, a6⟩ := ih (t + 1)
        { st with
          stack_index := st.stack_index - 1
          treehash_state := Function.update st.treehash_state k (b + (t + 1)) }
        (by simp; omega) (by omega) hc2 (by simp) hp2
      refine ⟨t', by omega, a2, a3, a4, ?_, ?_⟩
      · rw [hstep, a5]
        simp only [Function.update_idem]
        have : st.stack_index - 1 - (t' - (t + 1)) = st.stack_index - (t' - t) := by omega
        rw [this]
      · have : st.stack_index - 1 - (t' - (t + 1)) = st.stack_index - (t' - t) := by omega
        simpa [this] using a6
    · refine ⟨t, le_refl _, ht, hd, fun hlt hd2 => hc ⟨hlt, hd2⟩, ?_, by simpa using hrep⟩
      have hexit : ¬ (0 < st.stack_index
          ∧ _treehash_get_tailheight st k = (st.stack (st.stack_index - 1)).height
          ∧ _treehash_get_tailheight st k + 1 < k) := by
        rw [hget]
        rintro ⟨c1, c2, c3⟩
        have hnd : ¬ 2 ^ (t + 1) ∣ q + 1 := fun hd2 => hc ⟨c3, hd2⟩
        have hb0 : ¬ (q / 2 ^ t % 2 = 1) := by
          have := bit_zero_of_not_dvd hd hnd
          omega
        have e : k - 1 - t = (k - 1 - t - 1) + 1 := by omega
        rw [e] at hrep
        simp only [spine_from, if_neg hb0, List.nil_append] at hrep
        obtain ⟨r1, r2⟩ := hrep
        have hlen : 0 < (spine_from E seed q (t + 1) (k - 1 - t - 1) ++ Rest).length := by omega
        have h0 := r2 0 hlen
        simp only [Nat.sub_zero] at h0
        have hmem : (spine_from E seed q (t + 1) (k - 1 - t - 1) ++ Rest).getD 0 default
            ∈ spine_from E seed q (t + 1) (k - 1 - t - 1) ++ Rest := by
          rw [List.getD_eq_getElem _ _ hlen]
          exact List.getElem_mem _
        rw [← h0, List.mem_append] at hmem
        rcases hmem with hm | hm
        · have := spine_from_height E seed q _ _ _ (by omega) hm
          omega
        · have := hRest _ hm
          omega
      simp only [treehash_stack_loop]
      rw [if_neg hexit]
      simp only [Nat.sub_self, Nat.sub_zero]
      rw [← hs, Function.update_eq_self]

/-! ### `_treehash_update` -/

theorem treehash_save_frame (st : mss_state) (k : Nat) (leaf : mss_node) :
    (treehash_save st k leaf).treehash_state = st.treehash_state
    ∧ (treehash_save st k leaf).treehash_seed = st.treehash_seed
    ∧ (treehash_save st k leaf).treehash = st.treehash
    ∧ (treehash_save st k leaf).stack = st.stack
    ∧ (treehash_save st k leaf).stack_index = st.stack_index
    ∧ (treehash_save st k leaf).auth = st.auth
    ∧ (treehash_save st k leaf).keep = st.keep
    ∧ (treehash_save st k leaf).retain = st.retain
    ∧ (treehash_save st k leaf).retain_index = st.retain_index := by
  unfold treehash_save
  dsimp only
  split_ifs <;> exact ⟨rfl, rfl, rfl, rfl, rfl, rfl, rfl, rfl, rfl⟩

theorem treehash_update_loop (P : Params) (E : Prims) (seed : Bytes) (st : mss_state)
    (k q b : Nat) (hk : k < 32) (hb : b = 32 ∨ b = 64)
    (hflag : st.treehash_state k = b)
    (hS : P.MSS_STACK_SIZE ≠ 0 ∨ k ≤ 1)
    (Rest : List mss_node) (hRest : ∀ x, x ∈ Rest → k ≤ x.height + 1)
    (hrep : StackRep st.stack st.stack_index (spine_from E seed q 0 (k - 1) ++ Rest)) :
    ∃ t', (t' + 1 ≤ k ∨ t' = 0) ∧ 2 ^ t' ∣ q + 1 ∧ (t' + 1 < k → ¬ 2 ^ (t' + 1) ∣ q + 1)
      ∧ (if P.MSS_STACK_SIZE ≠ 0 then
            treehash_stack_loop E k
              (_treehash_set_tailheight (update_entry st k q (tree_node E seed 0 q)) k 0).stack_index
              (_treehash_set_tailheight (update_entry st k q (tree_node E seed 0 q)) k 0,
                tree_node E seed 0 q)
          else (_treehash_set_tailheight (update_entry st k q (tree_node E seed 0 q)) k 0,
                tree_node E seed 0 q))
          = ({ update_entry st k q (tree_node E seed 0 q) with
                stack_index := st.stack_index - t'
                treehash_state := Function.update st.treehash_state k (b + t') },
              tree_node E seed t' (q / 2 ^ t'))
      ∧ StackRep st.stack (st.stack_index - t') (spine_from E seed q t' (k - 1 - t') ++ Rest) := by
  obtain ⟨g1, g2, g3, g4, g5, g6, g7, g8, g9⟩ := treehash_save_frame st k (tree_node E seed 0 q)
  have hent : (update_entry st k q (tree_node E seed 0 q)).treehash_state k = b + 0 := by
    simp only [update_entry, g1, hflag, Nat.add_zero]
  have hset := set_tailheight_eq (u := 0) hb (by omega) (by omega) hent
  have hst3 : _treehash_set_tailheight (update_entry st k q (tree_node E seed 0 q)) k 0
      = update_entry st k q (tree_node E seed 0 q) := by
    rw [hset, ← hent, Function.update_eq_self]
  rw [hst3]
  have hstk : (update_entry st k q (tree_node E seed 0 q)).stack = st.stack := by
    simp only [update_entry, g4]
  have hidx : (update_entry st k q (tree_node E seed 0 q)).stack_index = st.stack_index := by
    simp only [update_entry, g5]
  have hts : (update_entry st k q (tree_node E seed 0 q)).treehash_state = st.treehash_state := by
    simp only [update_entry, g1]
  by_cases hs0 : P.MSS_STACK_SIZE ≠ 0
  · rw [if_pos hs0]
    have hrep2 : StackRep (update_entry st k q (tree_node E seed 0 q)).stack
        (update_entry st k q (tree_node E seed 0 q)).stack_index
        (spine_from E seed q 0 (k - 1 - 0) ++ Rest) := by
      rw [hstk, hidx]; simpa using hrep
    obtain ⟨t', a1, a2, a3, a4, a5, a6⟩ := treehash_stack_loop_spec E seed k q b hk hb Rest hRest
      (update_entry st k q (tree_node E seed 0 q)).stack_index 0
      (update_entry st k q (tree_node E seed 0 q)) rfl (Or.inr rfl) (by simp) hent hrep2
    refine ⟨t', a2, a3, a4, ?_, ?_⟩
    · have e0 : tree_node E seed 0 (q / 2 ^ 0) = tree_node E seed 0 q := by simp
      rw [e0] at a5
      rw [a5, hidx, hts]
      simp
    · rw [hstk, hidx] at a6
      simpa using a6
  · rw [if_neg hs0]
    have hk1 : k ≤ 1 := by
      rcases hS with h | h
      · exact absurd h hs0
      · exact h
    refine ⟨0, Or.inr rfl, by simp, fun h => by omega, ?_, by simpa using hrep⟩
    simp only [Nat.sub_zero, Nat.add_zero, pow_zero, Nat.div_one]
    rw [← hflag, Function.update_eq_self, ← hts, ← hidx]

/-! ### The last step of `_treehash_update` -/

theorem treehash_finish_spec (P : Params) (E : Prims) (seed : Bytes) (st4 : mss_state)
    (k q b t' : Nat) (hk : k < 32) (hb : b = 32 ∨ b = 64)
    (hS : P.MSS_STACK_SIZE ≠ 0 ∨ k ≤ 1)
    (Rest : List mss_node)
    (hflag : st4.treehash_state k = b + t')
    (ht1 : t' + 1 ≤ k ∨ t' = 0) (ht2 : 2 ^ t' ∣ q + 1)
    (ht3 : t' + 1 < k → ¬ 2 ^ (t' + 1) ∣ q + 1)
    (hrep : StackRep st4.stack st4.stack_index (spine_from E seed q t' (k - 1 - t') ++ Rest))
    (hnew : k = 0 → b = 32)
    (hrun : 1 ≤ k → 2 ^ k ∣ q + 1 →
      b = 64 ∧ st4.treehash k = tree_node E seed (k - 1) (q / 2 ^ (k - 1) - 1)) :
    (treehash_finish P E st4 k (tree_node E seed t' (q / 2 ^ t'))).treehash_seed = st4.treehash_seed
    ∧ (treehash_finish P E st4 k (tree_node E seed t' (q / 2 ^ t'))).treehash_state
        = Function.update st4.treehash_state k
            (if 2 ^ k ∣ q + 1 then TREEHASH_FINISHED else TREEHASH_RUNNING)
    ∧ (treehash_finish P E st4 k (tree_node E seed t' (q / 2 ^ t'))).treehash
        = (if 2 ^ k ∣ q + 1 then Function.update st4.treehash k (tree_node E seed k (q / 2 ^ k))
           else if 1 ≤ k ∧ 2 ^ (k - 1) ∣ q + 1 then
             Function.update st4.treehash k (tree_node E seed (k - 1) (q / 2 ^ (k - 1)))
           else st4.treehash)
    ∧ StackRep (treehash_finish P E st4 k (tree_node E seed t' (q / 2 ^ t'))).stack
        (treehash_finish P E st4 k (tree_node E seed t' (q / 2 ^ t'))).stack_index
        (spine_from E seed (q + 1) 0 (k - 1) ++ Rest)
    ∧ (treehash_finish P E st4 k (tree_node E seed t' (q / 2 ^ t'))).store = st4.store
    ∧ (treehash_finish P E st4 k (tree_node E seed t' (q / 2 ^ t'))).auth = st4.auth
    ∧ (treehash_finish P E st4 k (tree_node E seed t' (q / 2 ^ t'))).keep = st4.keep
    ∧ (treehash_finish P E st4 k (tree_node E seed t' (q / 2 ^ t'))).retain = st4.retain
    ∧ (treehash_finish P E st4 k (tree_node E seed t' (q / 2 ^ t'))).retain_index
        = st4.retain_index := by
  have ht32 : t' < 32 := by omega
  have htail : _treehash_get_tailheight st4 k = t' := get_tailheight_eq hb ht32 hflag
  unfold treehash_finish
  rw [htail]
  by_cases hpush : t' + 1 < k
  · -- the node goes to the stack
    rw [if_pos hpush]
    have hS0 : P.MSS_STACK_SIZE ≠ 0 := by
      rcases hS with h | h
      · exact h
      · omega
    have hnd := ht3 hpush
    have hndk : ¬ 2 ^ k ∣ q + 1 := fun h =>
      hnd (Nat.dvd_trans (Nat.pow_dvd_pow 2 (by omega)) h)
    have hndk1 : ¬ (1 ≤ k ∧ 2 ^ (k - 1) ∣ q + 1) := fun h =>
      hnd (Nat.dvd_trans (Nat.pow_dvd_pow 2 (by omega)) h.2)
    rw [if_pos hS0, if_neg hndk, if_neg hndk, if_neg hndk1]
    refine ⟨rfl, rfl, rfl, ?_, rfl, rfl, rfl, rfl, rfl⟩
    have e := spine_from_succ E seed ht2 hnd (N := k - 1) (by omega)
    rw [e, List.cons_append]
    exact StackRep_push _ hrep
  · rw [if_neg hpush]
    have hnil : spine_from E seed q t' (k - 1 - t') = [] := by
      have : k - 1 - t' = 0 := by omega
      rw [this]; rfl
    rw [hnil, List.nil_append] at hrep
    have hnil2 : spine_from E seed (q + 1) 0 (k - 1) = [] := by
      apply spine_from_zero_bits
      intro c _ hc
      exact succ_bits_low ht2 c (by omega)
    rw [hnil2, List.nil_append]
    rw [hflag]
    rw [tree_node_index]
    rw [Nat.and_one_is_mod]
    by_cases hk0 : k = 0
    · -- level 0: the leaf is the node
      have ht0 : t' = 0 := by omega
      subst hk0
      subst ht0
      have hb32 := hnew rfl
      subst hb32
      have hd1 : 2 ^ 0 ∣ q + 1 := by simp
      have hcond : ¬ ((32 + 0) &&& TREEHASH_RUNNING ≠ 0 ∧ q / 2 ^ 0 % 2 ≠ 0) := by
        intro h; exact h.1 (byte_running 0 (by norm_num)).1
      rw [if_neg hcond, if_pos hd1, if_pos hd1]
      dsimp only
      rw [tree_node_height E seed 0 _ (by norm_num), if_pos rfl]
      have e0 : q / 2 ^ 0 = q := by simp
      rw [e0]
      exact ⟨rfl, rfl, rfl, hrep, rfl, rfl, rfl, rfl, rfl⟩
    · have htk : t' = k - 1 := by omega
      have hk1 : 1 ≤ k := by omega
      by_cases hdk : 2 ^ k ∣ q + 1
      · -- the right half: fold and finish
        obtain ⟨hb64, hnode⟩ := hrun hk1 hdk
        have hodd : (q / 2 ^ t') % 2 = 1 :=
          div_pow_mod_two_of_dvd_succ hdk t' (by omega)
        have hrunbit : (b + t') &&& TREEHASH_RUNNING ≠ 0 := by
          rw [hb64]; exact (byte_running t' ht32).2
        have hcond : (b + t') &&& TREEHASH_RUNNING ≠ 0 ∧ q / 2 ^ t' % 2 ≠ 0 :=
          ⟨hrunbit, by omega⟩
        rw [if_pos hcond]
        dsimp only
        have hpar : _get_parent E (st4.treehash k) (tree_node E seed t' (q / 2 ^ t'))
            = tree_node E seed k (q / 2 ^ k) := by
          rw [hnode, ← htk, get_parent_tree E seed t' _ hodd]
          have e1 : t' + 1 = k := by omega
          rw [e1]
          congr 1
          rw [← e1, pow_succ, Nat.div_div_eq_div_mul]
        rw [hpar, tree_node_height E seed k _ (by omega), if_pos rfl]
        rw [set_tailheight_eq (u := t' + 1) hb ht32 (by omega) hflag, if_pos hdk, if_pos hdk]
        refine ⟨rfl, ?_, rfl, hrep, rfl, rfl, rfl, rfl, rfl⟩
        show Function.update (Function.update st4.treehash_state k (b + (t' + 1))) k
          TREEHASH_FINISHED = _
        rw [Function.update_idem]
      · -- the left half is kept
        have heven : (q / 2 ^ t') % 2 = 0 := by
          apply bit_zero_of_not_dvd ht2
          have e1 : t' + 1 = k := by omega
          rw [e1]; exact hdk
        have hcond : ¬ ((b + t') &&& TREEHASH_RUNNING ≠ 0 ∧ q / 2 ^ t' % 2 ≠ 0) := by
          intro h; exact h.2 heven
        rw [if_neg hcond]
        dsimp only
        have hne : (tree_node E seed t' (q / 2 ^ t')).height ≠ k := by
          rw [tree_node_height E seed t' _ (by omega)]; omega
        rw [if_neg hne]
        have hd1 : 1 ≤ k ∧ 2 ^ (k - 1) ∣ q + 1 := ⟨hk1, by rw [← htk]; exact ht2⟩
        rw [if_neg hdk, if_neg hdk, if_pos hd1, ← htk]
        exact ⟨rfl, rfl, rfl, hrep, rfl, rfl, rfl, rfl, rfl⟩

/-- What one call of `_treehash_update` on the instance `k` does, when the leaf it
starts from is leaf `q` of the tree. -/
theorem treehash_update_spec (P : Params) (E : Prims) (seed : Bytes) (st : mss_state)
    (k q b s : Nat) (sd ri0 : Bytes) (hk : k < 32) (hb : b = 32 ∨ b = 64)
    (hflag : st.treehash_state k = b) (hq : st.treehash_seed k = q)
    (hleaf : treehash_leaf P E st k s sd ri0 = tree_node E seed 0 q)
    (hS : P.MSS_STACK_SIZE ≠ 0 ∨ k ≤ 1)
    (Rest : List mss_node) (hRest : ∀ x, x ∈ Rest → k ≤ x.height + 1)
    (hrep : StackRep st.stack st.stack_index (spine_from E seed q 0 (k - 1) ++ Rest))
    (hnew : k = 0 → b = 32)
    (hrun : 1 ≤ k → 2 ^ k ∣ q + 1 →
      b = 64 ∧ st.treehash k = tree_node E seed (k - 1) (q / 2 ^ (k - 1) - 1)) :
    (_treehash_update P E st k s sd ri0).treehash_seed
        = Function.update st.treehash_seed k (q + 1)
    ∧ (_treehash_update P E st k s sd ri0).treehash_state
        = Function.update st.treehash_state k
            (if 2 ^ k ∣ q + 1 then TREEHASH_FINISHED else TREEHASH_RUNNING)
    ∧ (_treehash_update P E st k s sd ri0).treehash
        = (if 2 ^ k ∣ q + 1 then Function.update st.treehash k (tree_node E seed k (q / 2 ^ k))
           else if 1 ≤ k ∧ 2 ^ (k - 1) ∣ q + 1 then
             Function.update st.treehash k (tree_node E seed (k - 1) (q / 2 ^ (k - 1)))
           else st.treehash)
    ∧ StackRep (_treehash_update P E st k s sd ri0).stack
        (_treehash_update P E st k s sd ri0).stack_index
        (spine_from E seed (q + 1) 0 (k - 1) ++ Rest)
    ∧ (_treehash_update P E st k s sd ri0).store
        = (treehash_save st k (tree_node E seed 0 q)).store
    ∧ (_treehash_update P E st k s sd ri0).auth = st.auth
    ∧ (_treehash_update P E st k s sd ri0).keep = st.keep
    ∧ (_treehash_update P E st k s sd ri0).retain = st.retain
    ∧ (_treehash_update P E st k s sd ri0).retain_index = st.retain_index := by
  obtain ⟨t', a1, a2, a3, a4, a5⟩ :=
    treehash_update_loop P E seed st k q b hk hb hflag hS Rest hRest hrep
  obtain ⟨g1, g2, g3, g4, g5, g6, g7, g8, g9⟩ := treehash_save_frame st k (tree_node E seed 0 q)
  have hupd : _treehash_update P E st k s sd ri0
      = treehash_finish P E
          { update_entry st k q (tree_node E seed 0 q) with
            stack_index := st.stack_index - t'
            treehash_state := Function.update st.treehash_state k (b + t') }
          k (tree_node E seed t' (q / 2 ^ t')) := by
    have h0 : _treehash_update P E st k s sd ri0
        = treehash_finish P E
            (if P.MSS_STACK_SIZE ≠ 0 then
              treehash_stack_loop E k
                (_treehash_set_tailheight (update_entry st k q (tree_node E seed 0 q)) k 0).stack_index
                (_treehash_set_tailheight (update_entry st k q (tree_node E seed 0 q)) k 0,
                  tree_node E seed 0 q)
            else (_treehash_set_tailheight (update_entry st k q (tree_node E seed 0 q)) k 0,
                  tree_node E seed 0 q)).1 k
            (if P.MSS_STACK_SIZE ≠ 0 then
              treehash_stack_loop E k
                (_treehash_set_tailheight (update_entry st k q (tree_node E seed 0 q)) k 0).stack_index
                (_treehash_set_tailheight (update_entry st k q (tree_node E seed 0 q)) k 0,
                  tree_node E seed 0 q)
            else (_treehash_set_tailheight (update_entry st k q (tree_node E seed 0 q)) k 0,
                  tree_node E seed 0 q)).2 := by
      unfold _treehash_update
      rw [hleaf, hq]
      rfl
    rw [h0, a4]
  rw [hupd]
  have hfin := treehash_finish_spec P E seed
    { update_entry st k q (tree_node E seed 0 q) with
      stack_index := st.stack_index - t'
      treehash_state := Function.update st.treehash_state k (b + t') }
    k q b t' hk hb hS Rest (by simp) a1 a2 a3
    (by
      show StackRep (update_entry st k q (tree_node E seed 0 q)).stack (st.stack_index - t') _
      have : (update_entry st k q (tree_node E seed 0 q)).stack = st.stack := by
        simp only [update_entry, g4]
      rw [this]; exact a5)
    hnew
    (by
      intro h1 h2
      have : (update_entry st k q (tree_node E seed 0 q)).treehash = st.treehash := by
        simp only [update_entry, g3]
      show b = 64 ∧ (update_entry st k q (tree_node E seed 0 q)).treehash k = _
      rw [this]; exact hrun h1 h2)
  obtain ⟨f1, f2, f3, f4, f5, f6, f7, f8, f9⟩ := hfin
  refine ⟨?_, ?_, ?_, f4, ?_, ?_, ?_, ?_, ?_⟩
  · rw [f1]
    show Function.update (treehash_save st k (tree_node E seed 0 q)).treehash_seed k (q + 1) = _
    rw [g2]
  · rw [f2]
    show Function.update (Function.update st.treehash_state k (b + t')) k _ = _
    rw [Function.update_idem]
  · rw [f3]
    show (if 2 ^ k ∣ q + 1 then
        Function.update (treehash_save st k (tree_node E seed 0 q)).treehash k _
      else if 1 ≤ k ∧ 2 ^ (k - 1) ∣ q + 1 then
        Function.update (treehash_save st k (tree_node E seed 0 q)).treehash k _
      else (treehash_save st k (tree_node E seed 0 q)).treehash) = _
    rw [g3]
  · rw [f5]; rfl
  · rw [f6]; exact g6
  · rw [f7]; exact g7
  · rw [f8]; exact g8
  · rw [f9]; exact g9

/-! ### The leaf of `_treehash_update` -/

/-- When the fast-forward loop runs from the rolling seed of leaf `s + 1`, the leaf
recomputed for index `q > s` is leaf `q` of the tree. -/
theorem create_leaf_ff (E : Prims) (seed : Bytes) (s q : Nat) (ri0 : Bytes) (hq : s < q) :
    _create_leaf E q (fsgen_loop E (q - s) (seed_at E seed (s + 1), ri0)).2
      = tree_node E seed 0 q := by
  have e : q - s = (q - s - 1) + 1 := by omega
  rw [e, fsgen_loop_seed_at]
  have e2 : s + 1 + (q - s - 1) = q := by omega
  rw [e2]
  rfl

theorem leaf_eq_of_value {E : Prims} {seed : Bytes} {q : Nat} {v : Bytes}
    (hv : v = (tree_node E seed 0 q).value) :
    ({ height := 0, index := q, value := v } : mss_node) = tree_node E seed 0 q := by
  rw [hv]; rfl

/-! ### The choice of the instance to update -/

theorem treehash_height_new {st : mss_state} {j : Nat} (h : st.treehash_state j = TREEHASH_NEW) :
    _treehash_height st j = j := by
  unfold _treehash_height
  rw [h]
  rfl

theorem treehash_height_running {st : mss_state} {j : Nat}
    (h : st.treehash_state j = TREEHASH_RUNNING) (hj : j ≠ 0) :
    _treehash_height st j = 0 := by
  unfold _treehash_height
  rw [h]
  have e1 : TREEHASH_RUNNING &&& 0xE0 = TREEHASH_RUNNING := by decide
  have e2 : TREEHASH_RUNNING &&& TREEHASH_MASK = 0 := by decide
  have e3 : ¬ TREEHASH_RUNNING = TREEHASH_NEW := by decide
  dsimp only
  rw [e1, if_neg e3, if_pos rfl, e2, if_neg (fun h => hj h.symm)]

theorem treehash_height_finished {st : mss_state} {j : Nat}
    (h : st.treehash_state j = TREEHASH_FINISHED) :
    _treehash_height st j = TREEHASH_HEIGHT_INFINITY := by
  unfold _treehash_height
  rw [h]
  rfl

theorem nextAuth_select_spec (st : mss_state) :
    ∀ n min k, n ≤ 127 → n ≤ min + 1 →
      (∀ j, j < n → (st.treehash_state j = TREEHASH_NEW ∨ st.treehash_state j = TREEHASH_RUNNING
          ∨ st.treehash_state j = TREEHASH_FINISHED)
        ∧ (st.treehash_state j = TREEHASH_RUNNING → j ≠ 0)
        ∧ (st.treehash j).height ≤ j ∧ j ≤ (st.treehash j).height + 1) →
      ((∀ j, j < n → st.treehash_state j = TREEHASH_FINISHED) →
          (min < TREEHASH_HEIGHT_INFINITY → (nextAuth_select st n (min, k)).2 = k)
          ∧ ((nextAuth_select st n (min, k)).2 = k
              ∨ ((nextAuth_select st n (min, k)).2 < n
                  ∧ st.treehash_state (nextAuth_select st n (min, k)).2 = TREEHASH_FINISHED)))
      ∧ (∀ j0, j0 < n → ¬ st.treehash_state j0 = TREEHASH_FINISHED →
          (nextAuth_select st n (min, k)).2 < n
          ∧ ¬ st.treehash_state (nextAuth_select st n (min, k)).2 = TREEHASH_FINISHED
          ∧ ∀ j, j < (nextAuth_select st n (min, k)).2 →
              st.treehash_state j = TREEHASH_FINISHED) := by
  intro n
  induction n with
  | zero =>
    intro min k _ _ _
    refine ⟨fun _ => ⟨fun _ => rfl, Or.inl rfl⟩, ?_⟩
    intro j0 hj0; omega
  | succ n ih =>
    intro min k hn hmin hlev
    obtain ⟨hfl, hrun0, hle, hge⟩ := hlev n (by omega)
    have hlev2 : ∀ j, j < n → (st.treehash_state j = TREEHASH_NEW
          ∨ st.treehash_state j = TREEHASH_RUNNING
          ∨ st.treehash_state j = TREEHASH_FINISHED)
        ∧ (st.treehash_state j = TREEHASH_RUNNING → j ≠ 0)
        ∧ (st.treehash j).height ≤ j ∧ j ≤ (st.treehash j).height + 1 :=
      fun j hj => hlev j (by omega)
    have hinf : TREEHASH_HEIGHT_INFINITY = 127 := rfl
    by_cases hfin : st.treehash_state n = TREEHASH_FINISHED
    · -- level n is finished
      have hh := treehash_height_finished hfin
      by_cases hsel : TREEHASH_HEIGHT_INFINITY ≤ min
      · have e : nextAuth_select st (n + 1) (min, k)
            = nextAuth_select st n ((st.treehash n).height, n) := by
          show (if _treehash_height st n ≤ min then _ else _) = _
          rw [hh, if_pos hsel]
        rw [e]
        obtain ⟨i1, i2⟩ := ih (st.treehash n).height n (by omega) (by omega) hlev2
        constructor
        · intro hall
          obtain ⟨_, i1b⟩ := i1 (fun j hj => hall j (by omega))
          refine ⟨fun hlt => by omega, Or.inr ?_⟩
          rcases i1b with h | ⟨h1, h2⟩
          · rw [h]; exact ⟨by omega, hfin⟩
          · exact ⟨by omega, h2⟩
        · intro j0 hj0 hun
          have hj0n : j0 < n := by
            rcases Nat.lt_or_ge j0 n with h | h
            · exact h
            · have : j0 = n := by omega
              rw [this] at hun; exact absurd hfin hun
          obtain ⟨r1, r2, r3⟩ := i2 j0 hj0n hun
          exact ⟨by omega, r2, r3⟩
      · have e : nextAuth_select st (n + 1) (min, k) = nextAuth_select st n (min, k) := by
          show (if _treehash_height st n ≤ min then _ else _) = _
          rw [hh, if_neg hsel]
        rw [e]
        obtain ⟨i1, i2⟩ := ih min k (by omega) (by omega) hlev2
        constructor
        · intro hall
          obtain ⟨i1a, i1b⟩ := i1 (fun j hj => hall j (by omega))
          refine ⟨i1a, ?_⟩
          rcases i1b with h | ⟨h1, h2⟩
          · exact Or.inl h
          · exact Or.inr ⟨by omega, h2⟩
        · intro j0 hj0 hun
          have hj0n : j0 < n := by
            rcases Nat.lt_or_ge j0 n with h | h
            · exact h
            · have : j0 = n := by omega
              rw [this] at hun; exact absurd hfin hun
          obtain ⟨r1, r2, r3⟩ := i2 j0 hj0n hun
          exact ⟨by omega, r2, r3⟩
    · -- level n is not finished: it is taken
      have hh : _treehash_height st n ≤ min := by
        rcases hfl with h | h | h
        · rw [treehash_height_new h]; omega
        · rw [treehash_height_running h (hrun0 h)]; omega
        · exact absurd h hfin
      have e : nextAuth_select st (n + 1) (min, k)
          = nextAuth_select st n ((st.treehash n).height, n) := by
        show (if _treehash_height st n ≤ min then _ else _) = _
        rw [if_pos hh]
      rw [e]
      obtain ⟨i1, i2⟩ := ih (st.treehash n).height n (by omega) (by omega) hlev2
      constructor
      · intro hall
        exact absurd (hall n (by omega)) hfin
      · intro j0 hj0 hun
        by_cases hex : ∃ j1, j1 < n ∧ ¬ st.treehash_state j1 = TREEHASH_FINISHED
        · obtain ⟨j1, hj1, hun1⟩ := hex
          obtain ⟨r1, r2, r3⟩ := i2 j1 hj1 hun1
          exact ⟨by omega, r2, r3⟩
        · push_neg at hex
          obtain ⟨i1a, _⟩ := i1 hex
          have hr := i1a (by rw [hinf]; omega)
          rw [hr]
          exact ⟨by omega, hfin, hex⟩

theorem TInv_level0_new {P : Params} {E : Prims} {seed : Bytes} {m i : Nat} {st : mss_state}
    (hinv : TInv P E seed m i st) {j : Nat} (hj : j < MSS_TREEHASH_SIZE P)
    (hrun : st.treehash_state j = TREEHASH_RUNNING) : j ≠ 0 := by
  intro h0
  subst h0
  have hun : ¬ st.treehash_state 0 = TREEHASH_FINISHED := by rw [hrun]; decide
  have h1 := hinv.seed_lo 0 hj hun
  have h2 := hinv.seed_hi 0 hj hun
  have h3 := (hinv.seed_new 0 hj hun).2 (by simp at h1 h2 ⊢; omega)
  rw [hrun] at h3
  exact absurd h3 (by decide)

theorem TInv_cnt_lt {P : Params} {E : Prims} {seed : Bytes} {m i : Nat} {st : mss_state}
    (hinv : TInv P E seed m i st) {j : Nat} (hj : j < MSS_TREEHASH_SIZE P)
    (hun : ¬ st.treehash_state j = TREEHASH_FINISHED) : th_cnt st m j < 2 ^ j := by
  rw [th_cnt_run hun]
  have h1 := hinv.seed_lo j hj hun
  have h2 := hinv.seed_hi j hj hun
  omega

theorem TInv_cnt_le {P : Params} {E : Prims} {seed : Bytes} {m i : Nat} {st : mss_state}
    (hinv : TInv P E seed m i st) {j : Nat} (hj : j < MSS_TREEHASH_SIZE P) :
    th_cnt st m j ≤ 2 ^ j := by
  by_cases hf : st.treehash_state j = TREEHASH_FINISHED
  · rw [th_cnt_fin hf]
  · exact le_of_lt (TInv_cnt_lt hinv hj hf)

theorem TInv_height {P : Params} {E : Prims} {seed : Bytes} {m i : Nat} {st : mss_state}
    (hinv : TInv P E seed m i st) (hT : MSS_TREEHASH_SIZE P ≤ 30) {j : Nat}
    (hj : j < MSS_TREEHASH_SIZE P) :
    (st.treehash j).height ≤ j ∧ j ≤ (st.treehash j).height + 1 := by
  by_cases hf : st.treehash_state j = TREEHASH_FINISHED
  · rw [(hinv.node_fin j hj hf).1]; omega
  · by_cases hc : th_cnt st m j < 2 ^ (j - 1)
    · rw [hinv.node_lo j hj hf hc]; omega
    · push_neg at hc
      rw [hinv.node_hi j hj hf hc, tree_node_height E seed _ _ (by omega)]
      have := TInv_cnt_lt hinv hj hf
      have hj1 : j ≠ 0 := by
        intro h0; subst h0; simp at hc this; omega
      omega

/-- One round of the update loop either changes nothing, all instances being
finished, or it updates the lowest instance that is not finished. -/
theorem update_step_cases (P : Params) (E : Prims) (seed : Bytes) {m i : Nat} {st : mss_state}
    (hinv : TInv P E seed m i st) (hT1 : 1 ≤ MSS_TREEHASH_SIZE P)
    (hT : MSS_TREEHASH_SIZE P ≤ 30) (sd ri0 : Bytes) (s : Nat) :
    ((∀ j, j < MSS_TREEHASH_SIZE P → st.treehash_state j = TREEHASH_FINISHED)
        ∧ nextAuth_update_step P E sd s ri0 st = st)
    ∨ ∃ k, k < MSS_TREEHASH_SIZE P ∧ ¬ st.treehash_state k = TREEHASH_FINISHED
        ∧ (∀ j, j < k → st.treehash_state j = TREEHASH_FINISHED)
        ∧ nextAuth_update_step P E sd s ri0 st = _treehash_update P E st k s sd ri0 := by
  have hlev : ∀ j, j < MSS_TREEHASH_SIZE P → (st.treehash_state j = TREEHASH_NEW
        ∨ st.treehash_state j = TREEHASH_RUNNING
        ∨ st.treehash_state j = TREEHASH_FINISHED)
      ∧ (st.treehash_state j = TREEHASH_RUNNING → j ≠ 0)
      ∧ (st.treehash j).height ≤ j ∧ j ≤ (st.treehash j).height + 1 :=
    fun j hj => ⟨hinv.flag j hj, fun h => TInv_level0_new hinv hj h, TInv_height hinv hT hj⟩
  obtain ⟨s1, s2⟩ := nextAuth_select_spec st (MSS_TREEHASH_SIZE P) TREEHASH_HEIGHT_INFINITY
    (P.MSS_HEIGHT - P.MSS_K - 1) (by omega) (by show _ ≤ 127 + 1; omega) hlev
  by_cases hall : ∀ j, j < MSS_TREEHASH_SIZE P → st.treehash_state j = TREEHASH_FINISHED
  · left
    refine ⟨hall, ?_⟩
    obtain ⟨_, s1b⟩ := s1 hall
    have hfin : st.treehash_state (nextAuth_select st (MSS_TREEHASH_SIZE P)
        (TREEHASH_HEIGHT_INFINITY, P.MSS_HEIGHT - P.MSS_K - 1)).2 = TREEHASH_FINISHED := by
      rcases s1b with h | ⟨_, h⟩
      · rw [h]
        apply hall
        show P.MSS_HEIGHT - P.MSS_K - 1 < P.MSS_HEIGHT - P.MSS_K
        have : 1 ≤ P.MSS_HEIGHT - P.MSS_K := hT1
        omega
      · exact h
    unfold nextAuth_update_step
    dsimp only
    rw [hfin, if_neg (by decide)]
  · right
    push_neg at hall
    obtain ⟨j0, hj0, hun0⟩ := hall
    obtain ⟨r1, r2, r3⟩ := s2 j0 hj0 hun0
    refine ⟨_, r1, r2, r3, ?_⟩
    unfold nextAuth_update_step
    dsimp only
    have hz : st.treehash_state (nextAuth_select st (MSS_TREEHASH_SIZE P)
        (TREEHASH_HEIGHT_INFINITY, P.MSS_HEIGHT - P.MSS_K - 1)).2 &&& TREEHASH_FINISHED = 0 := by
      rcases hinv.flag _ r1 with h | h | h
      · rw [h]; decide
      · rw [h]; decide
      · exact absurd h r2
    rw [if_pos hz]

/-! ### Arithmetic of one update -/

theorem pow_pred_double {k : Nat} (hk : 1 ≤ k) : 2 ^ k = 2 * 2 ^ (k - 1) := by
  have e : k = (k - 1) + 1 := by omega
  conv_lhs => rw [e]
  rw [pow_succ]; ring

theorem upd_div (k J c : Nat) (hc : c < 2 ^ k) : (J * 2 ^ k + c) / 2 ^ k = J := by
  rw [Nat.add_comm, Nat.add_mul_div_right _ _ (two_pow_pos k), Nat.div_eq_of_lt hc, Nat.zero_add]

theorem upd_dvd_top (k J c : Nat) (hc : c < 2 ^ k) :
    2 ^ k ∣ J * 2 ^ k + c + 1 ↔ c + 1 = 2 ^ k := by
  rw [Nat.add_assoc, Nat.dvd_add_right (Dvd.intro_left _ rfl)]
  constructor
  · intro h
    have := Nat.le_of_dvd (by omega) h
    omega
  · intro h; rw [h]

theorem upd_dvd_mid (k J c : Nat) (hk : 1 ≤ k) (hc : c < 2 ^ k) :
    2 ^ (k - 1) ∣ J * 2 ^ k + c + 1 ↔ (c + 1 = 2 ^ (k - 1) ∨ c + 1 = 2 ^ k) := by
  have e := pow_pred_double hk
  have hY := two_pow_pos (k - 1)
  have hd : 2 ^ (k - 1) ∣ J * 2 ^ k := by
    rw [e]; exact ⟨J * 2, by ring⟩
  rw [Nat.add_assoc, Nat.dvd_add_right hd]
  constructor
  · rintro ⟨z, hz⟩
    have hz1 : z = 1 ∨ z = 2 := by
      rcases Nat.lt_or_ge z 3 with h | h
      · rcases Nat.eq_zero_or_pos z with h0 | h0
        · rw [h0] at hz; omega
        · omega
      · have : 2 ^ (k - 1) * 3 ≤ 2 ^ (k - 1) * z := Nat.mul_le_mul_left _ h
        omega
    rcases hz1 with h | h
    · left; rw [hz, h]; ring
    · right; rw [hz, h, e]; ring
  · rintro (h | h)
    · rw [h]
    · rw [h, e]; exact ⟨2, by ring⟩

theorem upd_div_mid_top (k J c : Nat) (hk : 1 ≤ k) (hc : c + 1 = 2 ^ k) :
    (J * 2 ^ k + c) / 2 ^ (k - 1) - 1 = 2 * J := by
  have e := pow_pred_double hk
  have hY := two_pow_pos (k - 1)
  have e2 : J * 2 ^ k + c = (2 ^ (k - 1) - 1) + (2 * J + 1) * 2 ^ (k - 1) := by
    have : (2 * J + 1) * 2 ^ (k - 1) = J * (2 * 2 ^ (k - 1)) + 2 ^ (k - 1) := by ring
    rw [this, ← e]; omega
  rw [e2, Nat.add_mul_div_right _ _ hY, Nat.div_eq_of_lt (by omega)]
  omega

theorem upd_div_mid (k J c : Nat) (hk : 1 ≤ k) (hc : c + 1 = 2 ^ (k - 1)) :
    (J * 2 ^ k + c) / 2 ^ (k - 1) = 2 * J := by
  have e := pow_pred_double hk
  have hY := two_pow_pos (k - 1)
  have e2 : J * 2 ^ k + c = c + (2 * J) * 2 ^ (k - 1) := by
    have : (2 * J) * 2 ^ (k - 1) = J * (2 * 2 ^ (k - 1)) := by ring
    rw [this, ← e]; omega
  rw [e2, Nat.add_mul_div_right _ _ hY, Nat.div_eq_of_lt (by omega)]
  omega

/-- The test of `_treehash_update` that saves a leaf in `store[k - 1]` holds for
the middle leaf of the node and for no other leaf. -/
theorem save_cond_iff (k J c : Nat) (hk : 1 ≤ k) (hc : c < 2 ^ k) (hJ : 5 ≤ J)
    (hodd : J % 2 = 1) :
    (0 < k ∧ J * 2 ^ k + c ≥ 11 * (1 <<< (k - 1))
        ∧ (J * 2 ^ k + c - 11 * (1 <<< (k - 1))) % (1 <<< (k + 1)) = 0)
      ↔ c = 2 ^ (k - 1) := by
  have e := pow_pred_double hk
  have hY := two_pow_pos (k - 1)
  have e4 : (2 : Nat) ^ (k + 1) = 4 * 2 ^ (k - 1) := by
    rw [pow_succ, e]; ring
  rw [Nat.one_shiftLeft, Nat.one_shiftLeft, e4]
  obtain ⟨j, hj⟩ : ∃ j, J = 2 * j + 1 := ⟨J / 2, by omega⟩
  have eq : J * 2 ^ k = 4 * (j * 2 ^ (k - 1)) + 2 * 2 ^ (k - 1) := by
    rw [hj, e]; ring
  constructor
  · rintro ⟨_, h1, h2⟩
    obtain ⟨z, hz⟩ := Nat.dvd_of_mod_eq_zero h2
    have hz2 : 4 * 2 ^ (k - 1) * z = 4 * (z * 2 ^ (k - 1)) := by ring
    rw [hz2] at hz
    rcases Nat.lt_trichotomy j (z + 2) with h | h | h
    · have : (j + 1) * 2 ^ (k - 1) ≤ (z + 2) * 2 ^ (k - 1) := Nat.mul_le_mul_right _ h
      have e5 : (j + 1) * 2 ^ (k - 1) = j * 2 ^ (k - 1) + 2 ^ (k - 1) := by ring
      have e6 : (z + 2) * 2 ^ (k - 1) = z * 2 ^ (k - 1) + 2 * 2 ^ (k - 1) := by ring
      omega
    · have e6 : (z + 2) * 2 ^ (k - 1) = z * 2 ^ (k - 1) + 2 * 2 ^ (k - 1) := by ring
      rw [h] at eq
      omega
    · have : (z + 3) * 2 ^ (k - 1) ≤ j * 2 ^ (k - 1) := Nat.mul_le_mul_right _ h
      have e6 : (z + 3) * 2 ^ (k - 1) = z * 2 ^ (k - 1) + 3 * 2 ^ (k - 1) := by ring
      omega
  · intro h
    have hj2 : 2 ≤ j := by omega
    have : 2 * 2 ^ (k - 1) ≤ j * 2 ^ (k - 1) := Nat.mul_le_mul_right _ hj2
    refine ⟨by omega, by omega, ?_⟩
    have e7 : J * 2 ^ k + c - 11 * 2 ^ (k - 1) = 4 * 2 ^ (k - 1) * (j - 2) := by
      have : 4 * 2 ^ (k - 1) * (j - 2) = 4 * ((j - 2) * 2 ^ (k - 1)) := by ring
      rw [this, Nat.sub_mul]
      omega
    rw [e7, Nat.mul_mod_right]

/-- The test of `_treehash_update` that reads the leaf from `store[k]` holds
only for the first leaf of a node whose index is 3 modulo 4 and at least 11. -/
theorem load_cond (k J c : Nat) (hc : c < 2 ^ k) (hodd : J % 2 = 1)
    (h1 : J * 2 ^ k + c ≥ 11 * (1 <<< k))
    (h2 : (J * 2 ^ k + c - 11 * (1 <<< k)) % (1 <<< (2 + k)) = 0) :
    c = 0 ∧ 11 ≤ J ∧ J % 4 = 3 := by
  have hX := two_pow_pos k
  have e4 : (2 : Nat) ^ (2 + k) = 4 * 2 ^ k := by
    rw [Nat.add_comm, pow_add]; ring
  rw [Nat.one_shiftLeft] at h1 h2
  rw [Nat.one_shiftLeft, e4] at h2
  obtain ⟨z, hz⟩ := Nat.dvd_of_mod_eq_zero h2
  have hz2 : 4 * 2 ^ k * z = (4 * z) * 2 ^ k := by ring
  rw [hz2] at hz
  have hsum : J * 2 ^ k + c = (4 * z + 11) * 2 ^ k := by
    have : (4 * z + 11) * 2 ^ k = (4 * z) * 2 ^ k + 11 * 2 ^ k := by ring
    omega
  have hJ : J = 4 * z + 11 := by
    have d1 := upd_div k J c hc
    rw [hsum, Nat.mul_div_cancel _ hX] at d1
    omega
  rw [hJ] at hsum
  refine ⟨by omega, by omega, by omega⟩

/-! ### One update of the lowest unfinished instance -/

theorem seed_decomp {P : Params} {E : Prims} {seed : Bytes} {m i : Nat} {st : mss_state}
    (hinv : TInv P E seed m i st) {k : Nat} (hk : k < MSS_TREEHASH_SIZE P)
    (hun : ¬ st.treehash_state k = TREEHASH_FINISHED) :
    st.treehash_seed k = job_index m k * 2 ^ k + th_cnt st m k ∧ th_cnt st m k < 2 ^ k := by
  have h1 := hinv.seed_lo k hk hun
  have h2 := hinv.seed_hi k hk hun
  rw [th_cnt_run hun]
  omega

theorem job_index_succ_level (m k : Nat) (hev : (m / 2 ^ (k + 1)) % 2 = 0) :
    next_pop m k % 2 ^ (k + 2) = 2 ^ (k + 1)
    ∧ 2 * job_index m (k + 1) = job_index m k + 3 := by
  have e1 : m / 2 ^ (k + 2) = m / 2 ^ (k + 1) / 2 := by
    rw [Nat.div_div_eq_div_mul, ← pow_succ]
  have e2 : (2 : Nat) ^ (k + 2) = 2 * 2 ^ (k + 1) := by rw [pow_succ]; ring
  have hX := two_pow_pos (k + 1)
  constructor
  · unfold next_pop
    obtain ⟨b, hb⟩ : ∃ b, m / 2 ^ (k + 1) = 2 * b := ⟨m / 2 ^ (k + 1) / 2, by omega⟩
    rw [hb, e2]
    have : (2 * b + 1) * 2 ^ (k + 1) = 2 ^ (k + 1) + 2 * 2 ^ (k + 1) * b := by ring
    rw [this, Nat.add_mul_mod_self_left, Nat.mod_eq_of_lt (by omega)]
  · unfold job_index
    rw [e1]
    omega

theorem update_leaf (P : Params) (E : Prims) (seed : Bytes) {s i : Nat} {st : mss_state}
    (hinv : TInv P E seed (s + 1) i st) {k : Nat} (hk : k < MSS_TREEHASH_SIZE P)
    (hun : ¬ st.treehash_state k = TREEHASH_FINISHED) (ri0 : Bytes) :
    treehash_leaf P E st k s (seed_at E seed (s + 1)) ri0
      = tree_node E seed 0 (st.treehash_seed k) := by
  obtain ⟨hq, hc⟩ := seed_decomp hinv hk hun
  unfold treehash_leaf
  dsimp only
  by_cases hcond : k < MSS_TREEHASH_SIZE P - 1 ∧ st.treehash_seed k ≥ 11 * (1 <<< k)
      ∧ (st.treehash_seed k - 11 * (1 <<< k)) % (1 <<< (2 + k)) = 0
  · rw [if_pos hcond]
    apply leaf_eq_of_value
    obtain ⟨c1, c2, c3⟩ := hcond
    rw [hq] at c2 c3
    obtain ⟨z1, z2, z3⟩ := load_cond k (job_index (s + 1) k) (th_cnt st (s + 1) k) hc
      (job_index_odd _ _) c2 c3
    have hk1 : k + 1 < MSS_TREEHASH_SIZE P := by omega
    have hev : ((s + 1) / 2 ^ (k + 1)) % 2 = 0 := by
      unfold job_index at z3; omega
    obtain ⟨w1, w2⟩ := job_index_succ_level (s + 1) k hev
    obtain ⟨sw1, sw2⟩ := hinv.same k hk1 hun w1
    have hJ7 : 7 ≤ job_index (s + 1) (k + 1) := by omega
    have hmid : mid_leaf (job_index (s + 1) (k + 1) - 2) k = st.treehash_seed k := by
      rw [hq, z1]
      unfold mid_leaf
      have e2 : (2 : Nat) ^ (k + 1) = 2 * 2 ^ k := by rw [pow_succ]; ring
      rw [e2]
      obtain ⟨y, hy⟩ : ∃ y, job_index (s + 1) (k + 1) = y + 2 := ⟨job_index (s + 1) (k + 1) - 2, by omega⟩
      rw [hy] at w2 ⊢
      have e3 : job_index (s + 1) k = 2 * y + 1 := by omega
      rw [e3]
      simp only [Nat.add_sub_cancel, Nat.add_zero]
      ring
    rw [← hmid]
    by_cases hf1 : st.treehash_state (k + 1) = TREEHASH_FINISHED
    · exact hinv.store_end k hk1 hf1 (le_of_eq (sw2 hf1).symm) hJ7
    · have hc0 : th_cnt st (s + 1) (k + 1) = 0 := by
        rw [th_cnt_run hf1, sw1 hf1]; omega
      exact hinv.store_lo k hk1 hf1 (by rw [hc0]; omega) hJ7
  · rw [if_neg hcond]
    apply create_leaf_ff
    have h1 := hinv.seed_lo k hk hun
    have h2 := job_index_mul (s + 1) k
    have h3 := next_pop_gt (s + 1) k
    omega

theorem portions_mem (E : Prims) (seed : Bytes) (st : mss_state) (x : mss_node) :
    ∀ n b, x ∈ portions E seed st b n → ∃ h, b ≤ h ∧ h < b + n ∧ x ∈ portion E seed st h := by
  intro n
  induction n with
  | zero => intro b hx; simp [portions] at hx
  | succ n ih =>
    intro b hx
    simp only [portions, List.mem_append] at hx
    rcases hx with h | h
    · exact ⟨b, le_refl _, by omega, h⟩
    · obtain ⟨h', a1, a2, a3⟩ := ih (b + 1) h
      exact ⟨h', by omega, by omega, a3⟩

theorem update_rest_heights {P : Params} {E : Prims} {seed : Bytes} {m i : Nat} {st : mss_state}
    (hinv : TInv P E seed m i st) (hT : MSS_TREEHASH_SIZE P ≤ 30) {k : Nat}
    (hk : k < MSS_TREEHASH_SIZE P) (hun : ¬ st.treehash_state k = TREEHASH_FINISHED) :
    ∀ x, x ∈ portions E seed st (k + 1) (MSS_TREEHASH_SIZE P - k - 1) → k ≤ x.height + 1 := by
  intro x hx
  obtain ⟨h, a1, a2, a3⟩ := portions_mem E seed st x _ _ hx
  have hh : h < MSS_TREEHASH_SIZE P := by omega
  unfold portion at a3
  by_cases hf : st.treehash_state h = TREEHASH_FINISHED
  · rw [if_pos hf] at a3; simp at a3
  · rw [if_neg hf] at a3
    obtain ⟨hq, hc⟩ := seed_decomp hinv hh hf
    have hal := hinv.align h hh k (by omega) hun hf
    have hd : 2 ^ (k - 1) ∣ st.treehash_seed h := by
      rw [hq]
      apply Nat.dvd_add _ hal
      exact Nat.dvd_trans (Nat.pow_dvd_pow 2 (by omega)) (Dvd.intro_left _ rfl)
    rw [spine_from_skip E seed hd (h - 1) (by omega)] at a3
    have := spine_from_height E seed _ _ _ x (by omega) a3
    omega

theorem update_facts (P : Params) (E : Prims) (seed : Bytes) {s i : Nat} {st : mss_state}
    (hinv : TInv P E seed (s + 1) i st) (hT : MSS_TREEHASH_SIZE P ≤ 30)
    (hS : P.MSS_STACK_SIZE ≠ 0 ∨ MSS_TREEHASH_SIZE P ≤ 2)
    {k : Nat} (hk : k < MSS_TREEHASH_SIZE P)
    (hun : ¬ st.treehash_state k = TREEHASH_FINISHED)
    (hlow : ∀ j, j < k → st.treehash_state j = TREEHASH_FINISHED) (ri0 : Bytes) :
    (_treehash_update P E st k s (seed_at E seed (s + 1)) ri0).treehash_seed
        = Function.update st.treehash_seed k (st.treehash_seed k + 1)
    ∧ (_treehash_update P E st k s (seed_at E seed (s + 1)) ri0).treehash_state
        = Function.update st.treehash_state k
            (if th_cnt st (s + 1) k + 1 = 2 ^ k then TREEHASH_FINISHED else TREEHASH_RUNNING)
    ∧ (_treehash_update P E st k s (seed_at E seed (s + 1)) ri0).treehash
        = (if th_cnt st (s + 1) k + 1 = 2 ^ k then
             Function.update st.treehash k (tree_node E seed k (job_index (s + 1) k))
           else if th_cnt st (s + 1) k + 1 = 2 ^ (k - 1) then
             Function.update st.treehash k (tree_node E seed (k - 1) (2 * job_index (s + 1) k))
           else st.treehash)
    ∧ StackRep (_treehash_update P E st k s (seed_at E seed (s + 1)) ri0).stack
        (_treehash_update P E st k s (seed_at E seed (s + 1)) ri0).stack_index
        (spine_from E seed (st.treehash_seed k + 1) 0 (k - 1)
          ++ portions E seed st (k + 1) (MSS_TREEHASH_SIZE P - k - 1))
    ∧ (_treehash_update P E st k s (seed_at E seed (s + 1)) ri0).store
        = (treehash_save st k (tree_node E seed 0 (st.treehash_seed k))).store
    ∧ (_treehash_update P E st k s (seed_at E seed (s + 1)) ri0).auth = st.auth
    ∧ (_treehash_update P E st k s (seed_at E seed (s + 1)) ri0).keep = st.keep
    ∧ (_treehash_update P E st k s (seed_at E seed (s + 1)) ri0).retain = st.retain
    ∧ (_treehash_update P E st k s (seed_at E seed (s + 1)) ri0).retain_index
        = st.retain_index := by
  obtain ⟨hq, hc⟩ := seed_decomp hinv hk hun
  have hb : st.treehash_state k = 32 ∨ st.treehash_state k = 64 := by
    rcases hinv.flag k hk with h | h | h
    · exact Or.inl h
    · exact Or.inr h
    · exact absurd h hun
  have hrep : StackRep st.stack st.stack_index
      (spine_from E seed (st.treehash_seed k) 0 (k - 1)
        ++ portions E seed st (k + 1) (MSS_TREEHASH_SIZE P - k - 1)) := by
    have h := hinv.stack
    rw [portions_split E seed st hk, portions_nil E seed st k 0 (fun c _ hc => hlow c (by omega)),
      List.nil_append] at h
    unfold portion at h
    rw [if_neg hun] at h
    exact h
  have hnew : k = 0 → st.treehash_state k = 32 := by
    intro h0
    apply (hinv.seed_new k hk hun).2
    rw [hq]
    have hc0 : th_cnt st (s + 1) k = 0 := by
      rw [h0] at hc ⊢
      simp at hc
      exact hc
    omega
  have hrun : 1 ≤ k → 2 ^ k ∣ st.treehash_seed k + 1 →
      st.treehash_state k = 64 ∧ st.treehash k
        = tree_node E seed (k - 1) (st.treehash_seed k / 2 ^ (k - 1) - 1) := by
    intro hk1 hd
    rw [hq] at hd
    have hc1 := (upd_dvd_top k _ _ hc).1 hd
    have hY := two_pow_pos (k - 1)
    have e := pow_pred_double hk1
    constructor
    · rcases hb with h | h
      · exfalso
        have h5 : st.treehash_seed k = job_index (s + 1) k * 2 ^ k :=
          (hinv.seed_new k hk hun).1 h
        have hc0 : th_cnt st (s + 1) k = 0 := by omega
        rw [hc0] at hc1
        omega
      · exact h
    · rw [hinv.node_hi k hk hun (by omega), hq, upd_div_mid_top k _ _ hk1 hc1]
  have hS2 : P.MSS_STACK_SIZE ≠ 0 ∨ k ≤ 1 := by
    rcases hS with h | h
    · exact Or.inl h
    · right; omega
  obtain ⟨u1, u2, u3, u4, u5, u6, u7, u8, u9⟩ := treehash_update_spec P E seed st k
    (st.treehash_seed k) (st.treehash_state k) s (seed_at E seed (s + 1)) ri0 (by omega) hb rfl rfl
    (update_leaf P E seed hinv hk hun ri0) hS2 _ (update_rest_heights hinv hT hk hun) hrep
    hnew hrun
  have hiff1 : 2 ^ k ∣ st.treehash_seed k + 1 ↔ th_cnt st (s + 1) k + 1 = 2 ^ k := by
    rw [hq]; exact upd_dvd_top k _ _ hc
  refine ⟨u1, ?_, ?_, u4, u5, u6, u7, u8, u9⟩
  · rw [u2]
    by_cases hd : 2 ^ k ∣ st.treehash_seed k + 1
    · rw [if_pos hd, if_pos (hiff1.1 hd)]
    · rw [if_neg hd, if_neg (fun h => hd (hiff1.2 h))]
  · rw [u3]
    by_cases hd : 2 ^ k ∣ st.treehash_seed k + 1
    · rw [if_pos hd, if_pos (hiff1.1 hd)]
      rw [hq, upd_div k _ _ hc]
    · rw [if_neg hd, if_neg (fun h => hd (hiff1.2 h))]
      by_cases hk1 : 1 ≤ k
      · have hiff2 := upd_dvd_mid k (job_index (s + 1) k) _ hk1 hc
        rw [← hq] at hiff2
        by_cases hd2 : 2 ^ (k - 1) ∣ st.treehash_seed k + 1
        · have hc2 : th_cnt st (s + 1) k + 1 = 2 ^ (k - 1) := by
            rcases hiff2.1 hd2 with h | h
            · exact h
            · exact absurd (hiff1.2 h) hd
          rw [if_pos ⟨hk1, hd2⟩, if_pos hc2]
          rw [hq, upd_div_mid k _ _ hk1 hc2]
        · rw [if_neg (fun h => hd2 h.2), if_neg (fun h => hd2 (hiff2.2 (Or.inl h)))]
      · exfalso
        apply hd
        have : k = 0 := by omega
        rw [this]; simp

theorem th_cnt_congr {st st2 : mss_state} {m h : Nat}
    (h1 : st2.treehash_state h = st.treehash_state h)
    (h2 : st2.treehash_seed h = st.treehash_seed h) : th_cnt st2 m h = th_cnt st m h := by
  unfold th_cnt; rw [h1, h2]

theorem work_sum_update {st st2 : mss_state} {m k : Nat}
    (hne : ∀ h, h ≠ k → th_cnt st2 m h = th_cnt st m h)
    (hk : th_cnt st2 m k = th_cnt st m k + 1) :
    ∀ h2, work_sum st2 m h2 = work_sum st m h2 + (if k < h2 then 1 else 0) := by
  intro h2
  induction h2 with
  | zero => simp [work_sum]
  | succ h ih =>
    simp only [work_sum]
    rw [ih]
    by_cases e : h = k
    · subst e
      rw [hk]
      simp
      omega
    · rw [hne h e]
      by_cases l : k < h
      · rw [if_pos l, if_pos (by omega)]; omega
      · rw [if_neg l, if_neg (by omega)]; omega

theorem work_sum_congr {st st2 : mss_state} {m : Nat} :
    ∀ h2, (∀ h, h < h2 → th_cnt st2 m h = th_cnt st m h) →
      work_sum st2 m h2 = work_sum st m h2 := by
  intro h2
  induction h2 with
  | zero => intro _; rfl
  | succ h ih =>
    intro hh
    simp only [work_sum]
    rw [ih (fun x hx => hh x (by omega)), hh h (by omega)]

theorem treehash_save_store (st : mss_state) (k : Nat) (leaf : mss_node) :
    (treehash_save st k leaf).store
      = if 0 < k ∧ st.treehash_seed k ≥ 11 * (1 <<< (k - 1))
            ∧ (st.treehash_seed k - 11 * (1 <<< (k - 1))) % (1 <<< (k + 1)) = 0 then
          Function.update st.store (k - 1)
            { height := 0, index := st.treehash_seed k, value := leaf.value }
        else st.store := by
  unfold treehash_save
  dsimp only
  split_ifs <;> rfl

theorem job_index_ge_five {m h : Nat} (hrel : 2 ^ (h + 1) ≤ m) : 5 ≤ job_index m h := by
  unfold job_index
  have : 1 ≤ m / 2 ^ (h + 1) := (Nat.one_le_div_iff (two_pow_pos _)).2 hrel
  omega

/-- An update of the lowest instance that is not finished keeps the invariant
and counts as one round. -/
theorem TInv_update (P : Params) (E : Prims) (seed : Bytes) {s i : Nat} {st : mss_state}
    (hinv : TInv P E seed (s + 1) i st) (hT : MSS_TREEHASH_SIZE P ≤ 30)
    (hS : P.MSS_STACK_SIZE ≠ 0 ∨ MSS_TREEHASH_SIZE P ≤ 2)
    {k : Nat} (hk : k < MSS_TREEHASH_SIZE P)
    (hun : ¬ st.treehash_state k = TREEHASH_FINISHED)
    (hlow : ∀ j, j < k → st.treehash_state j = TREEHASH_FINISHED) (ri0 : Bytes) :
    TInv P E seed (s + 1) (i + 1) (_treehash_update P E st k s (seed_at E seed (s + 1)) ri0) := by
  obtain ⟨u1, u2, u3, u4, u5, u6, u7, u8, u9⟩ := update_facts P E seed hinv hT hS hk hun hlow ri0
  obtain ⟨hq, hc⟩ := seed_decomp hinv hk hun
  generalize _treehash_update P E st k s (seed_at E seed (s + 1)) ri0 = st2 at u1 u2 u3 u4 u5 u6 u7 u8 u9 ⊢
  have hJ5 : 5 ≤ job_index (s + 1) k := job_index_ge_five (hinv.seed_rel k hk hun)
  have hJodd := job_index_odd (s + 1) k
  have hrf : ¬ TREEHASH_RUNNING = TREEHASH_FINISHED := by decide
  have hrn : ¬ TREEHASH_RUNNING = TREEHASH_NEW := by decide
  have hst : ∀ h, h ≠ k → st2.treehash_state h = st.treehash_state h := by
    intro h hne; rw [u2, Function.update_noteq hne]
  have hstk : st2.treehash_state k
      = if th_cnt st (s + 1) k + 1 = 2 ^ k then TREEHASH_FINISHED else TREEHASH_RUNNING := by
    rw [u2, Function.update_same]
  have hsd : ∀ h, h ≠ k → st2.treehash_seed h = st.treehash_seed h := by
    intro h hne; rw [u1, Function.update_noteq hne]
  have hsdk : st2.treehash_seed k = st.treehash_seed k + 1 := by
    rw [u1, Function.update_same]
  have hth : ∀ h, h ≠ k → st2.treehash h = st.treehash h := by
    intro h hne; rw [u3]
    split_ifs
    · rw [Function.update_noteq hne]
    · rw [Function.update_noteq hne]
    · rfl
  have hfin_iff : st2.treehash_state k = TREEHASH_FINISHED ↔ th_cnt st (s + 1) k + 1 = 2 ^ k := by
    rw [hstk]
    constructor
    · intro h
      by_contra hne
      rw [if_neg hne] at h
      exact hrf h
    · intro h; rw [if_pos h]
  have hun2 : ∀ h, ¬ st2.treehash_state h = TREEHASH_FINISHED →
      ¬ st.treehash_state h = TREEHASH_FINISHED := by
    intro h hh
    by_cases e : h = k
    · rw [e]; exact hun
    · rw [← hst h e]; exact hh
  have hge : ∀ h, ¬ st2.treehash_state h = TREEHASH_FINISHED → k ≤ h := by
    intro h hh
    by_contra hlt
    exact hun2 h hh (hlow h (by omega))
  have hcnt : ∀ h, h ≠ k → th_cnt st2 (s + 1) h = th_cnt st (s + 1) h :=
    fun h hne => th_cnt_congr (hst h hne) (hsd h hne)
  have hcntk : th_cnt st2 (s + 1) k = th_cnt st (s + 1) k + 1 := by
    by_cases hf : st2.treehash_state k = TREEHASH_FINISHED
    · rw [th_cnt_fin hf, hfin_iff.1 hf]
    · rw [th_cnt_run hf, hsdk, hq]; omega
  have hws := work_sum_update hcnt hcntk
  have hk0 : k = 0 → th_cnt st (s + 1) k + 1 = 2 ^ k := by
    intro h0
    rw [h0] at hc ⊢
    simp at hc ⊢
    exact hc
  -- the store
  have hsave := treehash_save_store st k (tree_node E seed 0 (st.treehash_seed k))
  rw [← u5] at hsave
  have hstore_ne : ∀ h, h + 1 ≠ k → st2.store h = st.store h := by
    intro h hne
    rw [hsave]
    split_ifs with hcond
    · rw [Function.update_noteq (by omega)]
    · rfl
  have hstore_mid : ∀ h, h + 1 = k → th_cnt st (s + 1) k = 2 ^ h →
      (st2.store h).value
        = (tree_node E seed 0 (mid_leaf (job_index (s + 1) k) h)).value := by
    intro h he hcm
    have hceq : th_cnt st (s + 1) k = 2 ^ (k - 1) := by rw [hcm, ← he]; simp
    have hcond := (save_cond_iff k (job_index (s + 1) k) _ (by omega) hc hJ5 hJodd).2 hceq
    rw [← hq] at hcond
    rw [hsave, if_pos hcond]
    have e1 : k - 1 = h := by omega
    rw [e1, Function.update_same]
    show (tree_node E seed 0 (st.treehash_seed k)).value = _
    rw [hq, hcm]
    unfold mid_leaf
    rw [he]
  have hstore_same : ∀ h, h + 1 = k → th_cnt st (s + 1) k ≠ 2 ^ h →
      st2.store h = st.store h := by
    intro h he hcm
    have hncond : ¬ (0 < k ∧ st.treehash_seed k ≥ 11 * (1 <<< (k - 1))
            ∧ (st.treehash_seed k - 11 * (1 <<< (k - 1))) % (1 <<< (k + 1)) = 0) := by
      intro hcond
      rw [hq] at hcond
      have := (save_cond_iff k (job_index (s + 1) k) _ (by omega) hc hJ5 hJodd).1 hcond
      apply hcm
      rw [this, ← he]; simp
    rw [hsave, if_neg hncond]
  refine
    { flag := ?_, seed_lo := ?_, seed_hi := ?_, seed_new := ?_, seed_end := ?_, seed_rel := ?_,
      node_fin := ?_, node_lo := ?_, node_hi := ?_, stack := ?_, acc := ?_, align := ?_,
      same := ?_, store_hi := ?_, store_lo := ?_, store_fin := ?_, store_end := ?_,
      auth := ?_, keep := ?_, ret_idx := ?_, ret := ?_ }
  · -- flag
    intro h hh
    by_cases e : h = k
    · rw [e, hstk]
      split_ifs
      · exact Or.inr (Or.inr rfl)
      · exact Or.inr (Or.inl rfl)
    · rw [hst h e]; exact hinv.flag h hh
  · -- seed_lo
    intro h hh hf
    by_cases e : h = k
    · rw [e, hsdk, hq]; omega
    · rw [hsd h e]; exact hinv.seed_lo h hh (hun2 h hf)
  · -- seed_hi
    intro h hh hf
    by_cases e : h = k
    · rw [e] at hf ⊢
      have := fun x => hf (hfin_iff.2 x)
      rw [hsdk, hq]; omega
    · rw [hsd h e]; exact hinv.seed_hi h hh (hun2 h hf)
  · -- seed_new
    intro h hh hf
    by_cases e : h = k
    · rw [e] at hf ⊢
      have hne := fun x => hf (hfin_iff.2 x)
      rw [hstk, if_neg hne, hsdk, hq]
      constructor
      · intro h; exact absurd h hrn
      · intro h; omega
    · rw [hst h e, hsd h e]; exact hinv.seed_new h hh (hun2 h hf)
  · -- seed_end
    intro h hh hf
    exact hinv.seed_end h hh (hun2 h hf)
  · -- seed_rel
    intro h hh hf
    exact hinv.seed_rel h hh (hun2 h hf)
  · -- node_fin
    intro h hh hf
    by_cases e : h = k
    · rw [e] at hf ⊢
      have hc1 := hfin_iff.1 hf
      rw [u3, if_pos hc1, Function.update_same]
      exact ⟨tree_node_height E seed k _ (by omega), fun _ => rfl⟩
    · rw [hst h e] at hf
      rw [hth h e]; exact hinv.node_fin h hh hf
  · -- node_lo
    intro h hh hf hlt
    by_cases e : h = k
    · rw [e] at hf hlt ⊢
      have hne := fun x => hf (hfin_iff.2 x)
      rw [hcntk] at hlt
      rw [u3, if_neg hne, if_neg (by omega)]
      exact hinv.node_lo k hk hun (by omega)
    · rw [hcnt h e] at hlt
      rw [hth h e]; exact hinv.node_lo h hh (hun2 h hf) hlt
  · -- node_hi
    intro h hh hf hle
    by_cases e : h = k
    · rw [e] at hf hle ⊢
      have hne := fun x => hf (hfin_iff.2 x)
      rw [hcntk] at hle
      rw [u3, if_neg hne]
      by_cases hmid : th_cnt st (s + 1) k + 1 = 2 ^ (k - 1)
      · rw [if_pos hmid, Function.update_same]
      · rw [if_neg hmid]
        exact hinv.node_hi k hk hun (by omega)
    · rw [hcnt h e] at hle
      rw [hth h e]; exact hinv.node_hi h hh (hun2 h hf) hle
  · -- stack
    rw [portions_split E seed st2 hk,
      portions_nil E seed st2 k 0 (fun c _ hc => by rw [hst c (by omega)]; exact hlow c (by omega)),
      List.nil_append,
      portions_congr E seed st st2 _ (k + 1) (fun c hc1 _ => ⟨hst c (by omega), hsd c (by omega)⟩)]
    have hp : portion E seed st2 k = spine_from E seed (st.treehash_seed k + 1) 0 (k - 1) := by
      unfold portion
      by_cases hf : st2.treehash_state k = TREEHASH_FINISHED
      · rw [if_pos hf]
        have hd : 2 ^ k ∣ st.treehash_seed k + 1 := by
          rw [hq]; exact (upd_dvd_top k _ _ hc).2 (hfin_iff.1 hf)
        symm
        apply spine_from_zero_bits
        intro c _ hc2
        exact succ_bits_low hd c (by omega)
      · rw [if_neg hf, hsdk]
    rw [hp]
    exact u4
  · -- acc
    intro h2 hh hf
    have hkh := hge h2 hf
    have hold := hinv.acc h2 hh (hun2 h2 hf)
    rw [hws h2]
    by_cases e : h2 = k
    · rw [e] at hold ⊢
      rw [hcntk, if_neg (by omega)]
      omega
    · rw [hcnt h2 e, if_pos (by omega)]
      omega
  · -- align
    intro h2 hh k2 hk2 hf2 hfh
    have hk2k := hge k2 hf2
    rw [hcnt h2 (by omega)]
    exact hinv.align h2 hh k2 hk2 (hun2 k2 hf2) (hun2 h2 hfh)
  · -- same
    intro h hh hf hhalf
    have hkh := hge h hf
    obtain ⟨a, b⟩ := hinv.same h hh (hun2 h hf) hhalf
    rw [hst (h + 1) (by omega), hsd (h + 1) (by omega)]
    exact ⟨a, b⟩
  · -- store_hi
    intro h hh hf hlt
    by_cases e : h + 1 = k
    · rw [← e] at hcntk
      rw [hcntk] at hlt
      by_cases hcm : th_cnt st (s + 1) k = 2 ^ h
      · rw [e]; exact hstore_mid h e hcm
      · rw [hstore_same h e hcm]
        rw [e] at hlt
        exact hinv.store_hi h hh (by rw [e]; exact hun) (by rw [e]; omega)
    · rw [hcnt (h + 1) e] at hlt
      rw [hstore_ne h e]
      exact hinv.store_hi h hh (hun2 _ hf) hlt
  · -- store_lo
    intro h hh hf hle hJ
    by_cases e : h + 1 = k
    · rw [← e] at hcntk
      rw [hcntk] at hle
      rw [hstore_same h e (by rw [← e]; omega)]
      exact hinv.store_lo h hh (hun2 _ hf) (by omega) hJ
    · rw [hcnt (h + 1) e] at hle
      rw [hstore_ne h e]
      exact hinv.store_lo h hh (hun2 _ hf) hle hJ
  · -- store_fin
    intro h hh hf hnp hJ
    by_cases e : h + 1 = k
    · have hc1 : th_cnt st (s + 1) k + 1 = 2 ^ k := hfin_iff.1 (by rw [← e]; exact hf)
      have e2 : (2 : Nat) ^ k = 2 * 2 ^ h := by rw [← e, pow_succ]; ring
      by_cases hcm : th_cnt st (s + 1) k = 2 ^ h
      · rw [e]; exact hstore_mid h e hcm
      · rw [hstore_same h e hcm]
        have := two_pow_pos h
        exact hinv.store_hi h hh (by rw [e]; exact hun) (by rw [e]; omega)
    · rw [hst (h + 1) e] at hf
      rw [hstore_ne h e]
      exact hinv.store_fin h hh hf hnp hJ
  · -- store_end
    intro h hh hf hnp hJ
    by_cases e : h + 1 = k
    · exfalso
      have := hinv.seed_end k hk hun
      rw [e] at hnp
      have := two_pow_pos (k + 1)
      omega
    · rw [hst (h + 1) e] at hf
      rw [hstore_ne h e]
      exact hinv.store_end h hh hf hnp hJ
  · intro h hh; rw [u6]; exact hinv.auth h hh
  · intro h hh a b; rw [u7]; exact hinv.keep h hh a b
  · intro h a b; rw [u9]; exact hinv.ret_idx h a b
  · intro h j a b c d; rw [u8]; exact hinv.ret h j a b c d

/-! ### The update loop of `_nextAuth` -/

theorem TInv_idle {P : Params} {E : Prims} {seed : Bytes} {m i : Nat} {st : mss_state}
    (hinv : TInv P E seed m i st)
    (hall : ∀ j, j < MSS_TREEHASH_SIZE P → st.treehash_state j = TREEHASH_FINISHED) (i2 : Nat) :
    TInv P E seed m i2 st :=
  { flag := hinv.flag, seed_lo := hinv.seed_lo, seed_hi := hinv.seed_hi,
    seed_new := hinv.seed_new, seed_end := hinv.seed_end, seed_rel := hinv.seed_rel,
    node_fin := hinv.node_fin, node_lo := hinv.node_lo, node_hi := hinv.node_hi,
    stack := hinv.stack,
    acc := fun h2 hh hf => absurd (hall h2 hh) hf,
    align := hinv.align, same := hinv.same, store_hi := hinv.store_hi,
    store_lo := hinv.store_lo, store_fin := hinv.store_fin, store_end := hinv.store_end,
    auth := hinv.auth, keep := hinv.keep, ret_idx := hinv.ret_idx, ret := hinv.ret }

theorem TInv_update_step (P : Params) (E : Prims) (seed : Bytes) {s i : Nat} {st : mss_state}
    (hinv : TInv P E seed (s + 1) i st) (hT1 : 1 ≤ MSS_TREEHASH_SIZE P)
    (hT : MSS_TREEHASH_SIZE P ≤ 30)
    (hS : P.MSS_STACK_SIZE ≠ 0 ∨ MSS_TREEHASH_SIZE P ≤ 2) (ri0 : Bytes) :
    TInv P E seed (s + 1) (i + 1)
      (nextAuth_update_step P E (seed_at E seed (s + 1)) s ri0 st) := by
  rcases update_step_cases P E seed hinv hT1 hT (seed_at E seed (s + 1)) ri0 s with
    ⟨hall, he⟩ | ⟨k, hk, hun, hlow, he⟩
  · rw [he]; exact TInv_idle hinv hall _
  · rw [he]; exact TInv_update P E seed hinv hT hS hk hun hlow ri0

theorem TInv_updates (P : Params) (E : Prims) (seed : Bytes) (s : Nat)
    (hT1 : 1 ≤ MSS_TREEHASH_SIZE P) (hT : MSS_TREEHASH_SIZE P ≤ 30)
    (hS : P.MSS_STACK_SIZE ≠ 0 ∨ MSS_TREEHASH_SIZE P ≤ 2) (ri0 : Bytes) :
    ∀ n i st, TInv P E seed (s + 1) i st →
      TInv P E seed (s + 1) (i + n)
        (nextAuth_updates P E (seed_at E seed (s + 1)) s ri0 n st) := by
  intro n
  induction n with
  | zero => intro i st h; exact h
  | succ n ih =>
    intro i st h
    have h1 := TInv_update_step P E seed h hT1 hT hS ri0
    have h2 := ih (i + 1) _ h1
    have e : i + (n + 1) = i + 1 + n := by omega
    rw [e]
    exact h2

/-! ### Deadlines -/

theorem work_sum_le {st : mss_state} {m : Nat} :
    ∀ n, (∀ h, h < n → next_pop m h = m + 1 ∧ th_cnt st m h ≤ 2 ^ h) →
      work_sum st m n + 1 ≤ n * ((m + 1) / 2) + 2 ^ n := by
  intro n
  induction n with
  | zero => intro _; simp [work_sum]
  | succ n ih =>
    intro hh
    have h1 := ih (fun h hl => hh h (by omega))
    obtain ⟨h2, h3⟩ := hh n (by omega)
    simp only [work_sum]
    rw [h2, pow_succ, Nat.succ_mul]
    omega

theorem work_sum_eq {st : mss_state} {m : Nat} :
    ∀ n, (∀ h, h < n → next_pop m h = m + 1 ∧ th_cnt st m h = 2 ^ h) →
      work_sum st m n + 1 = n * ((m + 1) / 2) + 2 ^ n := by
  intro n
  induction n with
  | zero => intro _; simp [work_sum]
  | succ n ih =>
    intro hh
    have h1 := ih (fun h hl => hh h (by omega))
    obtain ⟨h2, h3⟩ := hh n (by omega)
    simp only [work_sum]
    rw [h2, h3, pow_succ, Nat.succ_mul]
    omega

theorem half_of_dvd {x h : Nat} (hd : 2 ^ (h + 1) ∣ x) : x / 2 = x / 2 ^ (h + 1) * 2 ^ h := by
  obtain ⟨a, ha⟩ := hd
  rw [ha, Nat.mul_div_cancel_left _ (two_pow_pos _)]
  have : 2 ^ (h + 1) * a = 2 * (a * 2 ^ h) := by rw [pow_succ]; ring
  rw [this, Nat.mul_div_cancel_left _ (by norm_num)]

/-- A treehash instance is finished when its node is due: at the end of the
call for leaf `s - 1` every instance `h` with `2^(h+1)` dividing `s + 1` is
finished. -/
theorem TInv_deadline {P : Params} {E : Prims} {seed : Bytes} {s : Nat} {st : mss_state}
    (hinv : TInv P E seed s (MSS_TREEHASH_SIZE P / 2) st)
    (hev : MSS_TREEHASH_SIZE P % 2 = 0) {h2 : Nat} (hh : h2 < MSS_TREEHASH_SIZE P)
    (hd : 2 ^ (h2 + 1) ∣ s + 1) : st.treehash_state h2 = TREEHASH_FINISHED := by
  by_contra hun
  have hacc := hinv.acc h2 hh hun
  have hc := TInv_cnt_lt hinv hh hun
  have hX := two_pow_pos h2
  have hmod := mod_of_dvd_succ (two_pow_pos (h2 + 1)) hd
  have hW : work_sum st s h2 + 1 ≤ h2 * ((s + 1) / 2) + 2 ^ h2 := by
    apply work_sum_le
    intro h hl
    exact ⟨next_pop_of_dvd (pow_dvd_of_le hd (by omega)), TInv_cnt_le hinv (by omega)⟩
  have hhalf := half_of_dvd hd
  have hdiv := div_succ_of_dvd hd
  rw [hhalf, hdiv] at hW
  rw [hmod] at hacc
  have e1 : (2 ^ (h2 + 1) - 1) * (MSS_TREEHASH_SIZE P / 2) + MSS_TREEHASH_SIZE P / 2
      = MSS_TREEHASH_SIZE P * 2 ^ h2 := by
    have e0 : 2 ^ (h2 + 1) - 1 + 1 = 2 ^ (h2 + 1) := by
      have := two_pow_pos (h2 + 1); omega
    have : (2 ^ (h2 + 1) - 1) * (MSS_TREEHASH_SIZE P / 2) + MSS_TREEHASH_SIZE P / 2
        = (2 ^ (h2 + 1) - 1 + 1) * (MSS_TREEHASH_SIZE P / 2) := by ring
    rw [this, e0]
    have e2 : MSS_TREEHASH_SIZE P = 2 * (MSS_TREEHASH_SIZE P / 2) := by omega
    conv_rhs => rw [e2]
    rw [pow_succ]; ring
  rw [e1] at hacc
  have e3 : h2 * ((s / 2 ^ (h2 + 1) + 1) * 2 ^ h2)
      = h2 * (s / 2 ^ (h2 + 1) * 2 ^ h2) + h2 * 2 ^ h2 := by ring
  rw [e3] at hW
  have e4 : (h2 + 1) * 2 ^ h2 ≤ MSS_TREEHASH_SIZE P * 2 ^ h2 :=
    Nat.mul_le_mul_right _ (by omega)
  have e5 : (h2 + 1) * 2 ^ h2 = h2 * 2 ^ h2 + 2 ^ h2 := by ring
  omega

/-! ### Alignment of the running instances when lower ones are started -/

theorem succ_mod_of_not_dvd {s Y : Nat} (hY : 0 < Y) (hnd : ¬ Y ∣ s + 1) :
    (s + 1) % Y = s % Y + 1 := by
  have h1 : s % Y < Y := Nat.mod_lt _ hY
  have h2 : s % Y + 1 < Y := by
    by_contra hc
    have : s % Y = Y - 1 := by omega
    apply hnd
    apply Nat.dvd_of_mod_eq_zero
    rw [Nat.add_mod, this]
    by_cases hY1 : Y = 1
    · subst hY1; simp
    · rw [Nat.mod_eq_of_lt (show 1 < Y by omega)]
      have : Y - 1 + 1 = Y := by omega
      rw [this, Nat.mod_self]
  have hY1 : 1 < Y := by omega
  have e1 : 1 % Y = 1 := Nat.mod_eq_of_lt hY1
  rw [Nat.add_mod, e1, Nat.mod_eq_of_lt h2]

theorem pow_dvd_pow_two {a b : Nat} (h : a ≤ b) : 2 ^ a ∣ 2 ^ b := Nat.pow_dvd_pow 2 h

theorem TInv_release_align {P : Params} {E : Prims} {seed : Bytes} {s : Nat} {st : mss_state}
    (hinv : TInv P E seed s (MSS_TREEHASH_SIZE P / 2) st)
    (hev : MSS_TREEHASH_SIZE P % 2 = 0) {tau : Nat} (htau : 2 ≤ tau) (hd : 2 ^ tau ∣ s + 1) :
    ∀ h2, tau ≤ h2 → h2 < MSS_TREEHASH_SIZE P → ¬ st.treehash_state h2 = TREEHASH_FINISHED →
      2 ^ (tau - 2) ∣ th_cnt st s h2 := by
  intro h2
  induction h2 using Nat.strong_induction_on with
  | _ h2 ih =>
    intro hth hh hun
    have hnd : ¬ 2 ^ (h2 + 1) ∣ s + 1 := fun hdd => hun (TInv_deadline hinv hev hh hdd)
    have hDs : 2 ^ (tau - 2) ∣ s + 1 := Nat.dvd_trans (pow_dvd_pow_two (by omega)) hd
    have hW : ∀ n, tau ≤ n → n ≤ h2 → 2 ^ (tau - 2) ∣ work_sum st s n + 1 := by
      intro n hn
      induction n, hn using Nat.le_induction with
      | base =>
        intro _
        have e := @work_sum_eq st s tau (fun h hl =>
          ⟨next_pop_of_dvd (pow_dvd_of_le hd (by omega)),
            th_cnt_fin (TInv_deadline hinv hev (by omega) (pow_dvd_of_le hd (by omega)))⟩)
        rw [e]
        have hd2 : 2 ^ (tau - 1 + 1) ∣ s + 1 := by
          have : tau - 1 + 1 = tau := by omega
          rw [this]; exact hd
        rw [half_of_dvd hd2]
        apply Nat.dvd_add
        · apply Dvd.dvd.mul_left
          apply Dvd.dvd.mul_left
          exact pow_dvd_pow_two (by omega)
        · exact pow_dvd_pow_two (by omega)
      | succ n hn ihn =>
        intro hle
        have h1 := ihn (by omega)
        have e : work_sum st s (n + 1) + 1
            = (work_sum st s n + 1) + next_pop s n / 2 + th_cnt st s n := by
          simp only [work_sum]; omega
        rw [e]
        apply Nat.dvd_add
        · apply Nat.dvd_add h1
          rw [half_of_dvd (next_pop_dvd s n)]
          apply Dvd.dvd.mul_left
          exact pow_dvd_pow_two (by omega)
        · by_cases hf : st.treehash_state n = TREEHASH_FINISHED
          · rw [th_cnt_fin hf]; exact pow_dvd_pow_two (by omega)
          · exact ih n (by omega) hn (by omega) hf
    have hacc := hinv.acc h2 hh hun
    have hR : 2 ^ (tau - 2) ∣ s % 2 ^ (h2 + 1) * (MSS_TREEHASH_SIZE P / 2)
        + MSS_TREEHASH_SIZE P / 2 + h2 * (s / 2 ^ (h2 + 1) * 2 ^ h2) + 2 ^ h2 := by
      apply Nat.dvd_add
      · apply Nat.dvd_add
        · have e : s % 2 ^ (h2 + 1) * (MSS_TREEHASH_SIZE P / 2) + MSS_TREEHASH_SIZE P / 2
              = ((s + 1) % 2 ^ (h2 + 1)) * (MSS_TREEHASH_SIZE P / 2) := by
            rw [succ_mod_of_not_dvd (two_pow_pos _) hnd]; ring
          rw [e]
          apply Dvd.dvd.mul_right
          exact (Nat.dvd_mod_iff (pow_dvd_pow_two (by omega))).2 hDs
        · apply Dvd.dvd.mul_left
          apply Dvd.dvd.mul_left
          exact pow_dvd_pow_two (by omega)
      · exact pow_dvd_pow_two (by omega)
    rw [← hacc] at hR
    have e : th_cnt st s h2 + work_sum st s h2 + 1
        = (work_sum st s h2 + 1) + th_cnt st s h2 := by omega
    rw [e] at hR
    exact (Nat.dvd_add_right (hW h2 hth (le_refl _))).1 hR

/-! ### The refresh of the authentication path in `_nextAuth` -/

theorem treehash_steps_spec (P : Params) (s : Nat) (stA : mss_state) :
    ∀ n,
      ((List.range n).foldl (nextAuth_treehash_step P s) stA).treehash = stA.treehash
      ∧ ((List.range n).foldl (nextAuth_treehash_step P s) stA).stack = stA.stack
      ∧ ((List.range n).foldl (nextAuth_treehash_step P s) stA).stack_index = stA.stack_index
      ∧ ((List.range n).foldl (nextAuth_treehash_step P s) stA).store = stA.store
      ∧ ((List.range n).foldl (nextAuth_treehash_step P s) stA).retain = stA.retain
      ∧ ((List.range n).foldl (nextAuth_treehash_step P s) stA).retain_index = stA.retain_index
      ∧ ((List.range n).foldl (nextAuth_treehash_step P s) stA).keep = stA.keep
      ∧ (∀ h, ((List.range n).foldl (nextAuth_treehash_step P s) stA).auth h
          = if h < n then stA.treehash h else stA.auth h)
      ∧ (∀ h, ((List.range n).foldl (nextAuth_treehash_step P s) stA).treehash_state h
          = if h < n then
              (if s + 1 + 3 * 2 ^ h < 2 ^ P.MSS_HEIGHT then TREEHASH_NEW else TREEHASH_FINISHED)
            else stA.treehash_state h)
      ∧ (∀ h, ((List.range n).foldl (nextAuth_treehash_step P s) stA).treehash_seed h
          = if h < n ∧ s + 1 + 3 * 2 ^ h < 2 ^ P.MSS_HEIGHT then s + 1 + 3 * 2 ^ h
            else stA.treehash_seed h) := by
  intro n
  induction n with
  | zero =>
    refine ⟨rfl, rfl, rfl, rfl, rfl, rfl, rfl, fun h => ?_, fun h => ?_, fun h => ?_⟩
    · rw [if_neg (Nat.not_lt_zero h)]; rfl
    · rw [if_neg (Nat.not_lt_zero h)]; rfl
    · rw [if_neg (fun x => Nat.not_lt_zero h x.1)]; rfl
  | succ n ih =>
    rw [List.range_succ, List.foldl_append]
    obtain ⟨a1, a2, a3, a4, a5, a6, a7, a8, a9, a10⟩ := ih
    generalize (List.range n).foldl (nextAuth_treehash_step P s) stA = stB at a1 a2 a3 a4 a5 a6 a7 a8 a9 a10 ⊢
    simp only [List.foldl_cons, List.foldl_nil]
    unfold nextAuth_treehash_step
    rw [Nat.one_shiftLeft, Nat.one_shiftLeft]
    by_cases hc : s + 1 + 3 * 2 ^ n < 2 ^ P.MSS_HEIGHT
    · simp only [if_pos hc]
      refine ⟨a1, a2, a3, a4, a5, a6, a7, ?_, ?_, ?_⟩
      · intro h
        show Function.update stB.auth n (stB.treehash n) h = _
        by_cases e : h = n
        · subst e; rw [Function.update_same, if_pos (show h < h + 1 by omega), a1]
        · rw [Function.update_noteq e, a8]
          by_cases l : h < n
          · rw [if_pos l, if_pos (show h < n + 1 by omega)]
          · rw [if_neg l, if_neg (show ¬ h < n + 1 by omega)]
      · intro h
        show Function.update stB.treehash_state n TREEHASH_NEW h = _
        by_cases e : h = n
        · subst e; rw [Function.update_same, if_pos (show h < h + 1 by omega), if_pos hc]
        · rw [Function.update_noteq e, a9]
          by_cases l : h < n
          · rw [if_pos l, if_pos (show h < n + 1 by omega)]
          · rw [if_neg l, if_neg (show ¬ h < n + 1 by omega)]
      · intro h
        show Function.update stB.treehash_seed n (s + 1 + 3 * 2 ^ n) h = _
        by_cases e : h = n
        · subst e; rw [Function.update_same, if_pos ⟨show h < h + 1 by omega, hc⟩]
        · rw [Function.update_noteq e, a10]
          by_cases l : h < n ∧ s + 1 + 3 * 2 ^ h < 2 ^ P.MSS_HEIGHT
          · rw [if_pos l, if_pos ⟨by omega, l.2⟩]
          · rw [if_neg l, if_neg (fun x => l ⟨by omega, x.2⟩)]
    · simp only [if_neg hc]
      refine ⟨a1, a2, a3, a4, a5, a6, a7, ?_, ?_, ?_⟩
      · intro h
        show Function.update stB.auth n (stB.treehash n) h = _
        by_cases e : h = n
        · subst e; rw [Function.update_same, if_pos (show h < h + 1 by omega), a1]
        · rw [Function.update_noteq e, a8]
          by_cases l : h < n
          · rw [if_pos l, if_pos (show h < n + 1 by omega)]
          · rw [if_neg l, if_neg (show ¬ h < n + 1 by omega)]
      · intro h
        show Function.update stB.treehash_state n TREEHASH_FINISHED h = _
        by_cases e : h = n
        · subst e; rw [Function.update_same, if_pos (show h < h + 1 by omega), if_neg hc]
        · rw [Function.update_noteq e, a9]
          by_cases l : h < n
          · rw [if_pos l, if_pos (show h < n + 1 by omega)]
          · rw [if_neg l, if_neg (show ¬ h < n + 1 by omega)]
      · intro h
        show stB.treehash_seed h = _
        rw [a10]
        by_cases l : h < n ∧ s + 1 + 3 * 2 ^ h < 2 ^ P.MSS_HEIGHT
        · rw [if_pos l, if_pos ⟨by omega, l.2⟩]
        · rw [if_neg l, if_neg]
          rintro ⟨x1, x2⟩
          by_cases e : h = n
          · subst e; exact hc x2
          · exact l ⟨by omega, x2⟩

theorem retain_steps_spec (P : Params) (stB : mss_state) :
    ∀ n,
      ((List.range n).foldl
          (fun st i => nextAuth_retain_step P st (P.MSS_HEIGHT - P.MSS_K + i)) stB).treehash
        = stB.treehash
      ∧ ((List.range n).foldl
          (fun st i => nextAuth_retain_step P st (P.MSS_HEIGHT - P.MSS_K + i)) stB).stack
        = stB.stack
      ∧ ((List.range n).foldl
          (fun st i => nextAuth_retain_step P st (P.MSS_HEIGHT - P.MSS_K + i)) stB).stack_index
        = stB.stack_index
      ∧ ((List.range n).foldl
          (fun st i => nextAuth_retain_step P st (P.MSS_HEIGHT - P.MSS_K + i)) stB).store
        = stB.store
      ∧ ((List.range n).foldl
          (fun st i => nextAuth_retain_step P st (P.MSS_HEIGHT - P.MSS_K + i)) stB).retain
        = stB.retain
      ∧ ((List.range n).foldl
          (fun st i => nextAuth_retain_step P st (P.MSS_HEIGHT - P.MSS_K + i)) stB).keep
        = stB.keep
      ∧ ((List.range n).foldl
          (fun st i => nextAuth_retain_step P st (P.MSS_HEIGHT - P.MSS_K + i)) stB).treehash_state
        = stB.treehash_state
      ∧ ((List.range n).foldl
          (fun st i => nextAuth_retain_step P st (P.MSS_HEIGHT - P.MSS_K + i)) stB).treehash_seed
        = stB.treehash_seed
      ∧ (∀ h, ((List.range n).foldl
          (fun st i => nextAuth_retain_step P st (P.MSS_HEIGHT - P.MSS_K + i)) stB).auth h
          = if P.MSS_HEIGHT - P.MSS_K ≤ h ∧ h < P.MSS_HEIGHT - P.MSS_K + n then
              stB.retain (2 ^ (P.MSS_HEIGHT - h - 1) - (P.MSS_HEIGHT - h - 1) - 1
                + stB.retain_index (h - (P.MSS_HEIGHT - P.MSS_K)))
            else stB.auth h)
      ∧ (∀ x, ((List.range n).foldl
          (fun st i => nextAuth_retain_step P st (P.MSS_HEIGHT - P.MSS_K + i)) stB).retain_index x
          = if x < n then stB.retain_index x + 1 else stB.retain_index x) := by
  intro n
  induction n with
  | zero =>
    refine ⟨rfl, rfl, rfl, rfl, rfl, rfl, rfl, rfl, fun h => ?_, fun x => ?_⟩
    · rw [if_neg (by omega)]; rfl
    · rw [if_neg (Nat.not_lt_zero x)]; rfl
  | succ n ih =>
    rw [List.range_succ, List.foldl_append]
    obtain ⟨a1, a2, a3, a4, a5, a6, a7, a8, a9, a10⟩ := ih
    generalize (List.range n).foldl
      (fun st i => nextAuth_retain_step P st (P.MSS_HEIGHT - P.MSS_K + i)) stB = stC
      at a1 a2 a3 a4 a5 a6 a7 a8 a9 a10 ⊢
    simp only [List.foldl_cons, List.foldl_nil]
    unfold nextAuth_retain_step _retain_pop
    dsimp only
    rw [Nat.one_shiftLeft]
    have e0 : P.MSS_HEIGHT - P.MSS_K + n - (P.MSS_HEIGHT - P.MSS_K) = n := by omega
    rw [e0]
    refine ⟨a1, a2, a3, a4, a5, a6, a7, a8, ?_, ?_⟩
    · intro h
      by_cases e : h = P.MSS_HEIGHT - P.MSS_K + n
      · subst e
        rw [Function.update_same, if_pos ⟨by omega, by omega⟩, a5, a10, if_neg (by omega), e0]
      · rw [Function.update_noteq e, a9]
        by_cases l : P.MSS_HEIGHT - P.MSS_K ≤ h ∧ h < P.MSS_HEIGHT - P.MSS_K + n
        · rw [if_pos l, if_pos ⟨l.1, by omega⟩]
        · rw [if_neg l, if_neg (fun x => l ⟨x.1, by omega⟩)]
    · intro x
      by_cases e : x = n
      · subst e
        rw [Function.update_same, a10, if_neg (by omega), if_pos (by omega)]
      · rw [Function.update_noteq e, a10]
        by_cases l : x < n
        · rw [if_pos l, if_pos (by omega)]
        · rw [if_neg l, if_neg (by omega)]

theorem refresh_keep_frame (P : Params) (st : mss_state) (s tau : Nat) :
    (refresh_keep P st s tau).treehash = st.treehash
    ∧ (refresh_keep P st s tau).stack = st.stack
    ∧ (refresh_keep P st s tau).stack_index = st.stack_index
    ∧ (refresh_keep P st s tau).store = st.store
    ∧ (refresh_keep P st s tau).retain = st.retain
    ∧ (refresh_keep P st s tau).retain_index = st.retain_index
    ∧ (refresh_keep P st s tau).treehash_state = st.treehash_state
    ∧ (refresh_keep P st s tau).treehash_seed = st.treehash_seed
    ∧ (refresh_keep P st s tau).auth = st.auth
    ∧ (refresh_keep P st s tau).keep
        = (if tau < P.MSS_HEIGHT - 1 ∧ (s >>> (tau + 1)) &&& 1 = 0 then
            Function.update st.keep tau (st.auth tau) else st.keep) := by
  unfold refresh_keep
  split_ifs <;> exact ⟨rfl, rfl, rfl, rfl, rfl, rfl, rfl, rfl, rfl, rfl⟩

theorem nextAuth_refresh_eq (P : Params) (E : Prims) (st : mss_state) (leaf : mss_node)
    (s tau : Nat) (htau : tau = tau_loop s (P.MSS_HEIGHT - 1)) (hK : P.MSS_K ≤ P.MSS_HEIGHT) :
    nextAuth_refresh P E st leaf s
      = if tau = 0 then
          { refresh_keep P st s tau with
            auth := Function.update (refresh_keep P st s tau).auth 0 leaf }
        else
          (List.range (tau - (P.MSS_HEIGHT - P.MSS_K))).foldl
            (fun st i => nextAuth_retain_step P st (P.MSS_HEIGHT - P.MSS_K + i))
            ((List.range (min tau (MSS_TREEHASH_SIZE P))).foldl (nextAuth_treehash_step P s)
              { refresh_keep P st s tau with
                auth := Function.update (refresh_keep P st s tau).auth tau
                  (_get_parent E ((refresh_keep P st s tau).auth (tau - 1))
                    ((refresh_keep P st s tau).keep (tau - 1))) }) := by
  unfold nextAuth_refresh
  rw [← htau]
  by_cases h0 : tau = 0
  · rw [if_pos h0]
    dsimp only
    rw [if_pos h0]
    rfl
  · rw [if_neg h0]
    dsimp only
    rw [if_neg h0]
    have e : ((if (tau : Int) - 1 < (P.MSS_HEIGHT : Int) - (P.MSS_K : Int) - 1 then
          (tau : Int) - 1 else (P.MSS_HEIGHT : Int) - (P.MSS_K : Int) - 1) + 1).toNat
        = min tau (MSS_TREEHASH_SIZE P) := by
      unfold MSS_TREEHASH_SIZE
      split_ifs <;> omega
    rw [e]
    rfl

/-- The fields of the state after the refresh, one by one. -/
theorem refresh_facts (P : Params) (E : Prims) (st : mss_state) (leaf : mss_node)
    (s tau : Nat) (htau : tau = tau_loop s (P.MSS_HEIGHT - 1)) (hK : P.MSS_K ≤ P.MSS_HEIGHT) :
    (nextAuth_refresh P E st leaf s).treehash = st.treehash
    ∧ (nextAuth_refresh P E st leaf s).stack = st.stack
    ∧ (nextAuth_refresh P E st leaf s).stack_index = st.stack_index
    ∧ (nextAuth_refresh P E st leaf s).store = st.store
    ∧ (nextAuth_refresh P E st leaf s).retain = st.retain
    ∧ (nextAuth_refresh P E st leaf s).keep
        = (if tau < P.MSS_HEIGHT - 1 ∧ (s >>> (tau + 1)) &&& 1 = 0 then
            Function.update st.keep tau (st.auth tau) else st.keep)
    ∧ (∀ h, (nextAuth_refresh P E st leaf s).treehash_state h
        = if h < min tau (MSS_TREEHASH_SIZE P) then
            (if s + 1 + 3 * 2 ^ h < 2 ^ P.MSS_HEIGHT then TREEHASH_NEW else TREEHASH_FINISHED)
          else st.treehash_state h)
    ∧ (∀ h, (nextAuth_refresh P E st leaf s).treehash_seed h
        = if h < min tau (MSS_TREEHASH_SIZE P) ∧ s + 1 + 3 * 2 ^ h < 2 ^ P.MSS_HEIGHT then
            s + 1 + 3 * 2 ^ h
          else st.treehash_seed h)
    ∧ (∀ h, (nextAuth_refresh P E st leaf s).auth h
        = if h < min tau (MSS_TREEHASH_SIZE P) then st.treehash h
          else if MSS_TREEHASH_SIZE P ≤ h ∧ h < tau then
            st.retain (2 ^ (P.MSS_HEIGHT - h - 1) - (P.MSS_HEIGHT - h - 1) - 1
              + st.retain_index (h - MSS_TREEHASH_SIZE P))
          else if h = tau then
            (if tau = 0 then leaf else _get_parent E (st.auth (tau - 1)) (st.keep (tau - 1)))
          else st.auth h)
    ∧ (∀ x, (nextAuth_refresh P E st leaf s).retain_index x
        = if x + MSS_TREEHASH_SIZE P < tau then st.retain_index x + 1 else st.retain_index x) := by
  rw [nextAuth_refresh_eq P E st leaf s tau htau hK]
  obtain ⟨k1, k2, k3, k4, k5, k6, k7, k8, k9, k10⟩ := refresh_keep_frame P st s tau
  have hTdef : MSS_TREEHASH_SIZE P = P.MSS_HEIGHT - P.MSS_K := rfl
  by_cases h0 : tau = 0
  · rw [if_pos h0]
    refine ⟨k1, k2, k3, k4, k5, k10, ?_, ?_, ?_, ?_⟩
    · intro h
      rw [if_neg (by omega)]
      show (refresh_keep P st s tau).treehash_state h = _
      rw [k7]
    · intro h
      rw [if_neg (fun x => by omega)]
      show (refresh_keep P st s tau).treehash_seed h = _
      rw [k8]
    · intro h
      rw [if_neg (by omega), if_neg (fun x => by omega)]
      show Function.update (refresh_keep P st s tau).auth 0 leaf h = _
      rw [k9]
      by_cases e : h = tau
      · rw [if_pos e, if_pos h0, e, h0, Function.update_same]
      · rw [if_neg e, Function.update_noteq (by omega)]
    · intro x
      rw [if_neg (by omega)]
      show (refresh_keep P st s tau).retain_index x = _
      rw [k6]
  · rw [if_neg h0]
    obtain ⟨b1, b2, b3, b4, b5, b6, b7, b8, b9, b10⟩ := treehash_steps_spec P s
      { refresh_keep P st s tau with
        auth := Function.update (refresh_keep P st s tau).auth tau
          (_get_parent E ((refresh_keep P st s tau).auth (tau - 1))
            ((refresh_keep P st s tau).keep (tau - 1))) }
      (min tau (MSS_TREEHASH_SIZE P))
    generalize (List.range (min tau (MSS_TREEHASH_SIZE P))).foldl (nextAuth_treehash_step P s)
      { refresh_keep P st s tau with
        auth := Function.update (refresh_keep P st s tau).auth tau
          (_get_parent E ((refresh_keep P st s tau).auth (tau - 1))
            ((refresh_keep P st s tau).keep (tau - 1))) } = stB
      at b1 b2 b3 b4 b5 b6 b7 b8 b9 b10 ⊢
    obtain ⟨c1, c2, c3, c4, c5, c6, c7, c8, c9, c10⟩ := retain_steps_spec P stB
      (tau - (P.MSS_HEIGHT - P.MSS_K))
    generalize (List.range (tau - (P.MSS_HEIGHT - P.MSS_K))).foldl
      (fun st i => nextAuth_retain_step P st (P.MSS_HEIGHT - P.MSS_K + i)) stB = stC
      at c1 c2 c3 c4 c5 c6 c7 c8 c9 c10 ⊢
    dsimp only at b1 b2 b3 b4 b5 b6 b7 b8 b9 b10
    refine ⟨?_, ?_, ?_, ?_, ?_, ?_, ?_, ?_, ?_, ?_⟩
    · rw [c1, b1, k1]
    · rw [c2, b2, k2]
    · rw [c3, b3, k3]
    · rw [c4, b4, k4]
    · rw [c5, b5, k5]
    · rw [c6, b7, k10]
    · intro h; rw [c7, b9, k7]
    · intro h; rw [c8, b10, k8]
    · intro h
      rw [c9, b5, k5, b6, k6, b8, k1, k9, k10, ← hTdef]
      by_cases l1 : h < min tau (MSS_TREEHASH_SIZE P)
      · have l3 : ¬ (MSS_TREEHASH_SIZE P ≤ h
            ∧ h < MSS_TREEHASH_SIZE P + (tau - MSS_TREEHASH_SIZE P)) := by omega
        simp only [if_pos l1, if_neg l3]
      · by_cases l2 : MSS_TREEHASH_SIZE P ≤ h ∧ h < tau
        · have l3 : MSS_TREEHASH_SIZE P ≤ h
              ∧ h < MSS_TREEHASH_SIZE P + (tau - MSS_TREEHASH_SIZE P) := ⟨l2.1, by omega⟩
          simp only [if_neg l1, if_pos l2, if_pos l3]
        · have l3 : ¬ (MSS_TREEHASH_SIZE P ≤ h
              ∧ h < MSS_TREEHASH_SIZE P + (tau - MSS_TREEHASH_SIZE P)) :=
            fun x => l2 ⟨x.1, by omega⟩
          simp only [if_neg l1, if_neg l2, if_neg l3]
          by_cases e : h = tau
          · rw [if_pos e, if_neg h0, e, Function.update_same]
            have hne : tau - 1 ≠ tau := by omega
            split_ifs
            · rw [Function.update_noteq hne]
            · rfl
          · rw [if_neg e, Function.update_noteq e]
    · intro x
      rw [c10, b6, k6, ← hTdef]
      by_cases l : x + MSS_TREEHASH_SIZE P < tau
      · rw [if_pos l, if_pos (by omega)]
      · rw [if_neg l, if_neg (by omega)]

/-! ### Arithmetic of the refresh -/

theorem start_cond_end {h x N : Nat} (hx : 2 ^ (h + 1) ∣ x) (hN : 2 ^ (h + 1) ∣ N)
    (hc : x + 3 * 2 ^ h < N) : x + 2 ^ (h + 1) + 2 ^ (h + 1) ≤ N := by
  obtain ⟨a, ha⟩ := hx
  obtain ⟨b, hb⟩ := hN
  have e : (2 : Nat) ^ (h + 1) = 2 * 2 ^ h := by rw [pow_succ]; ring
  have hX := two_pow_pos h
  rw [e] at ha hb ⊢
  have hab : a + 2 ≤ b := by
    by_contra hlt
    have : 2 ^ h * b ≤ 2 ^ h * (a + 1) := Nat.mul_le_mul_left _ (by omega)
    have e1 : 2 * 2 ^ h * a = 2 * (2 ^ h * a) := by ring
    have e2 : 2 * 2 ^ h * b = 2 * (2 ^ h * b) := by ring
    have e3 : 2 ^ h * (a + 1) = 2 ^ h * a + 2 ^ h := by ring
    omega
  have : 2 ^ h * (a + 2) ≤ 2 ^ h * b := Nat.mul_le_mul_left _ hab
  have e1 : 2 * 2 ^ h * a = 2 * (2 ^ h * a) := by ring
  have e2 : 2 * 2 ^ h * b = 2 * (2 ^ h * b) := by ring
  have e3 : 2 ^ h * (a + 2) = 2 ^ h * a + 2 * 2 ^ h := by ring
  omega

theorem start_cond_not {h x N : Nat} (hx : 2 ^ (h + 1) ∣ x) (hN : 2 ^ (h + 1) ∣ N)
    (hc : ¬ x + 3 * 2 ^ h < N) : N ≤ x + 2 ^ (h + 1) := by
  obtain ⟨a, ha⟩ := hx
  obtain ⟨b, hb⟩ := hN
  have e : (2 : Nat) ^ (h + 1) = 2 * 2 ^ h := by rw [pow_succ]; ring
  have hX := two_pow_pos h
  rw [e] at ha hb ⊢
  have hab : b ≤ a + 1 := by
    by_contra hlt
    have : 2 ^ h * (a + 2) ≤ 2 ^ h * b := Nat.mul_le_mul_left _ (by omega)
    have e1 : 2 * 2 ^ h * a = 2 * (2 ^ h * a) := by ring
    have e2 : 2 * 2 ^ h * b = 2 * (2 ^ h * b) := by ring
    have e3 : 2 ^ h * (a + 2) = 2 ^ h * a + 2 * 2 ^ h := by ring
    omega
  have : 2 ^ h * b ≤ 2 ^ h * (a + 1) := Nat.mul_le_mul_left _ hab
  have e1 : 2 * 2 ^ h * a = 2 * (2 ^ h * a) := by ring
  have e2 : 2 * 2 ^ h * b = 2 * (2 ^ h * b) := by ring
  have e3 : 2 ^ h * (a + 1) = 2 ^ h * a + 2 ^ h := by ring
  omega

theorem job_mul_of_dvd {s h : Nat} (hd : 2 ^ (h + 1) ∣ s + 1) :
    job_index s h * 2 ^ h = s + 1 + 2 ^ h
    ∧ job_index (s + 1) h * 2 ^ h = s + 1 + 3 * 2 ^ h := by
  have h1 := job_index_mul s h
  rw [next_pop_of_dvd hd] at h1
  refine ⟨h1, ?_⟩
  rw [job_index_succ_of_dvd hd, Nat.add_mul, h1]
  omega

theorem sib_of_dvd {s h : Nat} (hd : 2 ^ (h + 1) ∣ s + 1) :
    sib ((s + 1) / 2 ^ h) = job_index s h := by
  have h1 := div_succ_of_dvd hd
  obtain ⟨a, ha⟩ := hd
  have e : (2 : Nat) ^ (h + 1) * a = 2 ^ h * (2 * a) := by rw [pow_succ]; ring
  have h2 : (s + 1) / 2 ^ h = 2 * a := by
    rw [ha, e, Nat.mul_div_cancel_left _ (two_pow_pos h)]
  have h3 : (s + 1) / 2 ^ (h + 1) = a := by
    rw [ha, Nat.mul_div_cancel_left _ (two_pow_pos _)]
  unfold sib job_index
  rw [h2, if_pos (by omega)]
  omega

theorem sib_top {s t : Nat} (hd : 2 ^ t ∣ s + 1) (hnd : ¬ 2 ^ (t + 1) ∣ s + 1) :
    sib ((s + 1) / 2 ^ t) = s / 2 ^ t ∧ sib (s / 2 ^ t) = (s + 1) / 2 ^ t := by
  have h1 := succ_div_pow_of_dvd hd
  have h2 := bit_zero_of_not_dvd hd hnd
  unfold sib
  rw [h1, if_neg (show ¬ (s / 2 ^ t + 1) % 2 = 0 by omega), if_pos h2]
  exact ⟨by simp, rfl⟩

theorem mod_exact {s t : Nat} (hd : 2 ^ t ∣ s + 1) (hnd : ¬ 2 ^ (t + 1) ∣ s + 1) :
    s % 2 ^ (t + 1) = 2 ^ t - 1 := by
  have h2 := bit_zero_of_not_dvd hd hnd
  have h3 := mod_of_dvd_succ (two_pow_pos t) hd
  have h4 := Nat.div_add_mod s (2 ^ t)
  have h5 := Nat.div_add_mod (s / 2 ^ t) 2
  rw [h2] at h5
  have e : (2 : Nat) ^ (t + 1) = 2 ^ t * 2 := by rw [pow_succ]
  rw [e, Nat.mod_mul, h3, h2]
  simp

theorem keep_low_absurd {s h : Nat} (hd : 2 ^ (h + 1) ∣ s + 1)
    (h1 : 2 ^ h ≤ (s + 1) % 2 ^ (h + 2)) (h2 : (s + 1) % 2 ^ (h + 2) < 2 ^ (h + 1)) : False := by
  have e : (s + 1) % 2 ^ (h + 2) % 2 ^ (h + 1) = (s + 1) % 2 ^ (h + 1) :=
    Nat.mod_mod_of_dvd _ (pow_dvd_pow_two (by omega))
  rw [Nat.mod_eq_of_lt h2, Nat.mod_eq_zero_of_dvd hd] at e
  have := two_pow_pos h
  omega

theorem keep_bit {s t : Nat} (hnd : ¬ 2 ^ (t + 1) ∣ s + 1)
    (h2 : (s + 1) % 2 ^ (t + 2) < 2 ^ (t + 1)) : (s >>> (t + 1)) &&& 1 = 0 := by
  rw [Nat.shiftRight_eq_div_pow, Nat.and_one_is_mod, ← div_succ_of_not_dvd hnd]
  have e : (2 : Nat) ^ (t + 2) = 2 ^ (t + 1) * 2 := by rw [pow_succ]
  rw [e, Nat.mod_mul] at h2
  have := two_pow_pos (t + 1)
  by_contra hc
  have h1 : (s + 1) / 2 ^ (t + 1) % 2 = 1 := by omega
  rw [h1] at h2
  omega

theorem keep_high {s h t : Nat} (hnd : ¬ 2 ^ (t + 1) ∣ s + 1) (hth : t < h)
    (h1 : 2 ^ h ≤ (s + 1) % 2 ^ (h + 2)) (h2 : (s + 1) % 2 ^ (h + 2) < 2 ^ (h + 1)) :
    2 ^ h ≤ s % 2 ^ (h + 2) ∧ s % 2 ^ (h + 2) < 2 ^ (h + 1) := by
  have hn2 : ¬ 2 ^ (h + 2) ∣ s + 1 := fun hd =>
    hnd (Nat.dvd_trans (pow_dvd_pow_two (by omega)) hd)
  have e := succ_mod_of_not_dvd (two_pow_pos (h + 2)) hn2
  have hne : (s + 1) % 2 ^ (h + 2) ≠ 2 ^ h := by
    intro heq
    apply hnd
    have hd : 2 ^ h ∣ s + 1 := by
      apply (Nat.dvd_mod_iff (pow_dvd_pow_two (show h ≤ h + 2 by omega))).1
      rw [heq]
    exact Nat.dvd_trans (pow_dvd_pow_two (by omega)) hd
  omega

theorem portions_ext (E : Prims) (seed : Bytes) (st st2 : mss_state) :
    ∀ n b, (∀ c, b ≤ c → c < b + n → portion E seed st2 c = portion E seed st c) →
      portions E seed st2 b n = portions E seed st b n := by
  intro n
  induction n with
  | zero => intro b _; rfl
  | succ n ih =>
    intro b hz
    simp only [portions]
    rw [ih (b + 1) (fun c hc1 hc2 => hz c (by omega) (by omega)), hz b (le_refl _) (by omega)]

theorem work_sum_ext {st st2 : mss_state} {m m2 : Nat} :
    ∀ h2, (∀ h, h < h2 → next_pop m2 h / 2 + th_cnt st2 m2 h = next_pop m h / 2 + th_cnt st m h) →
      work_sum st2 m2 h2 = work_sum st m h2 := by
  intro h2
  induction h2 with
  | zero => intro _; rfl
  | succ h ih =>
    intro hh
    simp only [work_sum]
    have := hh h (by omega)
    rw [ih (fun x hx => hh x (by omega))]
    omega

theorem work_sum_fresh {st : mss_state} {m : Nat} (hm : m % 2 = 0) :
    ∀ n, (∀ h, h < n → next_pop m h = m + 2 ^ (h + 1) ∧ th_cnt st m h = 0) →
      work_sum st m n + 1 = n * (m / 2) + 2 ^ n := by
  intro n
  induction n with
  | zero => intro _; simp [work_sum]
  | succ n ih =>
    intro hh
    have h1 := ih (fun h hl => hh h (by omega))
    obtain ⟨h2, h3⟩ := hh n (by omega)
    simp only [work_sum]
    rw [h2, h3, Nat.succ_mul]
    have e : (2 : Nat) ^ (n + 1) = 2 * 2 ^ n := by rw [pow_succ]; ring
    rw [e]
    omega

theorem mul_pow_bit_zero {c b : Nat} (J : Nat) (hb : b < c) : (J * 2 ^ c / 2 ^ b) % 2 = 0 := by
  have e : (2 : Nat) ^ c = 2 ^ b * (2 * 2 ^ (c - b - 1)) := by
    rw [← pow_succ', ← pow_add]; congr 1; omega
  have e2 : J * (2 ^ b * (2 * 2 ^ (c - b - 1))) = 2 ^ b * (2 * (J * 2 ^ (c - b - 1))) := by ring
  rw [e, e2, Nat.mul_div_cancel_left _ (two_pow_pos b), Nat.mul_mod_right]

/-- The refresh of `_nextAuth` for leaf `s` turns the state that is right for
leaf `s`, all update rounds done, into the state for leaf `s + 1` with no round
done. -/
theorem TInv_refresh (P : Params) (E : Prims) (seed : Bytes) {s : Nat} {st : mss_state}
    (hinv : TInv P E seed s (MSS_TREEHASH_SIZE P / 2) st)
    (hH1 : 1 ≤ P.MSS_HEIGHT) (hH : P.MSS_HEIGHT ≤ 30) (hK : P.MSS_K ≤ P.MSS_HEIGHT)
    (hev : MSS_TREEHASH_SIZE P % 2 = 0) (hs : s + 1 < 2 ^ P.MSS_HEIGHT)
    (leaf : mss_node) (hleaf : s % 2 = 0 → leaf = tree_node E seed 0 s) :
    TInv P E seed (s + 1) 0 (nextAuth_refresh P E st leaf s) := by
  have hTH : MSS_TREEHASH_SIZE P ≤ P.MSS_HEIGHT := Nat.sub_le _ _
  obtain ⟨tau, htau⟩ : ∃ tau, tau = tau_loop s (P.MSS_HEIGHT - 1) := ⟨_, rfl⟩
  have hspec := tau_loop_spec s (P.MSS_HEIGHT - 1) (by
    have : P.MSS_HEIGHT - 1 + 1 = P.MSS_HEIGHT := by omega
    rw [this]; exact hs)
  rw [← htau] at hspec
  obtain ⟨htauH, hd, hnd⟩ := hspec
  obtain ⟨r1, r2, r3, r4, r5, r6, r7, r8, r9, r10⟩ := refresh_facts P E st leaf s tau htau hK
  generalize nextAuth_refresh P E st leaf s = st2 at r1 r2 r3 r4 r5 r6 r7 r8 r9 r10 ⊢
  -- divisibility below and above tau
  have hdv : ∀ h, h < tau → 2 ^ (h + 1) ∣ s + 1 := fun h hh => pow_dvd_of_le hd (by omega)
  have hndv : ∀ h, tau ≤ h → ¬ 2 ^ (h + 1) ∣ s + 1 := fun h hh hdd =>
    hnd (Nat.dvd_trans (pow_dvd_pow_two (by omega)) hdd)
  have hNdv : ∀ h, h < tau → 2 ^ (h + 1) ∣ 2 ^ P.MSS_HEIGHT := fun h hh =>
    pow_dvd_pow_two (by omega)
  have hfin : ∀ h, h < min tau (MSS_TREEHASH_SIZE P) → st.treehash_state h = TREEHASH_FINISHED :=
    fun h hh => TInv_deadline hinv hev (by omega) (hdv h (by omega))
  have hnf : ¬ TREEHASH_NEW = TREEHASH_FINISHED := by decide
  -- the instances after the refresh
  have hstart : ∀ h, h < min tau (MSS_TREEHASH_SIZE P) → s + 1 + 3 * 2 ^ h < 2 ^ P.MSS_HEIGHT →
      st2.treehash_state h = TREEHASH_NEW
      ∧ st2.treehash_seed h = job_index (s + 1) h * 2 ^ h
      ∧ th_cnt st2 (s + 1) h = 0 := by
    intro h hh hc
    have e1 : st2.treehash_state h = TREEHASH_NEW := by rw [r7, if_pos hh, if_pos hc]
    have e2 : st2.treehash_seed h = job_index (s + 1) h * 2 ^ h := by
      rw [r8, if_pos ⟨hh, hc⟩, (job_mul_of_dvd (hdv h (by omega))).2]
    refine ⟨e1, e2, ?_⟩
    rw [th_cnt_run (by rw [e1]; exact hnf), e2]
    omega
  have hstop : ∀ h, h < min tau (MSS_TREEHASH_SIZE P) → ¬ s + 1 + 3 * 2 ^ h < 2 ^ P.MSS_HEIGHT →
      st2.treehash_state h = TREEHASH_FINISHED := by
    intro h hh hc
    rw [r7, if_pos hh, if_neg hc]
  have hold : ∀ h, h < MSS_TREEHASH_SIZE P → ¬ h < min tau (MSS_TREEHASH_SIZE P) →
      tau ≤ h ∧ st2.treehash_state h = st.treehash_state h
      ∧ st2.treehash_seed h = st.treehash_seed h
      ∧ job_index (s + 1) h = job_index s h ∧ next_pop (s + 1) h = next_pop s h
      ∧ th_cnt st2 (s + 1) h = th_cnt st s h := by
    intro h hh hn
    have ht : tau ≤ h := by omega
    have e1 : st2.treehash_state h = st.treehash_state h := by rw [r7, if_neg hn]
    have e2 : st2.treehash_seed h = st.treehash_seed h := by
      rw [r8, if_neg (fun x => hn x.1)]
    have e3 := job_index_succ_of_not_dvd (hndv h ht)
    refine ⟨ht, e1, e2, e3, next_pop_succ_of_not_dvd (hndv h ht), ?_⟩
    unfold th_cnt
    rw [e1, e2, e3]
  have hcases : ∀ h, h < MSS_TREEHASH_SIZE P → ¬ st2.treehash_state h = TREEHASH_FINISHED →
      (h < min tau (MSS_TREEHASH_SIZE P) ∧ s + 1 + 3 * 2 ^ h < 2 ^ P.MSS_HEIGHT)
      ∨ (¬ h < min tau (MSS_TREEHASH_SIZE P) ∧ ¬ st.treehash_state h = TREEHASH_FINISHED) := by
    intro h hh hf
    by_cases hn : h < min tau (MSS_TREEHASH_SIZE P)
    · by_cases hc : s + 1 + 3 * 2 ^ h < 2 ^ P.MSS_HEIGHT
      · exact Or.inl ⟨hn, hc⟩
      · exact absurd (hstop h hn hc) hf
    · right
      refine ⟨hn, ?_⟩
      rw [← (hold h hh hn).2.1]; exact hf
  -- an old unfinished instance lets every lower instance start
  have hlower : ∀ h2, h2 < MSS_TREEHASH_SIZE P → tau ≤ h2 →
      ¬ st.treehash_state h2 = TREEHASH_FINISHED → ∀ h, h < tau →
      s + 1 + 3 * 2 ^ h < 2 ^ P.MSS_HEIGHT := by
    intro h2 hh2 ht hf h hh
    have h1 := hinv.seed_end h2 hh2 hf
    have h2' := next_pop_gt s h2
    have e : (2 : Nat) ^ (h2 + 1) = 2 ^ (h + 1) * 2 ^ (h2 - h) := by
      rw [← pow_add]; congr 1; omega
    have e2 : (2 : Nat) ^ (h + 1) = 2 * 2 ^ h := by rw [pow_succ]; ring
    have hp : 2 ≤ 2 ^ (h2 - h) := by
      have : (2 : Nat) ^ 1 ≤ 2 ^ (h2 - h) := Nat.pow_le_pow_right (by norm_num) (by omega)
      simpa using this
    have : 2 ^ (h + 1) * 2 ≤ 2 ^ (h + 1) * 2 ^ (h2 - h) := Nat.mul_le_mul_left _ hp
    have := two_pow_pos h
    omega
  refine
    { flag := ?_, seed_lo := ?_, seed_hi := ?_, seed_new := ?_, seed_end := ?_, seed_rel := ?_,
      node_fin := ?_, node_lo := ?_, node_hi := ?_, stack := ?_, acc := ?_, align := ?_,
      same := ?_, store_hi := ?_, store_lo := ?_, store_fin := ?_, store_end := ?_,
      auth := ?_, keep := ?_, ret_idx := ?_, ret := ?_ }
  · -- flag
    intro h hh
    rw [r7]
    split_ifs
    · exact Or.inl rfl
    · exact Or.inr (Or.inr rfl)
    · exact hinv.flag h hh
  · -- seed_lo
    intro h hh hf
    rcases hcases h hh hf with ⟨hn, hc⟩ | ⟨hn, hf0⟩
    · rw [(hstart h hn hc).2.1]
    · obtain ⟨_, _, e2, e3, _, _⟩ := hold h hh hn
      rw [e2, e3]; exact hinv.seed_lo h hh hf0
  · -- seed_hi
    intro h hh hf
    rcases hcases h hh hf with ⟨hn, hc⟩ | ⟨hn, hf0⟩
    · rw [(hstart h hn hc).2.1]
      have := two_pow_pos h
      omega
    · obtain ⟨_, _, e2, e3, _, _⟩ := hold h hh hn
      rw [e2, e3]; exact hinv.seed_hi h hh hf0
  · -- seed_new
    intro h hh hf
    rcases hcases h hh hf with ⟨hn, hc⟩ | ⟨hn, hf0⟩
    · obtain ⟨e1, e2, _⟩ := hstart h hn hc
      exact ⟨fun _ => e2, fun _ => e1⟩
    · obtain ⟨_, e1, e2, e3, _, _⟩ := hold h hh hn
      rw [e1, e2, e3]; exact hinv.seed_new h hh hf0
  · -- seed_end
    intro h hh hf
    rcases hcases h hh hf with ⟨hn, hc⟩ | ⟨hn, hf0⟩
    · have hlt : h < tau := by omega
      rw [next_pop_succ_of_dvd (hdv h hlt)]
      exact start_cond_end (hdv h hlt) (hNdv h hlt) hc
    · obtain ⟨_, _, _, _, e4, _⟩ := hold h hh hn
      rw [e4]; exact hinv.seed_end h hh hf0
  · -- seed_rel
    intro h hh hf
    rcases hcases h hh hf with ⟨hn, hc⟩ | ⟨hn, hf0⟩
    · exact Nat.le_of_dvd (by omega) (hdv h (by omega))
    · have := hinv.seed_rel h hh hf0
      omega
  · -- node_fin
    intro h hh hf
    rw [r1]
    by_cases hn : h < min tau (MSS_TREEHASH_SIZE P)
    · have hlt : h < tau := by omega
      refine ⟨(hinv.node_fin h hh (hfin h hn)).1, ?_⟩
      intro hnp
      exfalso
      by_cases hc : s + 1 + 3 * 2 ^ h < 2 ^ P.MSS_HEIGHT
      · rw [(hstart h hn hc).1] at hf
        exact hnf hf
      · have := start_cond_not (hdv h hlt) (hNdv h hlt) hc
        rw [next_pop_succ_of_dvd (hdv h hlt)] at hnp
        omega
    · obtain ⟨_, e1, _, e3, e4, _⟩ := hold h hh hn
      rw [e1] at hf
      rw [e3, e4]
      exact hinv.node_fin h hh hf
  · -- node_lo
    intro h hh hf hlt
    rw [r1]
    rcases hcases h hh hf with ⟨hn, hc⟩ | ⟨hn, hf0⟩
    · exact (hinv.node_fin h hh (hfin h hn)).1
    · obtain ⟨_, _, _, _, _, e5⟩ := hold h hh hn
      rw [e5] at hlt
      exact hinv.node_lo h hh hf0 hlt
  · -- node_hi
    intro h hh hf hle
    rw [r1]
    rcases hcases h hh hf with ⟨hn, hc⟩ | ⟨hn, hf0⟩
    · rw [(hstart h hn hc).2.2] at hle
      have := two_pow_pos (h - 1)
      omega
    · obtain ⟨_, _, _, e3, _, e5⟩ := hold h hh hn
      rw [e5] at hle
      rw [e3]
      exact hinv.node_hi h hh hf0 hle
  · -- stack
    rw [r2, r3]
    have hp : portions E seed st2 0 (MSS_TREEHASH_SIZE P)
        = portions E seed st 0 (MSS_TREEHASH_SIZE P) := by
      apply portions_ext
      intro c _ hc
      have hcT : c < MSS_TREEHASH_SIZE P := by omega
      by_cases hn : c < min tau (MSS_TREEHASH_SIZE P)
      · have e0 : portion E seed st c = [] := by
          unfold portion; rw [if_pos (hfin c hn)]
        rw [e0]
        unfold portion
        by_cases hcc : s + 1 + 3 * 2 ^ c < 2 ^ P.MSS_HEIGHT
        · obtain ⟨e1, e2, _⟩ := hstart c hn hcc
          rw [if_neg (by rw [e1]; exact hnf), e2]
          apply spine_from_zero_bits
          intro b _ hb
          exact mul_pow_bit_zero _ (by omega)
        · rw [if_pos (hstop c hn hcc)]
      · obtain ⟨_, e1, e2, _, _, _⟩ := hold c hcT hn
        unfold portion
        rw [e1, e2]
    rw [hp]
    exact hinv.stack
  · -- acc
    intro h2 hh hf
    rcases hcases h2 hh hf with ⟨hn, hc⟩ | ⟨hn, hf0⟩
    · have hlt : h2 < tau := by omega
      rw [(hstart h2 hn hc).2.2]
      have hev2 : (s + 1) % 2 = 0 := by
        have := hdv 0 (by omega)
        simp at this
        omega
      have hw := @work_sum_fresh st2 (s + 1) hev2 h2 (fun h hl => by
        have hcl : s + 1 + 3 * 2 ^ h < 2 ^ P.MSS_HEIGHT := by
          have : 2 ^ h ≤ 2 ^ h2 := Nat.pow_le_pow_right (by norm_num) (by omega)
          omega
        exact ⟨next_pop_succ_of_dvd (hdv h (by omega)), (hstart h (by omega) hcl).2.2⟩)
      rw [Nat.zero_add, hw, Nat.mod_eq_zero_of_dvd (hdv h2 hlt), half_of_dvd (hdv h2 hlt)]
      simp
    · obtain ⟨ht, _, _, _, _, e5⟩ := hold h2 hh hn
      have hacc := hinv.acc h2 hh hf0
      have hws : work_sum st2 (s + 1) h2 = work_sum st s h2 := by
        apply work_sum_ext
        intro h hl
        by_cases hn2 : h < min tau (MSS_TREEHASH_SIZE P)
        · have hlt2 : h < tau := by omega
          have hcl := hlower h2 hh ht hf0 h hlt2
          rw [(hstart h hn2 hcl).2.2, th_cnt_fin (hfin h hn2), next_pop_succ_of_dvd (hdv h hlt2),
            next_pop_of_dvd (hdv h hlt2)]
          have e : (2 : Nat) ^ (h + 1) = 2 * 2 ^ h := by rw [pow_succ]; ring
          rw [e]
          omega
        · obtain ⟨_, _, _, _, e4, e5'⟩ := hold h (by omega) hn2
          rw [e4, e5']
      rw [e5, hws, succ_mod_of_not_dvd (two_pow_pos _) (hndv h2 ht),
        div_succ_of_not_dvd (hndv h2 ht)]
      rw [Nat.add_mul]
      omega
  · -- align
    intro h2 hh k hk hfk hf2
    rcases hcases h2 hh hf2 with ⟨hn, hc⟩ | ⟨hn, hf0⟩
    · rw [(hstart h2 hn hc).2.2]; exact dvd_zero _
    · obtain ⟨ht, _, _, _, _, e5⟩ := hold h2 hh hn
      rw [e5]
      rcases hcases k (by omega) hfk with ⟨hnk, hck⟩ | ⟨hnk, hfk0⟩
      · have hkt : k < tau := by omega
        by_cases ht2 : 2 ≤ tau
        · have := TInv_release_align hinv hev ht2 hd h2 ht hh hf0
          exact Nat.dvd_trans (pow_dvd_pow_two (by omega)) this
        · have : k - 1 = 0 := by omega
          rw [this]; simp
      · exact hinv.align h2 hh k hk hfk0 hf0
  · -- same
    intro h hh hf hhalf
    rcases hcases h (by omega) hf with ⟨hn, hc⟩ | ⟨hn, hf0⟩
    · have hlt : h < tau := by omega
      rw [next_pop_succ_of_dvd (hdv h hlt)] at hhalf
      have hd2 : 2 ^ (h + 2) ∣ s + 1 := by
        apply Nat.dvd_of_mod_eq_zero
        have e : (2 : Nat) ^ (h + 2) = 2 * 2 ^ (h + 1) := by rw [pow_succ]; ring
        have hm := Nat.mod_lt (s + 1) (two_pow_pos (h + 2))
        have hdm : 2 ^ (h + 1) ∣ (s + 1) % 2 ^ (h + 2) :=
          (Nat.dvd_mod_iff (pow_dvd_pow_two (show h + 1 ≤ h + 2 by omega))).2 (hdv h hlt)
        obtain ⟨z, hz⟩ := hdm
        have hz2 : z = 0 ∨ z = 1 := by
          rcases Nat.lt_or_ge z 2 with hl | hl
          · omega
          · have : 2 ^ (h + 1) * 2 ≤ 2 ^ (h + 1) * z := Nat.mul_le_mul_left _ hl
            omega
        rcases hz2 with hz0 | hz1
        · rw [hz, hz0]; simp
        · exfalso
          rw [hz1, Nat.mul_one] at hz
          rw [Nat.add_mod, hz, Nat.mod_eq_of_lt (show 2 ^ (h + 1) < 2 ^ (h + 2) by omega)] at hhalf
          rw [e] at hhalf
          have e5 : (2 ^ (h + 1) + 2 ^ (h + 1)) % (2 * 2 ^ (h + 1)) = 0 := by
            have : 2 ^ (h + 1) + 2 ^ (h + 1) = 2 * 2 ^ (h + 1) := by ring
            rw [this, Nat.mod_self]
          rw [e5] at hhalf
          have := two_pow_pos (h + 1)
          omega
      have hlt1 : h + 1 < tau := by
        by_contra hge
        exact hndv (h + 1) (by omega) hd2
      have hn1 : h + 1 < min tau (MSS_TREEHASH_SIZE P) := by omega
      by_cases hc1 : s + 1 + 3 * 2 ^ (h + 1) < 2 ^ P.MSS_HEIGHT
      · obtain ⟨e1, e2, _⟩ := hstart (h + 1) hn1 hc1
        exact ⟨fun _ => e2, fun x => by rw [e1] at x; exact absurd x hnf⟩
      · refine ⟨fun x => absurd (hstop (h + 1) hn1 hc1) x, fun _ => ?_⟩
        rw [next_pop_succ_of_dvd hd2]
        have a1 := start_cond_not hd2 (hNdv (h + 1) hlt1) hc1
        have a2 := start_cond_end (hdv h hlt) (hNdv h hlt) hc
        have e : (2 : Nat) ^ (h + 1 + 1) = 2 ^ (h + 1) + 2 ^ (h + 1) := by rw [pow_succ]; ring
        omega
    · obtain ⟨ht, _, _, _, e4, _⟩ := hold h (by omega) hn
      rw [e4] at hhalf
      obtain ⟨a, b⟩ := hinv.same h hh hf0 hhalf
      obtain ⟨_, e1, e2, e3, e4', _⟩ := hold (h + 1) hh (by omega)
      rw [e1, e2, e3, e4']
      exact ⟨a, b⟩
  · -- store_hi
    intro h hh hf hlt
    rw [r4]
    rcases hcases (h + 1) hh hf with ⟨hn, hc⟩ | ⟨hn, hf0⟩
    · rw [(hstart (h + 1) hn hc).2.2] at hlt
      omega
    · obtain ⟨_, _, _, e3, _, e5⟩ := hold (h + 1) hh hn
      rw [e5] at hlt
      rw [e3]
      exact hinv.store_hi h hh hf0 hlt
  · -- store_lo
    intro h hh hf hle hJ
    rw [r4]
    rcases hcases (h + 1) hh hf with ⟨hn, hc⟩ | ⟨hn, hf0⟩
    · have hlt : h + 1 < tau := by omega
      have ej := job_index_succ_of_dvd (hdv (h + 1) hlt)
      rw [ej] at hJ ⊢
      rw [Nat.add_sub_cancel]
      have hnp : next_pop s (h + 1) < 2 ^ P.MSS_HEIGHT := by
        rw [next_pop_of_dvd (hdv (h + 1) hlt)]; exact hs
      exact hinv.store_fin h hh (hfin (h + 1) hn) hnp (by omega)
    · obtain ⟨_, _, _, e3, _, e5⟩ := hold (h + 1) hh hn
      rw [e5] at hle
      rw [e3] at hJ ⊢
      exact hinv.store_lo h hh hf0 hle hJ
  · -- store_fin
    intro h hh hf hnp hJ
    rw [r4]
    by_cases hn : h + 1 < min tau (MSS_TREEHASH_SIZE P)
    · exfalso
      have hlt : h + 1 < tau := by omega
      by_cases hc : s + 1 + 3 * 2 ^ (h + 1) < 2 ^ P.MSS_HEIGHT
      · rw [(hstart (h + 1) hn hc).1] at hf
        exact hnf hf
      · have := start_cond_not (hdv (h + 1) hlt) (hNdv (h + 1) hlt) hc
        rw [next_pop_succ_of_dvd (hdv (h + 1) hlt)] at hnp
        omega
    · obtain ⟨_, e1, _, e3, e4, _⟩ := hold (h + 1) hh hn
      rw [e1] at hf
      rw [e4] at hnp
      rw [e3] at hJ ⊢
      exact hinv.store_fin h hh hf hnp hJ
  · -- store_end
    intro h hh hf hnp hJ
    rw [r4]
    by_cases hn : h + 1 < min tau (MSS_TREEHASH_SIZE P)
    · have hlt : h + 1 < tau := by omega
      have ej := job_index_succ_of_dvd (hdv (h + 1) hlt)
      rw [ej] at hJ ⊢
      rw [Nat.add_sub_cancel]
      have hnp0 : next_pop s (h + 1) < 2 ^ P.MSS_HEIGHT := by
        rw [next_pop_of_dvd (hdv (h + 1) hlt)]; exact hs
      exact hinv.store_fin h hh (hfin (h + 1) hn) hnp0 (by omega)
    · obtain ⟨_, e1, _, e3, e4, _⟩ := hold (h + 1) hh hn
      rw [e1] at hf
      rw [e4] at hnp
      rw [e3] at hJ ⊢
      exact hinv.store_end h hh hf hnp hJ
  · -- auth
    intro h hh
    rw [r9]
    by_cases l1 : h < min tau (MSS_TREEHASH_SIZE P)
    · have hlt : h < tau := by omega
      rw [if_pos l1, sib_of_dvd (hdv h hlt)]
      have hnp : next_pop s h < 2 ^ P.MSS_HEIGHT := by
        rw [next_pop_of_dvd (hdv h hlt)]; exact hs
      exact (hinv.node_fin h (by omega) (hfin h l1)).2 hnp
    · rw [if_neg l1]
      by_cases l2 : MSS_TREEHASH_SIZE P ≤ h ∧ h < tau
      · rw [if_pos l2, sib_of_dvd (hdv h l2.2), hinv.ret_idx h l2.1 (by omega)]
        have hj := job_mul_of_dvd (hdv h l2.2)
        have hbound : (job_index s h + 1) * 2 ^ h ≤ 2 ^ P.MSS_HEIGHT := by
          have a1 : s + 1 + 2 ^ (h + 1) ≤ 2 ^ P.MSS_HEIGHT := by
            obtain ⟨a, ha⟩ := hdv h l2.2
            obtain ⟨b, hb⟩ := hNdv h l2.2
            rw [ha, hb] at hs
            have hab : a < b := Nat.lt_of_mul_lt_mul_left hs
            have : 2 ^ (h + 1) * (a + 1) ≤ 2 ^ (h + 1) * b := Nat.mul_le_mul_left _ hab
            rw [ha, hb]
            have e3 : 2 ^ (h + 1) * (a + 1) = 2 ^ (h + 1) * a + 2 ^ (h + 1) := by ring
            omega
          have e : (2 : Nat) ^ (h + 1) = 2 * 2 ^ h := by rw [pow_succ]; ring
          rw [Nat.add_mul, hj.1]
          omega
        have hr := hinv.ret h (job_index s h) l2.1 (job_index_ge s h) (job_index_odd s h) hbound
        rw [← hr, retain_slot_eq]
        congr 1
        unfold job_index
        omega
      · rw [if_neg l2]
        by_cases e : h = tau
        · rw [if_pos e]
          subst e
          rw [(sib_top hd hnd).1]
          by_cases h0 : h = 0
          · rw [if_pos h0]
            subst h0
            have hev0 : s % 2 = 0 := by
              have : ¬ 2 ∣ s + 1 := by simpa using hnd
              omega
            rw [hleaf hev0]
            simp
          · rw [if_neg h0]
            have hh1 : h - 1 < P.MSS_HEIGHT := by omega
            have hodd : (s / 2 ^ (h - 1)) % 2 = 1 :=
              div_pow_mod_two_of_dvd_succ hd (h - 1) (by omega)
            have hmod : s % 2 ^ (h - 1 + 2) = 2 ^ h - 1 := by
              have : h - 1 + 2 = h + 1 := by omega
              rw [this]; exact mod_exact hd hnd
            have e2 : (2 : Nat) ^ h = 2 * 2 ^ (h - 1) := pow_pred_double (by omega)
            have hY := two_pow_pos (h - 1)
            have e3 : (2 : Nat) ^ (h - 1 + 1) = 2 ^ h := by congr 1; omega
            rw [hinv.auth (h - 1) hh1,
              hinv.keep (h - 1) (by omega) (by rw [hmod]; omega) (by rw [hmod, e3]; omega)]
            have hs1 : sib (s / 2 ^ (h - 1)) = s / 2 ^ (h - 1) - 1 := by
              unfold sib; rw [if_neg (by omega)]
            rw [hs1, get_parent_tree E seed (h - 1) _ hodd]
            have e4 : h - 1 + 1 = h := by omega
            rw [e4, Nat.div_div_eq_div_mul, ← pow_succ, e4]
        · rw [if_neg e]
          have hgt : tau < h := by omega
          rw [succ_div_pow_of_not_dvd hnd hgt]
          exact hinv.auth h hh
  · -- keep
    intro h hh a b
    rw [r6]
    rcases Nat.lt_trichotomy h tau with l | l | l
    · exact absurd (keep_low_absurd (hdv h l) a b) id
    · subst l
      have hbit := keep_bit hnd b
      rw [if_pos ⟨by omega, hbit⟩, Function.update_same, hinv.auth h (by omega),
        (sib_top hd hnd).2]
    · have hne : h ≠ tau := by omega
      have hk : (if tau < P.MSS_HEIGHT - 1 ∧ s >>> (tau + 1) &&& 1 = 0 then
          Function.update st.keep tau (st.auth tau) else st.keep) h = st.keep h := by
        split_ifs
        · rw [Function.update_noteq hne]
        · rfl
      rw [hk, succ_div_pow_of_not_dvd hnd l]
      obtain ⟨a2, b2⟩ := keep_high hnd l a b
      exact hinv.keep h hh a2 b2
  · -- ret_idx
    intro h a b
    rw [r10]
    have e : h - MSS_TREEHASH_SIZE P + MSS_TREEHASH_SIZE P = h := by omega
    rw [e, hinv.ret_idx h a b]
    by_cases l : h < tau
    · rw [if_pos l, div_succ_of_dvd (hdv h l)]
    · rw [if_neg l, div_succ_of_not_dvd (hndv h (by omega))]
  · -- ret
    intro h j a b c d
    rw [r5]; exact hinv.ret h j a b c d

/-! ### One call of `_nextAuth` -/

theorem TInv_nextAuth (P : Params) (E : Prims) (seed : Bytes) {s : Nat} {st : mss_state}
    (hinv : TInv P E seed s (MSS_TREEHASH_SIZE P / 2) st)
    (hH1 : 1 ≤ P.MSS_HEIGHT) (hH : P.MSS_HEIGHT ≤ 30) (hK : P.MSS_K ≤ P.MSS_HEIGHT)
    (hev : MSS_TREEHASH_SIZE P % 2 = 0)
    (hS : P.MSS_STACK_SIZE ≠ 0 ∨ MSS_TREEHASH_SIZE P ≤ 2)
    (hs : s + 1 < 2 ^ P.MSS_HEIGHT)
    (leaf : mss_node) (hleaf : s % 2 = 0 → leaf = tree_node E seed 0 s) (ri0 : Bytes) :
    TInv P E seed (s + 1) (MSS_TREEHASH_SIZE P / 2)
      (_nextAuth P E st leaf (seed_at E seed (s + 1)) s ri0) := by
  have hTH : MSS_TREEHASH_SIZE P ≤ P.MSS_HEIGHT := Nat.sub_le _ _
  have h1 := TInv_refresh P E seed hinv hH1 hH hK hev hs leaf hleaf
  unfold _nextAuth
  show TInv P E seed (s + 1) (MSS_TREEHASH_SIZE P / 2)
    (nextAuth_updates P E (seed_at E seed (s + 1)) s ri0 (MSS_TREEHASH_SIZE P / 2)
      (nextAuth_refresh P E st leaf s))
  by_cases hT0 : MSS_TREEHASH_SIZE P = 0
  · have e : MSS_TREEHASH_SIZE P / 2 = 0 := by omega
    rw [e]
    exact h1
  · have h2 := TInv_updates P E seed s (by omega) (by omega) hS ri0
      (MSS_TREEHASH_SIZE P / 2) 0 _ h1
    rw [Nat.zero_add] at h2
    exact h2

/-! ### The state after key generation -/

theorem job_index_zero (h : Nat) : job_index 0 h = 3 := by
  unfold job_index; simp

theorem pow_le_of_le_height {h H c : Nat} (hh : h + c ≤ H) : 2 ^ c * 2 ^ h ≤ 2 ^ H := by
  rw [← pow_add]
  exact Nat.pow_le_pow_right (by norm_num) (by omega)

theorem keygen_TInv (P : Params) (E : Prims) (seed : Bytes) (node1 : mss_node)
    (state : mss_state) (hH1 : 1 ≤ P.MSS_HEIGHT) (hH : P.MSS_HEIGHT ≤ 30)
    (hK1 : 1 ≤ P.MSS_K) (hK : P.MSS_K ≤ P.MSS_HEIGHT) (i : Nat) :
    TInv P E seed 0 i (mss_keygen_core P E seed node1 state).1 := by
  obtain ⟨hk, _, _⟩ := keygen_final P E seed node1 state hH1 hH
  generalize (mss_keygen_core P E seed node1 state).1 = st at hk
  have hTdef : MSS_TREEHASH_SIZE P = P.MSS_HEIGHT - P.MSS_K := rfl
  have hfin : ∀ h, h < MSS_TREEHASH_SIZE P → st.treehash_state h = TREEHASH_FINISHED := hk.fl
  have hcov3 : ∀ h, h < MSS_TREEHASH_SIZE P → covered (2 ^ P.MSS_HEIGHT) 0 h 3 := by
    intro h hh
    left
    have := pow_le_of_le_height (h := h) (H := P.MSS_HEIGHT) (c := 2) (by omega)
    simpa using this
  refine
    { flag := ?_, seed_lo := ?_, seed_hi := ?_, seed_new := ?_, seed_end := ?_, seed_rel := ?_,
      node_fin := ?_, node_lo := ?_, node_hi := ?_, stack := ?_, acc := ?_, align := ?_,
      same := ?_, store_hi := ?_, store_lo := ?_, store_fin := ?_, store_end := ?_,
      auth := ?_, keep := ?_, ret_idx := ?_, ret := ?_ }
  · intro h hh; exact Or.inr (Or.inr (hfin h hh))
  · intro h hh hf; exact absurd (hfin h hh) hf
  · intro h hh hf; exact absurd (hfin h hh) hf
  · intro h hh hf; exact absurd (hfin h hh) hf
  · intro h hh hf; exact absurd (hfin h hh) hf
  · intro h hh hf; exact absurd (hfin h hh) hf
  · intro h hh _
    obtain ⟨e1, _⟩ := hk.th h hh (hcov3 h hh)
    rw [e1, job_index_zero]
    exact ⟨tree_node_height E seed h 3 (by omega), fun _ => rfl⟩
  · intro h hh hf; exact absurd (hfin h hh) hf
  · intro h hh hf; exact absurd (hfin h hh) hf
  · rw [portions_nil E seed st _ 0 (fun c _ hc => hfin c (by omega)), hk.si]
    exact StackRep_nil _
  · intro h hh hf; exact absurd (hfin h hh) hf
  · intro h2 hh k _ _ hf; exact absurd (hfin h2 hh) hf
  · intro h hh hf; exact absurd (hfin h (by omega)) hf
  · intro h hh hf; exact absurd (hfin (h + 1) hh) hf
  · intro h hh hf; exact absurd (hfin (h + 1) hh) hf
  · intro h _ _ _ hJ
    rw [job_index_zero] at hJ; omega
  · intro h _ _ _ hJ
    rw [job_index_zero] at hJ; omega
  · intro h hh
    have hc : covered (2 ^ P.MSS_HEIGHT) 0 h 1 := by
      left
      have := pow_le_of_le_height (h := h) (H := P.MSS_HEIGHT) (c := 1) (by omega)
      simpa using this
    rw [hk.auth h hh hc]
    simp [sib]
  · intro h _ a _
    have := two_pow_pos h
    have h0 : (0 : Nat) % 2 ^ (h + 2) = 0 := Nat.zero_mod _
    rw [h0] at a
    omega
  · intro h a b
    rw [hk.ri _ (by omega)]
    simp
  · intro h j a b c d
    exact hk.ret h j a b c (Or.inl d)

/-! ### The climb of `_get_pkey` -/

theorem get_pkey_step_node (E : Prims) (seed : Bytes) (auth : Nat → mss_node) (n x : Nat)
    (hauth : auth n = tree_node E seed n (sib x)) :
    get_pkey_step E auth (tree_node E seed n x) n = tree_node E seed (n + 1) (x / 2) := by
  unfold get_pkey_step
  rw [hauth, tree_node_index, tree_node_index]
  unfold sib
  by_cases hp : x % 2 = 0
  · have hge : x + 1 ≥ x := Nat.le_succ _
    rw [if_pos hp, if_pos hge, tree_node_succ]
    have e1 : 2 * (x / 2) = x := by omega
    rw [e1]
  · have hlt : ¬ x - 1 ≥ x := by omega
    rw [if_neg hp, if_neg hlt]
    exact get_parent_tree E seed n _ (by omega)

theorem get_pkey_step_tree (E : Prims) (seed : Bytes) (auth : Nat → mss_node) (i n : Nat)
    (hauth : auth n = tree_node E seed n (sib (i / 2 ^ n))) :
    get_pkey_step E auth (tree_node E seed n (i / 2 ^ n)) n
      = tree_node E seed (n + 1) (i / 2 ^ (n + 1)) := by
  have e : i / 2 ^ (n + 1) = i / 2 ^ n / 2 := by
    rw [Nat.div_div_eq_div_mul, ← pow_succ]
  rw [e]
  exact get_pkey_step_node E seed auth n _ hauth

theorem get_pkey_climb (E : Prims) (seed : Bytes) (auth : Nat → mss_node) (i : Nat) :
    ∀ n, (∀ h, h < n → auth h = tree_node E seed h (sib (i / 2 ^ h))) →
      (List.range n).foldl (get_pkey_step E auth) (tree_node E seed 0 i)
        = tree_node E seed n (i / 2 ^ n) := by
  intro n
  induction n with
  | zero => intro _; simp
  | succ n ih =>
    intro hauth
    rw [List.range_succ, List.foldl_append, ih (fun h hh => hauth h (by omega))]
    simp only [List.foldl_cons, List.foldl_nil]
    exact get_pkey_step_tree E seed auth i n (hauth n (by omega))

theorem get_pkey_root (P : Params) (E : Prims) (seed : Bytes) (auth : Nat → mss_node) (i : Nat)
    (hi : i < 2 ^ P.MSS_HEIGHT)
    (hauth : ∀ h, h < P.MSS_HEIGHT → auth h = tree_node E seed h (sib (i / 2 ^ h))) :
    _get_pkey P E auth (tree_node E seed 0 i) = tree_node E seed P.MSS_HEIGHT 0 := by
  unfold _get_pkey
  rw [get_pkey_climb E seed auth i P.MSS_HEIGHT hauth, Nat.div_eq_of_lt hi]

/-! ### The signing loop -/

theorem sign_core_state (P : Params) (E : Prims) (st : mss_state) (si ri data : Bytes)
    (i : Nat) (ap : Nat → mss_node) (ri0 : Bytes) (hi : i + 1 < 2 ^ P.MSS_HEIGHT) :
    (mss_sign_core P E st si ri data i ap ri0).state
      = _nextAuth P E st (mss_sign_core P E st si ri data i ap ri0).leaf si i ri0 := by
  have hle : i ≤ 2 ^ P.MSS_HEIGHT - 2 := by omega
  unfold mss_sign_core
  dsimp only
  rw [Nat.one_shiftLeft, if_pos hle]

theorem sign_core_state_last (P : Params) (E : Prims) (st : mss_state) (si ri data : Bytes)
    (i : Nat) (ap : Nat → mss_node) (ri0 : Bytes) (hH1 : 1 ≤ P.MSS_HEIGHT)
    (hi : ¬ i + 1 < 2 ^ P.MSS_HEIGHT) :
    (mss_sign_core P E st si ri data i ap ri0).state = st := by
  unfold mss_sign_core
  dsimp only
  have : 2 ^ 1 ≤ 2 ^ P.MSS_HEIGHT := Nat.pow_le_pow_right (by norm_num) hH1
  have hle : ¬ i ≤ 2 ^ P.MSS_HEIGHT - 2 := by omega
  rw [Nat.one_shiftLeft, if_neg hle]

theorem sign_core_authpath (P : Params) (E : Prims) (st : mss_state) (si ri data : Bytes)
    (i : Nat) (ap : Nat → mss_node) (ri0 : Bytes) (h : Nat) (hh : h < P.MSS_HEIGHT) :
    (mss_sign_core P E st si ri data i ap ri0).authpath h = st.auth h := by
  unfold mss_sign_core
  dsimp only
  rw [if_pos hh]

theorem sign_core_leaf (P : Params) (E : Prims) (seed : Bytes) (st : mss_state) (si data : Bytes)
    (i : Nat) (ap : Nat → mss_node) (ri0 : Bytes)
    (hap : i % 2 = 1 → ap 0 = tree_node E seed 0 i) :
    (mss_sign_core P E st si (r_at E seed i) data i ap ri0).leaf = tree_node E seed 0 i := by
  unfold mss_sign_core
  dsimp only
  by_cases hp : i % 2 = 0
  · rw [if_pos hp]
    rfl
  · rw [if_neg hp]
    apply leaf_eq_of_value
    rw [hap (by omega)]

theorem sib_pred {i : Nat} (hi : i % 2 = 1) : sib ((i - 1) / 2 ^ 0) = i := by
  unfold sib
  simp only [pow_zero, Nat.div_one]
  rw [if_pos (by omega)]
  omega

/-- The signer of `bench_mss_signature` before round `k`: its state is the
traversal state for leaf `k`, its rolling seed is `seed_k`, and from the second
round on its authentication path buffer holds the path of leaf `k - 1`. -/
theorem bench_signer_spec (P : Params) (E : Prims) (hok : params_ok P) (seed : Bytes)
    (M : Nat → Bytes) (ri0 : Bytes) (node1 : mss_node) (state0 : mss_state)
    (authpath0 : Nat → mss_node) :
    ∀ k, k < 2 ^ P.MSS_HEIGHT →
      TInv P E seed k (MSS_TREEHASH_SIZE P / 2)
          (bench_signer P E seed M ri0 node1 state0 authpath0 k).state
      ∧ (bench_signer P E seed M ri0 node1 state0 authpath0 k).si = seed_at E seed k
      ∧ (1 ≤ k → ∀ h, h < P.MSS_HEIGHT →
          (bench_signer P E seed M ri0 node1 state0 authpath0 k).authpath h
            = tree_node E seed h (sib ((k - 1) / 2 ^ h))) := by
  obtain ⟨hK1, hK, hH, hev, hS⟩ := hok
  have hH1 : 1 ≤ P.MSS_HEIGHT := by omega
  intro k
  induction k with
  | zero =>
    intro _
    refine ⟨keygen_TInv P E seed node1 state0 hH1 hH hK1 hK _, rfl, fun h => by omega⟩
  | succ k ih =>
    intro hk
    obtain ⟨i1, i2, i3⟩ := ih (by omega)
    have e : bench_signer P E seed M ri0 node1 state0 authpath0 (k + 1)
        = (bench_sign_round P E M ri0
            (bench_signer P E seed M ri0 node1 state0 authpath0 k) k).1 := rfl
    rw [e]
    generalize bench_signer P E seed M ri0 node1 state0 authpath0 k = sg at i1 i2 i3
    unfold bench_sign_round
    dsimp only
    rw [i2, seed_at_add_one]
    dsimp only
    have hleaf : (mss_sign_core P E sg.state (seed_at E seed (k + 1)) (r_at E seed k) (M k) k
        sg.authpath ri0).leaf = tree_node E seed 0 k := by
      apply sign_core_leaf
      intro hodd
      have := i3 (by omega) 0 (by omega)
      rw [this, sib_pred hodd]
    refine ⟨?_, rfl, ?_⟩
    · rw [sign_core_state P E _ _ _ _ _ _ _ hk, hleaf]
      exact TInv_nextAuth P E seed i1 hH1 hH hK hev hS hk _ (fun _ => rfl) ri0
    · intro _ h hh
      rw [sign_core_authpath P E _ _ _ _ _ _ _ h hh, i1.auth h hh]
      simp

/-- What round `i` of the signing loop emits. -/
theorem bench_signature_spec (P : Params) (E : Prims) (hok : params_ok P) (seed : Bytes)
    (M : Nat → Bytes) (ri0 : Bytes) (node1 : mss_node) (state0 : mss_state)
    (authpath0 : Nat → mss_node) (i : Nat) (hi : i < 2 ^ P.MSS_HEIGHT) :
    (bench_signature P E seed M ri0 node1 state0 authpath0 i).leaf = tree_node E seed 0 i
    ∧ ∀ h, h < P.MSS_HEIGHT →
        (bench_signature P E seed M ri0 node1 state0 authpath0 i).authpath h
          = tree_node E seed h (sib (i / 2 ^ h)) := by
  obtain ⟨i1, i2, i3⟩ := bench_signer_spec P E hok seed M ri0 node1 state0 authpath0 i hi
  obtain ⟨hK1, hK, hH, hev, hS⟩ := hok
  unfold bench_signature bench_sign_round
  dsimp only
  generalize bench_signer P E seed M ri0 node1 state0 authpath0 i = sg at i1 i2 i3
  rw [i2, seed_at_add_one]
  dsimp only
  constructor
  · apply sign_core_leaf
    intro hodd
    have := i3 (by omega) 0 (by omega)
    rw [this, sib_pred hodd]
  · intro h hh
    rw [sign_core_authpath P E _ _ _ _ _ _ _ h hh, i1.auth h hh]

/-! ### `get_auth_index` -/

theorem get_auth_index_fold (s : Nat) (a : Nat → Nat) :
    ∀ n, ((List.range n).foldl get_auth_index_step (s, a)).1 = s / 2 ^ n
      ∧ ∀ h, ((List.range n).foldl get_auth_index_step (s, a)).2 h
          = if h < n then sib (s / 2 ^ h) % 65536 else a h := by
  intro n
  induction n with
  | zero =>
    refine ⟨by simp, fun h => ?_⟩
    rw [if_neg (Nat.not_lt_zero h)]
    rfl
  | succ n ih =>
    obtain ⟨i1, i2⟩ := ih
    rw [List.range_succ, List.foldl_append]
    generalize (List.range n).foldl get_auth_index_step (s, a) = acc at i1 i2
    simp only [List.foldl_cons, List.foldl_nil]
    unfold get_auth_index_step
    dsimp only
    constructor
    · rw [i1, Nat.shiftRight_eq_div_pow, Nat.div_div_eq_div_mul, ← pow_succ]
    · intro h
      by_cases e : h = n
      · subst e
        rw [Function.update_same, if_pos (Nat.lt_succ_self h), i1]
        rfl
      · rw [Function.update_noteq e, i2]
        by_cases l : h < n
        · rw [if_pos l, if_pos (show h < n + 1 by omega)]
        · rw [if_neg l, if_neg (show ¬ h < n + 1 by omega)]

theorem get_auth_index_eq (P : Params) (s : Nat) (a : Nat → Nat) (h : Nat)
    (hh : h < P.MSS_HEIGHT) : get_auth_index P s a h = sib (s / 2 ^ h) % 65536 := by
  unfold get_auth_index
  rw [(get_auth_index_fold s a P.MSS_HEIGHT).2 h, if_pos hh]

theorem sib_lt {x N : Nat} (hx : x < 2 * N) : sib x < 2 * N := by
  unfold sib
  split_ifs <;> omega

theorem params_ok_example : params_ok example_params :=
  ⟨by decide, by decide, by decide, by decide, Or.inr (by decide)⟩

/-! ### The verifier -/

/-- The result of `mss_verify_core` is decided by the comparison of the first
`NODE_VALUE_SIZE` bytes of the climbed node with `Y`, and by nothing else. -/
theorem mss_verify_core_result (P : Params) (E : Prims) (authpath : Nat → mss_node)
    (data h : Bytes) (leaf_index : Nat) (sig x : Bytes) (currentLeaf : mss_node) (Y : Bytes) :
    (mss_verify_core P E authpath data h leaf_index sig x currentLeaf Y).result
        = mss_result.MSS_OK
      ↔ (_get_pkey P E authpath currentLeaf).value.take P.NODE_VALUE_SIZE
          = Y.take P.NODE_VALUE_SIZE := by
  unfold mss_verify_core
  by_cases hv : (_get_pkey P E authpath currentLeaf).value.take P.NODE_VALUE_SIZE
      = Y.take P.NODE_VALUE_SIZE
  · simp [hv]
  · simp [hv]

/-! ## The claims on key generation and on the traversal -/

/-- C1. In the flow of `bench_mss_signature` (key generation, then for each leaf
`i = 0, 1, ...` one `fsgen` on the rolling seed followed by `mss_sign_core`, with
one authentication path buffer reused), for parameters with `1 ≤ K ≤ H ≤ 30`,
`H - K` even and the shared stack compiled in when `H - K > 2`: for every seed,
all messages and every leaf `i < 2^H`, `mss_verify_core` applied to the
authentication path, the leaf node and the W-OTS signature emitted in round `i`,
with the message of round `i` and `Y` the public key of `mss_keygen_core`, returns
`MSS_OK`, and the value it reconstructs is that public key.  The buffers `h` and
`x` of the verifier, the buffer `ri` of `_treehash_update` and the initial
content of the global objects are arbitrary. -/
theorem bench_verify_ok (P : Params) (E : Prims) (hok : params_ok P) (seed : Bytes)
    (M : Nat → Bytes) (ri0 : Bytes) (node1 : mss_node) (state0 : mss_state)
    (authpath0 : Nat → mss_node) (h0 x0 : Bytes) (i : Nat) (hi : i < 2 ^ P.MSS_HEIGHT) :
    (mss_verify_core P E (bench_signature P E seed M ri0 node1 state0 authpath0 i).authpath
        (M i) h0 i (bench_signature P E seed M ri0 node1 state0 authpath0 i).sig x0
        (bench_signature P E seed M ri0 node1 state0 authpath0 i).leaf
        (mss_keygen_core P E seed node1 state0).2.2).result = mss_result.MSS_OK
    ∧ (mss_verify_core P E (bench_signature P E seed M ri0 node1 state0 authpath0 i).authpath
        (M i) h0 i (bench_signature P E seed M ri0 node1 state0 authpath0 i).sig x0
        (bench_signature P E seed M ri0 node1 state0 authpath0 i).leaf
        (mss_keygen_core P E seed node1 state0).2.2).x
      = (mss_keygen_core P E seed node1 state0).2.2 := by
  obtain ⟨s1, s2⟩ := bench_signature_spec P E hok seed M ri0 node1 state0 authpath0 i hi
  obtain ⟨hK1, hK, hH, _, _⟩ := hok
  obtain ⟨_, _, k3⟩ := keygen_final P E seed node1 state0 (by omega) hH
  have hclimb := get_pkey_root P E seed _ i hi s2
  constructor
  · rw [mss_verify_core_result, s1, hclimb, k3]
  · show (_get_pkey P E _ _).value = _
    rw [s1, hclimb, k3]

/-- C1 at the instance, leaf 5. -/
theorem bench_verify_ok_witness :
    params_ok example_params ∧ 5 < 2 ^ example_params.MSS_HEIGHT
    ∧ (mss_verify_core example_params example_prims (example_sig 5).authpath (example_msg 5) []
        5 (example_sig 5).sig [] (example_sig 5).leaf example_root).result = mss_result.MSS_OK :=
  ⟨params_ok_example, by decide,
    (bench_verify_ok example_params example_prims params_ok_example example_seed example_msg []
      zero_node zero_state zero_auth [] [] 5 (by decide)).1⟩

/-- C2. For `1 ≤ H ≤ 30` and every seed, `mss_keygen_core` writes to `pkey` the
value of the node of height `H` and index 0 of the reference tree (leaf `j` is
`hash32(winternitz_keygen(r_j, X))` with `(seed_{j+1}, r_j) = fsgen(seed_j)`,
inner nodes are `_get_parent(left, right)`), and the node it ends with is that
node, with height `H` and index 0. -/
theorem mss_keygen_core_root (P : Params) (E : Prims) (seed : Bytes) (node1 : mss_node)
    (state : mss_state) (hH1 : 1 ≤ P.MSS_HEIGHT) (hH : P.MSS_HEIGHT ≤ 30) :
    (mss_keygen_core P E seed node1 state).2.2 = (tree_node E seed P.MSS_HEIGHT 0).value
    ∧ (mss_keygen_core P E seed node1 state).2.1 = tree_node E seed P.MSS_HEIGHT 0
    ∧ (mss_keygen_core P E seed node1 state).2.1.height = P.MSS_HEIGHT
    ∧ (mss_keygen_core P E seed node1 state).2.1.index = 0 := by
  obtain ⟨_, k2, k3⟩ := keygen_final P E seed node1 state hH1 hH
  refine ⟨k3, k2, ?_, ?_⟩
  · rw [k2]; exact tree_node_height E seed _ _ (by omega)
  · rw [k2]; exact tree_node_index E seed _ _

/-- C2 at the instance. -/
theorem mss_keygen_core_root_witness :
    1 ≤ example_params.MSS_HEIGHT ∧ example_params.MSS_HEIGHT ≤ 30
    ∧ example_root = (tree_node example_prims example_seed example_params.MSS_HEIGHT 0).value :=
  ⟨by decide, by decide,
    (mss_keygen_core_root example_params example_prims example_seed zero_node zero_state
      (by decide) (by decide)).1⟩

/-- C3. In the flow key generation, sign(0), ..., sign(i) through `mss_sign_core`
with the rolling seed advanced once per leaf, for `i ≤ 2^H - 2` and parameters
with `1 ≤ K ≤ H ≤ 30`, `H - K` even and the shared stack compiled in when
`H - K > 2`: in the state left by sign(i), for every `h < H`, `auth[h]` has the
value of the sibling of the ancestor at height `h` of leaf `i + 1` in the
reference tree. -/
theorem bench_auth_values (P : Params) (E : Prims) (hok : params_ok P) (seed : Bytes)
    (M : Nat → Bytes) (ri0 : Bytes) (node1 : mss_node) (state0 : mss_state)
    (authpath0 : Nat → mss_node) (i : Nat) (hi : i + 1 < 2 ^ P.MSS_HEIGHT)
    (h : Nat) (hh : h < P.MSS_HEIGHT) :
    ((bench_signature P E seed M ri0 node1 state0 authpath0 i).state.auth h).value
      = (tree_node E seed h (sib ((i + 1) / 2 ^ h))).value := by
  obtain ⟨i1, _, _⟩ := bench_signer_spec P E hok seed M ri0 node1 state0 authpath0 (i + 1) hi
  have e : (bench_signature P E seed M ri0 node1 state0 authpath0 i).state
      = (bench_signer P E seed M ri0 node1 state0 authpath0 (i + 1)).state := rfl
  rw [e, i1.auth h hh]

/-- C3 at the instance, after sign(5), height 1. -/
theorem bench_auth_values_witness :
    params_ok example_params ∧ 5 + 1 < 2 ^ example_params.MSS_HEIGHT
    ∧ 1 < example_params.MSS_HEIGHT
    ∧ ((bench_signature example_params example_prims example_seed example_msg [] zero_node
          zero_state zero_auth 5).state.auth 1).value
      = (tree_node example_prims example_seed 1 (sib ((5 + 1) / 2 ^ 1))).value :=
  ⟨params_ok_example, by decide, by decide,
    bench_auth_values example_params example_prims params_ok_example example_seed example_msg []
      zero_node zero_state zero_auth 5 (by decide) 1 (by decide)⟩

set_option maxRecDepth 100000 in
/-- C4. In the same flow and for the same parameters as C3, in the state left by
sign(i), `i ≤ 2^H - 2`, every `auth[h]`, `h < H`, has height `h` and index
`((i + 1) >> h) XOR 1`; `get_auth_index(i + 1)` writes that index reduced
modulo `2^16`, its entries being `unsigned short`, which is the index itself
when `H ≤ 16`.  In the instance `H = 4`, `K = 2`, the indices after sign(5) at
heights 0, 1, 2, 3 are 7, 2, 0, 1. -/
theorem bench_auth_positions (P : Params) (E : Prims) (hok : params_ok P) (seed : Bytes)
    (M : Nat → Bytes) (ri0 : Bytes) (node1 : mss_node) (state0 : mss_state)
    (authpath0 : Nat → mss_node) (a0 : Nat → Nat) (i : Nat) (hi : i + 1 < 2 ^ P.MSS_HEIGHT)
    (h : Nat) (hh : h < P.MSS_HEIGHT) :
    (((bench_signature P E seed M ri0 node1 state0 authpath0 i).state.auth h).height = h
      ∧ ((bench_signature P E seed M ri0 node1 state0 authpath0 i).state.auth h).index
          = ((i + 1) >>> h) ^^^ 1
      ∧ get_auth_index P (i + 1) a0 h
          = ((bench_signature P E seed M ri0 node1 state0 authpath0 i).state.auth h).index
              % 65536
      ∧ (P.MSS_HEIGHT ≤ 16 → get_auth_index P (i + 1) a0 h
          = ((bench_signature P E seed M ri0 node1 state0 authpath0 i).state.auth h).index))
    ∧ (((example_sig 5).state.auth 0).index = 7 ∧ ((example_sig 5).state.auth 1).index = 2
      ∧ ((example_sig 5).state.auth 2).index = 0 ∧ ((example_sig 5).state.auth 3).index = 1) := by
  obtain ⟨i1, _, _⟩ := bench_signer_spec P E hok seed M ri0 node1 state0 authpath0 (i + 1) hi
  have e : (bench_signature P E seed M ri0 node1 state0 authpath0 i).state
      = (bench_signer P E seed M ri0 node1 state0 authpath0 (i + 1)).state := rfl
  obtain ⟨hK1, hK, hH, _, _⟩ := hok
  refine ⟨?_, by decide!⟩
  rw [e, i1.auth h hh, tree_node_index, tree_node_height E seed h _ (by omega),
    Nat.shiftRight_eq_div_pow, xor_one_eq_sib, get_auth_index_eq P _ a0 h hh]
  refine ⟨rfl, rfl, rfl, ?_⟩
  intro h16
  apply Nat.mod_eq_of_lt
  have h1 : (i + 1) / 2 ^ h < 2 ^ P.MSS_HEIGHT :=
    lt_of_le_of_lt (Nat.div_le_self _ _) hi
  have h2 : 2 ^ P.MSS_HEIGHT ≤ 2 ^ 16 := Nat.pow_le_pow_right (by norm_num) h16
  have h3 : (i + 1) / 2 ^ h < 2 * 32768 := by omega
  exact sib_lt h3

/-- C4 at the instance, after sign(5), height 0. -/
theorem bench_auth_positions_witness :
    params_ok example_params ∧ 5 + 1 < 2 ^ example_params.MSS_HEIGHT
    ∧ 0 < example_params.MSS_HEIGHT
    ∧ ((bench_signature example_params example_prims example_seed example_msg [] zero_node
          zero_state zero_auth 5).state.auth 0).height = 0
    ∧ ((bench_signature example_params example_prims example_seed example_msg [] zero_node
          zero_state zero_auth 5).state.auth 0).index = ((5 + 1) >>> 0) ^^^ 1 :=
  ⟨params_ok_example, by decide, by decide,
    (bench_auth_positions example_params example_prims params_ok_example example_seed
      example_msg [] zero_node zero_state zero_auth (fun _ => 0) 5 (by decide) 0
      (by decide)).1.1,
    (bench_auth_positions example_params example_prims params_ok_example example_seed
      example_msg [] zero_node zero_state zero_auth (fun _ => 0) 5 (by decide) 0
      (by decide)).1.2.1⟩

/-- C5. For `1 ≤ H ≤ 30` and `1 ≤ K`, the state `mss_keygen_core` returns is the
traversal state for leaf 0: for every `h < H`, `auth[h]` is the tree node of
height `h` and index 1; for every `h < H - K`, `treehash[h]` is the tree node of
height `h` and index 3, `treehash_seed[h] = 3` and the state of the instance is
`TREEHASH_FINISHED`; for every `h` in `[H - K, H - 2]` and every odd `j` with
`3 ≤ j < 2^(H-h)` the retain slot
`(1 << (H-h-1)) - (H-h-1) - 1 + (j >> 1) - 1` holds the tree node `(h, j)`; and
`retain_index[i] = 0` for every `i < K - 1`. -/
theorem mss_keygen_core_state (P : Params) (E : Prims) (seed : Bytes) (node1 : mss_node)
    (state : mss_state) (hH1 : 1 ≤ P.MSS_HEIGHT) (hH : P.MSS_HEIGHT ≤ 30)
    (hK1 : 1 ≤ P.MSS_K) :
    (∀ h, h < P.MSS_HEIGHT →
        (mss_keygen_core P E seed node1 state).1.auth h = tree_node E seed h 1)
    ∧ (∀ h, h < P.MSS_HEIGHT - P.MSS_K →
        (mss_keygen_core P E seed node1 state).1.treehash h = tree_node E seed h 3
        ∧ (mss_keygen_core P E seed node1 state).1.treehash_seed h = 3
        ∧ (mss_keygen_core P E seed node1 state).1.treehash_state h = TREEHASH_FINISHED)
    ∧ (∀ h j, P.MSS_HEIGHT - P.MSS_K ≤ h → h + 2 ≤ P.MSS_HEIGHT → j % 2 = 1 → 3 ≤ j →
        j < 2 ^ (P.MSS_HEIGHT - h) →
        (mss_keygen_core P E seed node1 state).1.retain
            ((1 <<< (P.MSS_HEIGHT - h - 1)) - (P.MSS_HEIGHT - h - 1) - 1 + (j >>> 1) - 1)
          = tree_node E seed h j)
    ∧ (∀ i, i < P.MSS_K - 1 → (mss_keygen_core P E seed node1 state).1.retain_index i = 0) := by
  obtain ⟨hk, _, _⟩ := keygen_final P E seed node1 state hH1 hH
  refine ⟨?_, ?_, ?_, hk.ri⟩
  · intro h hh
    apply hk.auth h hh
    left
    have := pow_le_of_le_height (h := h) (H := P.MSS_HEIGHT) (c := 1) (by omega)
    simpa using this
  · intro h hh
    have hc : covered (2 ^ P.MSS_HEIGHT) 0 h 3 := by
      left
      have := pow_le_of_le_height (h := h) (H := P.MSS_HEIGHT) (c := 2) (by omega)
      simpa using this
    obtain ⟨e1, e2⟩ := hk.th h hh hc
    exact ⟨e1, e2, hk.fl h hh⟩
  · intro h j a b c d e
    apply hk.ret h j a d c
    left
    have h1 : (j + 1) * 2 ^ h ≤ 2 ^ (P.MSS_HEIGHT - h) * 2 ^ h :=
      Nat.mul_le_mul_right _ (by omega)
    rw [← pow_add] at h1
    have h2 : P.MSS_HEIGHT - h + h = P.MSS_HEIGHT := by omega
    rw [h2] at h1
    exact h1

/-- C5 at the instance: `treehash[1]`. -/
theorem mss_keygen_core_state_witness :
    1 ≤ example_params.MSS_HEIGHT ∧ example_params.MSS_HEIGHT ≤ 30 ∧ 1 ≤ example_params.MSS_K
    ∧ 1 < example_params.MSS_HEIGHT - example_params.MSS_K
    ∧ (mss_keygen_core example_params example_prims example_seed zero_node zero_state).1.treehash 1
        = tree_node example_prims example_seed 1 3 :=
  ⟨by decide, by decide, by decide, by decide,
    ((mss_keygen_core_state example_params example_prims example_seed zero_node zero_state
      (by decide) (by decide) (by decide)).2.1 1 (by decide)).1⟩

/-! ## The claims on the verifier and on `mss_sign` -/

set_option maxRecDepth 100000 in
/-- C6, evaluated on the instance: the signature of leaf 0 is presented with a
leaf node whose height byte is 1 instead of 0.  The climb ends at height 5,
not at `MSS_HEIGHT = 4`, and `mss_verify_core` still returns `MSS_OK`, where
the claim asks for `MSS_ERROR`. -/
theorem mss_verify_core_accepts_height_off :
    (mss_verify_core example_params example_prims (example_sig 0).authpath (example_msg 0) [] 0
        (example_sig 0).sig []
        { height := 1, index := 0, value := (example_sig 0).leaf.value } example_root).result
      = mss_result.MSS_OK
    ∧ (mss_verify_core example_params example_prims (example_sig 0).authpath (example_msg 0) [] 0
        (example_sig 0).sig []
        { height := 1, index := 0, value := (example_sig 0).leaf.value }
        example_root).currentLeaf.height = 5
    ∧ example_params.MSS_HEIGHT = 4 := by
  decide!

set_option maxRecDepth 100000 in
/-- C7, evaluated on the instance: the signature of leaf 5 verifies, and it still
verifies after the lowest bit of the first W-OTS signature byte is flipped, and
after the height byte of `authpath[2]` is changed from 2 to 3. -/
theorem mss_verify_core_accepts_tampered :
    (mss_verify_core example_params example_prims (example_sig 5).authpath (example_msg 5) [] 5
        (example_sig 5).sig [] (example_sig 5).leaf example_root).result = mss_result.MSS_OK
    ∧ [(example_sig 5).sig.getD 0 0 ^^^ 1, (example_sig 5).sig.getD 1 0] ≠ (example_sig 5).sig
    ∧ (mss_verify_core example_params example_prims (example_sig 5).authpath (example_msg 5) [] 5
        [(example_sig 5).sig.getD 0 0 ^^^ 1, (example_sig 5).sig.getD 1 0] []
        (example_sig 5).leaf example_root).result = mss_result.MSS_OK
    ∧ ((example_sig 5).authpath 2).height = 2
    ∧ (mss_verify_core example_params example_prims
        (Function.update (example_sig 5).authpath 2
          { (example_sig 5).authpath 2 with height := 3 })
        (example_msg 5) [] 5 (example_sig 5).sig [] (example_sig 5).leaf example_root).result
        = mss_result.MSS_OK := by
  decide!

set_option maxRecDepth 100000 in
/-- C8, evaluated on the instance: the signature emitted for leaf 7 is presented
with the message signed at leaf 3, a different message, and `mss_verify_core`
returns `MSS_OK`. -/
theorem mss_verify_core_accepts_other_message :
    example_msg 3 ≠ example_msg 7
    ∧ (mss_verify_core example_params example_prims (example_sig 7).authpath (example_msg 3) [] 7
        (example_sig 7).sig [] (example_sig 7).leaf example_root).result = mss_result.MSS_OK := by
  decide!

/-! ### The byte-level signer -/

set_option maxRecDepth 100000 in
/-- C9, evaluated on the instance: after 16 calls of `mss_sign` the key holds
`leaf_index = 16 = 2^MSS_HEIGHT`; one more call still returns a full signature
buffer and stores `leaf_index = 17`. -/
theorem mss_sign_exhausted_key_signs :
    (deserialize_mss_skey example_params zero_state (example_key_after 16)).2.1
        = 2 ^ example_params.MSS_HEIGHT
    ∧ (mss_sign example_params example_prims (example_key_after 16)
        (example_msg 16 ++ example_msg 16) zero_state zero_auth [] []).signature.length
        = MSS_SIGNATURE_SIZE example_params
    ∧ (deserialize_mss_skey example_params zero_state
        (mss_sign example_params example_prims (example_key_after 16)
          (example_msg 16 ++ example_msg 16) zero_state zero_auth [] []).skey).2.1 = 17 := by
  decide!

set_option maxRecDepth 100000 in
/-- C10, evaluated on the instance: the first call of `mss_sign` on a fresh key
uses the stored seed itself as W-OTS randomness (the signature bytes are
`winternitz_sign(seed, X, h)` with `h = etcr_hash(winternitz_keygen(seed, X),
digest)`), not the `r` of `fsgen(seed)`, and the seed stored afterwards is the
seed stored before, not the `seed'` of `fsgen(seed)`. -/
theorem mss_sign_keeps_seed :
    (deserialize_mss_skey example_params zero_state example_key).2.2 = example_seed
    ∧ (deserialize_mss_skey example_params zero_state (example_key_after 1)).2.2 = example_seed
    ∧ (example_prims.fsgen example_seed).1 ≠ example_seed
    ∧ (deserialize_mss_signature example_params zero_auth
        (mss_sign example_params example_prims example_key (example_msg 0 ++ example_msg 0)
          zero_state zero_auth [] []).signature).1
        = example_prims.winternitz_sign example_seed X
            (example_prims.etcr_hash (example_prims.winternitz_keygen example_seed X)
              (example_msg 0 ++ example_msg 0))
    ∧ (deserialize_mss_signature example_params zero_auth
        (mss_sign example_params example_prims example_key (example_msg 0 ++ example_msg 0)
          zero_state zero_auth [] []).signature).1
        ≠ example_prims.winternitz_sign (example_prims.fsgen example_seed).2 X
            (example_prims.etcr_hash
              (example_prims.winternitz_keygen (example_prims.fsgen example_seed).2 X)
              (example_msg 0 ++ example_msg 0)) := by
  decide!

/-! ### Two-byte fields -/

theorem le16_decode (x : Nat) :
    ((x &&& 0xFF) &&& 0xFF) ||| (((x >>> 8) &&& 0xFF) <<< 8) = x % 65536 := by
  have h1 : x &&& 0xFF = x % 256 := Nat.and_pow_two_sub_one_eq_mod x 8
  have h2 : (x >>> 8) &&& 0xFF = (x >>> 8) % 256 := Nat.and_pow_two_sub_one_eq_mod _ 8
  have h3 : (x % 256) &&& 0xFF = x % 256 % 256 := Nat.and_pow_two_sub_one_eq_mod _ 8
  rw [h1, h3, h2, Nat.shiftRight_eq_div_pow, Nat.shiftLeft_eq, Nat.mod_mod, Nat.lor_comm]
  have h4 : x % 256 < 2 ^ 8 := Nat.mod_lt _ (by norm_num)
  have h5 := Nat.mul_add_lt_is_or h4 (x / 2 ^ 8 % 256)
  rw [Nat.mul_comm, ← h5]
  omega

theorem read_bytes_length (buf : Bytes) (off n : Nat) : (read_bytes buf off n).length = n := by
  unfold read_bytes; simp

theorem read_bytes_self (buf : Bytes) : read_bytes buf 0 buf.length = buf := by
  unfold read_bytes
  apply List.ext_getElem
  · simp
  · intro i h1 h2
    simp at h1
    simp [List.getElem?_eq_getElem h1]

theorem read_bytes_getD (buf : Bytes) (off n k : Nat) (hk : k < n) :
    (read_bytes buf off n).getD k 0 = buf.getD (off + k) 0 := by
  unfold read_bytes
  rw [List.getD_eq_getElem _ _ (by simpa using hk)]
  simp

theorem getD_append_right_add (l1 l2 : Bytes) (k : Nat) :
    (l1 ++ l2).getD (l1.length + k) 0 = l2.getD k 0 := by
  simp [List.getD_eq_getElem?_getD, List.getElem?_append_right]

theorem getD_append_left_lt (l1 l2 : Bytes) (k : Nat) (hk : k < l1.length) :
    (l1 ++ l2).getD k 0 = l1.getD k 0 := by
  simp [List.getD_eq_getElem?_getD, List.getElem?_append_left hk]

theorem read_bytes_append_right (l1 l2 : Bytes) (off n : Nat) :
    read_bytes (l1 ++ l2) (l1.length + off) n = read_bytes l2 off n := by
  unfold read_bytes
  apply List.map_congr_left
  intro i _
  rw [Nat.add_assoc, getD_append_right_add]

theorem read_bytes_append_left (l1 l2 : Bytes) (off n : Nat) (h : off + n ≤ l1.length) :
    read_bytes (l1 ++ l2) off n = read_bytes l1 off n := by
  unfold read_bytes
  apply List.map_congr_left
  intro i hi
  rw [List.mem_range] at hi
  rw [getD_append_left_lt _ _ _ (by omega)]

/-! ### Nodes on the wire -/

theorem serialize_mss_node_length (P : Params) (n : mss_node) :
    (serialize_mss_node P n).length = MSS_NODE_SIZE P := by
  unfold serialize_mss_node MSS_NODE_SIZE
  rw [List.length_append, read_bytes_length]
  rfl

theorem deserialize_mss_node_block (P : Params) (buf blk : Bytes) (off : Nat)
    (h : read_bytes buf off (MSS_NODE_SIZE P) = blk) :
    deserialize_mss_node P buf off = deserialize_mss_node P blk 0 := by
  have hg : ∀ k, k < MSS_NODE_SIZE P → blk.getD k 0 = buf.getD (off + k) 0 := by
    intro k hk
    rw [← h, read_bytes_getD _ _ _ _ hk]
  have hS : MSS_NODE_SIZE P = 3 + P.NODE_VALUE_SIZE := rfl
  unfold deserialize_mss_node
  have e0 := hg 0 (by omega)
  have e1 := hg 1 (by omega)
  have e2 := hg 2 (by omega)
  have e3 : read_bytes blk (0 + 3) P.NODE_VALUE_SIZE = read_bytes buf (off + 3) P.NODE_VALUE_SIZE := by
    unfold read_bytes
    apply List.map_congr_left
    intro i hi
    rw [List.mem_range] at hi
    rw [hg (0 + 3 + i) (by omega)]
    congr 1
    omega
  rw [e3, Nat.zero_add, Nat.zero_add, e1, e2]
  rw [Nat.add_zero] at e0
  rw [e0]

theorem deserialize_serialize_mss_node (P : Params) (n : mss_node) :
    deserialize_mss_node P (serialize_mss_node P n) 0
      = { height := n.height, index := n.index % 65536,
          value := read_bytes n.value 0 P.NODE_VALUE_SIZE } := by
  unfold deserialize_mss_node serialize_mss_node
  have e : read_bytes
      ([n.height, n.index &&& 0xFF, (n.index >>> 8) &&& 0xFF]
        ++ read_bytes n.value 0 P.NODE_VALUE_SIZE) (0 + 3) P.NODE_VALUE_SIZE
      = read_bytes n.value 0 P.NODE_VALUE_SIZE := by
    have := read_bytes_append_right [n.height, n.index &&& 0xFF, (n.index >>> 8) &&& 0xFF]
      (read_bytes n.value 0 P.NODE_VALUE_SIZE) 0 P.NODE_VALUE_SIZE
    have l := read_bytes_self (read_bytes n.value 0 P.NODE_VALUE_SIZE)
    rw [read_bytes_length] at l
    rw [l] at this
    exact this
  rw [e]
  have := le16_decode n.index
  simp only [List.cons_append, List.nil_append, List.getD_cons_zero, List.getD_cons_succ,
    Nat.zero_add]
  rw [this]

theorem deserialize_serialize_mss_node_eq (P : Params) (n : mss_node)
    (hi : n.index < 65536) (hv : n.value.length = P.NODE_VALUE_SIZE) :
    deserialize_mss_node P (serialize_mss_node P n) 0 = n := by
  rw [deserialize_serialize_mss_node, Nat.mod_eq_of_lt hi, ← hv, read_bytes_self]

/-! ### Runs of nodes on the wire -/

theorem serialize_nodes_succ (P : Params) (a : Nat → mss_node) (n : Nat) :
    serialize_nodes P a (n + 1) = serialize_nodes P a n ++ serialize_mss_node P (a n) := by
  unfold serialize_nodes
  rw [List.range_succ, List.map_append, List.flatten_append]
  simp

theorem serialize_nodes_length (P : Params) (a : Nat → mss_node) (n : Nat) :
    (serialize_nodes P a n).length = n * MSS_NODE_SIZE P := by
  induction n with
  | zero => simp [serialize_nodes]
  | succ n ih =>
    rw [serialize_nodes_succ, List.length_append, ih, serialize_mss_node_length]
    ring

theorem serialize_nodes_block (P : Params) (a : Nat → mss_node) (n h : Nat) (hh : h < n) :
    read_bytes (serialize_nodes P a n) (h * MSS_NODE_SIZE P) (MSS_NODE_SIZE P)
      = serialize_mss_node P (a h) := by
  induction n with
  | zero => omega
  | succ n ih =>
    rw [serialize_nodes_succ]
    by_cases hn : h < n
    · have hle : h * MSS_NODE_SIZE P + MSS_NODE_SIZE P ≤ (serialize_nodes P a n).length := by
        rw [serialize_nodes_length]
        have : (h + 1) * MSS_NODE_SIZE P ≤ n * MSS_NODE_SIZE P :=
          Nat.mul_le_mul_right _ (by omega)
        rw [Nat.add_mul, Nat.one_mul] at this
        exact this
      rw [read_bytes_append_left _ _ _ _ hle]
      exact ih hn
    · have e : h = n := by omega
      subst e
      have := read_bytes_append_right (serialize_nodes P a h) (serialize_mss_node P (a h)) 0
        (MSS_NODE_SIZE P)
      rw [serialize_nodes_length, Nat.add_zero] at this
      rw [this]
      have l := serialize_mss_node_length P (a h)
      rw [← l, read_bytes_self]

/-! ### The signature on the wire -/

theorem serialize_mss_signature_length (P : Params) (ots : Bytes) (v : mss_node)
    (authpath : Nat → mss_node) :
    (serialize_mss_signature P ots v authpath).length
      = MSS_NODE_SIZE P * (1 + P.MSS_HEIGHT) + P.MSS_OTS_SIZE := by
  unfold serialize_mss_signature
  rw [List.length_append, List.length_append, serialize_mss_node_length, serialize_nodes_length,
    read_bytes_length]
  ring

theorem serialize_mss_signature_v (P : Params) (ots : Bytes) (v : mss_node)
    (authpath : Nat → mss_node) :
    read_bytes (serialize_mss_signature P ots v authpath) 0 (MSS_NODE_SIZE P)
      = serialize_mss_node P v := by
  unfold serialize_mss_signature
  rw [List.append_assoc, read_bytes_append_left _ _ _ _
    (by rw [serialize_mss_node_length]; omega)]
  have l := serialize_mss_node_length P v
  rw [← l, read_bytes_self]

theorem serialize_mss_signature_auth (P : Params) (ots : Bytes) (v : mss_node)
    (authpath : Nat → mss_node) (h : Nat) (hh : h < P.MSS_HEIGHT) :
    read_bytes (serialize_mss_signature P ots v authpath) (MSS_NODE_SIZE P * (1 + h))
        (MSS_NODE_SIZE P)
      = serialize_mss_node P (authpath h) := by
  unfold serialize_mss_signature
  have hle : h * MSS_NODE_SIZE P + MSS_NODE_SIZE P
      ≤ (serialize_nodes P authpath P.MSS_HEIGHT).length := by
    rw [serialize_nodes_length]
    have : (h + 1) * MSS_NODE_SIZE P ≤ P.MSS_HEIGHT * MSS_NODE_SIZE P :=
      Nat.mul_le_mul_right _ (by omega)
    rw [Nat.add_mul, Nat.one_mul] at this
    exact this
  have e : MSS_NODE_SIZE P * (1 + h)
      = (serialize_mss_node P v).length + h * MSS_NODE_SIZE P := by
    rw [serialize_mss_node_length]; ring
  rw [e, List.append_assoc, read_bytes_append_right, read_bytes_append_left _ _ _ _ hle]
  exact serialize_nodes_block P authpath P.MSS_HEIGHT h hh

theorem serialize_mss_signature_ots (P : Params) (ots : Bytes) (v : mss_node)
    (authpath : Nat → mss_node) :
    read_bytes (serialize_mss_signature P ots v authpath)
        (MSS_NODE_SIZE P * (1 + P.MSS_HEIGHT)) P.MSS_OTS_SIZE
      = read_bytes ots 0 P.MSS_OTS_SIZE := by
  unfold serialize_mss_signature
  have e : MSS_NODE_SIZE P * (1 + P.MSS_HEIGHT)
      = (serialize_mss_node P v ++ serialize_nodes P authpath P.MSS_HEIGHT).length + 0 := by
    rw [List.length_append, serialize_mss_node_length, serialize_nodes_length]; ring
  rw [e, read_bytes_append_right]
  have l := read_bytes_self (read_bytes ots 0 P.MSS_OTS_SIZE)
  rw [read_bytes_length] at l
  exact l

theorem deserialize_mss_signature_v (P : Params) (ots : Bytes) (v : mss_node)
    (authpath authpath0 : Nat → mss_node) :
    (deserialize_mss_signature P authpath0 (serialize_mss_signature P ots v authpath)).2.1
      = deserialize_mss_node P (serialize_mss_node P v) 0 :=
  deserialize_mss_node_block P _ _ 0 (serialize_mss_signature_v P ots v authpath)

theorem deserialize_mss_signature_auth (P : Params) (ots : Bytes) (v : mss_node)
    (authpath authpath0 : Nat → mss_node) (h : Nat) (hh : h < P.MSS_HEIGHT) :
    (deserialize_mss_signature P authpath0 (serialize_mss_signature P ots v authpath)).2.2 h
      = deserialize_mss_node P (serialize_mss_node P (authpath h)) 0 := by
  unfold deserialize_mss_signature deserialize_nodes
  simp only
  rw [if_pos hh]
  apply deserialize_mss_node_block
  have e : MSS_NODE_SIZE P + h * MSS_NODE_SIZE P = MSS_NODE_SIZE P * (1 + h) := by ring
  rw [e]
  exact serialize_mss_signature_auth P ots v authpath h hh

/-- C14: `serialize_mss_node` writes `3 + N` bytes, the height, the low byte and
the second byte of the index, then the `N` value bytes; reading them back with
`deserialize_mss_node` gives the same height and value and the index modulo
`2^16`, so the node itself exactly when its index is below `2^16`. -/
theorem serialize_mss_node_roundtrip (P : Params) (n : mss_node)
    (hv : n.value.length = P.NODE_VALUE_SIZE) :
    (serialize_mss_node P n).length = 3 + P.NODE_VALUE_SIZE
    ∧ serialize_mss_node P n = [n.height, n.index % 256, n.index / 256 % 256] ++ n.value
    ∧ (deserialize_mss_node P (serialize_mss_node P n) 0).height = n.height
    ∧ (deserialize_mss_node P (serialize_mss_node P n) 0).value = n.value
    ∧ (deserialize_mss_node P (serialize_mss_node P n) 0).index = n.index % 2 ^ 16
    ∧ (deserialize_mss_node P (serialize_mss_node P n) 0 = n ↔ n.index < 2 ^ 16) := by
  have hr : read_bytes n.value 0 P.NODE_VALUE_SIZE = n.value := by
    rw [← hv, read_bytes_self]
  have hd := deserialize_serialize_mss_node P n
  rw [hr] at hd
  refine ⟨serialize_mss_node_length P n, ?_, ?_, ?_, ?_, ?_⟩
  · unfold serialize_mss_node
    rw [hr]
    have h1 : n.index &&& 0xFF = n.index % 256 := Nat.and_pow_two_sub_one_eq_mod _ 8
    have h2 : (n.index >>> 8) &&& 0xFF = n.index / 256 % 256 := by
      rw [Nat.shiftRight_eq_div_pow]
      exact Nat.and_pow_two_sub_one_eq_mod _ 8
    rw [h1, h2]
  · rw [hd]
  · rw [hd]
  · rw [hd]
    norm_num
  · rw [hd]
    constructor
    · intro h
      have : n.index % 65536 = n.index := congrArg mss_node.index h
      have := Nat.mod_lt n.index (show 65536 > 0 by norm_num)
      omega
    · intro h
      have e : n.index % 65536 = n.index := Nat.mod_eq_of_lt h
      rw [e]

theorem serialize_mss_node_roundtrip_witness :
    ({ height := 3, index := 70001, value := [7, 9] } : mss_node).value.length
      = example_params.NODE_VALUE_SIZE
    ∧ serialize_mss_node example_params { height := 3, index := 70001, value := [7, 9] }
      = [3, 113, 17, 7, 9]
    ∧ (deserialize_mss_node example_params
        (serialize_mss_node example_params { height := 3, index := 70001, value := [7, 9] })
        0).index = 70001 % 2 ^ 16 :=
  ⟨rfl, by decide,
    (serialize_mss_node_roundtrip example_params { height := 3, index := 70001, value := [7, 9] }
      rfl).2.2.2.2.1⟩

/-- C13: `serialize_mss_signature` writes `MSS_NODE_SIZE * (1 + H) + MSS_OTS_SIZE`
bytes: the node `v`, then `authpath[0], ..., authpath[H-1]` in that order, then
the bytes of the W-OTS signature; and when the indices of the nodes are below
`2^16`, `deserialize_mss_signature` reads back the same `ots`, `v` and
`authpath`. -/
theorem serialize_mss_signature_roundtrip (P : Params) (ots : Bytes) (v : mss_node)
    (authpath authpath0 : Nat → mss_node)
    (hots : ots.length = P.MSS_OTS_SIZE)
    (hvv : v.value.length = P.NODE_VALUE_SIZE)
    (hav : ∀ h, h < P.MSS_HEIGHT → (authpath h).value.length = P.NODE_VALUE_SIZE)
    (hvi : v.index < 2 ^ 16)
    (hai : ∀ h, h < P.MSS_HEIGHT → (authpath h).index < 2 ^ 16) :
    (serialize_mss_signature P ots v authpath).length
      = MSS_NODE_SIZE P * (1 + P.MSS_HEIGHT) + P.MSS_OTS_SIZE
    ∧ read_bytes (serialize_mss_signature P ots v authpath) 0 (MSS_NODE_SIZE P)
      = serialize_mss_node P v
    ∧ (∀ h, h < P.MSS_HEIGHT →
        read_bytes (serialize_mss_signature P ots v authpath) (MSS_NODE_SIZE P * (1 + h))
          (MSS_NODE_SIZE P) = serialize_mss_node P (authpath h))
    ∧ read_bytes (serialize_mss_signature P ots v authpath)
        (MSS_NODE_SIZE P * (1 + P.MSS_HEIGHT)) P.MSS_OTS_SIZE = ots
    ∧ (deserialize_mss_signature P authpath0 (serialize_mss_signature P ots v authpath)).1 = ots
    ∧ (deserialize_mss_signature P authpath0 (serialize_mss_signature P ots v authpath)).2.1 = v
    ∧ (∀ h, h < P.MSS_HEIGHT →
        (deserialize_mss_signature P authpath0 (serialize_mss_signature P ots v authpath)).2.2 h
          = authpath h) := by
  have ho : read_bytes ots 0 P.MSS_OTS_SIZE = ots := by rw [← hots, read_bytes_self]
  have e4 := serialize_mss_signature_ots P ots v authpath
  rw [ho] at e4
  refine ⟨serialize_mss_signature_length P ots v authpath,
    serialize_mss_signature_v P ots v authpath,
    fun h hh => serialize_mss_signature_auth P ots v authpath h hh, e4, e4, ?_, ?_⟩
  · rw [deserialize_mss_signature_v]
    exact deserialize_serialize_mss_node_eq P v hvi hvv
  · intro h hh
    rw [deserialize_mss_signature_auth P ots v authpath authpath0 h hh]
    exact deserialize_serialize_mss_node_eq P _ (hai h hh) (hav h hh)

theorem serialize_mss_signature_roundtrip_witness :
    ([0x51, 0x52] : Bytes).length = example_params.MSS_OTS_SIZE
    ∧ (deserialize_mss_signature example_params zero_auth
        (serialize_mss_signature example_params [0x51, 0x52]
          { height := 0, index := 5, value := [3, 4] }
          (fun h => { height := h, index := 300 + h, value := [h, 2 * h] }))).2.1
      = { height := 0, index := 5, value := [3, 4] }
    ∧ (serialize_mss_signature example_params [0x51, 0x52]
          { height := 0, index := 5, value := [3, 4] }
          (fun h => { height := h, index := 300 + h, value := [h, 2 * h] })).length = 27 :=
  ⟨rfl,
    (serialize_mss_signature_roundtrip example_params [0x51, 0x52]
      { height := 0, index := 5, value := [3, 4] }
      (fun h => { height := h, index := 300 + h, value := [h, 2 * h] }) zero_auth
      rfl rfl (fun _ _ => rfl) (by norm_num)
      (fun h hh => by
        have : h < 4 := hh
        show 300 + h < 2 ^ 16
        omega)).2.2.2.2.2.1,
    by decide⟩

/-! ### The leaf index in the secret key -/

theorem deserialize_mss_skey_index (P : Params) (st : mss_state) (buf : Bytes) :
    (deserialize_mss_skey P st buf).2.1
      = (buf.getD 0 0 &&& 0xFF) ||| (buf.getD 1 0 <<< 8) := rfl

theorem serialize_mss_state_head (P : Params) (st : mss_state) (index : Nat) :
    ∃ tl, serialize_mss_state P st index = (index &&& 0xFF) :: ((index >>> 8) &&& 0xFF) :: tl := by
  unfold serialize_mss_state le16
  simp only [List.append_assoc, List.cons_append, List.nil_append]
  exact ⟨_, rfl⟩

theorem serialize_mss_skey_head (P : Params) (st : mss_state) (index : Nat) (skey buf : Bytes) :
    ∃ tl, serialize_mss_skey P st index skey buf
      = (index &&& 0xFF) :: ((index >>> 8) &&& 0xFF) :: tl := by
  obtain ⟨tl, h⟩ := serialize_mss_state_head P st index
  obtain ⟨k, hk⟩ : ∃ k, MSS_STATE_SIZE P = k + 2 := by
    unfold MSS_STATE_SIZE
    exact ⟨MSS_TREEHASH_SIZE P + 2 + (P.MSS_K - 1) * 2 + MSS_TREEHASH_SIZE P * 2
      + (MSS_TREEHASH_SIZE P + P.MSS_STACK_SIZE + MSS_RETAIN_SIZE P + MSS_KEEP_SIZE P
        + P.MSS_HEIGHT + (MSS_TREEHASH_SIZE P - 1)) * MSS_NODE_SIZE P, by omega⟩
  unfold serialize_mss_skey buf_write
  rw [h, hk]
  simp only [List.take_zero, List.nil_append, List.cons_append, List.take_succ_cons]
  exact ⟨_, rfl⟩

theorem skey_index_serialize (P : Params) (st st1 : mss_state) (index : Nat) (skey buf : Bytes) :
    (deserialize_mss_skey P st1 (serialize_mss_skey P st index skey buf)).2.1 = index % 65536 := by
  obtain ⟨tl, h⟩ := serialize_mss_skey_head P st index skey buf
  rw [deserialize_mss_skey_index, h]
  exact le16_decode index

theorem mss_sign_index (P : Params) (E : Prims) (skey digest : Bytes) (state0 st1 : mss_state)
    (authpath0 : Nat → mss_node) (signature0 ri0 : Bytes) :
    (deserialize_mss_skey P st1
        (mss_sign P E skey digest state0 authpath0 signature0 ri0).skey).2.1
      = ((deserialize_mss_skey P state0 skey).2.1 + 1) % 65536 := by
  unfold mss_sign
  exact skey_index_serialize P _ st1 _ _ _

theorem skey_index_eq (P : Params) (st : mss_state) (skey : Bytes) :
    (deserialize_mss_skey P st skey).2.1 = skey_index P skey := rfl

theorem mss_sign_run_index (P : Params) (E : Prims) (digest : Nat → Bytes)
    (state0 : Nat → mss_state) (authpath0 : Nat → Nat → mss_node) (signature0 ri0 : Nat → Bytes)
    (skey : Bytes) (n : Nat) :
    skey_index P (mss_sign_run P E digest state0 authpath0 signature0 ri0 skey n)
      = if n = 0 then skey_index P skey else (skey_index P skey + n) % 65536 := by
  induction n with
  | zero => rfl
  | succ n ih =>
    rw [if_neg (Nat.succ_ne_zero n)]
    show skey_index P (mss_sign P E _ _ _ _ _ _).skey = _
    unfold skey_index at ih ⊢
    rw [mss_sign_index, skey_index_eq, skey_index_eq]
    unfold skey_index
    rw [ih]
    by_cases h : n = 0
    · subst h; rfl
    · rw [if_neg h]; omega

/-- C11 (amended): in a run of calls of `mss_sign` on one key buffer that starts
at the decoded leaf index `d` and makes `n` calls with `d + n < 2^16`, call `j`
signs at leaf index `d + j` and leaves a buffer whose decoded leaf index is
exactly one more. -/
theorem mss_sign_index_advances (P : Params) (E : Prims) (digest : Nat → Bytes)
    (state0 : Nat → mss_state) (authpath0 : Nat → Nat → mss_node) (signature0 ri0 : Nat → Bytes)
    (skey : Bytes) (n : Nat) (hn : skey_index P skey + n < 2 ^ 16) :
    ∀ j, j < n →
      skey_index P (mss_sign_run P E digest state0 authpath0 signature0 ri0 skey j)
        = skey_index P skey + j
      ∧ skey_index P (mss_sign P E (mss_sign_run P E digest state0 authpath0 signature0 ri0 skey j)
          (digest j) (state0 j) (authpath0 j) (signature0 j) (ri0 j)).skey
        = skey_index P (mss_sign_run P E digest state0 authpath0 signature0 ri0 skey j) + 1 := by
  intro j hj
  have h0 := mss_sign_run_index P E digest state0 authpath0 signature0 ri0 skey j
  have h1 := mss_sign_run_index P E digest state0 authpath0 signature0 ri0 skey (j + 1)
  rw [if_neg (Nat.succ_ne_zero j)] at h1
  have e0 : skey_index P (mss_sign_run P E digest state0 authpath0 signature0 ri0 skey j)
      = skey_index P skey + j := by
    rw [h0]
    by_cases h : j = 0
    · subst h; rfl
    · rw [if_neg h]; omega
  refine ⟨e0, ?_⟩
  rw [e0]
  have : skey_index P (mss_sign_run P E digest state0 authpath0 signature0 ri0 skey (j + 1))
      = skey_index P skey + j + 1 := by
    rw [h1]; omega
  exact this

theorem buf_write_head (buf tl : Bytes) (a b : Nat) (k : Nat) (data : Bytes)
    (h : buf = a :: b :: tl) :
    ∃ tl1, buf_write buf (k + 2) data = a :: b :: tl1 := by
  unfold buf_write
  rw [h]
  simp only [List.take_succ_cons, List.cons_append]
  exact ⟨_, rfl⟩

theorem mss_keygen_index (P : Params) (E : Prims) (seed keys0 : Bytes) (state0 : mss_state)
    (node0 : mss_node) :
    skey_index P (mss_keygen P E seed keys0 state0 node0) = 0 := by
  unfold mss_keygen
  simp only
  obtain ⟨tl, h⟩ := serialize_mss_skey_head P
    (mss_keygen_core P E (read_bytes seed 0 P.LEN_BYTES_WINTERNITZ_N) node0 state0).1 0 seed keys0
  obtain ⟨k, hk⟩ : ∃ k, MSS_SKEY_SIZE P = k + 2 := by
    unfold MSS_SKEY_SIZE MSS_STATE_SIZE
    exact ⟨MSS_TREEHASH_SIZE P + 2 + (P.MSS_K - 1) * 2 + MSS_TREEHASH_SIZE P * 2
      + (MSS_TREEHASH_SIZE P + P.MSS_STACK_SIZE + MSS_RETAIN_SIZE P + MSS_KEEP_SIZE P
        + P.MSS_HEIGHT + (MSS_TREEHASH_SIZE P - 1)) * MSS_NODE_SIZE P
      + P.LEN_BYTES_MSS_SEC_LVL, by omega⟩
  rw [hk]
  obtain ⟨tl1, h1⟩ := buf_write_head _ tl _ _ k
    (read_bytes (mss_keygen_core P E (read_bytes seed 0 P.LEN_BYTES_WINTERNITZ_N) node0
      state0).2.2 0 (MSS_PKEY_SIZE P)) h
  unfold skey_index
  rw [deserialize_mss_skey_index, h1]
  exact le16_decode 0

theorem example_key_after_run (n : Nat) :
    example_key_after n
      = mss_sign_run example_params example_prims (fun j => example_msg j ++ example_msg j)
          (fun _ => zero_state) (fun _ => zero_auth) (fun _ => []) (fun _ => []) example_key n := by
  induction n with
  | zero => rfl
  | succ n ih =>
    show (mss_sign example_params example_prims (example_key_after n) _ _ _ _ _).skey = _
    rw [ih]
    rfl

theorem example_key_index : skey_index example_params example_key = 0 :=
  mss_keygen_index example_params example_prims example_seed [] zero_state zero_node

theorem skey_index_ffff (buf : Bytes) :
    skey_index example_params (buf_write buf 0 [0xFF, 0xFF]) = 65535 := by
  unfold skey_index
  rw [deserialize_mss_skey_index]
  unfold buf_write
  simp only [List.take_zero, List.nil_append, List.cons_append, List.getD_cons_zero,
    List.getD_cons_succ]
  decide

theorem mss_sign_index_advances_witness :
    skey_index example_params example_key + 3 < 2 ^ 16
    ∧ skey_index example_params
        (mss_sign_run example_params example_prims (fun j => example_msg j ++ example_msg j)
          (fun _ => zero_state) (fun _ => zero_auth) (fun _ => []) (fun _ => []) example_key 2)
      = skey_index example_params example_key + 2 :=
  ⟨by rw [example_key_index]; norm_num,
    (mss_sign_index_advances example_params example_prims
      (fun j => example_msg j ++ example_msg j) (fun _ => zero_state) (fun _ => zero_auth)
      (fun _ => []) (fun _ => []) example_key 3 (by rw [example_key_index]; norm_num) 2
      (by norm_num)).1⟩

/-- C11 as stated fails on the instance: on the key buffer whose first two bytes
are `FF FF` the leaf index read is `65535` before the call and `0` after it; and
on the key of `mss_keygen` the call after `65536` calls reads the leaf index `0`
that the first call read. -/
theorem mss_sign_index_wraps :
    skey_index example_params (buf_write example_key 0 [0xFF, 0xFF]) = 65535
    ∧ skey_index example_params
        (mss_sign example_params example_prims (buf_write example_key 0 [0xFF, 0xFF])
          (example_msg 0 ++ example_msg 0) zero_state zero_auth [] []).skey = 0
    ∧ ¬ (skey_index example_params
          (mss_sign example_params example_prims (buf_write example_key 0 [0xFF, 0xFF])
            (example_msg 0 ++ example_msg 0) zero_state zero_auth [] []).skey
        > skey_index example_params (buf_write example_key 0 [0xFF, 0xFF]))
    ∧ skey_index example_params (example_key_after 65536)
      = skey_index example_params (example_key_after 0) := by
  have h1 := skey_index_ffff example_key
  have h2 : skey_index example_params
        (mss_sign example_params example_prims (buf_write example_key 0 [0xFF, 0xFF])
          (example_msg 0 ++ example_msg 0) zero_state zero_auth [] []).skey = 0 := by
    unfold skey_index
    rw [mss_sign_index, skey_index_eq, h1]
  refine ⟨h1, h2, ?_, ?_⟩
  · rw [h1, h2]; norm_num
  · rw [example_key_after_run, example_key_after_run, mss_sign_run_index, mss_sign_run_index,
      if_pos rfl, if_neg (by norm_num), example_key_index]

/-! ### `_get_parent` in place -/

theorem get_parent_at_parent (E : Prims) (mem : Nat → mss_node) (l r p : Nat) :
    _get_parent_at E mem l r p p = _get_parent E (mem l) (mem r) := by
  unfold _get_parent_at _get_parent
  simp only [Function.update_same]
  by_cases hlp : l = p
  · subst hlp
    simp only [Function.update_same]
  · simp only [Function.update_noteq hlp]

theorem get_parent_at_other (E : Prims) (mem : Nat → mss_node) (l r p a : Nat) (ha : a ≠ p) :
    _get_parent_at E mem l r p a = mem a := by
  unfold _get_parent_at
  simp only [Function.update_noteq ha]

/-! ### The climb of `_get_pkey` in a Merkle tree -/

theorem merkle_tree_index (P : Params) (E : Prims) (t : Nat → Nat → mss_node)
    (ht : merkle_tree P E t) :
    ∀ h, h ≤ P.MSS_HEIGHT → ∀ j, j < 2 ^ (P.MSS_HEIGHT - h) → (t h j).index = j := by
  intro h
  induction h with
  | zero => intro _ j hj; exact (ht.1 j hj).2
  | succ h ih =>
    intro hh j hj
    rw [ht.2 h (by omega) j hj]
    show (t h (2 * j)).index >>> 1 = j
    have e : P.MSS_HEIGHT - h = (P.MSS_HEIGHT - (h + 1)) + 1 := by omega
    rw [ih (by omega) (2 * j) (by rw [e, pow_succ]; omega), Nat.shiftRight_eq_div_pow]
    omega

theorem merkle_tree_height (P : Params) (E : Prims) (t : Nat → Nat → mss_node)
    (ht : merkle_tree P E t) (hH : P.MSS_HEIGHT < 256) :
    ∀ h, h ≤ P.MSS_HEIGHT → ∀ j, j < 2 ^ (P.MSS_HEIGHT - h) → (t h j).height = h := by
  intro h
  induction h with
  | zero => intro _ j hj; exact (ht.1 j hj).1
  | succ h ih =>
    intro hh j hj
    rw [ht.2 h (by omega) j hj]
    show ((t h (2 * j)).height + 1) % 256 = h + 1
    have e : P.MSS_HEIGHT - h = (P.MSS_HEIGHT - (h + 1)) + 1 := by omega
    rw [ih (by omega) (2 * j) (by rw [e, pow_succ]; omega)]
    omega

theorem get_pkey_step_merkle (P : Params) (E : Prims) (t : Nat → Nat → mss_node)
    (ht : merkle_tree P E t) (auth : Nat → mss_node) (n x : Nat) (hn : n < P.MSS_HEIGHT)
    (hx : x < 2 ^ (P.MSS_HEIGHT - n)) (hauth : auth n = t n (sib x)) :
    get_pkey_step E auth (t n x) n = t (n + 1) (x / 2) := by
  have e : P.MSS_HEIGHT - n = (P.MSS_HEIGHT - (n + 1)) + 1 := by omega
  rw [e, pow_succ] at hx
  have hs : sib x < 2 ^ (P.MSS_HEIGHT - (n + 1)) * 2 := by
    unfold sib
    by_cases hp : x % 2 = 0
    · rw [if_pos hp]; omega
    · rw [if_neg hp]; omega
  have hx2 : x / 2 < 2 ^ (P.MSS_HEIGHT - (n + 1)) := by omega
  unfold get_pkey_step
  rw [hauth, merkle_tree_index P E t ht n (by omega) x (by rw [e, pow_succ]; exact hx),
    merkle_tree_index P E t ht n (by omega) (sib x) (by rw [e, pow_succ]; exact hs),
    ht.2 n hn (x / 2) hx2]
  unfold sib
  by_cases hp : x % 2 = 0
  · have hge : x + 1 ≥ x := Nat.le_succ _
    have e1 : 2 * (x / 2) = x := by omega
    rw [if_pos hp, if_pos hge, e1]
  · have hlt : ¬ x - 1 ≥ x := by omega
    have e1 : 2 * (x / 2) = x - 1 := by omega
    have e2 : x - 1 + 1 = x := by omega
    rw [if_neg hp, if_neg hlt, e1, e2]

theorem get_pkey_climb_merkle (P : Params) (E : Prims) (t : Nat → Nat → mss_node)
    (ht : merkle_tree P E t) (auth : Nat → mss_node) (i : Nat) (hi : i < 2 ^ P.MSS_HEIGHT) :
    ∀ n, n ≤ P.MSS_HEIGHT → (∀ h, h < n → auth h = t h (sib (i / 2 ^ h))) →
      (List.range n).foldl (get_pkey_step E auth) (t 0 i) = t n (i / 2 ^ n) := by
  intro n
  induction n with
  | zero => intro _ _; simp
  | succ n ih =>
    intro hn hauth
    rw [List.range_succ, List.foldl_append, ih (by omega) (fun h hh => hauth h (by omega))]
    simp only [List.foldl_cons, List.foldl_nil]
    have e : i / 2 ^ (n + 1) = i / 2 ^ n / 2 := by
      rw [Nat.div_div_eq_div_mul, ← pow_succ]
    have hx : i / 2 ^ n < 2 ^ (P.MSS_HEIGHT - n) := by
      rw [Nat.div_lt_iff_lt_mul (Nat.pos_pow_of_pos n (by norm_num)), ← pow_add]
      have : P.MSS_HEIGHT - n + n = P.MSS_HEIGHT := by omega
      rw [this]
      exact hi
    rw [e]
    exact get_pkey_step_merkle P E t ht auth n _ (by omega) hx (hauth n (by omega))

theorem tree_node_merkle (P : Params) (E : Prims) (seed : Bytes) :
    merkle_tree P E (tree_node E seed) :=
  ⟨fun _ _ => ⟨rfl, rfl⟩, fun _ _ _ _ => rfl⟩

/-! ### `_get_parent`, `mss_sign_core` and `_get_pkey` -/

/-- C15: `_get_parent(L, R, P)` leaves in `P` the height of `L` plus one, the
index of `L` halved and SHA-256 of the value bytes of `L` followed by the value
bytes of `R`, also when `P` is the same object as `L` or as `R`; no other node
is written.  `L`, `R`, `P` are the nodes at the addresses `l`, `r`, `p`; the
height is a byte, and the block of `NODE_VALUE_SIZE` bytes at the address of a
node is taken to hold its value bytes. -/
theorem get_parent_in_place (E : Prims) (mem : Nat → mss_node) (l r p : Nat)
    (hh : (mem l).height < 255)
    (hl : E.head_bytes (mem l) = (mem l).value)
    (hr : E.head_bytes (mem r) = (mem r).value) :
    (_get_parent_at E mem l r p p).height = (mem l).height + 1
    ∧ (_get_parent_at E mem l r p p).index = (mem l).index / 2
    ∧ (_get_parent_at E mem l r p p).value = E.sph_sha256 (mem l).value (mem r).value
    ∧ _get_parent_at E mem l r p p = _get_parent E (mem l) (mem r)
    ∧ ∀ a, a ≠ p → _get_parent_at E mem l r p a = mem a := by
  have e := get_parent_at_parent E mem l r p
  refine ⟨?_, ?_, ?_, e, fun a ha => get_parent_at_other E mem l r p a ha⟩
  · rw [e]
    show ((mem l).height + 1) % 256 = (mem l).height + 1
    omega
  · rw [e]
    show (mem l).index >>> 1 = (mem l).index / 2
    rw [Nat.shiftRight_eq_div_pow, pow_one]
  · rw [e]
    show E.sph_sha256 (E.head_bytes (mem l)) (E.head_bytes (mem r)) = _
    rw [hl, hr]

theorem get_parent_in_place_witness :
    (({ height := 2, index := 6, value := [1, 2] } : mss_node).height < 255)
    ∧ _get_parent_at example_prims
        (fun a => { height := 2, index := 6 + a, value := [a + 1, 2] }) 0 1 0 0
      = _get_parent example_prims { height := 2, index := 6, value := [1, 2] }
          { height := 2, index := 7, value := [2, 2] }
    ∧ (_get_parent_at example_prims
        (fun a => { height := 2, index := 6 + a, value := [a + 1, 2] }) 0 1 1 1).index = 6 / 2 :=
  ⟨by decide,
    (get_parent_in_place example_prims
      (fun a => { height := 2, index := 6 + a, value := [a + 1, 2] }) 0 1 0
      (by decide) rfl rfl).2.2.2.1,
    by decide⟩

/-- C17: the authentication path `mss_sign_core` emits holds, for each `h < H`,
the node (height, index and value) that `auth[h]` of the state held on entry,
whatever the traversal step of the same call does to the state. -/
theorem mss_sign_core_authpath (P : Params) (E : Prims) (state : mss_state) (si ri data : Bytes)
    (leaf_index : Nat) (authpath : Nat → mss_node) (ri0 : Bytes) (h : Nat)
    (hh : h < P.MSS_HEIGHT) :
    (mss_sign_core P E state si ri data leaf_index authpath ri0).authpath h = state.auth h
    ∧ ((mss_sign_core P E state si ri data leaf_index authpath ri0).authpath h).height
        = (state.auth h).height
    ∧ ((mss_sign_core P E state si ri data leaf_index authpath ri0).authpath h).index
        = (state.auth h).index
    ∧ ((mss_sign_core P E state si ri data leaf_index authpath ri0).authpath h).value
        = (state.auth h).value := by
  have e := sign_core_authpath P E state si ri data leaf_index authpath ri0 h hh
  rw [e]
  exact ⟨rfl, rfl, rfl, rfl⟩

theorem mss_sign_core_authpath_witness :
    2 < example_params.MSS_HEIGHT
    ∧ (mss_sign_core example_params example_prims
        (mss_keygen_core example_params example_prims example_seed zero_node zero_state).1
        (example_prims.fsgen example_seed).1 (example_prims.fsgen example_seed).2
        (example_msg 0) 0 zero_auth []).authpath 2
      = (mss_keygen_core example_params example_prims example_seed zero_node zero_state).1.auth 2 :=
  ⟨by decide,
    (mss_sign_core_authpath example_params example_prims
      (mss_keygen_core example_params example_prims example_seed zero_node zero_state).1
      (example_prims.fsgen example_seed).1 (example_prims.fsgen example_seed).2
      (example_msg 0) 0 zero_auth [] 2 (by decide)).1⟩

/-- C18: `mss_sign_core` runs the traversal step exactly when
`leaf_index < 2^H - 1`: then the state it leaves is that of `_nextAuth` on the
entry state with the leaf it built and `s = leaf_index`; for
`leaf_index = 2^H - 1`, and for every larger `leaf_index`, the state is left as
it was on entry. -/
theorem mss_sign_core_traversal (P : Params) (E : Prims) (state : mss_state)
    (si ri data : Bytes) (leaf_index : Nat) (authpath : Nat → mss_node) (ri0 : Bytes)
    (hH1 : 1 ≤ P.MSS_HEIGHT) :
    (leaf_index < 2 ^ P.MSS_HEIGHT - 1 →
      (mss_sign_core P E state si ri data leaf_index authpath ri0).state
        = _nextAuth P E state (mss_sign_core P E state si ri data leaf_index authpath ri0).leaf
            si leaf_index ri0)
    ∧ (2 ^ P.MSS_HEIGHT - 1 ≤ leaf_index →
      (mss_sign_core P E state si ri data leaf_index authpath ri0).state = state) := by
  constructor
  · intro h
    exact sign_core_state P E state si ri data leaf_index authpath ri0 (by omega)
  · intro h
    exact sign_core_state_last P E state si ri data leaf_index authpath ri0 hH1 (by omega)

theorem mss_sign_core_traversal_witness :
    1 ≤ example_params.MSS_HEIGHT
    ∧ (mss_sign_core example_params example_prims
        (mss_keygen_core example_params example_prims example_seed zero_node zero_state).1
        [] [] [] 15 zero_auth []).state
      = (mss_keygen_core example_params example_prims example_seed zero_node zero_state).1 :=
  ⟨by decide,
    (mss_sign_core_traversal example_params example_prims
      (mss_keygen_core example_params example_prims example_seed zero_node zero_state).1
      [] [] [] 15 zero_auth [] (by decide)).2 (by decide)⟩

/-- C20: in a Merkle tree `t` of height `H`, when `node` is leaf `i < 2^H` and
`auth[h]`, for each `h < H`, is the node of the tree at height `h` with index
`(i >> h) XOR 1`, the climb of `_get_pkey` ends with the root of the tree, the
node of height `H` and index `0`, whose value is what is written to `pkey`. -/
theorem get_pkey_merkle_root (P : Params) (E : Prims) (t : Nat → Nat → mss_node)
    (auth : Nat → mss_node) (i : Nat)
    (hH : P.MSS_HEIGHT < 256)
    (ht : merkle_tree P E t)
    (hi : i < 2 ^ P.MSS_HEIGHT)
    (hauth : ∀ h, h < P.MSS_HEIGHT → auth h = t h ((i >>> h) ^^^ 1)) :
    _get_pkey P E auth (t 0 i) = t P.MSS_HEIGHT 0
    ∧ (_get_pkey P E auth (t 0 i)).height = P.MSS_HEIGHT
    ∧ (_get_pkey P E auth (t 0 i)).index = 0
    ∧ (_get_pkey P E auth (t 0 i)).value = (t P.MSS_HEIGHT 0).value := by
  have hauth1 : ∀ h, h < P.MSS_HEIGHT → auth h = t h (sib (i / 2 ^ h)) := by
    intro h hh
    rw [hauth h hh, xor_one_eq_sib, Nat.shiftRight_eq_div_pow]
  have e : _get_pkey P E auth (t 0 i) = t P.MSS_HEIGHT 0 := by
    unfold _get_pkey
    rw [get_pkey_climb_merkle P E t ht auth i hi P.MSS_HEIGHT (Nat.le_refl _) hauth1,
      Nat.div_eq_of_lt hi]
  have h0 : (0 : Nat) < 2 ^ (P.MSS_HEIGHT - P.MSS_HEIGHT) := by
    rw [Nat.sub_self]; norm_num
  rw [e]
  exact ⟨rfl, merkle_tree_height P E t ht hH P.MSS_HEIGHT (Nat.le_refl _) 0 h0,
    merkle_tree_index P E t ht P.MSS_HEIGHT (Nat.le_refl _) 0 h0, rfl⟩

theorem get_pkey_merkle_root_witness :
    (5 < 2 ^ example_params.MSS_HEIGHT)
    ∧ _get_pkey example_params example_prims
        (fun h => tree_node example_prims example_seed h ((5 >>> h) ^^^ 1))
        (tree_node example_prims example_seed 0 5)
      = tree_node example_prims example_seed example_params.MSS_HEIGHT 0 :=
  ⟨by decide,
    (get_pkey_merkle_root example_params example_prims (tree_node example_prims example_seed)
      (fun h => tree_node example_prims example_seed h ((5 >>> h) ^^^ 1)) 5 (by decide)
      (tree_node_merkle example_params example_prims example_seed) (by decide)
      (fun _ _ => rfl)).1⟩

/-! ### Evaluation on the instance -/

set_option maxRecDepth 100000 in
/-- C12, evaluated on the instance: the state left by the key generation, written
by `serialize_mss_state` with index `0` and read back by
`deserialize_mss_state`, comes back with `treehash_seed[1] = 0` where the state
holds `3`, and with every node read one byte too early: `treehash[0]` and
`auth[0]` differ from the nodes of the state. -/
theorem deserialize_mss_state_misreads :
    (mss_keygen_core example_params example_prims example_seed zero_node zero_state).1.treehash_seed
        1 = 3
    ∧ (deserialize_mss_state example_params zero_state
        (serialize_mss_state example_params
          (mss_keygen_core example_params example_prims example_seed zero_node zero_state).1
          0)).1.treehash_seed 1 = 0
    ∧ (mss_keygen_core example_params example_prims example_seed zero_node zero_state).1.treehash 0
      = { height := 0, index := 3, value := [160, 177] }
    ∧ (deserialize_mss_state example_params zero_state
        (serialize_mss_state example_params
          (mss_keygen_core example_params example_prims example_seed zero_node zero_state).1
          0)).1.treehash 0
      = { height := 0, index := 768, value := [0, 160] }
    ∧ (mss_keygen_core example_params example_prims example_seed zero_node zero_state).1.auth 0
      = { height := 0, index := 1, value := [138, 86] }
    ∧ (deserialize_mss_state example_params zero_state
        (serialize_mss_state example_params
          (mss_keygen_core example_params example_prims example_seed zero_node zero_state).1
          0)).1.auth 0
      = { height := 43, index := 256, value := [0, 138] } := by
  decide!

set_option maxRecDepth 100000 in
/-- C16, evaluated on the instance: for the odd leaf `1` of the signing loop the
digest is `etcr_hash` keyed by the value of the leaf node, the hash of the W-OTS
public value, and differs from `etcr_hash(winternitz_keygen(ri, X), message)`;
for the even leaf `0` it is keyed by the W-OTS public value; in both rounds the
signature is `winternitz_sign(ri, X, h)`. -/
theorem mss_sign_core_odd_leaf_digest :
    (example_sig 1).h
      = example_prims.etcr_hash
          (example_prims.hash32
            (example_prims.winternitz_keygen (r_at example_prims example_seed 1) X))
          (example_msg 1)
    ∧ (example_sig 1).h
      ≠ example_prims.etcr_hash
          (example_prims.winternitz_keygen (r_at example_prims example_seed 1) X) (example_msg 1)
    ∧ (example_sig 0).h
      = example_prims.etcr_hash
          (example_prims.winternitz_keygen (r_at example_prims example_seed 0) X) (example_msg 0)
    ∧ (example_sig 1).sig
      = example_prims.winternitz_sign (r_at example_prims example_seed 1) X (example_sig 1).h
    ∧ (example_sig 0).sig
      = example_prims.winternitz_sign (r_at example_prims example_seed 0) X (example_sig 0).h := by
  decide!

set_option maxRecDepth 100000 in
/-- C19, evaluated on the instance: the signature of leaf `0` with the index of
`authpath[3]` changed from `1` to `5`, out of range for height `3` in a tree of
height `4`, is accepted by `mss_verify`. -/
theorem mss_verify_accepts_index_out_of_range :
    serialize_mss_signature example_params (example_sig 0).sig (example_sig 0).leaf
        (example_sig 0).authpath
      = [0, 0, 0, 237, 250, 0, 1, 0, 138, 86, 1, 1, 0, 252, 186, 2, 1, 0, 209, 141,
         3, 1, 0, 115, 239, 160, 28]
    ∧ (deserialize_mss_signature example_params zero_auth
        [0, 0, 0, 237, 250, 0, 1, 0, 138, 86, 1, 1, 0, 252, 186, 2, 1, 0, 209, 141,
         3, 5, 0, 115, 239, 160, 28]).2.2 3
      = { height := 3, index := 5, value := [115, 239] }
    ∧ ¬ 5 < 2 ^ (example_params.MSS_HEIGHT - 3)
    ∧ mss_verify example_params example_prims
        [0, 0, 0, 237, 250, 0, 1, 0, 138, 86, 1, 1, 0, 252, 186, 2, 1, 0, 209, 141,
         3, 5, 0, 115, 239, 160, 28]
        example_root (example_msg 0 ++ example_msg 0) zero_auth [] []
      = mss_result.MSS_OK := by
  decide!

/-! ### The rounds of the update loop -/

theorem nextAuth_updates_succ (P : Params) (E : Prims) (seed : Bytes) (s : Nat) (ri0 : Bytes) :
    ∀ n st, nextAuth_updates P E seed s ri0 (n + 1) st
      = nextAuth_update_step P E seed s ri0 (nextAuth_updates P E seed s ri0 n st) := by
  intro n
  induction n with
  | zero => intro st; rfl
  | succ n ih =>
    intro st
    show nextAuth_updates P E seed s ri0 (n + 1) (nextAuth_update_step P E seed s ri0 st) = _
    rw [ih]
    rfl

theorem nextAuth_round_succ (P : Params) (E : Prims) (state : mss_state) (leaf : mss_node)
    (seed : Bytes) (s : Nat) (ri0 : Bytes) (i : Nat) :
    nextAuth_round P E state leaf seed s ri0 (i + 1)
      = nextAuth_update_step P E seed s ri0 (nextAuth_round P E state leaf seed s ri0 i) :=
  nextAuth_updates_succ P E seed s ri0 i _

theorem nextAuth_round_last (P : Params) (E : Prims) (state : mss_state) (leaf : mss_node)
    (seed : Bytes) (s : Nat) (ri0 : Bytes) :
    nextAuth_round P E state leaf seed s ri0 ((P.MSS_HEIGHT - P.MSS_K) / 2)
      = _nextAuth P E state leaf seed s ri0 := rfl

theorem nextAuth_update_step_eq (P : Params) (E : Prims) (seed : Bytes) (s : Nat) (ri0 : Bytes)
    (st : mss_state) :
    nextAuth_update_step P E seed s ri0 st
      = if st.treehash_state (nextAuth_selected P st) &&& TREEHASH_FINISHED = 0 then
          _treehash_update P E st (nextAuth_selected P st) s seed ri0
        else st := rfl

/-- The traversal invariant inside a round of the signing loop. -/
theorem bench_round_TInv (P : Params) (E : Prims) (hok : params_ok P) (seed : Bytes)
    (M : Nat → Bytes) (ri0 : Bytes) (node1 : mss_node) (state0 : mss_state)
    (authpath0 : Nat → mss_node) (s i : Nat) (hs : s + 1 < 2 ^ P.MSS_HEIGHT)
    (hi : i ≤ MSS_TREEHASH_SIZE P / 2) :
    TInv P E seed (s + 1) i (bench_round_state P E seed M ri0 node1 state0 authpath0 s i) := by
  obtain ⟨i1, i2, _⟩ := bench_signer_spec P E hok seed M ri0 node1 state0 authpath0 s (by omega)
  obtain ⟨l1, _⟩ := bench_signature_spec P E hok seed M ri0 node1 state0 authpath0 s (by omega)
  obtain ⟨hK1, hK, hH, hev, hS⟩ := hok
  have hH1 : 1 ≤ P.MSS_HEIGHT := by omega
  unfold bench_round_state nextAuth_round
  rw [i2, seed_at_add_one, l1]
  dsimp only
  have hr := TInv_refresh P E seed i1 hH1 hH hK hev hs (tree_node E seed 0 s) (fun _ => rfl)
  by_cases hT : 1 ≤ MSS_TREEHASH_SIZE P
  · have hT30 : MSS_TREEHASH_SIZE P ≤ 30 := by unfold MSS_TREEHASH_SIZE; omega
    have := TInv_updates P E seed s hT hT30 hS ri0 i 0 _ hr
    rw [Nat.zero_add] at this
    exact this
  · have e : i = 0 := by omega
    subst e
    exact hr

/-- The state of the signer after the last round is the state before it. -/
theorem bench_signer_last (P : Params) (E : Prims) (seed : Bytes)
    (M : Nat → Bytes) (ri0 : Bytes) (node1 : mss_node) (state0 : mss_state)
    (authpath0 : Nat → mss_node) (k : Nat) (hH1 : 1 ≤ P.MSS_HEIGHT)
    (hk : ¬ k + 1 < 2 ^ P.MSS_HEIGHT) :
    (bench_signer P E seed M ri0 node1 state0 authpath0 (k + 1)).state
      = (bench_signer P E seed M ri0 node1 state0 authpath0 k).state := by
  show (bench_sign_round P E M ri0 _ k).1.state = _
  unfold bench_sign_round
  dsimp only
  exact sign_core_state_last P E _ _ _ _ _ _ _ hH1 hk

/-- Between two signatures, and after the last one, the signer holds the
traversal state of some next leaf. -/
theorem bench_signer_TInv (P : Params) (E : Prims) (hok : params_ok P) (seed : Bytes)
    (M : Nat → Bytes) (ri0 : Bytes) (node1 : mss_node) (state0 : mss_state)
    (authpath0 : Nat → mss_node) (k : Nat) (hk : k ≤ 2 ^ P.MSS_HEIGHT) :
    ∃ m, TInv P E seed m (MSS_TREEHASH_SIZE P / 2)
      (bench_signer P E seed M ri0 node1 state0 authpath0 k).state := by
  by_cases h : k < 2 ^ P.MSS_HEIGHT
  · exact ⟨k, (bench_signer_spec P E hok seed M ri0 node1 state0 authpath0 k h).1⟩
  · have hH1 : 1 ≤ P.MSS_HEIGHT := by
      obtain ⟨hK1, hK, _⟩ := hok; omega
    have hpos : 0 < 2 ^ P.MSS_HEIGHT := Nat.pos_pow_of_pos _ (by norm_num)
    obtain ⟨j, hj⟩ : ∃ j, k = j + 1 := ⟨k - 1, by omega⟩
    subst hj
    rw [bench_signer_last P E seed M ri0 node1 state0 authpath0 j hH1 (by omega)]
    exact ⟨j, (bench_signer_spec P E hok seed M ri0 node1 state0 authpath0 j (by omega)).1⟩

/-! ### The state byte after `_treehash_update` -/

theorem treehash_state_same (st : mss_state) (h b : Nat) :
    (_treehash_state st h b).treehash_state h = b := by
  unfold _treehash_state
  exact Function.update_same _ _ _

theorem treehash_finish_flag (P : Params) (E : Prims) (st4 : mss_state) (h : Nat)
    (node1a : mss_node) :
    (treehash_finish P E st4 h node1a).treehash_state h = TREEHASH_RUNNING
      ∨ (treehash_finish P E st4 h node1a).treehash_state h = TREEHASH_FINISHED := by
  unfold treehash_finish
  by_cases c1 : _treehash_get_tailheight st4 h + 1 < h
  · rw [if_pos c1]
    left
    exact treehash_state_same _ _ _
  · rw [if_neg c1]
    dsimp only
    split_ifs
    · right; exact treehash_state_same _ _ _
    · left; exact treehash_state_same _ _ _
    · right; exact treehash_state_same _ _ _
    · left; exact treehash_state_same _ _ _

theorem treehash_update_flag (P : Params) (E : Prims) (state : mss_state) (h : Nat)
    (current_leaf : Nat) (seed ri0 : Bytes) :
    (_treehash_update P E state h current_leaf seed ri0).treehash_state h = TREEHASH_RUNNING
      ∨ (_treehash_update P E state h current_leaf seed ri0).treehash_state h
          = TREEHASH_FINISHED := by
  unfold _treehash_update
  exact treehash_finish_flag P E _ h _

theorem tailheight_of_flag {st : mss_state} {h : Nat}
    (hf : st.treehash_state h = TREEHASH_NEW ∨ st.treehash_state h = TREEHASH_RUNNING
      ∨ st.treehash_state h = TREEHASH_FINISHED) :
    _treehash_get_tailheight st h = 0 := by
  unfold _treehash_get_tailheight
  rcases hf with e | e | e <;> rw [e] <;> decide

/-- C26: for `0 ≤ s ≤ 2^H - 2` the loop `while ((s + 1) % (1 << tau) != 0) tau--`
of `_nextAuth`, started at `tau = H - 1`, ends with `tau` the number of trailing
zero bits of `s + 1`: `2^tau` divides `s + 1`, no higher power of two does, and
`tau ≤ H - 1`; it is the value `_count_trailing_zeros(s + 1)`. -/
theorem nextAuth_tau (P : Params) (s : Nat) (hH1 : 1 ≤ P.MSS_HEIGHT) (hH : P.MSS_HEIGHT ≤ 31)
    (hs : s ≤ 2 ^ P.MSS_HEIGHT - 2) :
    2 ^ tau_loop s (P.MSS_HEIGHT - 1) ∣ s + 1
    ∧ (∀ t, 2 ^ t ∣ s + 1 → t ≤ tau_loop s (P.MSS_HEIGHT - 1))
    ∧ tau_loop s (P.MSS_HEIGHT - 1) ≤ P.MSS_HEIGHT - 1
    ∧ tau_loop s (P.MSS_HEIGHT - 1) = _count_trailing_zeros (s + 1) := by
  have h2 : 2 ^ 1 ≤ 2 ^ P.MSS_HEIGHT := Nat.pow_le_pow_right (by norm_num) hH1
  have e : P.MSS_HEIGHT - 1 + 1 = P.MSS_HEIGHT := by omega
  have hlt : s + 1 < 2 ^ (P.MSS_HEIGHT - 1 + 1) := by rw [e]; omega
  obtain ⟨a, b, c⟩ := tau_loop_spec s (P.MSS_HEIGHT - 1) hlt
  have h64 : s + 1 < 2 ^ 64 := by
    have : 2 ^ P.MSS_HEIGHT ≤ 2 ^ 64 := Nat.pow_le_pow_right (by norm_num) (by omega)
    omega
  obtain ⟨d1, d2⟩ := count_trailing_zeros_spec (s + 1) (by omega) h64
  refine ⟨b, ?_, a, pow_dvd_unique b c d1 d2⟩
  intro t ht
  by_contra hlt2
  exact c (Nat.dvd_trans (Nat.pow_dvd_pow 2 (by omega)) ht)

theorem nextAuth_tau_witness :
    (11 ≤ 2 ^ example_params.MSS_HEIGHT - 2)
    ∧ tau_loop 11 (example_params.MSS_HEIGHT - 1) = _count_trailing_zeros (11 + 1)
    ∧ tau_loop 11 (example_params.MSS_HEIGHT - 1) = 2 :=
  ⟨by decide,
    (nextAuth_tau example_params 11 (by decide) (by decide) (by decide)).2.2.2,
    by decide⟩

/-- C28: the value `mss_verify_core` returns is the same for any two calls with
the same `authpath`, the same incoming `currentLeaf` and the same `Y`, whatever
the message, the digest buffer `h`, `leaf_index`, the W-OTS signature `sig` and
the buffer `x` are. -/
theorem mss_verify_core_ignores (P : Params) (E : Prims) (authpath : Nat → mss_node)
    (currentLeaf : mss_node) (Y : Bytes) (data1 data2 h1 h2 : Bytes) (leaf_index1 leaf_index2 : Nat)
    (sig1 sig2 x1 x2 : Bytes) :
    (mss_verify_core P E authpath data1 h1 leaf_index1 sig1 x1 currentLeaf Y).result
      = (mss_verify_core P E authpath data2 h2 leaf_index2 sig2 x2 currentLeaf Y).result := rfl

/-- C30: after `_treehash_update(h)` the state byte of instance `h` is
`TREEHASH_RUNNING` or `TREEHASH_FINISHED`, so its tail height bits are `0`,
whatever the state on entry; and in the signing loop, between two signatures and
after the last, every treehash instance has tail height `0` and
`_treehash_height` of a running instance `h > 0` is `0`. -/
theorem treehash_tailheight_zero (P : Params) (E : Prims) (hok : params_ok P) (seed : Bytes)
    (M : Nat → Bytes) (ri0 : Bytes) (node1 : mss_node) (state0 : mss_state)
    (authpath0 : Nat → mss_node) (k : Nat) (hk : k ≤ 2 ^ P.MSS_HEIGHT) :
    (∀ (state : mss_state) (h current_leaf : Nat) (sd r0 : Bytes),
        ((_treehash_update P E state h current_leaf sd r0).treehash_state h = TREEHASH_RUNNING
          ∨ (_treehash_update P E state h current_leaf sd r0).treehash_state h
              = TREEHASH_FINISHED)
        ∧ (_treehash_update P E state h current_leaf sd r0).treehash_state h &&& TREEHASH_MASK = 0
        ∧ _treehash_get_tailheight (_treehash_update P E state h current_leaf sd r0) h = 0)
    ∧ (∀ h, h < MSS_TREEHASH_SIZE P →
        _treehash_get_tailheight (bench_signer P E seed M ri0 node1 state0 authpath0 k).state h = 0
        ∧ ((bench_signer P E seed M ri0 node1 state0 authpath0 k).state.treehash_state h
              &&& 0xE0 = TREEHASH_RUNNING → 0 < h →
            _treehash_height (bench_signer P E seed M ri0 node1 state0 authpath0 k).state h
              = 0)) := by
  constructor
  · intro state h current_leaf sd r0
    have hf := treehash_update_flag P E state h current_leaf sd r0
    refine ⟨hf, ?_, tailheight_of_flag (Or.inr hf)⟩
    rcases hf with e | e <;> rw [e] <;> decide
  · intro h hh
    obtain ⟨m, hinv⟩ := bench_signer_TInv P E hok seed M ri0 node1 state0 authpath0 k hk
    have hf := hinv.flag h hh
    refine ⟨tailheight_of_flag hf, ?_⟩
    intro hr h0
    have hrun : (bench_signer P E seed M ri0 node1 state0 authpath0 k).state.treehash_state h
        = TREEHASH_RUNNING := by
      rcases hf with e | e | e
      · rw [e] at hr; exact absurd hr (by decide)
      · exact e
      · rw [e] at hr; exact absurd hr (by decide)
    exact treehash_height_running hrun (by omega)

set_option maxRecDepth 100000 in
theorem treehash_tailheight_zero_witness :
    (6 ≤ 2 ^ example_params.MSS_HEIGHT)
    ∧ _treehash_get_tailheight
        (bench_signer example_params example_prims example_seed example_msg [] zero_node
          zero_state zero_auth 6).state 1 = 0
    ∧ (bench_signer example_params example_prims example_seed example_msg [] zero_node
          zero_state zero_auth 6).state.treehash_state 1 = TREEHASH_RUNNING :=
  ⟨by decide,
    ((treehash_tailheight_zero example_params example_prims params_ok_example example_seed
      example_msg [] zero_node zero_state zero_auth 6 (by decide)).2 1 (by decide)).1,
    by decide!⟩

/-- C22 (amended): in the signing loop, between two signatures and after the
last, the state byte of every treehash instance `h < H - K` is
`TREEHASH_FINISHED`, or `TREEHASH_NEW`, or `TREEHASH_RUNNING` with a tail height
below `h`. -/
theorem treehash_slots_between_signatures (P : Params) (E : Prims) (hok : params_ok P)
    (seed : Bytes) (M : Nat → Bytes) (ri0 : Bytes) (node1 : mss_node) (state0 : mss_state)
    (authpath0 : Nat → mss_node) (k : Nat) (hk : k ≤ 2 ^ P.MSS_HEIGHT) (h : Nat)
    (hh : h < MSS_TREEHASH_SIZE P) :
    (bench_signer P E seed M ri0 node1 state0 authpath0 k).state.treehash_state h
        = TREEHASH_FINISHED
    ∨ (bench_signer P E seed M ri0 node1 state0 authpath0 k).state.treehash_state h
        = TREEHASH_NEW
    ∨ ((bench_signer P E seed M ri0 node1 state0 authpath0 k).state.treehash_state h
          = TREEHASH_RUNNING
        ∧ _treehash_get_tailheight
            (bench_signer P E seed M ri0 node1 state0 authpath0 k).state h < h) := by
  obtain ⟨m, hinv⟩ := bench_signer_TInv P E hok seed M ri0 node1 state0 authpath0 k hk
  have hf := hinv.flag h hh
  rcases hf with e | e | e
  · exact Or.inr (Or.inl e)
  · refine Or.inr (Or.inr ⟨e, ?_⟩)
    rw [tailheight_of_flag (Or.inr (Or.inl e))]
    have := TInv_level0_new hinv hh e
    omega
  · exact Or.inl e

set_option maxRecDepth 100000 in
theorem treehash_slots_between_signatures_witness :
    (6 ≤ 2 ^ example_params.MSS_HEIGHT) ∧ (1 < MSS_TREEHASH_SIZE example_params)
    ∧ ((bench_signer example_params example_prims example_seed example_msg [] zero_node
          zero_state zero_auth 6).state.treehash_state 1 = TREEHASH_FINISHED
      ∨ (bench_signer example_params example_prims example_seed example_msg [] zero_node
          zero_state zero_auth 6).state.treehash_state 1 = TREEHASH_NEW
      ∨ ((bench_signer example_params example_prims example_seed example_msg [] zero_node
            zero_state zero_auth 6).state.treehash_state 1 = TREEHASH_RUNNING
          ∧ _treehash_get_tailheight
              (bench_signer example_params example_prims example_seed example_msg [] zero_node
                zero_state zero_auth 6).state 1 < 1)) :=
  ⟨by decide, by decide,
    treehash_slots_between_signatures example_params example_prims params_ok_example
      example_seed example_msg [] zero_node zero_state zero_auth 6 (by decide) 1 (by decide)⟩

set_option maxRecDepth 100000 in
/-- C22 as stated fails on the instance: after key generation and four
signatures the state byte of treehash instance `1` is `TREEHASH_NEW`; the
instance is neither finished nor running. -/
theorem treehash_slot_new_between_signatures :
    (bench_signer example_params example_prims example_seed example_msg [] zero_node
        zero_state zero_auth 4).state.treehash_state 1 = TREEHASH_NEW
    ∧ (bench_signer example_params example_prims example_seed example_msg [] zero_node
        zero_state zero_auth 4).state.treehash_state 1 &&& TREEHASH_FINISHED = 0
    ∧ (bench_signer example_params example_prims example_seed example_msg [] zero_node
        zero_state zero_auth 4).state.treehash_state 1 &&& TREEHASH_RUNNING = 0 := by
  decide!

/-! ### The slots of `retain` -/

theorem retain_dom_bound (P : Params) {h j : Nat} (hd : retain_dom P h j) :
    (j + 1) * 2 ^ h ≤ 2 ^ P.MSS_HEIGHT := by
  obtain ⟨_, d2, d3, d4, d5⟩ := hd
  have e : 2 ^ P.MSS_HEIGHT = 2 ^ (P.MSS_HEIGHT - h) * 2 ^ h := by
    rw [← pow_add]; congr 1; omega
  rw [e]
  exact Nat.mul_le_mul_right _ (by omega)

theorem retain_slot_lt (P : Params) (hK : P.MSS_K ≤ P.MSS_HEIGHT) {h j : Nat}
    (hd : retain_dom P h j) : retain_slot P h j < MSS_RETAIN_SIZE P := by
  obtain ⟨d1, d2, d3, d4, d5⟩ := hd
  rw [retain_slot_eq]
  unfold MSS_RETAIN_SIZE
  have e : P.MSS_HEIGHT - h = (P.MSS_HEIGHT - h - 1) + 1 := by omega
  rw [e, pow_succ] at d5
  have m := retain_base_mono (P.MSS_HEIGHT - h - 1 + 1) P.MSS_K (by omega)
  rw [pow_succ] at m
  have q := two_pow_ge_succ (P.MSS_HEIGHT - h - 1)
  omega

theorem retain_slot_surj (P : Params) (hK : P.MSS_K ≤ P.MSS_HEIGHT) :
    ∀ b, b ≤ P.MSS_K → ∀ n, n < 2 ^ b - b - 1 →
      ∃ h j, retain_dom P h j ∧ retain_slot P h j = n := by
  intro b
  induction b with
  | zero => intro _ n hn; simp at hn
  | succ b ih =>
    intro hb n hn
    by_cases hlt : n < 2 ^ b - b - 1
    · exact ih (by omega) n hlt
    · have hb1 : 1 ≤ b := by
        by_contra hc
        have : b = 0 := by omega
        subst this
        simp at hn
      have q := two_pow_ge_succ b
      rw [pow_succ] at hn
      refine ⟨P.MSS_HEIGHT - 1 - b, 2 * (n - (2 ^ b - b - 1)) + 3, ⟨by omega, by omega, by omega,
        by omega, ?_⟩, ?_⟩
      · have e : P.MSS_HEIGHT - (P.MSS_HEIGHT - 1 - b) = b + 1 := by omega
        rw [e, pow_succ]
        omega
      · rw [retain_slot_eq]
        have e : P.MSS_HEIGHT - (P.MSS_HEIGHT - 1 - b) - 1 = b := by omega
        rw [e]
        omega

theorem retain_pop_slot (P : Params) (st : mss_state) (h c : Nat)
    (hc : st.retain_index (h - (P.MSS_HEIGHT - P.MSS_K)) = c) :
    (_retain_pop P st h).2 = st.retain (retain_slot P h (2 * c + 3))
    ∧ (_retain_pop P st h).1.retain_index (h - (P.MSS_HEIGHT - P.MSS_K)) = c + 1
    ∧ (_retain_pop P st h).1.retain = st.retain := by
  unfold _retain_pop
  dsimp only
  rw [hc, retain_slot_eq, Nat.one_shiftLeft, Function.update_same]
  refine ⟨?_, rfl, rfl⟩
  congr 1
  omega

theorem retain_pops_spec (P : Params) (st : mss_state) (h : Nat)
    (h0 : st.retain_index (h - (P.MSS_HEIGHT - P.MSS_K)) = 0) :
    ∀ c, (retain_pops P st h c).retain_index (h - (P.MSS_HEIGHT - P.MSS_K)) = c
      ∧ (retain_pops P st h c).retain = st.retain := by
  intro c
  induction c with
  | zero => exact ⟨h0, rfl⟩
  | succ c ih =>
    obtain ⟨a, b, d⟩ := retain_pop_slot P (retain_pops P st h c) h c ih.1
    show (_retain_pop P (retain_pops P st h c) h).1.retain_index _ = c + 1
      ∧ (_retain_pop P (retain_pops P st h c) h).1.retain = st.retain
    exact ⟨b, by rw [d, ih.2]⟩

/-- C27: the slot formula of `_retain_push` maps the pairs `(h, j)` with
`H - K ≤ h ≤ H - 2`, `j` odd and `3 ≤ j < 2^(H-h)` one-to-one onto
`[0, 2^K - K - 1)`; `_retain_push` writes the node at the slot of its height and
index, and the key generation leaves in the slot of each pair the node of the
tree with that height and index; the `c`-th `_retain_pop` at height `h` (counted
from `0`, the cursor starting at `0`) reads the slot of `(h, 2c + 3)`. -/
theorem retain_slot_bijection (P : Params) (hH1 : 1 ≤ P.MSS_HEIGHT) (hH : P.MSS_HEIGHT ≤ 30)
    (hK : P.MSS_K ≤ P.MSS_HEIGHT) :
    (∀ h j, retain_dom P h j → retain_slot P h j < MSS_RETAIN_SIZE P)
    ∧ (∀ h1 j1 h2 j2, retain_dom P h1 j1 → retain_dom P h2 j2 →
        retain_slot P h1 j1 = retain_slot P h2 j2 → h1 = h2 ∧ j1 = j2)
    ∧ (∀ n, n < MSS_RETAIN_SIZE P → ∃ h j, retain_dom P h j ∧ retain_slot P h j = n)
    ∧ (∀ (st : mss_state) (node : mss_node),
        (_retain_push P st node).retain
          = Function.update st.retain (retain_slot P node.height node.index) node)
    ∧ (∀ (E : Prims) (seed : Bytes) (node1 : mss_node) (state : mss_state) (h j : Nat),
        retain_dom P h j →
        (mss_keygen_core P E seed node1 state).1.retain (retain_slot P h j)
          = tree_node E seed h j)
    ∧ (∀ (st : mss_state) (h c : Nat), st.retain_index (h - (P.MSS_HEIGHT - P.MSS_K)) = 0 →
        (_retain_pop P (retain_pops P st h c) h).2 = st.retain (retain_slot P h (2 * c + 3))) := by
  refine ⟨fun h j hd => retain_slot_lt P hK hd, ?_, ?_, fun _ _ => rfl, ?_, ?_⟩
  · intro h1 j1 h2 j2 d1 d2 e
    exact retain_slot_inj P d1.2.2.2.1 d1.2.2.1 (retain_dom_bound P d1) d2.2.2.2.1 d2.2.2.1
      (retain_dom_bound P d2) e
  · intro n hn
    exact retain_slot_surj P hK P.MSS_K (Nat.le_refl _) n hn
  · intro E seed node1 state h j hd
    have kf := (keygen_final P E seed node1 state hH1 hH).1
    exact kf.ret h j hd.1 hd.2.2.2.1 hd.2.2.1 (Or.inl (retain_dom_bound P hd))
  · intro st h c h0
    obtain ⟨a, b⟩ := retain_pops_spec P st h h0 c
    rw [(retain_pop_slot P (retain_pops P st h c) h c a).1, b]

theorem retain_slot_bijection_witness :
    retain_dom example_params 2 3
    ∧ retain_slot example_params 2 3 < MSS_RETAIN_SIZE example_params
    ∧ (mss_keygen_core example_params example_prims example_seed zero_node zero_state).1.retain
        (retain_slot example_params 2 3) = tree_node example_prims example_seed 2 3 :=
  ⟨by decide,
    (retain_slot_bijection example_params (by decide) (by decide) (by decide)).1 2 3 (by decide),
    (retain_slot_bijection example_params (by decide) (by decide) (by decide)).2.2.2.2.1
      example_prims example_seed zero_node zero_state 2 3 (by decide)⟩

/-! ### The instance selected in an update round -/

theorem TInv_selected {P : Params} {E : Prims} {seed : Bytes} {m i : Nat} {st : mss_state}
    (hinv : TInv P E seed m i st) (hT1 : 1 ≤ MSS_TREEHASH_SIZE P)
    (hT : MSS_TREEHASH_SIZE P ≤ 30) :
    nextAuth_selected P st < MSS_TREEHASH_SIZE P
    ∧ ((∃ h, h < MSS_TREEHASH_SIZE P ∧ ¬ st.treehash_state h = TREEHASH_FINISHED) →
        ¬ st.treehash_state (nextAuth_selected P st) = TREEHASH_FINISHED
        ∧ ∀ j, j < nextAuth_selected P st → st.treehash_state j = TREEHASH_FINISHED)
    ∧ ((∀ h, h < MSS_TREEHASH_SIZE P → st.treehash_state h = TREEHASH_FINISHED) →
        nextAuth_selected P st = MSS_TREEHASH_SIZE P - 1)
    ∧ (st.treehash_state (nextAuth_selected P st) &&& TREEHASH_FINISHED = 0
        ↔ ¬ st.treehash_state (nextAuth_selected P st) = TREEHASH_FINISHED) := by
  have hlev : ∀ j, j < MSS_TREEHASH_SIZE P → (st.treehash_state j = TREEHASH_NEW
        ∨ st.treehash_state j = TREEHASH_RUNNING
        ∨ st.treehash_state j = TREEHASH_FINISHED)
      ∧ (st.treehash_state j = TREEHASH_RUNNING → j ≠ 0)
      ∧ (st.treehash j).height ≤ j ∧ j ≤ (st.treehash j).height + 1 :=
    fun j hj => ⟨hinv.flag j hj, fun h => TInv_level0_new hinv hj h, TInv_height hinv hT hj⟩
  obtain ⟨s1, s2⟩ := nextAuth_select_spec st (MSS_TREEHASH_SIZE P) TREEHASH_HEIGHT_INFINITY
    (P.MSS_HEIGHT - P.MSS_K - 1) (by omega) (by show _ ≤ 127 + 1; omega) hlev
  have hk0 : P.MSS_HEIGHT - P.MSS_K - 1 = MSS_TREEHASH_SIZE P - 1 := rfl
  have hall_case : (∀ h, h < MSS_TREEHASH_SIZE P → st.treehash_state h = TREEHASH_FINISHED) →
      nextAuth_selected P st = MSS_TREEHASH_SIZE P - 1 := by
    intro hall
    obtain ⟨n, hn⟩ : ∃ n, MSS_TREEHASH_SIZE P = n + 1 := ⟨MSS_TREEHASH_SIZE P - 1, by omega⟩
    have hfn := hall n (by omega)
    have hh : _treehash_height st n ≤ TREEHASH_HEIGHT_INFINITY := by
      rw [treehash_height_finished hfn]
    have e : nextAuth_select st (n + 1) (TREEHASH_HEIGHT_INFINITY, P.MSS_HEIGHT - P.MSS_K - 1)
        = nextAuth_select st n ((st.treehash n).height, n) := by
      show (if _treehash_height st n ≤ TREEHASH_HEIGHT_INFINITY then _ else _) = _
      rw [if_pos hh]
    unfold nextAuth_selected
    rw [hn, e]
    have hnh : (st.treehash n).height = n := (hinv.node_fin n (by omega) hfn).1
    obtain ⟨t1, _⟩ := nextAuth_select_spec st n (st.treehash n).height n (by omega)
      (by omega) (fun j hj => hlev j (by omega))
    obtain ⟨t1a, _⟩ := t1 (fun j hj => hall j (by omega))
    rw [t1a (by rw [hnh]; show n < 127; omega)]
    omega
  by_cases hall : ∀ j, j < MSS_TREEHASH_SIZE P → st.treehash_state j = TREEHASH_FINISHED
  · have hsel := hall_case hall
    have hfin := hall (nextAuth_selected P st) (by rw [hsel]; omega)
    refine ⟨by rw [hsel]; omega, ?_, hall_case, ?_⟩
    · rintro ⟨h, hh, hun⟩
      exact absurd (hall h hh) hun
    · rw [hfin]
      constructor
      · intro h; exact absurd h (by decide)
      · intro h; exact absurd rfl h
  · have hall' := hall
    push_neg at hall
    obtain ⟨j0, hj0, hun0⟩ := hall
    obtain ⟨r1, r2, r3⟩ := s2 j0 hj0 hun0
    refine ⟨r1, fun _ => ⟨r2, r3⟩, hall_case, ?_⟩
    constructor
    · intro _; exact r2
    · intro _
      rcases hinv.flag _ r1 with h | h | h
      · show st.treehash_state (nextAuth_selected P st) &&& TREEHASH_FINISHED = 0
        have : st.treehash_state (nextAuth_selected P st) = TREEHASH_NEW := h
        rw [this]; decide
      · show st.treehash_state (nextAuth_selected P st) &&& TREEHASH_FINISHED = 0
        have : st.treehash_state (nextAuth_selected P st) = TREEHASH_RUNNING := h
        rw [this]; decide
      · exact absurd h r2

theorem TInv_height_unfinished {P : Params} {E : Prims} {seed : Bytes} {m i : Nat}
    {st : mss_state} (hinv : TInv P E seed m i st) {k : Nat} (hk : k < MSS_TREEHASH_SIZE P)
    (hun : ¬ st.treehash_state k = TREEHASH_FINISHED) : _treehash_height st k ≤ k := by
  rcases hinv.flag k hk with h | h | h
  · rw [treehash_height_new h]
  · rw [treehash_height_running h (TInv_level0_new hinv hk h)]; omega
  · exact absurd h hun

/-- The leaf an unfinished instance works on lies beyond the next leaf. -/
theorem TInv_seed_gt {P : Params} {E : Prims} {seed : Bytes} {m i : Nat} {st : mss_state}
    (hinv : TInv P E seed m i st) {k : Nat} (hk : k < MSS_TREEHASH_SIZE P)
    (hun : ¬ st.treehash_state k = TREEHASH_FINISHED) : m < st.treehash_seed k := by
  have h1 := hinv.seed_lo k hk hun
  unfold job_index at h1
  have h2 := Nat.div_add_mod m (2 ^ (k + 1))
  have h3 := Nat.mod_lt m (two_pow_pos (k + 1))
  have e : (2 * (m / 2 ^ (k + 1)) + 3) * 2 ^ k = 2 ^ (k + 1) * (m / 2 ^ (k + 1)) + 3 * 2 ^ k := by
    rw [pow_succ]; ring
  have e2 : 2 ^ (k + 1) = 2 * 2 ^ k := by rw [pow_succ]; ring
  omega

/-- C21 (amended): in each of the `(H - K) / 2` update rounds of `_nextAuth` in
the signing loop, the instance `k` selected is the lowest instance that is not
finished, so that among the instances with the same `_treehash_height` it is the
smallest, and it is `H - K - 1` when every instance is finished;
`_treehash_update(k)` is then called exactly when instance `k` is not
finished. -/
theorem nextAuth_selects_lowest_unfinished (P : Params) (E : Prims) (hok : params_ok P)
    (seed : Bytes) (M : Nat → Bytes) (ri0 : Bytes) (node1 : mss_node) (state0 : mss_state)
    (authpath0 : Nat → mss_node) (s i : Nat) (hs : s + 1 < 2 ^ P.MSS_HEIGHT)
    (hi : i < MSS_TREEHASH_SIZE P / 2) :
    nextAuth_selected P (bench_round_state P E seed M ri0 node1 state0 authpath0 s i)
      < MSS_TREEHASH_SIZE P
    ∧ ((∃ h, h < MSS_TREEHASH_SIZE P
          ∧ ¬ (bench_round_state P E seed M ri0 node1 state0 authpath0 s i).treehash_state h
              = TREEHASH_FINISHED) →
        ¬ (bench_round_state P E seed M ri0 node1 state0 authpath0 s i).treehash_state
            (nextAuth_selected P (bench_round_state P E seed M ri0 node1 state0 authpath0 s i))
          = TREEHASH_FINISHED
        ∧ (∀ j, j < nextAuth_selected P
              (bench_round_state P E seed M ri0 node1 state0 authpath0 s i) →
            (bench_round_state P E seed M ri0 node1 state0 authpath0 s i).treehash_state j
              = TREEHASH_FINISHED)
        ∧ (∀ h, h < MSS_TREEHASH_SIZE P →
            _treehash_height (bench_round_state P E seed M ri0 node1 state0 authpath0 s i) h
              = _treehash_height (bench_round_state P E seed M ri0 node1 state0 authpath0 s i)
                  (nextAuth_selected P
                    (bench_round_state P E seed M ri0 node1 state0 authpath0 s i)) →
            nextAuth_selected P (bench_round_state P E seed M ri0 node1 state0 authpath0 s i)
              ≤ h))
    ∧ ((∀ h, h < MSS_TREEHASH_SIZE P →
          (bench_round_state P E seed M ri0 node1 state0 authpath0 s i).treehash_state h
            = TREEHASH_FINISHED) →
        nextAuth_selected P (bench_round_state P E seed M ri0 node1 state0 authpath0 s i)
          = MSS_TREEHASH_SIZE P - 1)
    ∧ ((bench_round_state P E seed M ri0 node1 state0 authpath0 s i).treehash_state
            (nextAuth_selected P (bench_round_state P E seed M ri0 node1 state0 authpath0 s i))
          &&& TREEHASH_FINISHED = 0
        ↔ ¬ (bench_round_state P E seed M ri0 node1 state0 authpath0 s i).treehash_state
            (nextAuth_selected P (bench_round_state P E seed M ri0 node1 state0 authpath0 s i))
          = TREEHASH_FINISHED)
    ∧ bench_round_state P E seed M ri0 node1 state0 authpath0 s (i + 1)
      = (if (bench_round_state P E seed M ri0 node1 state0 authpath0 s i).treehash_state
              (nextAuth_selected P
                (bench_round_state P E seed M ri0 node1 state0 authpath0 s i))
            &&& TREEHASH_FINISHED = 0 then
          _treehash_update P E (bench_round_state P E seed M ri0 node1 state0 authpath0 s i)
            (nextAuth_selected P (bench_round_state P E seed M ri0 node1 state0 authpath0 s i))
            s (E.fsgen (bench_signer P E seed M ri0 node1 state0 authpath0 s).si).1 ri0
        else bench_round_state P E seed M ri0 node1 state0 authpath0 s i) := by
  have hinv := bench_round_TInv P E hok seed M ri0 node1 state0 authpath0 s i hs (by omega)
  obtain ⟨hK1, hK, hH, hev, hS⟩ := hok
  have hT30 : MSS_TREEHASH_SIZE P ≤ 30 := by unfold MSS_TREEHASH_SIZE; omega
  obtain ⟨a, b, c, d⟩ := TInv_selected hinv (by omega) hT30
  refine ⟨a, ?_, c, d, ?_⟩
  · intro hex
    obtain ⟨b1, b2⟩ := b hex
    refine ⟨b1, b2, ?_⟩
    intro h hh heq
    by_contra hlt
    have hf := b2 h (by omega)
    rw [treehash_height_finished hf] at heq
    have := TInv_height_unfinished hinv a b1
    rw [← heq] at this
    have : TREEHASH_HEIGHT_INFINITY = 127 := rfl
    omega
  · exact nextAuth_round_succ P E _ _ _ s ri0 i

set_option maxRecDepth 100000 in
theorem nextAuth_selects_lowest_unfinished_witness :
    (5 + 1 < 2 ^ example_params.MSS_HEIGHT) ∧ (0 < MSS_TREEHASH_SIZE example_params / 2)
    ∧ nextAuth_selected example_params
        (bench_round_state example_params example_prims example_seed example_msg [] zero_node
          zero_state zero_auth 5 0) < MSS_TREEHASH_SIZE example_params
    ∧ nextAuth_selected example_params
        (bench_round_state example_params example_prims example_seed example_msg [] zero_node
          zero_state zero_auth 5 0) = 0 :=
  ⟨by decide, by decide,
    (nextAuth_selects_lowest_unfinished example_params example_prims params_ok_example
      example_seed example_msg [] zero_node zero_state zero_auth 5 0 (by decide) (by decide)).1,
    by decide!⟩

set_option maxRecDepth 1000000 in
/-- C21 as stated fails on two instances.  With `H = 4`, `K = 2`, in the update
round of the signature of leaf `5`, instances `0` and `1` both have
`_treehash_height` `0` and the instance selected is `0`, not the largest.  With
`H = 7`, `K = 1`, in the second update round of the signature of leaf `19`, the
instance selected is `1`, of `_treehash_height` `1`, while instance `3` has
`_treehash_height` `0`. -/
theorem nextAuth_selection_not_minimal :
    _treehash_height
        (bench_round_state example_params example_prims example_seed example_msg [] zero_node
          zero_state zero_auth 5 0) 0 = 0
    ∧ _treehash_height
        (bench_round_state example_params example_prims example_seed example_msg [] zero_node
          zero_state zero_auth 5 0) 1 = 0
    ∧ nextAuth_selected example_params
        (bench_round_state example_params example_prims example_seed example_msg [] zero_node
          zero_state zero_auth 5 0) = 0
    ∧ nextAuth_selected example_params_tall
        (bench_round_state example_params_tall example_prims example_seed example_msg []
          zero_node zero_state zero_auth 19 1) = 1
    ∧ _treehash_height
        (bench_round_state example_params_tall example_prims example_seed example_msg []
          zero_node zero_state zero_auth 19 1) 1 = 1
    ∧ _treehash_height
        (bench_round_state example_params_tall example_prims example_seed example_msg []
          zero_node zero_state zero_auth 19 1) 3 = 0 := by
  decide!

/-- C29: in the signing loop, whenever an update round of `_nextAuth(s)` calls
`_treehash_update` for the instance `k` it selected, `treehash_seed[k] > s`: the
fast-forward loop runs `treehash_seed[k] - s ≥ 1` times on a copy of the seed,
the `ri` it leaves is the randomness of leaf `treehash_seed[k]` whatever the
buffer held before, the leaf that is recomputed is built from it, and the seed
of the signer after the round is the one handed to the call. -/
theorem treehash_update_fast_forward (P : Params) (E : Prims) (hok : params_ok P)
    (seed : Bytes) (M : Nat → Bytes) (ri0 : Bytes) (node1 : mss_node) (state0 : mss_state)
    (authpath0 : Nat → mss_node) (s i : Nat) (hs : s + 1 < 2 ^ P.MSS_HEIGHT)
    (hi : i < MSS_TREEHASH_SIZE P / 2)
    (hcall : (bench_round_state P E seed M ri0 node1 state0 authpath0 s i).treehash_state
            (nextAuth_selected P (bench_round_state P E seed M ri0 node1 state0 authpath0 s i))
          &&& TREEHASH_FINISHED = 0) :
    s < (bench_round_state P E seed M ri0 node1 state0 authpath0 s i).treehash_seed
          (nextAuth_selected P (bench_round_state P E seed M ri0 node1 state0 authpath0 s i))
    ∧ 1 ≤ (bench_round_state P E seed M ri0 node1 state0 authpath0 s i).treehash_seed
          (nextAuth_selected P (bench_round_state P E seed M ri0 node1 state0 authpath0 s i)) - s
    ∧ (∀ r0, (fsgen_loop E
          ((bench_round_state P E seed M ri0 node1 state0 authpath0 s i).treehash_seed
            (nextAuth_selected P (bench_round_state P E seed M ri0 node1 state0 authpath0 s i))
            - s)
          ((E.fsgen (bench_signer P E seed M ri0 node1 state0 authpath0 s).si).1, r0)).2
        = r_at E seed
            ((bench_round_state P E seed M ri0 node1 state0 authpath0 s i).treehash_seed
              (nextAuth_selected P
                (bench_round_state P E seed M ri0 node1 state0 authpath0 s i))))
    ∧ (∀ r0, treehash_leaf P E (bench_round_state P E seed M ri0 node1 state0 authpath0 s i)
          (nextAuth_selected P (bench_round_state P E seed M ri0 node1 state0 authpath0 s i))
          s (E.fsgen (bench_signer P E seed M ri0 node1 state0 authpath0 s).si).1 r0
        = _create_leaf E
            ((bench_round_state P E seed M ri0 node1 state0 authpath0 s i).treehash_seed
              (nextAuth_selected P (bench_round_state P E seed M ri0 node1 state0 authpath0 s i)))
            (r_at E seed
              ((bench_round_state P E seed M ri0 node1 state0 authpath0 s i).treehash_seed
                (nextAuth_selected P
                  (bench_round_state P E seed M ri0 node1 state0 authpath0 s i)))))
    ∧ (bench_signer P E seed M ri0 node1 state0 authpath0 (s + 1)).si
        = (E.fsgen (bench_signer P E seed M ri0 node1 state0 authpath0 s).si).1 := by
  have hinv := bench_round_TInv P E hok seed M ri0 node1 state0 authpath0 s i hs (by omega)
  obtain ⟨_, i2, _⟩ := bench_signer_spec P E hok seed M ri0 node1 state0 authpath0 s (by omega)
  obtain ⟨hK1, hK, hH, hev, hS⟩ := hok
  have hT30 : MSS_TREEHASH_SIZE P ≤ 30 := by unfold MSS_TREEHASH_SIZE; omega
  obtain ⟨a, _, _, d⟩ := TInv_selected hinv (by omega) hT30
  have hun := d.1 hcall
  have hgt := TInv_seed_gt hinv a hun
  have hlast : (bench_signer P E seed M ri0 node1 state0 authpath0 (s + 1)).si
      = seed_at E seed (s + 1) := by
    show (E.fsgen (bench_signer P E seed M ri0 node1 state0 authpath0 s).si).1 = _
    rw [i2]
    rfl
  generalize bench_round_state P E seed M ri0 node1 state0 authpath0 s i = st at *
  generalize nextAuth_selected P st = k at *
  rw [i2, seed_at_add_one]
  dsimp only
  have hff : ∀ r0, (fsgen_loop E (st.treehash_seed k - s) (seed_at E seed (s + 1), r0)).2
      = r_at E seed (st.treehash_seed k) := by
    intro r0
    obtain ⟨n, hn⟩ : ∃ n, st.treehash_seed k - s = n + 1 := ⟨st.treehash_seed k - s - 1, by omega⟩
    rw [hn, fsgen_loop_seed_at]
    dsimp only
    congr 1
    omega
  refine ⟨by omega, by omega, hff, ?_, hlast⟩
  intro r0
  exact update_leaf P E seed hinv a hun r0

set_option maxRecDepth 100000 in
theorem treehash_update_fast_forward_witness :
    (5 + 1 < 2 ^ example_params.MSS_HEIGHT) ∧ (0 < MSS_TREEHASH_SIZE example_params / 2)
    ∧ 5 < (bench_round_state example_params example_prims example_seed example_msg [] zero_node
          zero_state zero_auth 5 0).treehash_seed
          (nextAuth_selected example_params
            (bench_round_state example_params example_prims example_seed example_msg []
              zero_node zero_state zero_auth 5 0)) :=
  ⟨by decide, by decide,
    (treehash_update_fast_forward example_params example_prims params_ok_example
      example_seed example_msg [] zero_node zero_state zero_auth 5 0 (by decide) (by decide)
      (by decide!)).1⟩

/-! ### The push of the key generation -/

theorem keygen_step_eq (P : Params) (E : Prims) (acc : mss_state × Nat × Bytes × mss_node)
    (pos : Nat) :
    keygen_step P E acc pos
      = if (keygen_reduced P E acc pos).2.1 < P.MSS_HEIGHT then
          ({ (keygen_reduced P E acc pos).1 with
              keep := Function.update (keygen_reduced P E acc pos).1.keep
                (keygen_reduced P E acc pos).2.1 (keygen_reduced P E acc pos).2.2 },
            (keygen_reduced P E acc pos).2.1 + 1, (E.fsgen acc.2.2.1).1,
            (keygen_reduced P E acc pos).2.2)
        else ((keygen_reduced P E acc pos).1, (keygen_reduced P E acc pos).2.1,
            (E.fsgen acc.2.2.1).1, (keygen_reduced P E acc pos).2.2) := rfl

theorem keygen_acc_succ (P : Params) (E : Prims) (seed : Bytes) (node1 : mss_node)
    (state : mss_state) (pos : Nat) :
    keygen_acc P E seed node1 state (pos + 1)
      = keygen_step P E (keygen_acc P E seed node1 state pos) pos := by
  unfold keygen_acc
  rw [List.range_succ, List.foldl_append]
  rfl

theorem keygen_reduced_spec (P : Params) (E : Prims) (seed : Bytes)
    (hH1 : 1 ≤ P.MSS_HEIGHT) (hH : P.MSS_HEIGHT ≤ 30) {p : Nat} (hp : p < 2 ^ P.MSS_HEIGHT)
    {acc : mss_state × Nat × Bytes × mss_node} (hacc : KAcc P E seed p acc) :
    (keygen_reduced P E acc p).2.2
        = tree_node E seed (_count_trailing_zeros (p + 1)) (p / 2 ^ _count_trailing_zeros (p + 1))
    ∧ (keygen_reduced P E acc p).2.1 < P.MSS_HEIGHT
    ∧ StackRep (keygen_reduced P E acc p).1.keep (keygen_reduced P E acc p).2.1
        (spine_from E seed p (_count_trailing_zeros (p + 1))
          (P.MSS_HEIGHT + 1 - _count_trailing_zeros (p + 1))) := by
  have h30 : 2 ^ P.MSS_HEIGHT ≤ 2 ^ 30 := Nat.pow_le_pow_right (by norm_num) hH
  have hmax : p ≠ maxleaf_index := by
    unfold maxleaf_index
    norm_num at h30 ⊢
    omega
  obtain ⟨hd, hnd⟩ := count_trailing_zeros_spec (p + 1) (by omega)
    (by norm_num at h30 ⊢; omega)
  have htH : _count_trailing_zeros (p + 1) ≤ P.MSS_HEIGHT := le_of_pow_dvd_succ hp hd
  have hfs : E.fsgen acc.2.2.1 = (seed_at E seed (p + 1), r_at E seed p) := by
    rw [hacc.sd]; rfl
  have hleaf : _create_leaf E p (r_at E seed p) = tree_node E seed 0 (p / 2 ^ 0) := by
    simp [tree_node]
  have hk1 : KInv P E seed p (0 + 1) (_init_state P acc.1 (tree_node E seed 0 (p / 2 ^ 0))) := by
    have := init_state_KInv P E seed (a := 0) (j := p) (by omega) hp (by simp) hacc.inv
    simpa using this
  have hs1 : StackRep (_init_state P acc.1 (tree_node E seed 0 (p / 2 ^ 0))).keep acc.2.1
      (spine_from E seed p 0 (P.MSS_HEIGHT + 1 - 0)) := by
    rw [(init_state_frame P acc.1 _).2.2.1]
    exact hacc.stack
  obtain ⟨r1, r2, r3⟩ := keygen_reduce_spec P E seed (by omega) hp hd (P.MSS_HEIGHT + 1)
    (by omega) (_count_trailing_zeros (p + 1)) 0 _ acc.2.1 (by omega) hk1 hs1
  have hlen := spine_from_top_length E seed hp hd hnd hH1
  have hidx := r2.1
  unfold keygen_reduced
  simp only [hfs, hleaf, if_neg hmax]
  exact ⟨r3, by rw [hidx]; exact hlen, r2⟩

theorem keygen_acc_KAcc (P : Params) (E : Prims) (seed : Bytes) (node1 : mss_node)
    (state : mss_state) (hH1 : 1 ≤ P.MSS_HEIGHT) (hH : P.MSS_HEIGHT ≤ 30) (n : Nat)
    (hn : n ≤ 2 ^ P.MSS_HEIGHT) : KAcc P E seed n (keygen_acc P E seed node1 state n) :=
  keygen_fold_spec P E seed node1 state hH1 hH n hn

theorem keygen_core_state_eq (P : Params) (E : Prims) (seed : Bytes) (node1 : mss_node)
    (state : mss_state) (hH : P.MSS_HEIGHT ≤ 30) :
    (mss_keygen_core P E seed node1 state).1
      = (keygen_acc P E seed node1 state (2 ^ P.MSS_HEIGHT)).1 := by
  unfold mss_keygen_core keygen_acc
  rw [keygen_rounds_eq P hH]

theorem ctz_top {p H : Nat} (hp : p + 1 = 2 ^ H) (hH : H ≤ 30) :
    _count_trailing_zeros (p + 1) = H := by
  have h30 : 2 ^ H ≤ 2 ^ 30 := Nat.pow_le_pow_right (by norm_num) hH
  obtain ⟨hd, hnd⟩ := count_trailing_zeros_spec (p + 1) (by omega)
    (by norm_num at h30 ⊢; omega)
  have hpos := two_pow_pos H
  exact pow_dvd_unique hd hnd (by rw [hp]) (by
    intro h
    have := Nat.le_of_dvd (by omega) h
    rw [pow_succ] at this
    omega)

/-- C25 (amended): in the key-generation walk, after the reductions at position
`pos < 2^H` the current node is pushed if and only if the stack index is below
`H`, and the stack index is below `H` at every position: the node is always
pushed.  Its height is below `H` at every position but the last; at the last
position the node is the root, of height `H`, the stack is empty, and the root
is pushed too: the key generation leaves it in `keep[0]`. -/
theorem keygen_pushes_every_node (P : Params) (E : Prims) (seed : Bytes) (node1 : mss_node)
    (state : mss_state) (hH1 : 1 ≤ P.MSS_HEIGHT) (hH : P.MSS_HEIGHT ≤ 30) (pos : Nat)
    (hpos : pos < 2 ^ P.MSS_HEIGHT) :
    (keygen_reduced P E (keygen_acc P E seed node1 state pos) pos).2.1 < P.MSS_HEIGHT
    ∧ keygen_acc P E seed node1 state (pos + 1)
      = ({ (keygen_reduced P E (keygen_acc P E seed node1 state pos) pos).1 with
            keep := Function.update
              (keygen_reduced P E (keygen_acc P E seed node1 state pos) pos).1.keep
              (keygen_reduced P E (keygen_acc P E seed node1 state pos) pos).2.1
              (keygen_reduced P E (keygen_acc P E seed node1 state pos) pos).2.2 },
          (keygen_reduced P E (keygen_acc P E seed node1 state pos) pos).2.1 + 1,
          (E.fsgen (keygen_acc P E seed node1 state pos).2.2.1).1,
          (keygen_reduced P E (keygen_acc P E seed node1 state pos) pos).2.2)
    ∧ ((keygen_reduced P E (keygen_acc P E seed node1 state pos) pos).2.2.height < P.MSS_HEIGHT
        ↔ pos + 1 < 2 ^ P.MSS_HEIGHT)
    ∧ (pos + 1 = 2 ^ P.MSS_HEIGHT →
        (keygen_reduced P E (keygen_acc P E seed node1 state pos) pos).2.2
            = tree_node E seed P.MSS_HEIGHT 0
        ∧ (keygen_reduced P E (keygen_acc P E seed node1 state pos) pos).2.2.height
            = P.MSS_HEIGHT
        ∧ (keygen_reduced P E (keygen_acc P E seed node1 state pos) pos).2.1 = 0
        ∧ (mss_keygen_core P E seed node1 state).1.keep 0 = tree_node E seed P.MSS_HEIGHT 0) := by
  have hacc := keygen_acc_KAcc P E seed node1 state hH1 hH pos (by omega)
  obtain ⟨r1, r2, r3⟩ := keygen_reduced_spec P E seed hH1 hH hpos hacc
  have h30 : 2 ^ P.MSS_HEIGHT ≤ 2 ^ 30 := Nat.pow_le_pow_right (by norm_num) hH
  obtain ⟨hd, hnd⟩ := count_trailing_zeros_spec (pos + 1) (by omega)
    (by norm_num at h30 ⊢; omega)
  have htH : _count_trailing_zeros (pos + 1) ≤ P.MSS_HEIGHT := le_of_pow_dvd_succ hpos hd
  have hstep : keygen_acc P E seed node1 state (pos + 1)
      = ({ (keygen_reduced P E (keygen_acc P E seed node1 state pos) pos).1 with
            keep := Function.update
              (keygen_reduced P E (keygen_acc P E seed node1 state pos) pos).1.keep
              (keygen_reduced P E (keygen_acc P E seed node1 state pos) pos).2.1
              (keygen_reduced P E (keygen_acc P E seed node1 state pos) pos).2.2 },
          (keygen_reduced P E (keygen_acc P E seed node1 state pos) pos).2.1 + 1,
          (E.fsgen (keygen_acc P E seed node1 state pos).2.2.1).1,
          (keygen_reduced P E (keygen_acc P E seed node1 state pos) pos).2.2) := by
    rw [keygen_acc_succ, keygen_step_eq, if_pos r2]
  have hheight : (keygen_reduced P E (keygen_acc P E seed node1 state pos) pos).2.2.height
      = _count_trailing_zeros (pos + 1) := by
    rw [r1, tree_node_height E seed _ _ (by omega)]
  refine ⟨r2, hstep, ?_, ?_⟩
  · rw [hheight]
    constructor
    · intro hlt
      by_contra hc
      have e : pos + 1 = 2 ^ P.MSS_HEIGHT := by omega
      have := ctz_top e hH
      omega
    · intro hlt
      by_contra hc
      have e : _count_trailing_zeros (pos + 1) = P.MSS_HEIGHT := by omega
      rw [e] at hd
      have := Nat.le_of_dvd (by omega) hd
      omega
  · intro e
    have ht := ctz_top e hH
    have hdiv : pos / 2 ^ P.MSS_HEIGHT = 0 := Nat.div_eq_of_lt hpos
    have hroot : (keygen_reduced P E (keygen_acc P E seed node1 state pos) pos).2.2
        = tree_node E seed P.MSS_HEIGHT 0 := by
      rw [r1, ht, hdiv]
    have hidx0 : (keygen_reduced P E (keygen_acc P E seed node1 state pos) pos).2.1 = 0 := by
      have hl := r3.1
      rw [ht] at hl
      have e1 : P.MSS_HEIGHT + 1 - P.MSS_HEIGHT = 0 + 1 := by omega
      rw [e1] at hl
      simp only [spine_from, hdiv] at hl
      simpa using hl
    refine ⟨hroot, by rw [hheight, ht], hidx0, ?_⟩
    rw [keygen_core_state_eq P E seed node1 state hH, ← e, hstep]
    dsimp only
    rw [hidx0, Function.update_same, hroot]

theorem keygen_pushes_every_node_witness :
    (15 < 2 ^ example_params.MSS_HEIGHT) ∧ (15 + 1 = 2 ^ example_params.MSS_HEIGHT)
    ∧ (mss_keygen_core example_params example_prims example_seed zero_node zero_state).1.keep 0
      = tree_node example_prims example_seed example_params.MSS_HEIGHT 0 :=
  ⟨by decide, by decide,
    ((keygen_pushes_every_node example_params example_prims example_seed zero_node zero_state
      (by decide) (by decide) 15 (by decide)).2.2.2 (by decide)).2.2.2⟩

set_option maxRecDepth 100000 in
/-- C25 as stated fails on the instance: at the last position `15` the node
after the reductions has height `4 = H`, and it is pushed: the stack index goes
from `0` to `1` and the key generation leaves the root in `keep[0]`. -/
theorem keygen_pushes_root :
    (keygen_reduced example_params example_prims
        (keygen_acc example_params example_prims example_seed zero_node zero_state 15)
        15).2.2.height = example_params.MSS_HEIGHT
    ∧ (keygen_reduced example_params example_prims
        (keygen_acc example_params example_prims example_seed zero_node zero_state 15)
        15).2.1 = 0
    ∧ (keygen_acc example_params example_prims example_seed zero_node zero_state 16).2.1 = 1
    ∧ (mss_keygen_core example_params example_prims example_seed zero_node zero_state).1.keep 0
      = { height := 4, index := 0, value := example_root } := by
  decide!

/-! ### The nodes in `store` -/

theorem SInv_update (P : Params) (E : Prims) (seed : Bytes) {s i : Nat} {st : mss_state}
    (hinv : TInv P E seed (s + 1) i st) (hsv : SInv P E seed (s + 1) st)
    (hT : MSS_TREEHASH_SIZE P ≤ 30)
    (hS : P.MSS_STACK_SIZE ≠ 0 ∨ MSS_TREEHASH_SIZE P ≤ 2)
    {k : Nat} (hk : k < MSS_TREEHASH_SIZE P)
    (hun : ¬ st.treehash_state k = TREEHASH_FINISHED)
    (hlow : ∀ j, j < k → st.treehash_state j = TREEHASH_FINISHED) (ri0 : Bytes) :
    SInv P E seed (s + 1) (_treehash_update P E st k s (seed_at E seed (s + 1)) ri0) := by
  obtain ⟨u1, u2, u3, u4, u5, u6, u7, u8, u9⟩ := update_facts P E seed hinv hT hS hk hun hlow ri0
  obtain ⟨hq, hc⟩ := seed_decomp hinv hk hun
  generalize _treehash_update P E st k s (seed_at E seed (s + 1)) ri0 = st2 at u1 u2 u3 u4 u5 u6 u7 u8 u9 ⊢
  have hJ5 : 5 ≤ job_index (s + 1) k := job_index_ge_five (hinv.seed_rel k hk hun)
  have hJodd := job_index_odd (s + 1) k
  have hrf : ¬ TREEHASH_RUNNING = TREEHASH_FINISHED := by decide
  have hst : ∀ h, h ≠ k → st2.treehash_state h = st.treehash_state h := by
    intro h hne; rw [u2, Function.update_noteq hne]
  have hstk : st2.treehash_state k
      = if th_cnt st (s + 1) k + 1 = 2 ^ k then TREEHASH_FINISHED else TREEHASH_RUNNING := by
    rw [u2, Function.update_same]
  have hsd : ∀ h, h ≠ k → st2.treehash_seed h = st.treehash_seed h := by
    intro h hne; rw [u1, Function.update_noteq hne]
  have hsdk : st2.treehash_seed k = st.treehash_seed k + 1 := by
    rw [u1, Function.update_same]
  have hfin_iff : st2.treehash_state k = TREEHASH_FINISHED ↔ th_cnt st (s + 1) k + 1 = 2 ^ k := by
    rw [hstk]
    constructor
    · intro h
      by_contra hne
      rw [if_neg hne] at h
      exact hrf h
    · intro h; rw [if_pos h]
  have hun2 : ∀ h, ¬ st2.treehash_state h = TREEHASH_FINISHED →
      ¬ st.treehash_state h = TREEHASH_FINISHED := by
    intro h hh
    by_cases e : h = k
    · rw [e]; exact hun
    · rw [← hst h e]; exact hh
  have hcnt : ∀ h, h ≠ k → th_cnt st2 (s + 1) h = th_cnt st (s + 1) h :=
    fun h hne => th_cnt_congr (hst h hne) (hsd h hne)
  have hcntk : th_cnt st2 (s + 1) k = th_cnt st (s + 1) k + 1 := by
    by_cases hf : st2.treehash_state k = TREEHASH_FINISHED
    · rw [th_cnt_fin hf, hfin_iff.1 hf]
    · rw [th_cnt_run hf, hsdk, hq]; omega
  have hsave := treehash_save_store st k (tree_node E seed 0 (st.treehash_seed k))
  rw [← u5] at hsave
  have hstore_ne : ∀ h, h + 1 ≠ k → st2.store h = st.store h := by
    intro h hne
    rw [hsave]
    split_ifs with hcond
    · rw [Function.update_noteq (by omega)]
    · rfl
  have hstore_mid : ∀ h, h + 1 = k → th_cnt st (s + 1) k = 2 ^ h →
      st2.store h = tree_node E seed 0 (mid_leaf (job_index (s + 1) k) h) := by
    intro h he hcm
    have hceq : th_cnt st (s + 1) k = 2 ^ (k - 1) := by rw [hcm, ← he]; simp
    have hcond := (save_cond_iff k (job_index (s + 1) k) _ (by omega) hc hJ5 hJodd).2 hceq
    rw [← hq] at hcond
    rw [hsave, if_pos hcond]
    have e1 : k - 1 = h := by omega
    rw [e1, Function.update_same]
    have e2 : st.treehash_seed k = mid_leaf (job_index (s + 1) k) h := by
      rw [hq, hcm]
      unfold mid_leaf
      rw [he]
    rw [e2]
    exact leaf_eq_of_value rfl
  have hstore_same : ∀ h, h + 1 = k → th_cnt st (s + 1) k ≠ 2 ^ h →
      st2.store h = st.store h := by
    intro h he hcm
    have hncond : ¬ (0 < k ∧ st.treehash_seed k ≥ 11 * (1 <<< (k - 1))
            ∧ (st.treehash_seed k - 11 * (1 <<< (k - 1))) % (1 <<< (k + 1)) = 0) := by
      intro hcond
      rw [hq] at hcond
      have := (save_cond_iff k (job_index (s + 1) k) _ (by omega) hc hJ5 hJodd).1 hcond
      apply hcm
      rw [this, ← he]; simp
    rw [hsave, if_neg hncond]
  refine { hi := ?_, lo := ?_, fin := ?_, fend := ?_ }
  · -- hi
    intro h hh hf hlt
    by_cases e : h + 1 = k
    · rw [← e] at hcntk
      rw [hcntk] at hlt
      by_cases hcm : th_cnt st (s + 1) k = 2 ^ h
      · rw [e]; exact hstore_mid h e hcm
      · rw [hstore_same h e hcm]
        rw [e] at hlt
        exact hsv.hi h hh (by rw [e]; exact hun) (by rw [e]; omega)
    · rw [hcnt (h + 1) e] at hlt
      rw [hstore_ne h e]
      exact hsv.hi h hh (hun2 _ hf) hlt
  · -- lo
    intro h hh hf hle hJ
    by_cases e : h + 1 = k
    · rw [← e] at hcntk
      rw [hcntk] at hle
      rw [hstore_same h e (by rw [← e]; omega)]
      exact hsv.lo h hh (hun2 _ hf) (by omega) hJ
    · rw [hcnt (h + 1) e] at hle
      rw [hstore_ne h e]
      exact hsv.lo h hh (hun2 _ hf) hle hJ
  · -- fin
    intro h hh hf hnp hJ
    by_cases e : h + 1 = k
    · have hc1 : th_cnt st (s + 1) k + 1 = 2 ^ k := hfin_iff.1 (by rw [← e]; exact hf)
      have e2 : (2 : Nat) ^ k = 2 * 2 ^ h := by rw [← e, pow_succ]; ring
      by_cases hcm : th_cnt st (s + 1) k = 2 ^ h
      · rw [e]; exact hstore_mid h e hcm
      · rw [hstore_same h e hcm]
        have := two_pow_pos h
        exact hsv.hi h hh (by rw [e]; exact hun) (by rw [e]; omega)
    · rw [hst (h + 1) e] at hf
      rw [hstore_ne h e]
      exact hsv.fin h hh hf hnp hJ
  · -- fend
    intro h hh hf hnp hJ
    by_cases e : h + 1 = k
    · exfalso
      have := hinv.seed_end k hk hun
      rw [e] at hnp
      have := two_pow_pos (k + 1)
      omega
    · rw [hst (h + 1) e] at hf
      rw [hstore_ne h e]
      exact hsv.fend h hh hf hnp hJ

theorem SInv_updates (P : Params) (E : Prims) (seed : Bytes) (s : Nat)
    (hT1 : 1 ≤ MSS_TREEHASH_SIZE P) (hT : MSS_TREEHASH_SIZE P ≤ 30)
    (hS : P.MSS_STACK_SIZE ≠ 0 ∨ MSS_TREEHASH_SIZE P ≤ 2) (ri0 : Bytes) :
    ∀ n i st, TInv P E seed (s + 1) i st → SInv P E seed (s + 1) st →
      SInv P E seed (s + 1) (nextAuth_updates P E (seed_at E seed (s + 1)) s ri0 n st) := by
  intro n
  induction n with
  | zero => intro i st _ h; exact h
  | succ n ih =>
    intro i st h hsv
    have h1 := TInv_update_step P E seed h hT1 hT hS ri0
    show SInv P E seed (s + 1) (nextAuth_updates P E (seed_at E seed (s + 1)) s ri0 n
      (nextAuth_update_step P E (seed_at E seed (s + 1)) s ri0 st))
    apply ih (i + 1) _ h1
    rcases update_step_cases P E seed h hT1 hT (seed_at E seed (s + 1)) ri0 s with
      ⟨_, he⟩ | ⟨k, hk, hun, hlow, he⟩
    · rw [he]; exact hsv
    · rw [he]; exact SInv_update P E seed h hsv hT hS hk hun hlow ri0

theorem SInv_refresh (P : Params) (E : Prims) (seed : Bytes) {s : Nat} {st : mss_state}
    (hinv : TInv P E seed s (MSS_TREEHASH_SIZE P / 2) st) (hsv : SInv P E seed s st)
    (hH1 : 1 ≤ P.MSS_HEIGHT) (hK : P.MSS_K ≤ P.MSS_HEIGHT)
    (hev : MSS_TREEHASH_SIZE P % 2 = 0) (hs : s + 1 < 2 ^ P.MSS_HEIGHT)
    (leaf : mss_node) :
    SInv P E seed (s + 1) (nextAuth_refresh P E st leaf s) := by
  have hTH : MSS_TREEHASH_SIZE P ≤ P.MSS_HEIGHT := Nat.sub_le _ _
  obtain ⟨tau, htau⟩ : ∃ tau, tau = tau_loop s (P.MSS_HEIGHT - 1) := ⟨_, rfl⟩
  have hspec := tau_loop_spec s (P.MSS_HEIGHT - 1) (by
    have : P.MSS_HEIGHT - 1 + 1 = P.MSS_HEIGHT := by omega
    rw [this]; exact hs)
  rw [← htau] at hspec
  obtain ⟨htauH, hd, hnd⟩ := hspec
  obtain ⟨r1, r2, r3, r4, r5, r6, r7, r8, r9, r10⟩ := refresh_facts P E st leaf s tau htau hK
  generalize nextAuth_refresh P E st leaf s = st2 at r1 r2 r3 r4 r5 r6 r7 r8 r9 r10 ⊢
  have hdv : ∀ h, h < tau → 2 ^ (h + 1) ∣ s + 1 := fun h hh => pow_dvd_of_le hd (by omega)
  have hndv : ∀ h, tau ≤ h → ¬ 2 ^ (h + 1) ∣ s + 1 := fun h hh hdd =>
    hnd (Nat.dvd_trans (pow_dvd_pow_two (by omega)) hdd)
  have hNdv : ∀ h, h < tau → 2 ^ (h + 1) ∣ 2 ^ P.MSS_HEIGHT := fun h hh =>
    pow_dvd_pow_two (by omega)
  have hfin : ∀ h, h < min tau (MSS_TREEHASH_SIZE P) → st.treehash_state h = TREEHASH_FINISHED :=
    fun h hh => TInv_deadline hinv hev (by omega) (hdv h (by omega))
  have hnf : ¬ TREEHASH_NEW = TREEHASH_FINISHED := by decide
  have hstart : ∀ h, h < min tau (MSS_TREEHASH_SIZE P) → s + 1 + 3 * 2 ^ h < 2 ^ P.MSS_HEIGHT →
      st2.treehash_state h = TREEHASH_NEW
      ∧ st2.treehash_seed h = job_index (s + 1) h * 2 ^ h
      ∧ th_cnt st2 (s + 1) h = 0 := by
    intro h hh hc
    have e1 : st2.treehash_state h = TREEHASH_NEW := by rw [r7, if_pos hh, if_pos hc]
    have e2 : st2.treehash_seed h = job_index (s + 1) h * 2 ^ h := by
      rw [r8, if_pos ⟨hh, hc⟩, (job_mul_of_dvd (hdv h (by omega))).2]
    refine ⟨e1, e2, ?_⟩
    rw [th_cnt_run (by rw [e1]; exact hnf), e2]
    omega
  have hstop : ∀ h, h < min tau (MSS_TREEHASH_SIZE P) → ¬ s + 1 + 3 * 2 ^ h < 2 ^ P.MSS_HEIGHT →
      st2.treehash_state h = TREEHASH_FINISHED := by
    intro h hh hc
    rw [r7, if_pos hh, if_neg hc]
  have hold : ∀ h, h < MSS_TREEHASH_SIZE P → ¬ h < min tau (MSS_TREEHASH_SIZE P) →
      tau ≤ h ∧ st2.treehash_state h = st.treehash_state h
      ∧ st2.treehash_seed h = st.treehash_seed h
      ∧ job_index (s + 1) h = job_index s h ∧ next_pop (s + 1) h = next_pop s h
      ∧ th_cnt st2 (s + 1) h = th_cnt st s h := by
    intro h hh hn
    have ht : tau ≤ h := by omega
    have e1 : st2.treehash_state h = st.treehash_state h := by rw [r7, if_neg hn]
    have e2 : st2.treehash_seed h = st.treehash_seed h := by
      rw [r8, if_neg (fun x => hn x.1)]
    have e3 := job_index_succ_of_not_dvd (hndv h ht)
    refine ⟨ht, e1, e2, e3, next_pop_succ_of_not_dvd (hndv h ht), ?_⟩
    unfold th_cnt
    rw [e1, e2, e3]
  have hcases : ∀ h, h < MSS_TREEHASH_SIZE P → ¬ st2.treehash_state h = TREEHASH_FINISHED →
      (h < min tau (MSS_TREEHASH_SIZE P) ∧ s + 1 + 3 * 2 ^ h < 2 ^ P.MSS_HEIGHT)
      ∨ (¬ h < min tau (MSS_TREEHASH_SIZE P) ∧ ¬ st.treehash_state h = TREEHASH_FINISHED) := by
    intro h hh hf
    by_cases hn : h < min tau (MSS_TREEHASH_SIZE P)
    · by_cases hc : s + 1 + 3 * 2 ^ h < 2 ^ P.MSS_HEIGHT
      · exact Or.inl ⟨hn, hc⟩
      · exact absurd (hstop h hn hc) hf
    · right
      refine ⟨hn, ?_⟩
      rw [← (hold h hh hn).2.1]; exact hf
  refine { hi := ?_, lo := ?_, fin := ?_, fend := ?_ }
  · -- hi
    intro h hh hf hlt
    rw [r4]
    rcases hcases (h + 1) hh hf with ⟨hn, hc⟩ | ⟨hn, hf0⟩
    · rw [(hstart (h + 1) hn hc).2.2] at hlt
      omega
    · obtain ⟨_, _, _, e3, _, e5⟩ := hold (h + 1) hh hn
      rw [e5] at hlt
      rw [e3]
      exact hsv.hi h hh hf0 hlt
  · -- lo
    intro h hh hf hle hJ
    rw [r4]
    rcases hcases (h + 1) hh hf with ⟨hn, hc⟩ | ⟨hn, hf0⟩
    · have hlt : h + 1 < tau := by omega
      have ej := job_index_succ_of_dvd (hdv (h + 1) hlt)
      rw [ej] at hJ ⊢
      rw [Nat.add_sub_cancel]
      have hnp : next_pop s (h + 1) < 2 ^ P.MSS_HEIGHT := by
        rw [next_pop_of_dvd (hdv (h + 1) hlt)]; exact hs
      exact hsv.fin h hh (hfin (h + 1) hn) hnp (by omega)
    · obtain ⟨_, _, _, e3, _, e5⟩ := hold (h + 1) hh hn
      rw [e5] at hle
      rw [e3] at hJ ⊢
      exact hsv.lo h hh hf0 hle hJ
  · -- fin
    intro h hh hf hnp hJ
    rw [r4]
    by_cases hn : h + 1 < min tau (MSS_TREEHASH_SIZE P)
    · exfalso
      have hlt : h + 1 < tau := by omega
      by_cases hc : s + 1 + 3 * 2 ^ (h + 1) < 2 ^ P.MSS_HEIGHT
      · rw [(hstart (h + 1) hn hc).1] at hf
        exact hnf hf
      · have := start_cond_not (hdv (h + 1) hlt) (hNdv (h + 1) hlt) hc
        rw [next_pop_succ_of_dvd (hdv (h + 1) hlt)] at hnp
        omega
    · obtain ⟨_, e1, _, e3, e4, _⟩ := hold (h + 1) hh hn
      rw [e1] at hf
      rw [e4] at hnp
      rw [e3] at hJ ⊢
      exact hsv.fin h hh hf hnp hJ
  · -- fend
    intro h hh hf hnp hJ
    rw [r4]
    by_cases hn : h + 1 < min tau (MSS_TREEHASH_SIZE P)
    · have hlt : h + 1 < tau := by omega
      have ej := job_index_succ_of_dvd (hdv (h + 1) hlt)
      rw [ej] at hJ ⊢
      rw [Nat.add_sub_cancel]
      have hnp0 : next_pop s (h + 1) < 2 ^ P.MSS_HEIGHT := by
        rw [next_pop_of_dvd (hdv (h + 1) hlt)]; exact hs
      exact hsv.fin h hh (hfin (h + 1) hn) hnp0 (by omega)
    · obtain ⟨_, e1, _, e3, e4, _⟩ := hold (h + 1) hh hn
      rw [e1] at hf
      rw [e4] at hnp
      rw [e3] at hJ ⊢
      exact hsv.fend h hh hf hnp hJ

theorem keygen_SInv (P : Params) (E : Prims) (seed : Bytes) (node1 : mss_node)
    (state : mss_state) (hH1 : 1 ≤ P.MSS_HEIGHT) (hH : P.MSS_HEIGHT ≤ 30) :
    SInv P E seed 0 (mss_keygen_core P E seed node1 state).1 := by
  have kf := (keygen_final P E seed node1 state hH1 hH).1
  refine { hi := ?_, lo := ?_, fin := ?_, fend := ?_ }
  · intro h hh hf _
    exact absurd (kf.fl (h + 1) hh) hf
  · intro h hh hf _ _
    exact absurd (kf.fl (h + 1) hh) hf
  · intro h _ _ _ hJ
    rw [job_index_zero] at hJ; omega
  · intro h _ _ _ hJ
    rw [job_index_zero] at hJ; omega

/-- In the signing loop the store invariant holds between the signatures. -/
theorem bench_signer_SInv (P : Params) (E : Prims) (hok : params_ok P) (seed : Bytes)
    (M : Nat → Bytes) (ri0 : Bytes) (node1 : mss_node) (state0 : mss_state)
    (authpath0 : Nat → mss_node) :
    ∀ k, k < 2 ^ P.MSS_HEIGHT →
      SInv P E seed k (bench_signer P E seed M ri0 node1 state0 authpath0 k).state := by
  have hok' := hok
  obtain ⟨hK1, hK, hH, hev, hS⟩ := hok
  have hH1 : 1 ≤ P.MSS_HEIGHT := by omega
  intro k
  induction k with
  | zero => intro _; exact keygen_SInv P E seed node1 state0 hH1 hH
  | succ k ih =>
    intro hk
    have hsv := ih (by omega)
    obtain ⟨i1, i2, _⟩ := bench_signer_spec P E hok' seed M ri0 node1 state0 authpath0 k
      (by omega)
    obtain ⟨l1, _⟩ := bench_signature_spec P E hok' seed M ri0 node1 state0 authpath0 k
      (by omega)
    have e : (bench_signer P E seed M ri0 node1 state0 authpath0 (k + 1)).state
        = _nextAuth P E (bench_signer P E seed M ri0 node1 state0 authpath0 k).state
            (bench_signature P E seed M ri0 node1 state0 authpath0 k).leaf
            (E.fsgen (bench_signer P E seed M ri0 node1 state0 authpath0 k).si).1 k ri0 := by
      show (bench_sign_round P E M ri0 _ k).1.state = _
      unfold bench_sign_round
      dsimp only
      rw [sign_core_state P E _ _ _ _ _ _ _ hk]
      rfl
    rw [e, i2, seed_at_add_one]
    dsimp only
    have hr := TInv_refresh P E seed i1 hH1 hH hK hev hk
      (bench_signature P E seed M ri0 node1 state0 authpath0 k).leaf (fun _ => l1)
    have hrs := SInv_refresh P E seed i1 hsv hH1 hK hev hk
      (bench_signature P E seed M ri0 node1 state0 authpath0 k).leaf
    unfold _nextAuth
    by_cases hT : 1 ≤ MSS_TREEHASH_SIZE P
    · have hT30 : MSS_TREEHASH_SIZE P ≤ 30 := by unfold MSS_TREEHASH_SIZE; omega
      exact SInv_updates P E seed k hT hT30 hS ri0 _ 0 _ hr hrs
    · have e0 : (P.MSS_HEIGHT - P.MSS_K) / 2 = 0 := by
        have : MSS_TREEHASH_SIZE P = P.MSS_HEIGHT - P.MSS_K := rfl
        omega
      rw [e0]
      exact hrs

/-- Inside a round of the signing loop the store invariant holds as well. -/
theorem bench_round_SInv (P : Params) (E : Prims) (hok : params_ok P) (seed : Bytes)
    (M : Nat → Bytes) (ri0 : Bytes) (node1 : mss_node) (state0 : mss_state)
    (authpath0 : Nat → mss_node) (s i : Nat) (hs : s + 1 < 2 ^ P.MSS_HEIGHT)
    (hi : i ≤ MSS_TREEHASH_SIZE P / 2) :
    SInv P E seed (s + 1) (bench_round_state P E seed M ri0 node1 state0 authpath0 s i) := by
  have hsv := bench_signer_SInv P E hok seed M ri0 node1 state0 authpath0 s (by omega)
  obtain ⟨i1, i2, _⟩ := bench_signer_spec P E hok seed M ri0 node1 state0 authpath0 s (by omega)
  obtain ⟨l1, _⟩ := bench_signature_spec P E hok seed M ri0 node1 state0 authpath0 s (by omega)
  obtain ⟨hK1, hK, hH, hev, hS⟩ := hok
  have hH1 : 1 ≤ P.MSS_HEIGHT := by omega
  unfold bench_round_state nextAuth_round
  rw [i2, seed_at_add_one]
  dsimp only
  have hr := TInv_refresh P E seed i1 hH1 hH hK hev hs
    (bench_signature P E seed M ri0 node1 state0 authpath0 s).leaf (fun _ => l1)
  have hrs := SInv_refresh P E seed i1 hsv hH1 hK hev hs
    (bench_signature P E seed M ri0 node1 state0 authpath0 s).leaf
  by_cases hT : 1 ≤ MSS_TREEHASH_SIZE P
  · have hT30 : MSS_TREEHASH_SIZE P ≤ 30 := by unfold MSS_TREEHASH_SIZE; omega
    exact SInv_updates P E seed s hT hT30 hS ri0 i 0 _ hr hrs
  · have e : i = 0 := by omega
    subst e
    exact hrs

/-- The leaf an instance is about to reuse is the node held in `store`. -/
theorem SInv_reuse {P : Params} {E : Prims} {seed : Bytes} {s i : Nat} {st : mss_state}
    (hinv : TInv P E seed (s + 1) i st) (hsv : SInv P E seed (s + 1) st) {k : Nat}
    (hk : k < MSS_TREEHASH_SIZE P) (hun : ¬ st.treehash_state k = TREEHASH_FINISHED)
    (hcond : k < MSS_TREEHASH_SIZE P - 1 ∧ st.treehash_seed k ≥ 11 * (1 <<< k)
      ∧ (st.treehash_seed k - 11 * (1 <<< k)) % (1 <<< (2 + k)) = 0) :
    st.store k = tree_node E seed 0 (st.treehash_seed k) := by
  obtain ⟨hq, hc⟩ := seed_decomp hinv hk hun
  obtain ⟨c1, c2, c3⟩ := hcond
  rw [hq] at c2 c3
  obtain ⟨z1, z2, z3⟩ := load_cond k (job_index (s + 1) k) (th_cnt st (s + 1) k) hc
    (job_index_odd _ _) c2 c3
  have hk1 : k + 1 < MSS_TREEHASH_SIZE P := by omega
  have hev : ((s + 1) / 2 ^ (k + 1)) % 2 = 0 := by
    unfold job_index at z3; omega
  obtain ⟨w1, w2⟩ := job_index_succ_level (s + 1) k hev
  obtain ⟨sw1, sw2⟩ := hinv.same k hk1 hun w1
  have hJ7 : 7 ≤ job_index (s + 1) (k + 1) := by omega
  have hmid : mid_leaf (job_index (s + 1) (k + 1) - 2) k = st.treehash_seed k := by
    rw [hq, z1]
    unfold mid_leaf
    have e2 : (2 : Nat) ^ (k + 1) = 2 * 2 ^ k := by rw [pow_succ]; ring
    rw [e2]
    obtain ⟨y, hy⟩ : ∃ y, job_index (s + 1) (k + 1) = y + 2 :=
      ⟨job_index (s + 1) (k + 1) - 2, by omega⟩
    rw [hy] at w2 ⊢
    have e3 : job_index (s + 1) k = 2 * y + 1 := by omega
    rw [e3]
    simp only [Nat.add_sub_cancel, Nat.add_zero]
    ring
  rw [← hmid]
  by_cases hf1 : st.treehash_state (k + 1) = TREEHASH_FINISHED
  · exact hsv.fend k hk1 hf1 (le_of_eq (sw2 hf1).symm) hJ7
  · have hc0 : th_cnt st (s + 1) (k + 1) = 0 := by
      rw [th_cnt_run hf1, sw1 hf1]; omega
    exact hsv.lo k hk1 hf1 (by rw [hc0]; omega) hJ7

/-- C24: in the signing loop, whenever an update round of `_nextAuth` calls
`_treehash_update` for an instance `h` that takes the store-reuse branch
(`h < H - K - 1`, `ts ≥ 11 * 2^h` and `(ts - 11 * 2^h) mod 2^(h+2) = 0` with
`ts = treehash_seed[h]`), `store[h]` holds the leaf with index `ts`: its height
is `0`, its index is `ts` and its value is the hash of the W-OTS public value
of leaf `ts`; the node the branch builds is that leaf. -/
theorem store_reuse_holds_leaf (P : Params) (E : Prims) (hok : params_ok P)
    (seed : Bytes) (M : Nat → Bytes) (ri0 : Bytes) (node1 : mss_node) (state0 : mss_state)
    (authpath0 : Nat → mss_node) (s i : Nat) (hs : s + 1 < 2 ^ P.MSS_HEIGHT)
    (hi : i < MSS_TREEHASH_SIZE P / 2)
    (hcall : (bench_round_state P E seed M ri0 node1 state0 authpath0 s i).treehash_state
            (nextAuth_selected P (bench_round_state P E seed M ri0 node1 state0 authpath0 s i))
          &&& TREEHASH_FINISHED = 0)
    (hreuse : nextAuth_selected P (bench_round_state P E seed M ri0 node1 state0 authpath0 s i)
          < MSS_TREEHASH_SIZE P - 1
        ∧ (bench_round_state P E seed M ri0 node1 state0 authpath0 s i).treehash_seed
            (nextAuth_selected P (bench_round_state P E seed M ri0 node1 state0 authpath0 s i))
          ≥ 11 * (1 <<< nextAuth_selected P
              (bench_round_state P E seed M ri0 node1 state0 authpath0 s i))
        ∧ ((bench_round_state P E seed M ri0 node1 state0 authpath0 s i).treehash_seed
              (nextAuth_selected P
                (bench_round_state P E seed M ri0 node1 state0 authpath0 s i))
            - 11 * (1 <<< nextAuth_selected P
                (bench_round_state P E seed M ri0 node1 state0 authpath0 s i)))
          % (1 <<< (2 + nextAuth_selected P
              (bench_round_state P E seed M ri0 node1 state0 authpath0 s i))) = 0) :
    (bench_round_state P E seed M ri0 node1 state0 authpath0 s i).store
        (nextAuth_selected P (bench_round_state P E seed M ri0 node1 state0 authpath0 s i))
      = { height := 0
          index := (bench_round_state P E seed M ri0 node1 state0 authpath0 s i).treehash_seed
            (nextAuth_selected P (bench_round_state P E seed M ri0 node1 state0 authpath0 s i))
          value := E.hash32 (E.winternitz_keygen
            (r_at E seed
              ((bench_round_state P E seed M ri0 node1 state0 authpath0 s i).treehash_seed
                (nextAuth_selected P
                  (bench_round_state P E seed M ri0 node1 state0 authpath0 s i)))) X) }
    ∧ treehash_leaf P E (bench_round_state P E seed M ri0 node1 state0 authpath0 s i)
        (nextAuth_selected P (bench_round_state P E seed M ri0 node1 state0 authpath0 s i))
        s (E.fsgen (bench_signer P E seed M ri0 node1 state0 authpath0 s).si).1 ri0
      = (bench_round_state P E seed M ri0 node1 state0 authpath0 s i).store
          (nextAuth_selected P (bench_round_state P E seed M ri0 node1 state0 authpath0 s i)) := by
  have hinv := bench_round_TInv P E hok seed M ri0 node1 state0 authpath0 s i hs (by omega)
  have hsv := bench_round_SInv P E hok seed M ri0 node1 state0 authpath0 s i hs (by omega)
  obtain ⟨hK1, hK, hH, hev, hS⟩ := hok
  have hT30 : MSS_TREEHASH_SIZE P ≤ 30 := by unfold MSS_TREEHASH_SIZE; omega
  obtain ⟨a, _, _, d⟩ := TInv_selected hinv (by omega) hT30
  have hun := d.1 hcall
  have hst := SInv_reuse hinv hsv a hun hreuse
  generalize bench_round_state P E seed M ri0 node1 state0 authpath0 s i = st at *
  generalize nextAuth_selected P st = k at *
  refine ⟨hst, ?_⟩
  unfold treehash_leaf
  dsimp only
  rw [if_pos hreuse, hst]
  rfl

set_option maxRecDepth 100000 in
theorem store_reuse_holds_leaf_witness :
    (7 + 1 < 2 ^ example_params.MSS_HEIGHT) ∧ (0 < MSS_TREEHASH_SIZE example_params / 2)
    ∧ (bench_round_state example_params example_prims example_seed example_msg [] zero_node
          zero_state zero_auth 7 0).treehash_seed
        (nextAuth_selected example_params
          (bench_round_state example_params example_prims example_seed example_msg []
            zero_node zero_state zero_auth 7 0)) = 11
    ∧ (bench_round_state example_params example_prims example_seed example_msg [] zero_node
          zero_state zero_auth 7 0).store
        (nextAuth_selected example_params
          (bench_round_state example_params example_prims example_seed example_msg []
            zero_node zero_state zero_auth 7 0))
      = { height := 0
          index := (bench_round_state example_params example_prims example_seed example_msg []
              zero_node zero_state zero_auth 7 0).treehash_seed
            (nextAuth_selected example_params
              (bench_round_state example_params example_prims example_seed example_msg []
                zero_node zero_state zero_auth 7 0))
          value := example_prims.hash32 (example_prims.winternitz_keygen
            (r_at example_prims example_seed
              ((bench_round_state example_params example_prims example_seed example_msg []
                  zero_node zero_state zero_auth 7 0).treehash_seed
                (nextAuth_selected example_params
                  (bench_round_state example_params example_prims example_seed example_msg []
                    zero_node zero_state zero_auth 7 0)))) X) } :=
  ⟨by decide, by decide, by decide!,
    (store_reuse_holds_leaf example_params example_prims params_ok_example example_seed
      example_msg [] zero_node zero_state zero_auth 7 0 (by decide) (by decide) (by decide!)
      (by decide!)).1⟩

/-! ### The calls of `_get_parent` in the key generation -/

theorem tree_pair_sibling (P : Params) (E : Prims) (seed : Bytes) (hH : P.MSS_HEIGHT < 256)
    {c : mss_node × mss_node} (h : tree_pair P E seed c) : sibling_pair P c.1 c.2 := by
  obtain ⟨t, x, ht, hx, hb, rfl⟩ := h
  unfold sibling_pair
  dsimp only
  rw [tree_node_height E seed t _ (by omega), tree_node_height E seed t _ (by omega),
    tree_node_index, tree_node_index]
  exact ⟨rfl, ht, by omega, by omega, hb⟩

theorem div_pow_lt {p H a : Nat} (hp : p < 2 ^ H) (ha : a ≤ H) : p / 2 ^ a < 2 ^ (H - a) := by
  rw [Nat.div_lt_iff_lt_mul (two_pow_pos a), ← pow_add]
  have : H - a + a = H := by omega
  rw [this]
  exact hp

theorem keygen_reduce_calls_spec (P : Params) (E : Prims) (seed : Bytes)
    (hH : P.MSS_HEIGHT < 256) {p t : Nat} (hp : p < 2 ^ P.MSS_HEIGHT) (hd : 2 ^ t ∣ p + 1)
    (N : Nat) (hN : t ≤ N) :
    ∀ fuel a st idx, a + fuel = t →
      KInv P E seed p (a + 1) st →
      StackRep st.keep idx (spine_from E seed p a (N - a)) →
      ∀ c, c ∈ keygen_reduce_calls P E t fuel (st, idx, tree_node E seed a (p / 2 ^ a)) →
        tree_pair P E seed c := by
  have htH : t ≤ P.MSS_HEIGHT := le_of_pow_dvd_succ hp hd
  intro fuel
  induction fuel with
  | zero =>
    intro a st idx _ _ _ c hc
    simp [keygen_reduce_calls] at hc
  | succ fuel ih =>
    intro a st idx hat hk hs c hc
    have hat2 : a < t := by omega
    have hbit : (p / 2 ^ a) % 2 = 1 := div_pow_mod_two_of_dvd_succ hd a hat2
    have hht : (tree_node E seed a (p / 2 ^ a)).height = a :=
      tree_node_height E seed a _ (by omega)
    have hsp : spine_from E seed p a (N - a)
        = tree_node E seed a (p / 2 ^ a - 1) :: spine_from E seed p (a + 1) (N - (a + 1)) := by
      have e : N - a = (N - (a + 1)) + 1 := by omega
      rw [e]
      simp only [spine_from, if_pos hbit, List.singleton_append]
    rw [hsp] at hs
    obtain ⟨hp1, hp2, _⟩ := StackRep_pop hs
    have hpar : _get_parent E (st.keep (idx - 1)) (tree_node E seed a (p / 2 ^ a))
        = tree_node E seed (a + 1) (p / 2 ^ (a + 1)) := by
      rw [hp1, get_parent_tree E seed a _ hbit, Nat.div_div_eq_div_mul, ← pow_succ]
    have hstep : keygen_reduce_calls P E t (fuel + 1) (st, idx, tree_node E seed a (p / 2 ^ a))
        = (tree_node E seed a (p / 2 ^ a - 1), tree_node E seed a (p / 2 ^ a))
          :: keygen_reduce_calls P E t fuel
            (_init_state P st (tree_node E seed (a + 1) (p / 2 ^ (a + 1))), idx - 1,
              tree_node E seed (a + 1) (p / 2 ^ (a + 1))) := by
      simp only [keygen_reduce_calls, hht, if_pos hat2, _stack_pop]
      rw [hpar, hp1]
    rw [hstep, List.mem_cons] at hc
    rcases hc with hc | hc
    · exact ⟨a, p / 2 ^ a, by omega, hbit, div_pow_lt hp (by omega), hc⟩
    · have hj := div_succ_mul_of_dvd_succ (pow_dvd_of_le hd (show a + 1 ≤ t by omega))
      have hk2 := init_state_KInv P E seed hH hp hj hk
      have hf := (init_state_frame P st (tree_node E seed (a + 1) (p / 2 ^ (a + 1)))).2.2.1
      have hs2 : StackRep (_init_state P st (tree_node E seed (a + 1) (p / 2 ^ (a + 1)))).keep
          (idx - 1) (spine_from E seed p (a + 1) (N - (a + 1))) := by
        rw [hf]; exact hp2
      exact ih (a + 1) _ (idx - 1) (by omega) hk2 hs2 c hc

theorem keygen_step_calls_spec (P : Params) (E : Prims) (seed : Bytes)
    (hH1 : 1 ≤ P.MSS_HEIGHT) (hH : P.MSS_HEIGHT ≤ 30) {p : Nat} (hp : p < 2 ^ P.MSS_HEIGHT)
    {acc : mss_state × Nat × Bytes × mss_node} (hacc : KAcc P E seed p acc) :
    ∀ c, c ∈ keygen_step_calls P E acc p → tree_pair P E seed c := by
  have h30 : 2 ^ P.MSS_HEIGHT ≤ 2 ^ 30 := Nat.pow_le_pow_right (by norm_num) hH
  have hmax : p ≠ maxleaf_index := by
    unfold maxleaf_index
    norm_num at h30 ⊢
    omega
  obtain ⟨hd, hnd⟩ := count_trailing_zeros_spec (p + 1) (by omega)
    (by norm_num at h30 ⊢; omega)
  have htH : _count_trailing_zeros (p + 1) ≤ P.MSS_HEIGHT := le_of_pow_dvd_succ hp hd
  have hfs : E.fsgen acc.2.2.1 = (seed_at E seed (p + 1), r_at E seed p) := by
    rw [hacc.sd]; rfl
  have hleaf : _create_leaf E p (r_at E seed p) = tree_node E seed 0 (p / 2 ^ 0) := by
    simp [tree_node]
  have hk1 : KInv P E seed p (0 + 1) (_init_state P acc.1 (tree_node E seed 0 (p / 2 ^ 0))) := by
    have := init_state_KInv P E seed (a := 0) (j := p) (by omega) hp (by simp) hacc.inv
    simpa using this
  have hs1 : StackRep (_init_state P acc.1 (tree_node E seed 0 (p / 2 ^ 0))).keep acc.2.1
      (spine_from E seed p 0 (P.MSS_HEIGHT + 1 - 0)) := by
    rw [(init_state_frame P acc.1 _).2.2.1]
    exact hacc.stack
  have key := keygen_reduce_calls_spec P E seed (by omega) hp hd (P.MSS_HEIGHT + 1)
    (by omega) (_count_trailing_zeros (p + 1)) 0 _ acc.2.1 (by omega) hk1 hs1
  unfold keygen_step_calls
  simp only [hfs, hleaf, if_neg hmax]
  exact key

theorem mss_keygen_core_calls_spec (P : Params) (E : Prims) (seed : Bytes) (node1 : mss_node)
    (state : mss_state) (hH1 : 1 ≤ P.MSS_HEIGHT) (hH : P.MSS_HEIGHT ≤ 30) :
    ∀ c, c ∈ mss_keygen_core_calls P E seed node1 state → tree_pair P E seed c := by
  intro c hc
  unfold mss_keygen_core_calls at hc
  rw [keygen_rounds_eq P hH, List.mem_flatMap] at hc
  obtain ⟨pos, hpos, hc⟩ := hc
  rw [List.mem_range] at hpos
  exact keygen_step_calls_spec P E seed hH1 hH hpos
    (keygen_fold_spec P E seed node1 state hH1 hH pos (by omega)) c hc

/-! ### The calls of `_get_parent` in `_treehash_update` -/

theorem treehash_stack_loop_calls_spec (E : Prims) (seed : Bytes) (k q b : Nat) (hk : k < 32)
    (hb : b = 32 ∨ b = 64) (Rest : List mss_node) (hRest : ∀ x, x ∈ Rest → k ≤ x.height + 1) :
    ∀ fuel t st, (t + 1 ≤ k ∨ t = 0) → 2 ^ t ∣ q + 1 →
      st.treehash_state k = b + t →
      StackRep st.stack st.stack_index (spine_from E seed q t (k - 1 - t) ++ Rest) →
      ∀ c, c ∈ treehash_stack_loop_calls E k fuel (st, tree_node E seed t (q / 2 ^ t)) →
        ∃ a, a + 1 < k ∧ (q / 2 ^ a) % 2 = 1
          ∧ c = (tree_node E seed a (q / 2 ^ a - 1), tree_node E seed a (q / 2 ^ a)) := by
  intro fuel
  induction fuel with
  | zero =>
    intro t st _ _ _ _ c hc
    simp [treehash_stack_loop_calls] at hc
  | succ fuel ih =>
    intro t st ht hd hs hrep c hc
    have ht32 : t < 32 := by omega
    have hget : _treehash_get_tailheight st k = t := get_tailheight_eq hb ht32 hs
    by_cases hcnd : t + 1 < k ∧ 2 ^ (t + 1) ∣ q + 1
    · obtain ⟨hc1, hc2⟩ := hcnd
      have hbit := div_pow_mod_two_of_dvd_succ hc2 t (by omega)
      have e : k - 1 - t = (k - 1 - (t + 1)) + 1 := by omega
      have hsp : spine_from E seed q t (k - 1 - t)
          = tree_node E seed t (q / 2 ^ t - 1) :: spine_from E seed q (t + 1) (k - 1 - (t + 1)) := by
        rw [e]
        simp only [spine_from, if_pos hbit, List.singleton_append]
      rw [hsp, List.cons_append] at hrep
      obtain ⟨hp1, hp2, hp3⟩ := StackRep_pop hrep
      have htop : (st.stack (st.stack_index - 1)).height = t := by
        rw [hp1, tree_node_height E seed t _ (by omega)]
      have hpar : _get_parent E (st.stack (st.stack_index - 1)) (tree_node E seed t (q / 2 ^ t))
          = tree_node E seed (t + 1) (q / 2 ^ (t + 1)) := by
        rw [hp1, get_parent_tree E seed t _ hbit, Nat.div_div_eq_div_mul, ← pow_succ]
      have hs1 : ({ st with stack_index := st.stack_index - 1 } : mss_state).treehash_state k
          = b + t := hs
      have hstep : treehash_stack_loop_calls E k (fuel + 1) (st, tree_node E seed t (q / 2 ^ t))
          = (tree_node E seed t (q / 2 ^ t - 1), tree_node E seed t (q / 2 ^ t))
            :: treehash_stack_loop_calls E k fuel
              ({ st with
                  stack_index := st.stack_index - 1
                  treehash_state := Function.update st.treehash_state k (b + (t + 1)) },
                tree_node E seed (t + 1) (q / 2 ^ (t + 1))) := by
        simp only [treehash_stack_loop_calls]
        rw [if_pos ⟨hp3, by rw [hget, htop], by rw [hget]; exact hc1⟩]
        simp only [_stack_pop]
        rw [hpar, get_tailheight_eq hb ht32 hs1, set_tailheight_eq hb ht32 (by omega) hs1, hp1]
      rw [hstep, List.mem_cons] at hc
      rcases hc with hc | hc
      · exact ⟨t, hc1, hbit, hc⟩
      · exact ih (t + 1)
          { st with
            stack_index := st.stack_index - 1
            treehash_state := Function.update st.treehash_state k (b + (t + 1)) }
          (by omega) hc2 (by simp) hp2 c hc
    · exfalso
      have hexit : ¬ (0 < st.stack_index
          ∧ _treehash_get_tailheight st k = (st.stack (st.stack_index - 1)).height
          ∧ _treehash_get_tailheight st k + 1 < k) := by
        rw [hget]
        rintro ⟨c1, c2, c3⟩
        have hnd : ¬ 2 ^ (t + 1) ∣ q + 1 := fun hd2 => hcnd ⟨c3, hd2⟩
        have hb0 : ¬ (q / 2 ^ t % 2 = 1) := by
          have := bit_zero_of_not_dvd hd hnd
          omega
        have e : k - 1 - t = (k - 1 - t - 1) + 1 := by omega
        rw [e] at hrep
        simp only [spine_from, if_neg hb0, List.nil_append] at hrep
        obtain ⟨r1, r2⟩ := hrep
        have hlen : 0 < (spine_from E seed q (t + 1) (k - 1 - t - 1) ++ Rest).length := by omega
        have h0 := r2 0 hlen
        simp only [Nat.sub_zero] at h0
        have hmem : (spine_from E seed q (t + 1) (k - 1 - t - 1) ++ Rest).getD 0 default
            ∈ spine_from E seed q (t + 1) (k - 1 - t - 1) ++ Rest := by
          rw [List.getD_eq_getElem _ _ hlen]
          exact List.getElem_mem _
        rw [← h0, List.mem_append] at hmem
        rcases hmem with hm | hm
        · have := spine_from_height E seed q _ _ _ (by omega) hm
          omega
        · have := hRest _ hm
          omega
      simp only [treehash_stack_loop_calls] at hc
      rw [if_neg hexit] at hc
      simp at hc

theorem treehash_finish_calls_spec (E : Prims) (seed : Bytes) (st4 : mss_state)
    (k q b t' : Nat) (hk : k < 32) (hb : b = 32 ∨ b = 64)
    (hflag : st4.treehash_state k = b + t')
    (ht1 : t' + 1 ≤ k ∨ t' = 0) (ht2 : 2 ^ t' ∣ q + 1)
    (hnew : k = 0 → b = 32)
    (hrun : 1 ≤ k → 2 ^ k ∣ q + 1 →
      b = 64 ∧ st4.treehash k = tree_node E seed (k - 1) (q / 2 ^ (k - 1) - 1)) :
    ∀ c, c ∈ treehash_finish_calls st4 k (tree_node E seed t' (q / 2 ^ t')) →
      ∃ a, a < k ∧ (q / 2 ^ a) % 2 = 1
        ∧ c = (tree_node E seed a (q / 2 ^ a - 1), tree_node E seed a (q / 2 ^ a)) := by
  intro c hc
  have ht32 : t' < 32 := by omega
  have htail : _treehash_get_tailheight st4 k = t' := get_tailheight_eq hb ht32 hflag
  unfold treehash_finish_calls at hc
  rw [htail] at hc
  by_cases hpush : t' + 1 < k
  · rw [if_pos hpush] at hc
    simp at hc
  · rw [if_neg hpush, hflag, tree_node_index, Nat.and_one_is_mod] at hc
    by_cases hcond : (b + t') &&& TREEHASH_RUNNING ≠ 0 ∧ q / 2 ^ t' % 2 ≠ 0
    · rw [if_pos hcond, List.mem_singleton] at hc
      obtain ⟨hr, hodd0⟩ := hcond
      have hodd : q / 2 ^ t' % 2 = 1 := by omega
      have hk0 : k ≠ 0 := by
        intro h0
        have hb32 := hnew h0
        have ht0 : t' = 0 := by omega
        rw [hb32, ht0] at hr
        exact hr (by decide)
      have htk : t' = k - 1 := by omega
      have hdk : 2 ^ k ∣ q + 1 := by
        by_contra hnd
        have heven : (q / 2 ^ t') % 2 = 0 := by
          apply bit_zero_of_not_dvd ht2
          have e1 : t' + 1 = k := by omega
          rw [e1]; exact hnd
        omega
      obtain ⟨_, hnode⟩ := hrun (by omega) hdk
      refine ⟨t', by omega, hodd, ?_⟩
      rw [hc, hnode, htk]
    · rw [if_neg hcond] at hc
      simp at hc

theorem treehash_update_calls_spec (P : Params) (E : Prims) (seed : Bytes) (st : mss_state)
    (k q b s : Nat) (sd ri0 : Bytes) (hk : k < 32) (hb : b = 32 ∨ b = 64)
    (hflag : st.treehash_state k = b) (hq : st.treehash_seed k = q)
    (hleaf : treehash_leaf P E st k s sd ri0 = tree_node E seed 0 q)
    (hS : P.MSS_STACK_SIZE ≠ 0 ∨ k ≤ 1)
    (Rest : List mss_node) (hRest : ∀ x, x ∈ Rest → k ≤ x.height + 1)
    (hrep : StackRep st.stack st.stack_index (spine_from E seed q 0 (k - 1) ++ Rest))
    (hnew : k = 0 → b = 32)
    (hrun : 1 ≤ k → 2 ^ k ∣ q + 1 →
      b = 64 ∧ st.treehash k = tree_node E seed (k - 1) (q / 2 ^ (k - 1) - 1)) :
    ∀ c, c ∈ _treehash_update_calls P E st k s sd ri0 →
      ∃ a, a < k ∧ (q / 2 ^ a) % 2 = 1
        ∧ c = (tree_node E seed a (q / 2 ^ a - 1), tree_node E seed a (q / 2 ^ a)) := by
  obtain ⟨t', a1, a2, a3, a4, a5⟩ :=
    treehash_update_loop P E seed st k q b hk hb hflag hS Rest hRest hrep
  obtain ⟨g1, g2, g3, g4, g5, g6, g7, g8, g9⟩ := treehash_save_frame st k (tree_node E seed 0 q)
  have hent : (update_entry st k q (tree_node E seed 0 q)).treehash_state k = b + 0 := by
    simp only [update_entry, g1, hflag, Nat.add_zero]
  have hset := set_tailheight_eq (u := 0) hb (by omega) (by omega) hent
  have hst3 : _treehash_set_tailheight (update_entry st k q (tree_node E seed 0 q)) k 0
      = update_entry st k q (tree_node E seed 0 q) := by
    rw [hset, ← hent, Function.update_eq_self]
  have hstk : (update_entry st k q (tree_node E seed 0 q)).stack = st.stack := by
    simp only [update_entry, g4]
  have hidx : (update_entry st k q (tree_node E seed 0 q)).stack_index = st.stack_index := by
    simp only [update_entry, g5]
  have h0 : _treehash_update_calls P E st k s sd ri0
      = (if P.MSS_STACK_SIZE ≠ 0 then
            treehash_stack_loop_calls E k
              (_treehash_set_tailheight (update_entry st k q (tree_node E seed 0 q)) k 0).stack_index
              (_treehash_set_tailheight (update_entry st k q (tree_node E seed 0 q)) k 0,
                tree_node E seed 0 q)
          else [])
        ++ treehash_finish_calls
            (if P.MSS_STACK_SIZE ≠ 0 then
              treehash_stack_loop E k
                (_treehash_set_tailheight (update_entry st k q (tree_node E seed 0 q)) k 0).stack_index
                (_treehash_set_tailheight (update_entry st k q (tree_node E seed 0 q)) k 0,
                  tree_node E seed 0 q)
            else (_treehash_set_tailheight (update_entry st k q (tree_node E seed 0 q)) k 0,
                  tree_node E seed 0 q)).1 k
            (if P.MSS_STACK_SIZE ≠ 0 then
              treehash_stack_loop E k
                (_treehash_set_tailheight (update_entry st k q (tree_node E seed 0 q)) k 0).stack_index
                (_treehash_set_tailheight (update_entry st k q (tree_node E seed 0 q)) k 0,
                  tree_node E seed 0 q)
            else (_treehash_set_tailheight (update_entry st k q (tree_node E seed 0 q)) k 0,
                  tree_node E seed 0 q)).2 := by
    unfold _treehash_update_calls
    rw [hleaf, hq]
    rfl
  intro c hc
  rw [h0, a4, List.mem_append] at hc
  rcases hc with hc | hc
  · by_cases hs0 : P.MSS_STACK_SIZE ≠ 0
    · rw [if_pos hs0, hst3] at hc
      have hrep2 : StackRep (update_entry st k q (tree_node E seed 0 q)).stack
          (update_entry st k q (tree_node E seed 0 q)).stack_index
          (spine_from E seed q 0 (k - 1 - 0) ++ Rest) := by
        rw [hstk, hidx]; simpa using hrep
      have hgen := treehash_stack_loop_calls_spec E seed k q b hk hb Rest hRest
        (update_entry st k q (tree_node E seed 0 q)).stack_index 0
        (update_entry st k q (tree_node E seed 0 q)) (Or.inr rfl) (by simp) hent hrep2 c
      rw [pow_zero, Nat.div_one] at hgen
      obtain ⟨a, b1, b2, b3⟩ := hgen hc
      exact ⟨a, by omega, b2, b3⟩
    · rw [if_neg hs0] at hc
      simp at hc
  · exact treehash_finish_calls_spec E seed _ k q b t' hk hb (by simp) a1 a2 hnew
      (by
        intro h1 h2
        have : (update_entry st k q (tree_node E seed 0 q)).treehash = st.treehash := by
          simp only [update_entry, g3]
        show b = 64 ∧ (update_entry st k q (tree_node E seed 0 q)).treehash k = _
        rw [this]; exact hrun h1 h2) c hc

/-! ### The calls of `_get_parent` in `_nextAuth` -/

theorem TInv_seed_lt {P : Params} {E : Prims} {seed : Bytes} {m i : Nat} {st : mss_state}
    (hinv : TInv P E seed m i st) {k : Nat} (hk : k < MSS_TREEHASH_SIZE P)
    (hun : ¬ st.treehash_state k = TREEHASH_FINISHED) :
    st.treehash_seed k < 2 ^ P.MSS_HEIGHT := by
  have h1 := hinv.seed_hi k hk hun
  have h2 := hinv.seed_end k hk hun
  unfold job_index at h1
  unfold next_pop at h2
  generalize m / 2 ^ (k + 1) = a at h1 h2
  have e : (2 : Nat) ^ (k + 1) = 2 * 2 ^ k := by rw [pow_succ]; ring
  have e1 : (2 * a + 3) * 2 ^ k = 2 * (a * 2 ^ k) + 3 * 2 ^ k := by ring
  have e2 : (a + 1) * 2 ^ (k + 1) = 2 * (a * 2 ^ k) + 2 * 2 ^ k := by rw [e]; ring
  rw [e1] at h1
  rw [e2, e] at h2
  omega

theorem treehash_update_calls_TInv (P : Params) (E : Prims) (seed : Bytes) {s i : Nat}
    {st : mss_state} (hinv : TInv P E seed (s + 1) i st) (hT : MSS_TREEHASH_SIZE P ≤ 30)
    (hS : P.MSS_STACK_SIZE ≠ 0 ∨ MSS_TREEHASH_SIZE P ≤ 2)
    {k : Nat} (hk : k < MSS_TREEHASH_SIZE P)
    (hun : ¬ st.treehash_state k = TREEHASH_FINISHED)
    (hlow : ∀ j, j < k → st.treehash_state j = TREEHASH_FINISHED) (ri0 : Bytes) :
    ∀ c, c ∈ _treehash_update_calls P E st k s (seed_at E seed (s + 1)) ri0 →
      tree_pair P E seed c := by
  obtain ⟨hq, hc⟩ := seed_decomp hinv hk hun
  have hTH : MSS_TREEHASH_SIZE P ≤ P.MSS_HEIGHT := Nat.sub_le _ _
  have hb : st.treehash_state k = 32 ∨ st.treehash_state k = 64 := by
    rcases hinv.flag k hk with h | h | h
    · exact Or.inl h
    · exact Or.inr h
    · exact absurd h hun
  have hrep : StackRep st.stack st.stack_index
      (spine_from E seed (st.treehash_seed k) 0 (k - 1)
        ++ portions E seed st (k + 1) (MSS_TREEHASH_SIZE P - k - 1)) := by
    have h := hinv.stack
    rw [portions_split E seed st hk, portions_nil E seed st k 0 (fun c _ hc => hlow c (by omega)),
      List.nil_append] at h
    unfold portion at h
    rw [if_neg hun] at h
    exact h
  have hnew : k = 0 → st.treehash_state k = 32 := by
    intro h0
    apply (hinv.seed_new k hk hun).2
    rw [hq]
    have hc0 : th_cnt st (s + 1) k = 0 := by
      rw [h0] at hc ⊢
      simp at hc
      exact hc
    omega
  have hrun : 1 ≤ k → 2 ^ k ∣ st.treehash_seed k + 1 →
      st.treehash_state k = 64 ∧ st.treehash k
        = tree_node E seed (k - 1) (st.treehash_seed k / 2 ^ (k - 1) - 1) := by
    intro hk1 hd
    rw [hq] at hd
    have hc1 := (upd_dvd_top k _ _ hc).1 hd
    have hY := two_pow_pos (k - 1)
    have e := pow_pred_double hk1
    constructor
    · rcases hb with h | h
      · exfalso
        have h5 : st.treehash_seed k = job_index (s + 1) k * 2 ^ k :=
          (hinv.seed_new k hk hun).1 h
        have hc0 : th_cnt st (s + 1) k = 0 := by omega
        rw [hc0] at hc1
        omega
      · exact h
    · rw [hinv.node_hi k hk hun (by omega), hq, upd_div_mid_top k _ _ hk1 hc1]
  have hS2 : P.MSS_STACK_SIZE ≠ 0 ∨ k ≤ 1 := by
    rcases hS with h | h
    · exact Or.inl h
    · right; omega
  intro c hcm
  obtain ⟨a, a1, a2, a3⟩ := treehash_update_calls_spec P E seed st k
    (st.treehash_seed k) (st.treehash_state k) s (seed_at E seed (s + 1)) ri0 (by omega) hb rfl rfl
    (update_leaf P E seed hinv hk hun ri0) hS2 _ (update_rest_heights hinv hT hk hun) hrep
    hnew hrun c hcm
  exact ⟨a, st.treehash_seed k / 2 ^ a, by omega, a2,
    div_pow_lt (TInv_seed_lt hinv hk hun) (by omega), a3⟩

theorem nextAuth_update_step_calls_TInv (P : Params) (E : Prims) (seed : Bytes) {s i : Nat}
    {st : mss_state} (hinv : TInv P E seed (s + 1) i st) (hT1 : 1 ≤ MSS_TREEHASH_SIZE P)
    (hT : MSS_TREEHASH_SIZE P ≤ 30)
    (hS : P.MSS_STACK_SIZE ≠ 0 ∨ MSS_TREEHASH_SIZE P ≤ 2) (ri0 : Bytes) :
    ∀ c, c ∈ nextAuth_update_step_calls P E (seed_at E seed (s + 1)) s ri0 st →
      tree_pair P E seed c := by
  obtain ⟨t1, t2, t3, t4⟩ := TInv_selected hinv hT1 hT
  have e : nextAuth_update_step_calls P E (seed_at E seed (s + 1)) s ri0 st
      = if st.treehash_state (nextAuth_selected P st) &&& TREEHASH_FINISHED = 0 then
          _treehash_update_calls P E st (nextAuth_selected P st) s (seed_at E seed (s + 1)) ri0
        else [] := rfl
  intro c hc
  rw [e] at hc
  by_cases hf : st.treehash_state (nextAuth_selected P st) &&& TREEHASH_FINISHED = 0
  · rw [if_pos hf] at hc
    have hun := t4.1 hf
    obtain ⟨_, hlow⟩ := t2 ⟨_, t1, hun⟩
    exact treehash_update_calls_TInv P E seed hinv hT hS t1 hun hlow ri0 c hc
  · rw [if_neg hf] at hc
    simp at hc

theorem nextAuth_updates_calls_TInv (P : Params) (E : Prims) (seed : Bytes) (s : Nat)
    (hT1 : 1 ≤ MSS_TREEHASH_SIZE P) (hT : MSS_TREEHASH_SIZE P ≤ 30)
    (hS : P.MSS_STACK_SIZE ≠ 0 ∨ MSS_TREEHASH_SIZE P ≤ 2) (ri0 : Bytes) :
    ∀ n i st, TInv P E seed (s + 1) i st →
      ∀ c, c ∈ nextAuth_updates_calls P E (seed_at E seed (s + 1)) s ri0 n st →
        tree_pair P E seed c := by
  intro n
  induction n with
  | zero =>
    intro i st _ c hc
    simp [nextAuth_updates_calls] at hc
  | succ n ih =>
    intro i st h c hc
    simp only [nextAuth_updates_calls, List.mem_append] at hc
    rcases hc with hc | hc
    · exact nextAuth_update_step_calls_TInv P E seed h hT1 hT hS ri0 c hc
    · exact ih (i + 1) _ (TInv_update_step P E seed h hT1 hT hS ri0) c hc

theorem nextAuth_refresh_calls_TInv (P : Params) (E : Prims) (seed : Bytes) {s : Nat}
    {st : mss_state} (hinv : TInv P E seed s (MSS_TREEHASH_SIZE P / 2) st)
    (hH1 : 1 ≤ P.MSS_HEIGHT) (hs : s + 1 < 2 ^ P.MSS_HEIGHT) :
    ∀ c, c ∈ nextAuth_refresh_calls P st s → tree_pair P E seed c := by
  obtain ⟨tau, htau⟩ : ∃ tau, tau = tau_loop s (P.MSS_HEIGHT - 1) := ⟨_, rfl⟩
  have hspec := tau_loop_spec s (P.MSS_HEIGHT - 1) (by
    have : P.MSS_HEIGHT - 1 + 1 = P.MSS_HEIGHT := by omega
    rw [this]; exact hs)
  rw [← htau] at hspec
  obtain ⟨htauH, hd, hnd⟩ := hspec
  intro c hc
  unfold nextAuth_refresh_calls at hc
  rw [← htau] at hc
  dsimp only at hc
  by_cases h0 : tau = 0
  · rw [if_pos h0] at hc
    simp at hc
  · rw [if_neg h0, List.mem_singleton] at hc
    have hauth : (if tau < P.MSS_HEIGHT - 1 ∧ (s >>> (tau + 1)) &&& 1 = 0 then
          ({ st with keep := Function.update st.keep tau (st.auth tau) } : mss_state)
        else st).auth (tau - 1) = st.auth (tau - 1) := by
      split_ifs <;> rfl
    have hkeep : (if tau < P.MSS_HEIGHT - 1 ∧ (s >>> (tau + 1)) &&& 1 = 0 then
          ({ st with keep := Function.update st.keep tau (st.auth tau) } : mss_state)
        else st).keep (tau - 1) = st.keep (tau - 1) := by
      split_ifs
      · show Function.update st.keep tau (st.auth tau) (tau - 1) = _
        rw [Function.update_noteq (by omega)]
      · rfl
    rw [hauth, hkeep] at hc
    have hh1 : tau - 1 < P.MSS_HEIGHT := by omega
    have hodd : (s / 2 ^ (tau - 1)) % 2 = 1 :=
      div_pow_mod_two_of_dvd_succ hd (tau - 1) (by omega)
    have hmod : s % 2 ^ (tau - 1 + 2) = 2 ^ tau - 1 := by
      have : tau - 1 + 2 = tau + 1 := by omega
      rw [this]; exact mod_exact hd hnd
    have e2 : (2 : Nat) ^ tau = 2 * 2 ^ (tau - 1) := pow_pred_double (by omega)
    have hY := two_pow_pos (tau - 1)
    have e3 : (2 : Nat) ^ (tau - 1 + 1) = 2 ^ tau := by congr 1; omega
    have hs1 : sib (s / 2 ^ (tau - 1)) = s / 2 ^ (tau - 1) - 1 := by
      unfold sib; rw [if_neg (by omega)]
    rw [hinv.auth (tau - 1) hh1,
      hinv.keep (tau - 1) (by omega) (by rw [hmod]; omega) (by rw [hmod, e3]; omega), hs1] at hc
    exact ⟨tau - 1, s / 2 ^ (tau - 1), hh1, hodd, div_pow_lt (by omega) (by omega), hc⟩

theorem nextAuth_calls_TInv (P : Params) (E : Prims) (hok : params_ok P) (seed : Bytes)
    {s : Nat} {st : mss_state} (hinv : TInv P E seed s (MSS_TREEHASH_SIZE P / 2) st)
    (hs : s + 1 < 2 ^ P.MSS_HEIGHT) (ri0 : Bytes) :
    ∀ c, c ∈ _nextAuth_calls P E st (tree_node E seed 0 s) (seed_at E seed (s + 1)) s ri0 →
      tree_pair P E seed c := by
  obtain ⟨hK1, hK, hH, hev, hS⟩ := hok
  have hH1 : 1 ≤ P.MSS_HEIGHT := by omega
  intro c hc
  unfold _nextAuth_calls at hc
  rw [List.mem_append] at hc
  rcases hc with hc | hc
  · exact nextAuth_refresh_calls_TInv P E seed hinv hH1 hs c hc
  · have hr := TInv_refresh P E seed hinv hH1 hH hK hev hs (tree_node E seed 0 s) (fun _ => rfl)
    by_cases hT : 1 ≤ MSS_TREEHASH_SIZE P
    · have hT30 : MSS_TREEHASH_SIZE P ≤ 30 := by unfold MSS_TREEHASH_SIZE; omega
      exact nextAuth_updates_calls_TInv P E seed s hT hT30 hS ri0 _ 0 _ hr c hc
    · have e : (P.MSS_HEIGHT - P.MSS_K) / 2 = 0 := by
        unfold MSS_TREEHASH_SIZE at hT; omega
      rw [e] at hc
      simp [nextAuth_updates_calls] at hc

theorem bench_sign_calls_spec (P : Params) (E : Prims) (hok : params_ok P) (seed : Bytes)
    (M : Nat → Bytes) (ri0 : Bytes) (node1 : mss_node) (state0 : mss_state)
    (authpath0 : Nat → mss_node) (s : Nat) (hs : s < 2 ^ P.MSS_HEIGHT) :
    ∀ c, c ∈ mss_sign_core_calls P E (bench_signer P E seed M ri0 node1 state0 authpath0 s).state
          (E.fsgen (bench_signer P E seed M ri0 node1 state0 authpath0 s).si).1
          (E.fsgen (bench_signer P E seed M ri0 node1 state0 authpath0 s).si).2 (M s) s
          (bench_signer P E seed M ri0 node1 state0 authpath0 s).authpath ri0 →
      tree_pair P E seed c := by
  obtain ⟨i1, i2, _⟩ := bench_signer_spec P E hok seed M ri0 node1 state0 authpath0 s hs
  obtain ⟨l1, _⟩ := bench_signature_spec P E hok seed M ri0 node1 state0 authpath0 s hs
  have hl : (mss_sign_core P E (bench_signer P E seed M ri0 node1 state0 authpath0 s).state
      (E.fsgen (bench_signer P E seed M ri0 node1 state0 authpath0 s).si).1
      (E.fsgen (bench_signer P E seed M ri0 node1 state0 authpath0 s).si).2 (M s) s
      (bench_signer P E seed M ri0 node1 state0 authpath0 s).authpath ri0).leaf
      = tree_node E seed 0 s := l1
  intro c hc
  unfold mss_sign_core_calls at hc
  rw [Nat.one_shiftLeft] at hc
  by_cases hle : s ≤ 2 ^ P.MSS_HEIGHT - 2
  · rw [if_pos hle, hl, i2, seed_at_add_one] at hc
    have h2 : 2 ^ 1 ≤ 2 ^ P.MSS_HEIGHT := Nat.pow_le_pow_right (by norm_num) (by
      obtain ⟨hK1, hK, _⟩ := hok; omega)
    exact nextAuth_calls_TInv P E hok seed i1 (by omega) ri0 c hc
  · rw [if_neg hle] at hc
    simp at hc

theorem bench_calls_spec (P : Params) (E : Prims) (hok : params_ok P) (seed : Bytes)
    (M : Nat → Bytes) (ri0 : Bytes) (node1 : mss_node) (state0 : mss_state)
    (authpath0 : Nat → mss_node) (k : Nat) (hk : k ≤ 2 ^ P.MSS_HEIGHT) :
    ∀ c, c ∈ bench_calls P E seed M ri0 node1 state0 authpath0 k → tree_pair P E seed c := by
  intro c hc
  unfold bench_calls at hc
  rw [List.mem_append] at hc
  rcases hc with hc | hc
  · obtain ⟨hK1, hK, hH, _⟩ := hok
    exact mss_keygen_core_calls_spec P E seed node1 state0 (by omega) (by omega) c hc
  · rw [List.mem_flatMap] at hc
    obtain ⟨s, hsm, hcs⟩ := hc
    rw [List.mem_range] at hsm
    exact bench_sign_calls_spec P E hok seed M ri0 node1 state0 authpath0 s (by omega) c hcs

/-- C23: in the run keygen; sign(0); ...; sign(k-1) with `k ≤ 2^H`, every pair of
nodes handed to `_get_parent` by `mss_keygen_core`, by `_nextAuth` and by
`_treehash_update` is a sibling pair: both children have the same height, below
`MSS_HEIGHT`, the left index is even, the right index is the left index plus one
and is a valid index for the height; moreover the two children are the nodes of
the reference tree at these positions. -/
theorem get_parent_calls_sibling (P : Params) (E : Prims) (hok : params_ok P) (seed : Bytes)
    (M : Nat → Bytes) (ri0 : Bytes) (node1 : mss_node) (state0 : mss_state)
    (authpath0 : Nat → mss_node) (k : Nat) (hk : k ≤ 2 ^ P.MSS_HEIGHT) :
    ∀ c, c ∈ bench_calls P E seed M ri0 node1 state0 authpath0 k →
      sibling_pair P c.1 c.2
      ∧ c.1 = tree_node E seed c.1.height c.1.index
      ∧ c.2 = tree_node E seed c.2.height c.2.index := by
  intro c hc
  have ht := bench_calls_spec P E hok seed M ri0 node1 state0 authpath0 k hk c hc
  have hH : P.MSS_HEIGHT < 256 := by
    obtain ⟨_, _, hH, _⟩ := hok
    omega
  refine ⟨tree_pair_sibling P E seed hH ht, ?_, ?_⟩
  · obtain ⟨t, x, ht, _, _, rfl⟩ := ht
    dsimp only
    rw [tree_node_height E seed t _ (by omega), tree_node_index]
  · obtain ⟨t, x, ht, _, _, rfl⟩ := ht
    dsimp only
    rw [tree_node_height E seed t _ (by omega), tree_node_index]

set_option maxRecDepth 1000000 in
theorem get_parent_calls_sibling_witness :
    params_ok example_params ∧ 16 ≤ 2 ^ example_params.MSS_HEIGHT
    ∧ (bench_calls example_params example_prims example_seed example_msg [] zero_node zero_state
        zero_auth 16).length = 24
    ∧ ∀ c, c ∈ bench_calls example_params example_prims example_seed example_msg [] zero_node
          zero_state zero_auth 16 →
        sibling_pair example_params c.1 c.2
        ∧ c.1 = tree_node example_prims example_seed c.1.height c.1.index
        ∧ c.2 = tree_node example_prims example_seed c.2.height c.2.index :=
  ⟨params_ok_example, by decide, by decide!,
    get_parent_calls_sibling example_params example_prims params_ok_example example_seed
      example_msg [] zero_node zero_state zero_auth 16 (by decide)⟩

/-! ### The state after `mss_sign_core` at an odd leaf -/

theorem tau_loop_pos_of_odd (s n : Nat) (hodd : s % 2 = 1) (hn : 1 ≤ n) :
    tau_loop s n ≠ 0 := by
  obtain ⟨_, _, h3⟩ := tau_loop_spec1 s n
  intro h0
  rw [h0] at h3
  apply h3 (by omega)
  rw [Nat.zero_add, pow_one]
  omega

theorem tau_loop_zero_of_even (s n : Nat) (hev : s % 2 = 0) : tau_loop s n = 0 := by
  obtain ⟨_, h2, _⟩ := tau_loop_spec1 s n
  by_contra h0
  have h1 : (2 : Nat) ^ 1 ∣ 2 ^ tau_loop s n := Nat.pow_dvd_pow 2 (by omega)
  have := Nat.dvd_trans h1 h2
  rw [pow_one] at this
  omega

theorem nextAuth_refresh_leaf (P : Params) (E : Prims) (state : mss_state) (s : Nat)
    (htau : tau_loop s (P.MSS_HEIGHT - 1) ≠ 0) (leaf1 leaf2 : mss_node) :
    nextAuth_refresh P E state leaf1 s = nextAuth_refresh P E state leaf2 s := by
  unfold nextAuth_refresh
  dsimp only
  rw [if_neg htau, if_neg htau]

theorem two_le_height_of_odd {H s : Nat} (hodd : s % 2 = 1) (hlt : s < 2 ^ H - 1) : 2 ≤ H := by
  by_contra h
  have : H = 0 ∨ H = 1 := by omega
  rcases this with h0 | h0 <;> rw [h0] at hlt <;> norm_num at hlt
  omega

/-- C31: for every odd `leaf_index < 2^H - 1`, the state `mss_sign_core` leaves is
the same for any two calls from the same state with the same seed `si` and the
same `leaf_index`, whatever `ri`, the message and the incoming authentication
path buffer (from which the leaf node is built) are: `_nextAuth` ends in the
same state for any two leaf nodes, its `tau` is not `0`; and for every `s` the
loop of `_nextAuth` ends with `tau = 0` exactly when `s` is even. -/
theorem mss_sign_core_odd_leaf_state (P : Params) (E : Prims) (leaf_index : Nat)
    (hodd : leaf_index % 2 = 1) (hlt : leaf_index < 2 ^ P.MSS_HEIGHT - 1) :
    (∀ (state : mss_state) (si ri1 ri2 data1 data2 : Bytes) (authpath1 authpath2 : Nat → mss_node)
        (ri0 : Bytes),
        (mss_sign_core P E state si ri1 data1 leaf_index authpath1 ri0).state
          = (mss_sign_core P E state si ri2 data2 leaf_index authpath2 ri0).state)
    ∧ (∀ (state : mss_state) (leaf1 leaf2 : mss_node) (si ri0 : Bytes),
        _nextAuth P E state leaf1 si leaf_index ri0 = _nextAuth P E state leaf2 si leaf_index ri0)
    ∧ tau_loop leaf_index (P.MSS_HEIGHT - 1) ≠ 0
    ∧ (∀ s, tau_loop s (P.MSS_HEIGHT - 1) = 0 ↔ s % 2 = 0) := by
  have hH : 2 ≤ P.MSS_HEIGHT := two_le_height_of_odd hodd hlt
  have htau : tau_loop leaf_index (P.MSS_HEIGHT - 1) ≠ 0 :=
    tau_loop_pos_of_odd leaf_index _ hodd (by omega)
  have hnext : ∀ (state : mss_state) (leaf1 leaf2 : mss_node) (si ri0 : Bytes),
      _nextAuth P E state leaf1 si leaf_index ri0
        = _nextAuth P E state leaf2 si leaf_index ri0 := by
    intro state leaf1 leaf2 si ri0
    unfold _nextAuth
    rw [nextAuth_refresh_leaf P E state leaf_index htau leaf1 leaf2]
  refine ⟨?_, hnext, htau, ?_⟩
  · intro state si ri1 ri2 data1 data2 authpath1 authpath2 ri0
    have hi : leaf_index + 1 < 2 ^ P.MSS_HEIGHT := by omega
    rw [sign_core_state P E state si ri1 data1 leaf_index authpath1 ri0 hi,
      sign_core_state P E state si ri2 data2 leaf_index authpath2 ri0 hi]
    exact hnext state _ _ si ri0
  · intro s
    constructor
    · intro h0
      by_contra hne
      exact tau_loop_pos_of_odd s _ (by omega) (by omega) h0
    · exact tau_loop_zero_of_even s _

set_option maxRecDepth 100000 in
theorem mss_sign_core_odd_leaf_state_witness :
    (5 % 2 = 1) ∧ (5 < 2 ^ example_params.MSS_HEIGHT - 1)
    ∧ (mss_sign_core example_params example_prims
          (bench_signer example_params example_prims example_seed example_msg [] zero_node
            zero_state zero_auth 5).state
          [1, 2] [3, 4] (example_msg 5) 5 zero_auth []).state
      = (mss_sign_core example_params example_prims
          (bench_signer example_params example_prims example_seed example_msg [] zero_node
            zero_state zero_auth 5).state
          [1, 2] [7] [9, 9, 9] 5 (example_sig 4).authpath []).state :=
  ⟨by decide, by decide,
    (mss_sign_core_odd_leaf_state example_params example_prims 5 (by decide) (by decide)).1
      _ _ _ _ _ _ _ _ _⟩

end MSS
